import Mathlib

/-!
# slsbench: specification traversal and scenario graph

A shallow embedding of the Go packages `internal/model`, `internal/service/walker`,
`internal/service/scenario-builder` and `internal/service/enrich`, followed by theorems
about them.

Conventions of the embedding

* A Go `map[K]V` is an association list `GoMap K V` in which every key occurs at most
  once; `GoMap.set` is the map assignment `m[k] = v`, `GoMap.get` the read `m[k]`
  (zero value for a missing key).
* The order in which Go's `range` visits a map is unspecified.  Where the order can
  influence a result it is resolved by an explicit `seed : List Nat` (`goRange`); every
  permutation of the entries is produced by some seed.  Elsewhere the entries are
  visited in the order of the association list and the theorems do not depend on the
  order of sibling entries.
* A loop without a syntactic bound (`for len(queue) > 0`) and a recursion over a
  possibly cyclic pointer graph take a `fuel : Nat` and return `none` when it runs out.
* A pointer `*openapi3.Schema` is an index into a `Heap` (the list of all schema
  nodes of the document); two references are the same pointer iff the indices agree.
* The interactive builder runs in a `World`: the sequence of the selector's answers and
  the visiting orders of the `range` loops that build its option lists.  A builder
  function returns the graph it leaves, `none` when it panics on an index out of range,
  together with the world after it.
* An edge of a graph is held by pointer; the pointer is the position of the edge in the
  edge list.  The slices and maps of `internal/model` hold no nil pointer in the model,
  and a nil slice or map is not told apart from an empty one.
* The file of a scenario graph is a JSON value (`Json`); `encoding/json` is embedded by
  what it does with the struct tags.
* The hint setter writes into the schema nodes while the walker traverses them.  Its
  state (`HintState`) holds the nodes as written so far; the walker is run on the nodes
  as the document was handed over, since the one member written, `Extensions`, is never
  read by the walker (`setHintsOnSchema_keeps_structure`).
-/

namespace Slsbench

/-! ## Go maps -/

/-- A Go map as an association list (each key at most once). -/
abbrev GoMap (κ : Type) (ν : Type) := List (κ × ν)

namespace GoMap

variable {κ ν : Type} [DecidableEq κ]

/-- The keys of the map. -/
def keys (m : GoMap κ ν) : List κ := m.map Prod.fst

/-- The two-valued read `v, ok := m[k]`. -/
def get? (m : GoMap κ ν) (k : κ) : Option ν :=
  match m with
  | [] => none
  | (k', v) :: rest => if k' = k then some v else get? rest k

/-- The read `m[k]`, giving the zero value `z` of the value type for a missing key. -/
def get (z : ν) (m : GoMap κ ν) (k : κ) : ν := (get? m k).getD z

/-- The assignment `m[k] = v`. -/
def set (m : GoMap κ ν) (k : κ) (v : ν) : GoMap κ ν :=
  match m with
  | [] => [(k, v)]
  | (k', v') :: rest => if k' = k then (k, v) :: rest else (k', v') :: set rest k v

end GoMap

/-- One admissible visiting order of Go's `range` over a map with entries `l`:
the next entry visited is the one at position `s % length` among those left. -/
def goRange {α : Type} : List Nat → List α → List α
  | [], l => l
  | _ :: _, [] => []
  | s :: seed, x :: xs =>
      ((x :: xs).get? (s % (x :: xs).length)).toList ++
        goRange seed ((x :: xs).eraseIdx (s % (x :: xs).length))

/-! ## `internal/model` : fields, data structures, the scenario graph -/

/-- Identity of an `*openapi3.Schema` node. -/
abbrev SchemaId := Nat

/-- The Go struct `model.Field`. -/
inductive Field where
  | mk (Name : String) (Typ : String) (Format : String) (Required : Bool) (Hint : String)
      (Unique : Bool) (Min : Option Float) (Max : Option Float) (MinLength : Nat)
      (MaxLength : Option Nat) (Pattern : String) (Path : String) (Ref : String)
      (Items : Option Field) (Properties : List (String × Field)) (Schema : Option SchemaId)
      (In : String)

namespace Field

def Name : Field → String
  | .mk n _ _ _ _ _ _ _ _ _ _ _ _ _ _ _ _ => n

/-- The Go field `Type` (a Lean keyword). -/
def Typ : Field → String
  | .mk _ t _ _ _ _ _ _ _ _ _ _ _ _ _ _ _ => t

def Format : Field → String
  | .mk _ _ f _ _ _ _ _ _ _ _ _ _ _ _ _ _ => f

def Required : Field → Bool
  | .mk _ _ _ r _ _ _ _ _ _ _ _ _ _ _ _ _ => r

def Hint : Field → String
  | .mk _ _ _ _ h _ _ _ _ _ _ _ _ _ _ _ _ => h

def Unique : Field → Bool
  | .mk _ _ _ _ _ u _ _ _ _ _ _ _ _ _ _ _ => u

def Min : Field → Option Float
  | .mk _ _ _ _ _ _ m _ _ _ _ _ _ _ _ _ _ => m

def Max : Field → Option Float
  | .mk _ _ _ _ _ _ _ m _ _ _ _ _ _ _ _ _ => m

def MinLength : Field → Nat
  | .mk _ _ _ _ _ _ _ _ m _ _ _ _ _ _ _ _ => m

def MaxLength : Field → Option Nat
  | .mk _ _ _ _ _ _ _ _ _ m _ _ _ _ _ _ _ => m

def Pattern : Field → String
  | .mk _ _ _ _ _ _ _ _ _ _ p _ _ _ _ _ _ => p

def Path : Field → String
  | .mk _ _ _ _ _ _ _ _ _ _ _ p _ _ _ _ _ => p

def Ref : Field → String
  | .mk _ _ _ _ _ _ _ _ _ _ _ _ r _ _ _ _ => r

def Items : Field → Option Field
  | .mk _ _ _ _ _ _ _ _ _ _ _ _ _ i _ _ _ => i

def Properties : Field → List (String × Field)
  | .mk _ _ _ _ _ _ _ _ _ _ _ _ _ _ p _ _ => p

def Schema : Field → Option SchemaId
  | .mk _ _ _ _ _ _ _ _ _ _ _ _ _ _ _ s _ => s

def In : Field → String
  | .mk _ _ _ _ _ _ _ _ _ _ _ _ _ _ _ _ i => i

/-- The assignment `field.Required = r`. -/
def setRequired : Field → Bool → Field
  | .mk n t f _ h u mi ma ml mxl p pa r i ps s inn, b => .mk n t f b h u mi ma ml mxl p pa r i ps s inn

/-- The assignment `field.In = loc`. -/
def setIn : Field → String → Field
  | .mk n t f rq h u mi ma ml mxl p pa r i ps s _, loc => .mk n t f rq h u mi ma ml mxl p pa r i ps s loc

end Field

/-- The Go struct `model.DataStructure`. -/
structure DataStructure where
  Name : String
  Ref : String
  ContentType : String
  Fields : List Field

/-- The Go struct `model.Operation`; a `nil` response body is `none`. -/
structure Operation where
  Method : String
  Parameters : List Field
  RequestBody : Option DataStructure
  Responses : GoMap String (Option DataStructure)

/-- The Go struct `model.Endpoint`. -/
structure Endpoint where
  Path : String
  Operations : GoMap String Operation

/-- The Go struct `model.DataModel`. -/
structure DataModel where
  Endpoints : GoMap String Endpoint

/-- The Go struct `model.ScenarioGraphVertex`. -/
structure ScenarioGraphVertex where
  Path : String
  Method : String
  Parameters : List Field
  RequestBody : Option DataStructure
  ResponseCode : String

/-- The Go struct `model.ScenarioGraphEdge`. -/
structure ScenarioGraphEdge where
  From : Int
  To : Int
  Mappings : GoMap String String

/-- The Go struct `model.ScenarioGraph`. -/
structure ScenarioGraph where
  vertices : GoMap Int ScenarioGraphVertex
  edges : List ScenarioGraphEdge

namespace ScenarioGraph

/-- The loop over `range g.vertices` with the body `inDegree[id] = 0`.  The map it builds
does not depend on the visiting order. -/
def initInDegree (g : ScenarioGraph) : GoMap Int Int :=
  g.vertices.foldl (fun inDegree p => GoMap.set inDegree p.1 0) []

/-- The loop over `g.edges` that counts incoming edges: `inDegree[edge.To]++`. -/
def countInDegree (edges : List ScenarioGraphEdge) (inDegree : GoMap Int Int) : GoMap Int Int :=
  edges.foldl (fun m e => GoMap.set m e.To (GoMap.get 0 m e.To + 1)) inDegree

/-- The same loop, for the adjacency list:
`adjacencyList[edge.From] = append(adjacencyList[edge.From], edge.To)`. -/
def buildAdjacency (edges : List ScenarioGraphEdge) : GoMap Int (List Int) :=
  edges.foldl (fun m e => GoMap.set m e.From (GoMap.get [] m e.From ++ [e.To])) []

/-- The seeding loop `for id, degree := range inDegree`, in the visiting order chosen
by `seed`. -/
def seedQueue (seed : List Nat) (inDegree : GoMap Int Int) : List Int :=
  ((goRange seed inDegree).filter (fun p => p.2 = 0)).map Prod.fst

/-- One neighbour of the inner loop: `inDegree[neighbor]--` and the enqueue test. -/
def relaxOne (st : GoMap Int Int × List Int) (neighbor : Int) : GoMap Int Int × List Int :=
  let inDegree := GoMap.set st.1 neighbor (GoMap.get 0 st.1 neighbor - 1)
  if GoMap.get 0 inDegree neighbor = 0 then (inDegree, st.2 ++ [neighbor]) else (inDegree, st.2)

/-- The inner loop `for _, neighbor := range adjacencyList[current]`. -/
def relaxNeighbors (neighbors : List Int) (inDegree : GoMap Int Int) (queue : List Int) :
    GoMap Int Int × List Int :=
  neighbors.foldl relaxOne (inDegree, queue)

/-- The loop `for len(queue) > 0`; `none` when the fuel runs out. -/
def kahnLoop (adjacencyList : GoMap Int (List Int)) :
    Nat → GoMap Int Int → List Int → List Int → Option (List Int)
  | _, _, [], result => some result
  | 0, _, _ :: _, _ => none
  | fuel + 1, inDegree, current :: queue, result =>
      kahnLoop adjacencyList fuel
        (relaxNeighbors (GoMap.get [] adjacencyList current) inDegree queue).1
        (relaxNeighbors (GoMap.get [] adjacencyList current) inDegree queue).2
        (result ++ [current])

/-- The error of `TopologicalSort`. -/
def cycleError : String :=
  "cycle detected in scenario graph: cannot determine execution order"

/-- The method `(*ScenarioGraph).TopologicalSort`, returning the Go pair
`([]int, error)`; the outer `none` means the main loop ran out of fuel. -/
def TopologicalSort (g : ScenarioGraph) (seed : List Nat) (fuel : Nat) :
    Option (Option (List Int) × Option String) :=
  let inDegree := countInDegree g.edges (initInDegree g)
  let adjacencyList := buildAdjacency g.edges
  match kahnLoop adjacencyList fuel inDegree (seedQueue seed inDegree) [] with
  | none => none
  | some result =>
      if result.length ≠ g.vertices.length then some (none, some cycleError)
      else some (some result, none)

/-- The edge relation of the graph. -/
def EdgeRel (g : ScenarioGraph) (u v : Int) : Prop :=
  ∃ e ∈ g.edges, e.From = u ∧ e.To = v

/-- Every edge joins two existing vertex ids. -/
def EdgesJoinVertices (g : ScenarioGraph) : Prop :=
  ∀ e ∈ g.edges, e.From ∈ GoMap.keys g.vertices ∧ e.To ∈ GoMap.keys g.vertices

/-- The graph contains a directed cycle (a self-loop is one). -/
def HasCycle (g : ScenarioGraph) : Prop :=
  ∃ v, Relation.TransGen (EdgeRel g) v v

/-- The vertex map is a map: no id occurs twice. -/
def WellKeyed (g : ScenarioGraph) : Prop :=
  (GoMap.keys g.vertices).Nodup

end ScenarioGraph

/-! ## The OpenAPI document (`openapi3`), as far as the walker reads it -/

/-- A value stored in `Schema.Extensions` (a Go map from strings to values of any type). -/
inductive ExtValue where
  | str (s : String)
  | bool (b : Bool)
  | other
  deriving DecidableEq

/-- The Go struct `openapi3.SchemaRef`: a `$ref` string and the resolved schema pointer. -/
structure SchemaRef where
  Ref : String
  Value : Option SchemaId
  deriving DecidableEq

/-- The Go struct `openapi3.Schema`, restricted to the members this repository reads.
`AdditionalProperties` is the member `AdditionalProperties.Schema`. -/
structure Schema where
  Typ : Option (List String)
  Format : String
  Extensions : GoMap String ExtValue
  Min : Option Float
  Max : Option Float
  MinLength : Nat
  MaxLength : Option Nat
  Pattern : String
  Required : List String
  Properties : GoMap String (Option SchemaRef)
  Items : Option SchemaRef
  AllOf : List (Option SchemaRef)
  AnyOf : List (Option SchemaRef)
  OneOf : List (Option SchemaRef)
  Not : Option SchemaRef
  AdditionalProperties : Option SchemaRef

/-- All schema nodes of a document; the pointer `p` denotes the node `heap[p]`. -/
abbrev Heap := List Schema

/-- A schema with every member at its zero value. -/
def emptySchema : Schema :=
  ⟨none, "", [], none, none, 0, none, "", [], [], none, [], [], [], none, none⟩

/-- The Go struct `openapi3.Parameter`. -/
structure Parameter where
  Name : String
  In : String
  Required : Bool
  Schema : Option SchemaRef

/-- The Go struct `openapi3.ParameterRef`. -/
structure ParameterRef where
  Ref : String
  Value : Option Parameter

/-- The Go struct `openapi3.MediaType`. -/
structure MediaType where
  Schema : Option SchemaRef

/-- The Go struct `openapi3.RequestBody`. -/
structure RequestBody where
  Content : GoMap String (Option MediaType)

/-- The Go struct `openapi3.RequestBodyRef`. -/
structure RequestBodyRef where
  Ref : String
  Value : Option RequestBody

/-- The Go struct `openapi3.Response`. -/
structure Response where
  Content : GoMap String (Option MediaType)

/-- The Go struct `openapi3.ResponseRef`. -/
structure ResponseRef where
  Ref : String
  Value : Option Response

/-- The Go struct `openapi3.Operation`; `Responses` is the map `operation.Responses.Map()`. -/
structure OperationDoc where
  Parameters : List (Option ParameterRef)
  RequestBody : Option RequestBodyRef
  Responses : GoMap String (Option ResponseRef)

/-- The Go struct `openapi3.PathItem`; `Operations` is the map returned by the library
call `pathItem.Operations()`, keyed by the upper-case HTTP method. -/
structure PathItem where
  Parameters : List (Option ParameterRef)
  Operations : GoMap String (Option OperationDoc)

/-- The Go struct `openapi3.Components`. -/
structure Components where
  Schemas : GoMap String (Option SchemaRef)

/-- The Go struct `openapi3.T` together with the heap of its schema nodes; `Paths` is
the map `spec.Paths.Map()`. -/
structure Spec where
  heap : Heap
  Paths : GoMap String (Option PathItem)
  Components : Option Components

/-! ## `internal/service/walker` -/

/-- The Go interface `walker.Visitor`, for a visitor whose state has type `σ`: every
method is a state transformer. -/
structure Visitor (σ : Type) where
  VisitPath : String → PathItem → σ → σ
  VisitOperation : String → String → OperationDoc → σ → σ
  VisitParameter : String → Parameter → σ → σ
  VisitRequestBody : String → String → RequestBody → σ → σ
  VisitResponse : String → String → String → Response → σ → σ
  VisitComponentSchema : String → SchemaRef → σ → σ
  VisitProperty : String → SchemaRef → σ → σ

/-- What a walk mutates: the set `visitedSchemas` and the state of the visitor. -/
structure WalkState (σ : Type) where
  visitedSchemas : List SchemaId
  visitor : σ

/-- A Go `for` loop over `xs` whose body may fail to return. -/
def forEach {α β : Type} (xs : List α) (body : α → β → Option β) (st : β) : Option β :=
  match xs with
  | [] => some st
  | x :: rest => (body x st).bind (forEach rest body)

/-! The loops of `walkSchema` are written once, for any type `τ` of traversal state:
`visit path ref` is the call `visitor.VisitProperty(path, ref)` and `walk path ref` the
recursive call `w.walkSchema(path, ref, visitor, visitedSchemas)`, both as they act on
the traversal state. -/

/-- The loop of `walkSchema` over `schema.Properties`. -/
def walkProperties {τ : Type} (visit : String → SchemaRef → τ → τ)
    (walk : String → Option SchemaRef → τ → Option τ)
    (basePath : String) (properties : GoMap String (Option SchemaRef)) (st : τ) : Option τ :=
  forEach properties
    (fun p st => match p.2 with
      | none => some st
      | some propRef =>
          walk (basePath ++ "." ++ p.1) (some propRef) (visit (basePath ++ "." ++ p.1) propRef st))
    st

/-- A guarded recursive call of `walkSchema`, as for `schema.Items` and `schema.Not`:
the call `w.walkSchema(path, r, ...)` under the guard `r != nil`. -/
def walkOptional {τ : Type} (walk : String → Option SchemaRef → τ → Option τ)
    (path : String) (r : Option SchemaRef) (st : τ) : Option τ :=
  match r with
  | none => some st
  | some r => walk path (some r) st

/-- The loops of `walkSchema` over `schema.AllOf`, `schema.AnyOf` and `schema.OneOf`;
`tag` is `"/allOf["`, `"/anyOf["` or `"/oneOf["`. -/
def walkBranches {τ : Type} (walk : String → Option SchemaRef → τ → Option τ)
    (basePath tag : String) (branches : List (Option SchemaRef)) (st : τ) : Option τ :=
  forEach branches.enum
    (fun p st => walkOptional walk (basePath ++ tag ++ toString p.1 ++ "]") p.2 st) st

/-- The last statement of `walkSchema`, for `schema.AdditionalProperties.Schema`. -/
def walkAdditional {τ : Type} (visit : String → SchemaRef → τ → τ)
    (walk : String → Option SchemaRef → τ → Option τ)
    (basePath : String) (r : Option SchemaRef) (st : τ) : Option τ :=
  match r with
  | none => some st
  | some r =>
      walk (basePath ++ "/additionalProperties") (some r)
        (visit (basePath ++ "/additionalProperties") r st)

/-- The statements of `walkSchema` between the insertion into `visitedSchemas` and the
deferred deletion, on the schema node `s`. -/
def walkSchemaBody {τ : Type} (visit : String → SchemaRef → τ → τ)
    (walk : String → Option SchemaRef → τ → Option τ)
    (basePath : String) (s : Schema) (st : τ) : Option τ :=
  (walkProperties visit walk basePath s.Properties st).bind fun st =>
  (walkOptional walk (basePath ++ "[]") s.Items st).bind fun st =>
  (walkBranches walk basePath "/allOf[" s.AllOf st).bind fun st =>
  (walkBranches walk basePath "/anyOf[" s.AnyOf st).bind fun st =>
  (walkBranches walk basePath "/oneOf[" s.OneOf st).bind fun st =>
  (walkOptional walk (basePath ++ "/not") s.Not st).bind fun st =>
  walkAdditional visit walk basePath s.AdditionalProperties st

/-- A call of the visitor method `f` in the walker state `st`. -/
def WalkState.call {σ : Type} (f : σ → σ) (st : WalkState σ) : WalkState σ :=
  ⟨st.visitedSchemas, f st.visitor⟩

/-- The method `(*Walker).walkSchema`; `none` when the fuel runs out.  A pointer that
is not in the heap (impossible in Go) is treated like a nil schema. -/
def walkSchema {σ : Type} (heap : Heap) (visitor : Visitor σ) :
    Nat → String → Option SchemaRef → WalkState σ → Option (WalkState σ)
  | 0, _, _, _ => none
  | fuel + 1, basePath, schemaRef, st =>
    match schemaRef with
    | none => some st
    | some ref =>
      match ref.Value with
      | none => some st
      | some schema =>
        if schema ∈ st.visitedSchemas then some st
        else
          match heap[schema]? with
          | none => some st
          | some s =>
            (walkSchemaBody (fun path r => WalkState.call (visitor.VisitProperty path r))
              (walkSchema heap visitor fuel) basePath s
              ⟨schema :: st.visitedSchemas, st.visitor⟩).bind
            fun st => some ⟨st.visitedSchemas.filter (fun x => x ≠ schema), st.visitor⟩

/-- The traversal in the words of the specification: `stack` holds the identities of
the schemas of the calls that are active; a schema already on the stack stops the
branch, otherwise it is pushed for the calls beneath it and popped on return. -/
def walkOnStack {σ : Type} (heap : Heap) (visitor : Visitor σ) :
    Nat → List SchemaId → String → Option SchemaRef → σ → Option σ
  | 0, _, _, _, _ => none
  | fuel + 1, stack, basePath, schemaRef, st =>
    match schemaRef with
    | none => some st
    | some ref =>
      match ref.Value with
      | none => some st
      | some schema =>
        if schema ∈ stack then some st
        else
          match heap[schema]? with
          | none => some st
          | some s =>
            walkSchemaBody visitor.VisitProperty
              (walkOnStack heap visitor fuel (schema :: stack)) basePath s st

/-! In the loops of `WalkSpec`, `walk` is the call
`w.walkSchema(path, schema, visitor, visitedSchemas)`. -/

/-- The body shared by the two parameter loops of `WalkSpec` (path-level parameters
with `basePath` the path name, operation-level ones with `basePath` the operation path). -/
def walkParameters {σ : Type} (visitor : Visitor σ)
    (walk : String → Option SchemaRef → WalkState σ → Option (WalkState σ))
    (basePath : String) (parameters : List (Option ParameterRef)) (st : WalkState σ) :
    Option (WalkState σ) :=
  forEach parameters
    (fun paramRef st => match paramRef with
      | none => some st
      | some pr =>
        match pr.Value with
        | none => some st
        | some param =>
          match param.Schema with
          | none =>
              some (st.call (visitor.VisitParameter (basePath ++ "/parameter/" ++ param.Name) param))
          | some schema =>
              walk (basePath ++ "/parameter/" ++ param.Name) (some schema)
                ((st.call
                  (visitor.VisitParameter (basePath ++ "/parameter/" ++ param.Name) param)).call
                  (visitor.VisitProperty (basePath ++ "/parameter/" ++ param.Name) schema)))
    st

/-- The schema part of the request-body and response loops:
the call `w.walkSchema(path, ...)` under the guard
`mediaType != nil && mediaType.Schema != nil`. -/
def walkMedia {σ : Type}
    (walk : String → Option SchemaRef → WalkState σ → Option (WalkState σ))
    (path : String) (mediaType : Option MediaType) (st : WalkState σ) : Option (WalkState σ) :=
  match mediaType with
  | none => some st
  | some mediaType =>
    match mediaType.Schema with
    | none => some st
    | some schema => walk path (some schema) st

/-- The request-body part of `WalkSpec` for one operation. -/
def walkRequestBody {σ : Type} (visitor : Visitor σ)
    (walk : String → Option SchemaRef → WalkState σ → Option (WalkState σ))
    (operationPath : String) (requestBody : Option RequestBodyRef) (st : WalkState σ) :
    Option (WalkState σ) :=
  match requestBody with
  | none => some st
  | some rb =>
    match rb.Value with
    | none => some st
    | some body =>
      forEach body.Content
        (fun c st =>
          walkMedia walk (operationPath ++ "/requestBody/" ++ c.1) c.2
            (st.call (visitor.VisitRequestBody (operationPath ++ "/requestBody/" ++ c.1) c.1 body)))
        st

/-- The response part of `WalkSpec` for one operation. -/
def walkResponses {σ : Type} (visitor : Visitor σ)
    (walk : String → Option SchemaRef → WalkState σ → Option (WalkState σ))
    (operationPath : String) (responses : GoMap String (Option ResponseRef))
    (st : WalkState σ) : Option (WalkState σ) :=
  forEach responses
    (fun r st => match r.2 with
      | none => some st
      | some responseRef =>
        match responseRef.Value with
        | none => some st
        | some response =>
          forEach response.Content
            (fun c st =>
              walkMedia walk (operationPath ++ "/response/" ++ r.1 ++ "/" ++ c.1) c.2
                (st.call (visitor.VisitResponse
                  (operationPath ++ "/response/" ++ r.1 ++ "/" ++ c.1) r.1 c.1 response)))
            st)
    st

/-- The loop of `WalkSpec` over the operations of one path. -/
def walkOperations {σ : Type} (visitor : Visitor σ)
    (walk : String → Option SchemaRef → WalkState σ → Option (WalkState σ))
    (pathName : String) (operations : GoMap String (Option OperationDoc))
    (st : WalkState σ) : Option (WalkState σ) :=
  forEach operations
    (fun o st => match o.2 with
      | none => some st
      | some operation =>
        (walkParameters visitor walk (pathName ++ "/" ++ o.1) operation.Parameters
          (st.call (visitor.VisitOperation (pathName ++ "/" ++ o.1) o.1 operation))).bind
        fun st =>
        (walkRequestBody visitor walk (pathName ++ "/" ++ o.1) operation.RequestBody st).bind
        fun st => walkResponses visitor walk (pathName ++ "/" ++ o.1) operation.Responses st)
    st

/-- The loop of `WalkSpec` over the paths of the document. -/
def walkPaths {σ : Type} (visitor : Visitor σ)
    (walk : String → Option SchemaRef → WalkState σ → Option (WalkState σ))
    (paths : GoMap String (Option PathItem)) (st : WalkState σ) : Option (WalkState σ) :=
  forEach paths
    (fun p st => match p.2 with
      | none => some st
      | some pathItem =>
        (walkParameters visitor walk p.1 pathItem.Parameters
          (st.call (visitor.VisitPath p.1 pathItem))).bind
        fun st => walkOperations visitor walk p.1 pathItem.Operations st)
    st

/-- The loop of `WalkSpec` over the component schemas. -/
def walkComponents {σ : Type} (visitor : Visitor σ)
    (walk : String → Option SchemaRef → WalkState σ → Option (WalkState σ))
    (components : Option Components) (st : WalkState σ) : Option (WalkState σ) :=
  match components with
  | none => some st
  | some comps =>
    forEach comps.Schemas
      (fun c st => match c.2 with
        | none => some st
        | some schemaRef =>
            walk ("#/components/schemas/" ++ c.1) (some schemaRef)
              (st.call (visitor.VisitComponentSchema c.1 schemaRef)))
      st

/-- The statements of `WalkSpec` after `visitedSchemas := make(...)`, from the walker
state `st`. -/
def walkDocument {σ : Type} (visitor : Visitor σ)
    (walk : String → Option SchemaRef → WalkState σ → Option (WalkState σ))
    (spec : Spec) (st : WalkState σ) : Option (WalkState σ) :=
  (walkPaths visitor walk spec.Paths st).bind
    fun st => walkComponents visitor walk spec.Components st

/-- The method `(*Walker).WalkSpec` on the walker of `spec`, started with the visitor
in state `st`; the result is the state the visitor ends in, `none` when the fuel of a
`walkSchema` call runs out. -/
def WalkSpec {σ : Type} (spec : Option Spec) (visitor : Option (Visitor σ)) (fuel : Nat)
    (st : σ) : Option σ :=
  match spec, visitor with
  | some spec, some visitor =>
      (walkDocument visitor (walkSchema spec.heap visitor fuel) spec ⟨[], st⟩).map
        WalkState.visitor
  | _, _ => some st

/-- One call of a visitor method, as the test visitor of `walker_test.go` records it. -/
inductive Event where
  | path (path : String)
  | operation (path : String) (method : String)
  | parameter (path : String) (name : String) (loc : String)
  | requestBody (path : String) (contentType : String)
  | response (path : String) (statusCode : String) (contentType : String)
  | componentSchema (name : String)
  | property (path : String) (schema : SchemaRef)
  deriving DecidableEq

/-- The visitor `TestVisitor` of `walker_test.go`: it appends every call to a log. -/
def TestVisitor : Visitor (List Event) where
  VisitPath := fun path _ log => log ++ [Event.path path]
  VisitOperation := fun path method _ log => log ++ [Event.operation path method]
  VisitParameter := fun path parameter log =>
    log ++ [Event.parameter path parameter.Name parameter.In]
  VisitRequestBody := fun path contentType _ log => log ++ [Event.requestBody path contentType]
  VisitResponse := fun path statusCode contentType _ log =>
    log ++ [Event.response path statusCode contentType]
  VisitComponentSchema := fun name _ log => log ++ [Event.componentSchema name]
  VisitProperty := fun path schema log => log ++ [Event.property path schema]

/-- The paths of the `VisitProperty` calls in a log (`GetVisitedPaths`, unsorted). -/
def visitedPaths (log : List Event) : List String :=
  log.filterMap fun e => match e with
    | Event.property path _ => some path
    | _ => none

/-! ## `internal/service/scenario-builder` : the data-model builder -/

/-- The Go call `strings.Split(s, sep)` for a one-character separator, on the
characters of `s`. -/
def splitOnChar (sep : Char) : List Char → List (List Char)
  | [] => [[]]
  | c :: cs =>
    if c = sep then [] :: splitOnChar sep cs
    else
      match splitOnChar sep cs with
      | [] => [[c]]
      | seg :: segs => (c :: seg) :: segs

/-- The Go call `strings.Split(s, "/")`. -/
def splitSlash (s : String) : List String :=
  (splitOnChar '/' s.data).map String.mk

/-- The Go call `strings.Join(parts, "/")`. -/
def joinSlash (parts : List String) : String :=
  "/".intercalate parts

/-- The set `methods` of `parseEndpointAndMethod`. -/
def httpMethods : List String :=
  ["GET", "POST", "PUT", "PATCH", "DELETE", "OPTIONS", "HEAD", "TRACE"]

/-- The loop of `parseEndpointAndMethod` from index `i` on, `rest` being `parts[i:]`.
The slice expression `parts[1:i]` panics for `i = 0`: the result is then `none`. -/
def parseLoop (parts : List String) : Nat → List String → Option (String × String)
  | _, [] => some ("", "")
  | i, p :: rest =>
    if p ∈ httpMethods then
      (if i = 0 then none
       else some ("/" ++ joinSlash ((parts.drop 1).take (i - 1)), p))
    else parseLoop parts (i + 1) rest

/-- The function `parseEndpointAndMethod`; `none` is the run-time panic of the slice
expression `parts[1:0]`. -/
def parseEndpointAndMethod (path : String) : Option (String × String) :=
  parseLoop (splitSlash path) 0 (splitSlash path)

/-- The first declared type: `(*schema.Type)[0]` when there is one. -/
def firstType (t : Option (List String)) : String :=
  match t with
  | some (x :: _) => x
  | _ => ""

/-- The type assertion `schema.Extensions["x-user-hint"].(string)`. -/
def extHint (ext : GoMap String ExtValue) : String :=
  match GoMap.get? ext "x-user-hint" with
  | some (ExtValue.str h) => h
  | _ => ""

/-- The type assertion `schema.Extensions["x-slsbench-unique"].(bool)`. -/
def extUnique (ext : GoMap String ExtValue) : Bool :=
  match GoMap.get? ext "x-slsbench-unique" with
  | some (ExtValue.bool b) => b
  | _ => false

/-- The function `buildFieldFromSchema`; `none` when the fuel runs out.  The set
`visitedSchemas` is received and handed on, and neither read nor written. -/
def buildFieldFromSchema (heap : Heap) :
    Nat → String → Option SchemaRef → String → List SchemaId → Option Field
  | 0, _, _, _, _ => none
  | fuel + 1, name, schemaRef, path, visitedSchemas =>
    match schemaRef with
    | none => some (Field.mk name "" "" false "" false none none 0 none "" path "" none [] none "")
    | some ref =>
      match ref.Value with
      | none =>
          some (Field.mk name "" "" false "" false none none 0 none "" path ref.Ref none [] none "")
      | some schema =>
        match heap[schema]? with
        | none =>
            some (Field.mk name "" "" false "" false none none 0 none "" path ref.Ref none []
              (some schema) "")
        | some s =>
          (match s.Items with
            | none => some none
            | some items =>
                (buildFieldFromSchema heap fuel "" (some items) (path ++ "[]")
                  visitedSchemas).map some).bind
          fun items =>
          (forEach s.Properties
            (fun p acc => match p.2 with
              | none => some acc
              | some propRef =>
                match propRef.Value with
                | none => some acc
                | some _ =>
                    (buildFieldFromSchema heap fuel p.1 (some propRef) (path ++ "." ++ p.1)
                      visitedSchemas).map fun f => GoMap.set acc p.1 f)
            []).bind
          fun properties =>
          some (Field.mk name (firstType s.Typ) s.Format false (extHint s.Extensions)
            (extUnique s.Extensions) s.Min s.Max s.MinLength s.MaxLength s.Pattern path ref.Ref
            items properties (some schema) "")

/-- The function `buildFieldsFromSchema`, returning the set `visitedSchemas` as it
leaves it together with the fields; `none` when the fuel runs out. -/
def buildFieldsFromSchema (heap : Heap) :
    Nat → Option SchemaId → String → List SchemaId → Option (List SchemaId × List Field)
  | 0, _, _, _ => none
  | fuel + 1, schema, basePath, visitedSchemas =>
    match schema with
    | none => some (visitedSchemas, [])
    | some schema =>
      if schema ∈ visitedSchemas then some (visitedSchemas, [])
      else
        match heap[schema]? with
        | none => some (visitedSchemas, [])
        | some s =>
          (forEach s.Properties
            (fun p st => match p.2 with
              | none => some st
              | some propRef =>
                match propRef.Value with
                | none => some st
                | some _ =>
                    (buildFieldFromSchema heap fuel p.1 (some propRef) (basePath ++ "." ++ p.1)
                      st.1).map fun field =>
                      (st.1, st.2 ++ [if p.1 ∈ s.Required then field.setRequired true else field]))
            (schema :: visitedSchemas, [])).bind
          fun st =>
          (forEach s.AllOf.enum
            (fun p st => match p.2 with
              | none => some st
              | some allOfRef =>
                match allOfRef.Value with
                | none => some st
                | some value =>
                    (buildFieldsFromSchema heap fuel (some value)
                      (basePath ++ "/allOf[" ++ toString p.1 ++ "]") st.1).map fun r =>
                      (r.1, st.2 ++ r.2))
            st).bind
          fun st => some (st.1.filter (fun x => x ≠ schema), st.2)

/-- The function `buildDataStructureFromSchema`; `none` when the fuel runs out. -/
def buildDataStructureFromSchema (heap : Heap) (fuel : Nat) (path : String)
    (schemaRef : Option SchemaRef) (contentType : String) (visitedSchemas : List SchemaId) :
    Option DataStructure :=
  match schemaRef with
  | none => some ⟨path, "", contentType, []⟩
  | some ref =>
    match ref.Value with
    | none => some ⟨path, ref.Ref, contentType, []⟩
    | some value =>
        (buildFieldsFromSchema heap fuel (some value) path visitedSchemas).map fun r =>
          ⟨path, ref.Ref, contentType, r.2⟩

/-- The method `ensureOperation`: the data model with the endpoint and the operation
created when missing.  The pointer it returns designates the operation stored under
`endpointPath` and `method`. -/
def ensureOperation (dm : DataModel) (endpointPath method : String) : DataModel :=
  let endpoint : Endpoint :=
    match GoMap.get? dm.Endpoints endpointPath with
    | some endpoint => endpoint
    | none => ⟨endpointPath, []⟩
  let op : Operation :=
    match GoMap.get? endpoint.Operations method with
    | some op => op
    | none => ⟨method, [], none, []⟩
  ⟨GoMap.set dm.Endpoints endpointPath
    ⟨endpoint.Path, GoMap.set endpoint.Operations method op⟩⟩

/-- The operation stored under `endpointPath` and `method`, if any. -/
def lookupOperation (dm : DataModel) (endpointPath method : String) : Option Operation :=
  (GoMap.get? dm.Endpoints endpointPath).bind fun endpoint =>
    GoMap.get? endpoint.Operations method

/-- A write through the pointer returned by `ensureOperation`. -/
def updateOperation (dm : DataModel) (endpointPath method : String)
    (f : Operation → Operation) : DataModel :=
  match GoMap.get? dm.Endpoints endpointPath with
  | none => dm
  | some endpoint =>
    match GoMap.get? endpoint.Operations method with
    | none => dm
    | some op =>
        ⟨GoMap.set dm.Endpoints endpointPath
          ⟨endpoint.Path, GoMap.set endpoint.Operations method (f op)⟩⟩

/-- The method `dataModelVisitor.VisitOperation`. -/
def dmVisitOperation (path : String) (dm : DataModel) : Option DataModel :=
  match parseEndpointAndMethod path with
  | none => none
  | some (endpointPath, opMethod) =>
    if endpointPath = "" ∨ opMethod = "" then some dm
    else some (ensureOperation dm endpointPath opMethod)

/-- The method `dataModelVisitor.VisitParameter`. -/
def dmVisitParameter (heap : Heap) (fuel : Nat) (path : String) (parameter : Parameter)
    (dm : DataModel) : Option DataModel :=
  match parseEndpointAndMethod path with
  | none => none
  | some (endpointPath, opMethod) =>
    if endpointPath = "" ∨ opMethod = "" then some dm
    else
      match parameter.Schema with
      | none => some dm
      | some schemaRef =>
        match schemaRef.Value with
        | none => some dm
        | some _ =>
          if parameter.In ≠ "query" ∧ parameter.In ≠ "path" then some dm
          else
            (buildFieldFromSchema heap fuel parameter.Name (some schemaRef) path []).map
              fun field =>
                updateOperation (ensureOperation dm endpointPath opMethod) endpointPath opMethod
                  fun op =>
                    ⟨op.Method,
                      op.Parameters ++ [(field.setRequired parameter.Required).setIn parameter.In],
                      op.RequestBody, op.Responses⟩

/-- The method `dataModelVisitor.VisitRequestBody`. -/
def dmVisitRequestBody (heap : Heap) (fuel : Nat) (path contentType : String)
    (requestBody : RequestBody) (dm : DataModel) : Option DataModel :=
  match parseEndpointAndMethod path with
  | none => none
  | some (endpointPath, opMethod) =>
    if endpointPath = "" ∨ opMethod = "" then some dm
    else
      match (GoMap.get? requestBody.Content contentType).join with
      | none => some dm
      | some media =>
        match media.Schema with
        | none => some dm
        | some schemaRef =>
            (buildDataStructureFromSchema heap fuel path (some schemaRef) contentType []).map
              fun ds =>
                updateOperation (ensureOperation dm endpointPath opMethod) endpointPath opMethod
                  fun op => ⟨op.Method, op.Parameters, some ds, op.Responses⟩

/-- The body `ds` computed by `dataModelVisitor.VisitResponse` (`some none` is the nil
pointer, the outer `none` a call that does not return). -/
def dmResponseBody (heap : Heap) (fuel : Nat) (path contentType : String)
    (response : Response) : Option (Option DataStructure) :=
  match (GoMap.get? response.Content contentType).join with
  | none => some none
  | some media =>
    match media.Schema with
    | none => some none
    | some schemaRef =>
        (buildDataStructureFromSchema heap fuel path (some schemaRef) contentType []).map some

/-- The method `dataModelVisitor.VisitResponse`. -/
def dmVisitResponse (heap : Heap) (fuel : Nat) (path statusCode contentType : String)
    (response : Response) (dm : DataModel) : Option DataModel :=
  match parseEndpointAndMethod path with
  | none => none
  | some (endpointPath, opMethod) =>
    if endpointPath = "" ∨ opMethod = "" then some dm
    else
      (dmResponseBody heap fuel path contentType response).map fun ds =>
        updateOperation (ensureOperation dm endpointPath opMethod) endpointPath opMethod
          fun op => ⟨op.Method, op.Parameters, op.RequestBody, GoMap.set op.Responses statusCode ds⟩

/-- The visitor `dataModelVisitor`.  Its state is the data model under construction;
`none` is a run that was aborted, by a panic or by a call that does not return. -/
def dataModelVisitor (heap : Heap) (fuel : Nat) : Visitor (Option DataModel) where
  VisitPath := fun _ _ dm => dm
  VisitOperation := fun path _ _ dm => dm.bind (dmVisitOperation path)
  VisitParameter := fun path parameter dm => dm.bind (dmVisitParameter heap fuel path parameter)
  VisitRequestBody := fun path contentType requestBody dm =>
    dm.bind (dmVisitRequestBody heap fuel path contentType requestBody)
  VisitResponse := fun path statusCode contentType response dm =>
    dm.bind (dmVisitResponse heap fuel path statusCode contentType response)
  VisitComponentSchema := fun _ _ dm => dm
  VisitProperty := fun _ _ dm => dm

/-- The function `buildDataModelFromSpec`; `none` when the walk or the visitor does not
finish within the fuel, or panics. -/
def buildDataModelFromSpec (spec : Spec) (fuel : Nat) : Option DataModel :=
  (WalkSpec (some spec) (some (dataModelVisitor spec.heap fuel)) fuel (some ⟨[]⟩)).join

/-! ## Example documents -/

/-- A scalar schema of the given type. -/
def scalarSchema (t : String) : Schema :=
  ⟨some [t], "", [], none, none, 0, none, "", [], [], none, [], [], [], none, none⟩

/-- An object schema with the given required names and properties. -/
def objectSchema (required : List String) (properties : GoMap String (Option SchemaRef)) :
    Schema :=
  ⟨some ["object"], "", [], none, none, 0, none, "", required, properties, none, [], [], [],
    none, none⟩

/-- An array schema with the given item schema. -/
def arraySchema (items : SchemaRef) : Schema :=
  ⟨some ["array"], "", [], none, none, 0, none, "", [], [], some items, [], [], [], none, none⟩

/-- An inline reference to the schema node `i`. -/
def inline (i : SchemaId) : SchemaRef := ⟨"", some i⟩

/-- A document with the single operation `method pathName`, with the given
parameters, request body and responses. -/
def oneOperationSpec (heap : Heap) (pathName method : String)
    (pathParameters : List (Option ParameterRef)) (operation : OperationDoc) : Spec :=
  ⟨heap, [(pathName, some ⟨pathParameters, [(method, some operation)]⟩)], none⟩

/-- A JSON response with the given body schema. -/
def jsonResponse (schema : SchemaRef) : Option ResponseRef :=
  some ⟨"", some ⟨[("application/json", some ⟨some schema⟩)]⟩⟩

/-- The document of `testdata/simple.yaml`: `GET /api/users` answers `200` with an
object with the properties `id`, `name`, `email`. -/
def simpleSpec : Spec :=
  oneOperationSpec
    [objectSchema [] [("id", some (inline 1)), ("name", some (inline 2)),
        ("email", some (inline 3))],
      scalarSchema "integer", scalarSchema "string", scalarSchema "string"]
    "/api/users" "GET" []
    ⟨[], none, [("200", jsonResponse (inline 0))]⟩

namespace ScenarioGraph

/-- The number of edges into `v` whose source is not in `done`. -/
def pendingInto (edges : List ScenarioGraphEdge) (done : List Int) (v : Int) : Nat :=
  edges.countP (fun e => e.To = v ∧ e.From ∉ done)

/-- The invariant of the main loop of `TopologicalSort`; `K` is the key set of
`inDegree`. -/
structure KahnInv (edges : List ScenarioGraphEdge) (K : List Int) (inDegree : GoMap Int Int)
    (queue result : List Int) : Prop where
  deg_eq : ∀ v, GoMap.get 0 inDegree v = ((pendingInto edges result v : Nat) : Int)
  mem_iff : ∀ v, v ∈ result ++ queue ↔ v ∈ K ∧ GoMap.get 0 inDegree v = 0
  nodup : (result ++ queue).Nodup
  order : ∀ e ∈ edges, e.To ∈ result →
    e.From ∈ result ∧ result.indexOf e.From < result.indexOf e.To

instance (g : ScenarioGraph) : Decidable g.WellKeyed := by
  unfold WellKeyed
  infer_instance

instance (g : ScenarioGraph) : Decidable g.EdgesJoinVertices := by
  unfold EdgesJoinVertices
  infer_instance

end ScenarioGraph

/-- A vertex with no payload, for examples. -/
def blankVertex : ScenarioGraphVertex :=
  ⟨"", "", [], none, ""⟩

/-- Vertices 0, 1, 2 with edges 0->1, 1->2, 0->2. -/
def triangleGraph : ScenarioGraph :=
  ⟨[(0, blankVertex), (1, blankVertex), (2, blankVertex)],
   [⟨0, 1, []⟩, ⟨1, 2, []⟩, ⟨0, 2, []⟩]⟩

/-- Vertices 0, 1 with edges 0->1 and 1->0. -/
def twoCycleGraph : ScenarioGraph :=
  ⟨[(0, blankVertex), (1, blankVertex)], [⟨0, 1, []⟩, ⟨1, 0, []⟩]⟩

/-! ## Notions used to state the walker theorems -/

/-- The number of schema nodes of the heap that are not in the set `visited`. -/
def unvisitedCount (heap : Heap) (visited : List SchemaId) : Nat :=
  ((List.range heap.length).filter (fun i => i ∉ visited)).length

/-- Two runs agree: neither returns, or both return and the results are related. -/
def OptRel {α β : Type} (R : α → β → Prop) (x : Option α) (y : Option β) : Prop :=
  match x, y with
  | none, none => True
  | some a, some b => R a b
  | _, _ => False

/-- On the states that satisfy `P`, the runs `f` and `g` both return, with the same
result, and that result satisfies `P` again. -/
def AgreeOn {β : Type} (P : β → Prop) (f g : β → Option β) : Prop :=
  ∀ st, P st → ∃ st', f st = some st' ∧ g st = some st' ∧ P st'

/-- The walker state carries the empty set `visitedSchemas`. -/
def WalkState.AtTopLevel {σ : Type} (st : WalkState σ) : Prop :=
  st.visitedSchemas = []

/-- An object schema with a string property `name` and a property `parent` that refers
back to the object itself. -/
def selfRefHeap : Heap :=
  [objectSchema [] [("name", some (inline 1)), ("parent", some (inline 0))],
    scalarSchema "string"]

/-- An object whose properties `a` and `b` both refer to the same schema, an object
with the property `x`. -/
def diamondHeap : Heap :=
  [objectSchema [] [("a", some (inline 1)), ("b", some (inline 1))],
    objectSchema [] [("x", some (inline 2))], scalarSchema "string"]

/-- The paths of the `VisitProperty` calls of `walkSchema(basePath, schemaRef)`, made on
the empty set `visitedSchemas`. -/
def walkedPaths (heap : Heap) (fuel : Nat) (basePath : String) (schemaRef : Option SchemaRef) :
    Option (List String) :=
  (walkSchema heap TestVisitor fuel basePath schemaRef ⟨[], []⟩).map
    fun st => visitedPaths st.visitor

/-- The log of visitor calls made by `walkSchema(basePath, schemaRef)` when it is handed
the set `V`, as the test visitor records it (empty if the call does not return). -/
def schemaEvents (heap : Heap) (fuel : Nat) (V : List SchemaId) (basePath : String)
    (schemaRef : Option SchemaRef) : List Event :=
  ((walkSchema heap TestVisitor fuel basePath schemaRef ⟨V, []⟩).map WalkState.visitor).getD []

/-- The events of a guarded recursive call (`schema.Items`, `schema.Not`, a branch). -/
def optionalEvents (heap : Heap) (fuel : Nat) (V : List SchemaId) (path : String)
    (r : Option SchemaRef) : List Event :=
  match r with
  | none => []
  | some r => schemaEvents heap fuel V path (some r)

/-- The events of a property-like child (a property, `additionalProperties`): one
`VisitProperty` event at `path`, followed by the events of walking it at `path`. -/
def reportedEvents (heap : Heap) (fuel : Nat) (V : List SchemaId) (path : String)
    (r : Option SchemaRef) : List Event :=
  match r with
  | none => []
  | some r => Event.property path r :: schemaEvents heap fuel V path (some r)

/-- The events of the branches of an `allOf`, `anyOf` or `oneOf` list. -/
def branchEvents (heap : Heap) (fuel : Nat) (V : List SchemaId) (basePath tag : String)
    (branches : List (Option SchemaRef)) : List Event :=
  branches.enum.flatMap fun p =>
    optionalEvents heap fuel V (basePath ++ tag ++ toString p.1 ++ "]") p.2

/-! ## Documents and notions used to state the data-model theorems -/

/-- A JSON request body with the given schema. -/
def jsonRequestBody (schema : SchemaRef) : Option RequestBodyRef :=
  some ⟨"", some ⟨[("application/json", some ⟨some schema⟩)]⟩⟩

/-- The request body of `POST /nodes` is the self-referential object of `selfRefHeap`. -/
def selfRefSpec : Spec :=
  oneOperationSpec selfRefHeap "/nodes" "POST" [] ⟨[], jsonRequestBody (inline 0), []⟩

/-- The operation `DELETE /api/users` declares the single response `204`, which has no
content. -/
def noContentSpec : Spec :=
  oneOperationSpec [] "/api/users" "DELETE" [] ⟨[], none, [("204", some ⟨"", some ⟨[]⟩⟩)]⟩

/-- The operation `GET /api/users` declares the single response `200`, whose JSON media
type has no schema. -/
def noSchemaSpec : Spec :=
  oneOperationSpec [] "/api/users" "GET" []
    ⟨[], none, [("200", some ⟨"", some ⟨[("application/json", some ⟨none⟩)]⟩⟩)]⟩

/-- A body object with the required property `address`, itself an object with the
required property `city`. -/
def nestedRequiredHeap : Heap :=
  [objectSchema ["address"] [("address", some (inline 1))],
    objectSchema ["city"] [("city", some (inline 2))], scalarSchema "string"]

/-- An array of objects with the properties `id` and `name` (node 0), and an object
whose property `users` is that array (node 4). -/
def arrayBodyHeap : Heap :=
  [arraySchema (inline 1),
    objectSchema [] [("id", some (inline 2)), ("name", some (inline 3))],
    scalarSchema "integer", scalarSchema "string",
    objectSchema [] [("users", some (inline 0))]]

/-- The names of the fields of a list. -/
def fieldNames (fields : List Field) : List String :=
  fields.map Field.Name

/-- The names of the properties of the items of the fields of a list. -/
def itemPropertyNames (fields : List Field) : List (List String) :=
  fields.map fun f => match f.Items with
    | none => []
    | some items => items.Properties.map Prod.fst

/-- The query parameter `limit`, required, with the integer schema at node 0. -/
def limitParameter : Parameter :=
  ⟨"limit", "query", true, some (inline 0)⟩

/-- The path `/api/vets` declares the path-level parameter `limit` and the operation
`GET`, which declares no parameter of its own. -/
def pathLevelSpec : Spec :=
  oneOperationSpec [scalarSchema "integer"] "/api/vets" "GET" [some ⟨"", some limitParameter⟩]
    ⟨[], none, []⟩

/-- The operation `GET /api/vets` declares the parameter `limit` itself. -/
def operationLevelSpec : Spec :=
  oneOperationSpec [scalarSchema "integer"] "/api/vets" "GET" []
    ⟨[some ⟨"", some limitParameter⟩], none, []⟩

/-- The operation a write through `ensureOperation` finds: the stored one, or a fresh
one for `method`. -/
def operationOrNew (dm : DataModel) (endpointPath method : String) : Operation :=
  (lookupOperation dm endpointPath method).getD ⟨method, [], none, []⟩

/-! ## `internal/model` : the operations on a scenario graph -/

/-- The function `NewScenarioGraph`: no vertex, no edge. -/
def NewScenarioGraph : ScenarioGraph := ⟨[], []⟩

/-- The method `(*ScenarioGraphEdge).AddMapping`: `e.Mappings[sourceField] = targetField`. -/
def ScenarioGraphEdge.AddMapping (e : ScenarioGraphEdge) (sourceField targetField : String) :
    ScenarioGraphEdge :=
  ⟨e.From, e.To, GoMap.set e.Mappings sourceField targetField⟩

namespace ScenarioGraph

/-- The method `AddVertex`: the graph after the call and the id returned;
`len(g.vertices)` is the number of entries of the map. -/
def AddVertex (g : ScenarioGraph) (vertex : ScenarioGraphVertex) : ScenarioGraph × Int :=
  (⟨GoMap.set g.vertices (g.vertices.length : Int) vertex, g.edges⟩, (g.vertices.length : Int))

/-- The method `AddEdge`: the graph after the call.  The pointer the Go method returns
is the edge at the last position of the new edge list. -/
def AddEdge (g : ScenarioGraph) (src dst : Int) : ScenarioGraph :=
  ⟨g.vertices, g.edges ++ [⟨src, dst, []⟩]⟩

/-- The method `GetVertex` (`nil` for a missing id). -/
def GetVertex (g : ScenarioGraph) (id : Int) : Option ScenarioGraphVertex :=
  GoMap.get? g.vertices id

/-- The loop of `GetEdge` over the edges from position `i` on: the position of the edge
returned and the edge. -/
def getEdgeFrom (src dst : Int) : List ScenarioGraphEdge → Nat → Option (Nat × ScenarioGraphEdge)
  | [], _ => none
  | edge :: rest, i =>
      if edge.From = src ∧ edge.To = dst then some (i, edge) else getEdgeFrom src dst rest (i + 1)

/-- The method `GetEdge`.  The pointer returned is given as the position of the edge in
`g.edges` together with the edge it points to; `none` is `nil`. -/
def GetEdge (g : ScenarioGraph) (src dst : Int) : Option (Nat × ScenarioGraphEdge) :=
  getEdgeFrom src dst g.edges 0

/-- The call `edge.AddMapping(sourceField, targetField)` on the edge at position `i` of
`g.edges`, seen from the graph (the edges are held by pointer). -/
def addMappingAt (g : ScenarioGraph) (i : Nat) (sourceField targetField : String) :
    ScenarioGraph :=
  match g.edges[i]? with
  | none => g
  | some edge => ⟨g.vertices, g.edges.set i (edge.AddMapping sourceField targetField)⟩

end ScenarioGraph

/-- One call of the graph interface: `AddVertex`, `AddEdge`, or `AddMapping` on the edge
at a position of the edge list. -/
inductive GraphCall where
  | addVertex (vertex : ScenarioGraphVertex)
  | addEdge (src dst : Int)
  | addMapping (edge : Nat) (sourceField targetField : String)

/-- The graph after one call. -/
def ScenarioGraph.call (g : ScenarioGraph) : GraphCall → ScenarioGraph
  | .addVertex vertex => (g.AddVertex vertex).1
  | .addEdge src dst => g.AddEdge src dst
  | .addMapping edge s t => g.addMappingAt edge s t

/-- The graph after a sequence of calls. -/
def ScenarioGraph.calls (g : ScenarioGraph) (cs : List GraphCall) : ScenarioGraph :=
  cs.foldl ScenarioGraph.call g

/-- The vertices passed to the `AddVertex` calls of a sequence, in order. -/
def addedVertices : List GraphCall → List ScenarioGraphVertex
  | [] => []
  | .addVertex vertex :: cs => vertex :: addedVertices cs
  | _ :: cs => addedVertices cs

/-- The vertex ids are `0, …, n-1`, in this order of insertion. -/
def ScenarioGraph.Dense (g : ScenarioGraph) : Prop :=
  GoMap.keys g.vertices = (List.range g.vertices.length).map (fun k : Nat => (k : Int))

/-! ## `internal/service/scenario-builder` : the interactive graph builder

The builder talks to a `model.PromptSelector`, whose `Run()` takes no argument: a
selector is the sequence of its answers.  `World` holds that sequence and the visiting
orders of the `range` loops the builder builds its option lists with, together with how
many of each have been used.  A builder function returns the graph it leaves (`none`
when it panics on an index out of range, or when the menu loop runs out of fuel) and the
world after it. -/

/-- The result of `selector.Run()`: the index chosen, or an error. -/
inductive Answer where
  | ok (idx : Int)
  | err
deriving DecidableEq

/-- The answers of the selector, the visiting orders of `range`, and how many of each
have been used. -/
structure World where
  answers : Nat → Answer
  prompts : Nat
  seeds : Nat → List Nat
  ranges : Nat

/-- The call `selector.Run()`. -/
def World.Run (w : World) : Answer × World :=
  (w.answers w.prompts, ⟨w.answers, w.prompts + 1, w.seeds, w.ranges⟩)

/-- The entries of a map in the order the next `range` loop visits them. -/
def World.rangeMap {κ ν : Type} (w : World) (m : GoMap κ ν) : List (κ × ν) × World :=
  (goRange (w.seeds w.ranges) m, ⟨w.answers, w.prompts, w.seeds, w.ranges + 1⟩)

/-- The Go index expression `l[i]` for an `int` index: `none` is the run-time panic. -/
def goIndex {α : Type} (l : List α) (i : Int) : Option α :=
  if i < 0 then none else l[i.toNat]?

/-- The selector `mockSelector` of the tests: the scripted answers, then `0` for ever. -/
def mockSelector (calls : List Int) : Nat → Answer :=
  fun n => match calls[n]? with
    | some v => Answer.ok v
    | none => Answer.ok 0

/-- The Go struct `availableOperation`. -/
structure availableOperation where
  Path : String
  Method : String
  Operation : Operation

/-- The function `buildAvailableOperations`: two nested `range` loops over maps. -/
def buildAvailableOperations (dataModel : DataModel) (w : World) :
    List availableOperation × World :=
  (w.rangeMap dataModel.Endpoints).1.foldl
    (fun (acc : List availableOperation × World) endpoint =>
      (acc.1 ++ (acc.2.rangeMap endpoint.2.Operations).1.map
          (fun p => (⟨endpoint.2.Path, p.1, p.2⟩ : availableOperation)),
        (acc.2.rangeMap endpoint.2.Operations).2))
    ([], (w.rangeMap dataModel.Endpoints).2)

/-- The vertex `addEndpointToGraph` builds from the selected operation. -/
def vertexOf (selectedOp : availableOperation) (responseCode : String) : ScenarioGraphVertex :=
  ⟨selectedOp.Path, selectedOp.Method, selectedOp.Operation.Parameters,
    selectedOp.Operation.RequestBody, responseCode⟩

/-- The function `addEndpointToGraph`. -/
def addEndpointToGraph (graph : ScenarioGraph) (availableOps : List availableOperation)
    (w : World) : Option ScenarioGraph × World :=
  if availableOps.length = 0 then (some graph, w)
  else
    match w.Run.1 with
    | Answer.err => (some graph, w.Run.2)
    | Answer.ok idx =>
      match goIndex availableOps idx with
      | none => (none, w.Run.2)
      | some selectedOp =>
        if selectedOp.Operation.Responses.length = 0 then
          (some (graph.AddVertex (vertexOf selectedOp "default")).1, w.Run.2)
        else if selectedOp.Operation.Responses.length = 1 then
          (some (graph.AddVertex (vertexOf selectedOp
            ((GoMap.keys selectedOp.Operation.Responses).foldl (fun _ code => code) ""))).1,
            w.Run.2)
        else
          match (w.Run.2.rangeMap selectedOp.Operation.Responses).2.Run.1 with
          | Answer.err =>
              (some graph, (w.Run.2.rangeMap selectedOp.Operation.Responses).2.Run.2)
          | Answer.ok respIdx =>
            match goIndex ((w.Run.2.rangeMap selectedOp.Operation.Responses).1.map Prod.fst)
              respIdx with
            | none => (none, (w.Run.2.rangeMap selectedOp.Operation.Responses).2.Run.2)
            | some responseCode =>
                (some (graph.AddVertex (vertexOf selectedOp responseCode)).1,
                  (w.Run.2.rangeMap selectedOp.Operation.Responses).2.Run.2)

/-- The list `srcIDs` of `addConnectionToGraph`: the vertex ids in the order of the
first `range` over the vertices. -/
def srcIDs (graph : ScenarioGraph) (w : World) : List Int :=
  (w.rangeMap graph.vertices).1.map Prod.fst

/-- The list `dstIDs` of `addConnectionToGraph`: the vertex ids other than the source, in
the order of the second `range` over the vertices. -/
def dstIDs (graph : ScenarioGraph) (w : World) (srcVertexID : Int) : List Int :=
  ((w.rangeMap graph.vertices).1.filter (fun p => p.1 ≠ srcVertexID)).map Prod.fst

/-- The function `addConnectionToGraph`. -/
def addConnectionToGraph (graph : ScenarioGraph) (w : World) : Option ScenarioGraph × World :=
  if graph.vertices.length < 2 then (some graph, w)
  else
    match (w.rangeMap graph.vertices).2.Run.1 with
    | Answer.err => (some graph, (w.rangeMap graph.vertices).2.Run.2)
    | Answer.ok srcIdx =>
      match goIndex (srcIDs graph w) srcIdx with
      | none => (none, (w.rangeMap graph.vertices).2.Run.2)
      | some srcVertexID =>
        if (dstIDs graph (w.rangeMap graph.vertices).2.Run.2 srcVertexID).length = 0 then
          (some graph, ((w.rangeMap graph.vertices).2.Run.2.rangeMap graph.vertices).2)
        else
          match ((w.rangeMap graph.vertices).2.Run.2.rangeMap graph.vertices).2.Run.1 with
          | Answer.err =>
              (some graph, ((w.rangeMap graph.vertices).2.Run.2.rangeMap graph.vertices).2.Run.2)
          | Answer.ok dstIdx =>
            match goIndex (dstIDs graph (w.rangeMap graph.vertices).2.Run.2 srcVertexID)
              dstIdx with
            | none =>
                (none, ((w.rangeMap graph.vertices).2.Run.2.rangeMap graph.vertices).2.Run.2)
            | some dstVertexID =>
              if (graph.GetEdge srcVertexID dstVertexID).isSome then
                (some graph,
                  ((w.rangeMap graph.vertices).2.Run.2.rangeMap graph.vertices).2.Run.2)
              else
                (some (graph.AddEdge srcVertexID dstVertexID),
                  ((w.rangeMap graph.vertices).2.Run.2.rangeMap graph.vertices).2.Run.2)

mutual

/-- The call `collectFieldPaths([]*model.Field{field}, pfx)` for a non-nil `field`: its
own path, then the paths below its properties, then those below its items. -/
def collectFieldPathsOf (pfx : String) : Field → List String
  | .mk name _ _ _ _ _ _ _ _ _ _ _ _ items properties _ _ =>
      (pfx ++ "." ++ name) ::
        (collectPropertyPaths (pfx ++ "." ++ name) properties ++
          collectItemPaths (pfx ++ "." ++ name ++ "[]") items)

/-- The loop `for _, prop := range field.Properties` of `collectFieldPaths`. -/
def collectPropertyPaths (fieldPath : String) : List (String × Field) → List String
  | [] => []
  | (_, prop) :: rest => collectFieldPathsOf fieldPath prop ++ collectPropertyPaths fieldPath rest

/-- The branch `if field.Items != nil` of `collectFieldPaths`. -/
def collectItemPaths (itemPath : String) : Option Field → List String
  | none => []
  | some items => collectFieldPathsOf itemPath items

end

/-- The function `collectFieldPaths`; a `nil` entry of the slice is `none`. -/
def collectFieldPaths : List (Option Field) → String → List String
  | [], _ => []
  | none :: rest, pfx => collectFieldPaths rest pfx
  | some field :: rest, pfx => collectFieldPathsOf pfx field ++ collectFieldPaths rest pfx

/-- The loop of `collectRequestFields` over the parameters; a `nil` entry is `none`. -/
def collectParameterFields : List (Option Field) → List String
  | [] => []
  | none :: rest => collectParameterFields rest
  | some param :: rest =>
      ((if param.In ≠ "" then param.In else "param") ++ "." ++ param.Name) ::
        collectParameterFields rest

/-- The body part of `collectRequestFields`. -/
def collectBodyFields : Option DataStructure → List String
  | none => []
  | some body => collectFieldPaths (body.Fields.map some) "body"

/-- The function `collectRequestFields`. -/
def collectRequestFields (vertex : ScenarioGraphVertex) : List String :=
  collectBodyFields vertex.RequestBody ++ collectParameterFields (vertex.Parameters.map some)

/-- The function `addFieldMappingToGraph`. -/
def addFieldMappingToGraph (graph : ScenarioGraph) (w : World) : Option ScenarioGraph × World :=
  if graph.edges.length = 0 then (some graph, w)
  else
    match w.Run.1 with
    | Answer.err => (some graph, w.Run.2)
    | Answer.ok edgeIdx =>
      match goIndex graph.edges edgeIdx with
      | none => (none, w.Run.2)
      | some selectedEdge =>
        match graph.GetVertex selectedEdge.From, graph.GetVertex selectedEdge.To with
        | some srcVertex, some dstVertex =>
          if (collectRequestFields srcVertex).length = 0 then (some graph, w.Run.2)
          else if (collectRequestFields dstVertex).length = 0 then (some graph, w.Run.2)
          else
            match w.Run.2.Run.1 with
            | Answer.err => (some graph, w.Run.2.Run.2)
            | Answer.ok srcIdx =>
              match goIndex (collectRequestFields srcVertex) srcIdx with
              | none => (none, w.Run.2.Run.2)
              | some selectedSourceField =>
                match w.Run.2.Run.2.Run.1 with
                | Answer.err => (some graph, w.Run.2.Run.2.Run.2)
                | Answer.ok dstIdx =>
                  match goIndex (collectRequestFields dstVertex) dstIdx with
                  | none => (none, w.Run.2.Run.2.Run.2)
                  | some selectedTargetField =>
                      (some (graph.addMappingAt edgeIdx.toNat selectedSourceField
                        selectedTargetField), w.Run.2.Run.2.Run.2)
        | _, _ => (some graph, w.Run.2)

/-- Go on with `next` on the graph an action left, unless the action panicked. -/
def andThen (r : Option ScenarioGraph × World)
    (next : ScenarioGraph → World → Option ScenarioGraph × World) : Option ScenarioGraph × World :=
  match r.1 with
  | none => (none, r.2)
  | some graph => next graph r.2

/-- The menu loop `for` of `buildScenarioGraph`; the first component is `none` when an
action panicked or the fuel ran out. -/
def menuLoop (availableOps : List availableOperation) :
    Nat → ScenarioGraph → World → Option ScenarioGraph × World
  | 0, _, w => (none, w)
  | fuel + 1, graph, w =>
    match w.Run.1 with
    | Answer.err => (some graph, w.Run.2)
    | Answer.ok idx =>
      if idx = 0 then
        andThen (addEndpointToGraph graph availableOps w.Run.2) (menuLoop availableOps fuel)
      else if idx = 1 then
        andThen (addConnectionToGraph graph w.Run.2) (menuLoop availableOps fuel)
      else if idx = 2 then
        andThen (addFieldMappingToGraph graph w.Run.2) (menuLoop availableOps fuel)
      else if idx = 3 then (some graph, w.Run.2)
      else menuLoop availableOps fuel graph w.Run.2

/-- The function `buildScenarioGraph`; the selector is part of the world. -/
def buildScenarioGraph (dataModel : DataModel) (w : World) (fuel : Nat) :
    Option ScenarioGraph × World :=
  if (buildAvailableOperations dataModel w).1.length = 0 then
    (some NewScenarioGraph, (buildAvailableOperations dataModel w).2)
  else
    menuLoop (buildAvailableOperations dataModel w).1 fuel NewScenarioGraph
      (buildAvailableOperations dataModel w).2

/-- The world after `p` more prompts and `r` more `range` loops. -/
def World.advance (w : World) (p r : Nat) : World :=
  ⟨w.answers, w.prompts + p, w.seeds, w.ranges + r⟩

/-- The selector returned an error at one of the prompts made between `w` and `w'`. -/
def World.errBetween (w w' : World) : Prop :=
  ∃ k, w.prompts ≤ k ∧ k < w'.prompts ∧ w.answers k = Answer.err

/-- The graphs the claims call well formed: every edge joins two vertices of the graph,
no edge is a self-loop, and no two edges have the same ends. -/
def ScenarioGraph.WellFormed (g : ScenarioGraph) : Prop :=
  g.EdgesJoinVertices ∧ (∀ e ∈ g.edges, e.From ≠ e.To) ∧
    (g.edges.map (fun e => (e.From, e.To))).Nodup

/-! ## Data used to state the graph-builder theorems -/

/-- A string-typed field with the given name and parameter location. -/
def stringField (name loc : String) : Field :=
  .mk name "string" "" false "" false none none 0 none "" "" "" none [] none loc

/-- The request body of `POST /owners`: a name and an address with a city. -/
def ownerBody : DataStructure :=
  ⟨"Owner", "", "application/json",
    [stringField "name" "",
     .mk "address" "object" "" false "" false none none 0 none "" "" "" none
       [("city", stringField "city" "")] none ""]⟩

/-- A data model with the operations `get /owners` (a query parameter, one response) and
`post /owners` (a request body, two responses). -/
def ownersModel : DataModel :=
  ⟨[("/owners", ⟨"/owners",
      [("get", ⟨"get", [stringField "id" "query"], none, [("200", none)]⟩),
       ("post", ⟨"post", [], some ownerBody, [("201", none), ("400", none)]⟩)]⟩)]⟩

/-- The world of a test: the selector `mockSelector calls`, every `range` loop in the
stored order. -/
def scriptWorld (calls : List Int) : World :=
  ⟨mockSelector calls, 0, fun _ => [], 0⟩

/-- The vertices `get /owners [200]` and `post /owners [400]`, joined by the edge 0->1. -/
def linkedGraph : ScenarioGraph :=
  ⟨[(0, ⟨"/owners", "get", [stringField "id" "query"], none, "200"⟩),
    (1, ⟨"/owners", "post", [], some ownerBody, "400"⟩)],
   [⟨0, 1, []⟩]⟩

/-- The response code `addEndpointToGraph` gives the vertex of `op` when `w` is the world
after the operation prompt: `default`, the only code, or the code the next answer picks;
`none` when that prompt fails or its answer is out of range. -/
def responseChoice (op : availableOperation) (w : World) : Option String :=
  if op.Operation.Responses.length = 0 then some "default"
  else if op.Operation.Responses.length = 1 then
    some ((GoMap.keys op.Operation.Responses).foldl (fun _ code => code) "")
  else
    match w.answers w.prompts with
    | Answer.err => none
    | Answer.ok respIdx =>
        goIndex ((goRange (w.seeds w.ranges) op.Operation.Responses).map Prod.fst) respIdx

/-- The number of prompts (and of `range` loops) `addEndpointToGraph` uses for the
response code of `op`: one when `op` records several responses, none otherwise. -/
def responsePrompts (op : availableOperation) : Nat :=
  if op.Operation.Responses.length = 0 then 0
  else if op.Operation.Responses.length = 1 then 0
  else 1

/-! ## `encoding/json` : the file written by `SerializeScenarioGraph`

The content of the file is a JSON value.  `json.MarshalIndent` and `json.Unmarshal` are
embedded by what they do with the struct tags of `internal/model`: a member tagged `-` is
not written, a member tagged `omitempty` is not written when it is the zero value, a map
is an object (an `int` key is written in decimal), a slice is an array, a nil pointer is
`null`, a NaN or infinite number makes `Marshal` fail.  The members of an object stand in
the order in which they are written; for a Go map this is the stored order of the model
(the map read back does not depend on the order in the file). -/

/-- A JSON value.  A number is kept as the `int` or `float64` it was written from. -/
inductive Json where
  | null
  | bool (b : Bool)
  | int (i : Int)
  | float (f : Float)
  | str (s : String)
  | arr (items : List Json)
  | obj (members : List (String × Json))

/-- The decimal digits of `n`, lowest first; `fuel` bounds their number. -/
def decimalDigits : Nat → Nat → List Nat
  | 0, _ => []
  | fuel + 1, n => if n < 10 then [n] else (n % 10) :: decimalDigits fuel (n / 10)

/-- The character of a decimal digit. -/
def digitChar (d : Nat) : Char := Char.ofNat (48 + d)

/-- The call `strconv.FormatInt(i, 10)`, which writes the `int` key of a map. -/
def formatInt (i : Int) : String :=
  if i < 0 then String.mk ('-' :: ((decimalDigits (i.natAbs + 1) i.natAbs).reverse.map digitChar))
  else String.mk ((decimalDigits (i.natAbs + 1) i.natAbs).reverse.map digitChar)

/-- The value of a string of decimal digits read after `acc`; `none` for another
character. -/
def parseDigits : List Char → Nat → Option Nat
  | [], acc => some acc
  | c :: rest, acc =>
      if 48 ≤ c.toNat ∧ c.toNat ≤ 57 then parseDigits rest (10 * acc + (c.toNat - 48)) else none

/-- The call `strconv.ParseInt(s, 10, 64)`, which reads the `int` key of a map: an
optional sign and at least one digit. -/
def parseInt (s : String) : Option Int :=
  match s.data with
  | [] => none
  | c :: rest =>
    if c = '-' then
      if rest.isEmpty then none else (parseDigits rest 0).map (fun n : Nat => - (n : Int))
    else if c = '+' then
      if rest.isEmpty then none else (parseDigits rest 0).map (fun n : Nat => (n : Int))
    else (parseDigits (c :: rest) 0).map (fun n : Nat => (n : Int))

/-- A member tagged `omitempty`: written unless the value is empty. -/
def omitEmpty (key : String) (empty : Bool) (value : Json) : List (String × Json) :=
  if empty then [] else [(key, value)]

/-- A `float64`: `Marshal` fails on NaN and on the infinities. -/
def encodeFloat (f : Float) : Option Json :=
  if f.isFinite then some (Json.float f) else none

/-- A member of type `*float64` tagged `omitempty`. -/
def encodeFloatPtr (key : String) : Option Float → Option (List (String × Json))
  | none => some []
  | some f =>
    match encodeFloat f with
    | none => none
    | some value => some [(key, value)]

mutual

/-- The JSON object of a `model.Field`, member by member in the order of the struct;
`Schema` is tagged `-`. -/
def encodeField : Field → Option Json
  | .mk name typ format required hint unique min max minLength maxLength pattern path ref
      items properties _ loc =>
    match encodeFloatPtr "min" min, encodeFloatPtr "max" max, encodeItems items,
      encodeProperties properties with
    | some jmin, some jmax, some jitems, some jproperties =>
      some (Json.obj
        ([("name", Json.str name), ("type", Json.str typ)] ++
          omitEmpty "format" (format = "") (Json.str format) ++
          [("required", Json.bool required)] ++
          omitEmpty "hint" (hint = "") (Json.str hint) ++
          omitEmpty "unique" (!unique) (Json.bool unique) ++
          jmin ++ jmax ++
          omitEmpty "minLength" (minLength = 0) (Json.int minLength) ++
          (match maxLength with
            | none => []
            | some n => [("maxLength", Json.int n)]) ++
          omitEmpty "pattern" (pattern = "") (Json.str pattern) ++
          [("path", Json.str path)] ++
          omitEmpty "ref" (ref = "") (Json.str ref) ++
          jitems ++
          omitEmpty "properties" jproperties.isEmpty (Json.obj jproperties) ++
          omitEmpty "in" (loc = "") (Json.str loc)))
    | _, _, _, _ => none

/-- The member `items` (`*Field`, `omitempty`). -/
def encodeItems : Option Field → Option (List (String × Json))
  | none => some []
  | some field =>
    match encodeField field with
    | none => none
    | some value => some [("items", value)]

/-- The members of the object written for the map `Properties`. -/
def encodeProperties : List (String × Field) → Option (List (String × Json))
  | [] => some []
  | (key, field) :: rest =>
    match encodeField field, encodeProperties rest with
    | some value, some values => some ((key, value) :: values)
    | _, _ => none

end

/-- The array of a slice `[]*Field`. -/
def encodeFields : List Field → Option (List Json)
  | [] => some []
  | field :: rest =>
    match encodeField field, encodeFields rest with
    | some value, some values => some (value :: values)
    | _, _ => none

/-- The JSON object of a `model.DataStructure`. -/
def encodeDataStructure (ds : DataStructure) : Option Json :=
  match encodeFields ds.Fields with
  | none => none
  | some fields =>
    some (Json.obj
      ([("name", Json.str ds.Name)] ++ omitEmpty "ref" (ds.Ref = "") (Json.str ds.Ref) ++
        [("contentType", Json.str ds.ContentType), ("fields", Json.arr fields)]))

/-- The member `requestBody` (`*DataStructure`, `omitempty`). -/
def encodeRequestBody : Option DataStructure → Option (List (String × Json))
  | none => some []
  | some ds =>
    match encodeDataStructure ds with
    | none => none
    | some value => some [("requestBody", value)]

/-- The JSON object of a `model.ScenarioGraphVertex`. -/
def encodeVertex (v : ScenarioGraphVertex) : Option Json :=
  match encodeFields v.Parameters, encodeRequestBody v.RequestBody with
  | some parameters, some body =>
    some (Json.obj
      ([("path", Json.str v.Path), ("method", Json.str v.Method),
        ("parameters", Json.arr parameters)] ++ body ++
        [("responseCode", Json.str v.ResponseCode)]))
  | _, _ => none

/-- The JSON object of a `model.ScenarioGraphEdge`. -/
def encodeEdge (e : ScenarioGraphEdge) : Json :=
  Json.obj [("from", Json.int e.From), ("to", Json.int e.To),
    ("mappings", Json.obj (e.Mappings.map (fun p => (p.1, Json.str p.2))))]

/-- The members of the object written for the map `vertices`. -/
def encodeVertices : GoMap Int ScenarioGraphVertex → Option (List (String × Json))
  | [] => some []
  | (id, v) :: rest =>
    match encodeVertex v, encodeVertices rest with
    | some value, some values => some ((formatInt id, value) :: values)
    | _, _ => none

/-- The function `SerializeScenarioGraph`: the content written to the file, `none` when
`json.MarshalIndent` fails.  The file system stores what it is given. -/
def SerializeScenarioGraph (graph : ScenarioGraph) : Option Json :=
  match encodeVertices graph.vertices with
  | none => none
  | some vertices =>
    some (Json.obj [("vertices", Json.obj vertices),
      ("edges", Json.arr (graph.edges.map encodeEdge))])

/-- The zero value of `model.Field`, from which `Unmarshal` starts. -/
def zeroField : Field :=
  .mk "" "" "" false "" false none none 0 none "" "" "" none [] none ""

namespace Field

def setName : Field → String → Field
  | .mk _ t f rq h u mi ma ml mxl p pa r i ps s inn, v =>
    .mk v t f rq h u mi ma ml mxl p pa r i ps s inn

def setTyp : Field → String → Field
  | .mk n _ f rq h u mi ma ml mxl p pa r i ps s inn, v =>
    .mk n v f rq h u mi ma ml mxl p pa r i ps s inn

def setFormat : Field → String → Field
  | .mk n t _ rq h u mi ma ml mxl p pa r i ps s inn, v =>
    .mk n t v rq h u mi ma ml mxl p pa r i ps s inn

def setHint : Field → String → Field
  | .mk n t f rq _ u mi ma ml mxl p pa r i ps s inn, v =>
    .mk n t f rq v u mi ma ml mxl p pa r i ps s inn

def setUnique : Field → Bool → Field
  | .mk n t f rq h _ mi ma ml mxl p pa r i ps s inn, v =>
    .mk n t f rq h v mi ma ml mxl p pa r i ps s inn

def setMin : Field → Option Float → Field
  | .mk n t f rq h u _ ma ml mxl p pa r i ps s inn, v =>
    .mk n t f rq h u v ma ml mxl p pa r i ps s inn

def setMax : Field → Option Float → Field
  | .mk n t f rq h u mi _ ml mxl p pa r i ps s inn, v =>
    .mk n t f rq h u mi v ml mxl p pa r i ps s inn

def setMinLength : Field → Nat → Field
  | .mk n t f rq h u mi ma _ mxl p pa r i ps s inn, v =>
    .mk n t f rq h u mi ma v mxl p pa r i ps s inn

def setMaxLength : Field → Option Nat → Field
  | .mk n t f rq h u mi ma ml _ p pa r i ps s inn, v =>
    .mk n t f rq h u mi ma ml v p pa r i ps s inn

def setPattern : Field → String → Field
  | .mk n t f rq h u mi ma ml mxl _ pa r i ps s inn, v =>
    .mk n t f rq h u mi ma ml mxl v pa r i ps s inn

def setPath : Field → String → Field
  | .mk n t f rq h u mi ma ml mxl p _ r i ps s inn, v =>
    .mk n t f rq h u mi ma ml mxl p v r i ps s inn

def setRef : Field → String → Field
  | .mk n t f rq h u mi ma ml mxl p pa _ i ps s inn, v =>
    .mk n t f rq h u mi ma ml mxl p pa v i ps s inn

def setItems : Field → Option Field → Field
  | .mk n t f rq h u mi ma ml mxl p pa r _ ps s inn, v =>
    .mk n t f rq h u mi ma ml mxl p pa r v ps s inn

def setProperties : Field → List (String × Field) → Field
  | .mk n t f rq h u mi ma ml mxl p pa r i _ s inn, v =>
    .mk n t f rq h u mi ma ml mxl p pa r i v s inn

end Field

/-- `Unmarshal` into a `string`: a JSON string; `null` leaves the value as it is. -/
def decodeString (old : String) : Json → Option String
  | Json.str s => some s
  | Json.null => some old
  | _ => none

/-- `Unmarshal` into a `bool`. -/
def decodeBool (old : Bool) : Json → Option Bool
  | Json.bool b => some b
  | Json.null => some old
  | _ => none

/-- `Unmarshal` into an `int`. -/
def decodeInt (old : Int) : Json → Option Int
  | Json.int i => some i
  | Json.null => some old
  | _ => none

/-- `Unmarshal` into a `uint64`: a negative number is an error. -/
def decodeUint (old : Nat) : Json → Option Nat
  | Json.int i => if i < 0 then none else some i.toNat
  | Json.null => some old
  | _ => none

/-- `Unmarshal` into a `*uint64`: `null` is the nil pointer. -/
def decodeUintPtr : Json → Option (Option Nat)
  | Json.int i => if i < 0 then none else some (some i.toNat)
  | Json.null => some none
  | _ => none

/-- `Unmarshal` into a `*float64`: `null` is the nil pointer. -/
def decodeFloatPtr : Json → Option (Option Float)
  | Json.float f => some (some f)
  | Json.int i => some (some (Float.ofInt i))
  | Json.null => some none
  | _ => none

/-- The assignment of one member of a JSON object to the `model.Field` that so far is
`acc`; an unknown key is skipped.  `items` and `properties` are what the value gives when
read as a `*Field` and as the map `Properties`. -/
def assignFieldMember (key : String) (value : Json) (items : Option (Option Field))
    (properties : Option (GoMap String Field)) (acc : Field) : Option Field :=
  if key = "name" then (decodeString acc.Name value).map acc.setName
  else if key = "type" then (decodeString acc.Typ value).map acc.setTyp
  else if key = "format" then (decodeString acc.Format value).map acc.setFormat
  else if key = "required" then (decodeBool acc.Required value).map acc.setRequired
  else if key = "hint" then (decodeString acc.Hint value).map acc.setHint
  else if key = "unique" then (decodeBool acc.Unique value).map acc.setUnique
  else if key = "min" then (decodeFloatPtr value).map acc.setMin
  else if key = "max" then (decodeFloatPtr value).map acc.setMax
  else if key = "minLength" then (decodeUint acc.MinLength value).map acc.setMinLength
  else if key = "maxLength" then (decodeUintPtr value).map acc.setMaxLength
  else if key = "pattern" then (decodeString acc.Pattern value).map acc.setPattern
  else if key = "path" then (decodeString acc.Path value).map acc.setPath
  else if key = "ref" then (decodeString acc.Ref value).map acc.setRef
  else if key = "items" then items.map acc.setItems
  else if key = "properties" then properties.map acc.setProperties
  else if key = "in" then (decodeString acc.In value).map acc.setIn
  else some acc

mutual

/-- `Unmarshal` into a `model.Field` that so far is `acc`: the members of the object are
assigned one after the other. -/
def decodeFieldMembers : List (String × Json) → Field → Option Field
  | [], acc => some acc
  | (key, value) :: rest, acc =>
    match assignFieldMember key value (decodeFieldPtr value)
      (decodePropertiesValue value acc.Properties) acc with
    | none => none
    | some acc' => decodeFieldMembers rest acc'

/-- `Unmarshal` into a `*Field`: `null` is the nil pointer, an object a new `Field`. -/
def decodeFieldPtr : Json → Option (Option Field)
  | Json.null => some none
  | Json.obj members =>
    match decodeFieldMembers members zeroField with
    | none => none
    | some field => some (some field)
  | _ => none

/-- `Unmarshal` into the map `Properties` that so far is `acc`. -/
def decodePropertiesValue : Json → GoMap String Field → Option (GoMap String Field)
  | Json.null, acc => some acc
  | Json.obj members, acc => decodeProperties members acc
  | _, _ => none

/-- The members of the object read into the map `Properties`: `m[key] = field`.  A `null`
entry, a nil pointer, has no counterpart in the model and is taken as an error. -/
def decodeProperties : List (String × Json) → GoMap String Field → Option (GoMap String Field)
  | [], acc => some acc
  | (key, value) :: rest, acc =>
    match decodeFieldPtr value with
    | some (some field) => decodeProperties rest (GoMap.set acc key field)
    | _ => none

end

/-- `Unmarshal` into a slice `[]*Field`: the elements of the array.  A `null` element, a
nil pointer, has no counterpart in the model and is taken as an error. -/
def decodeFields : List Json → Option (List Field)
  | [] => some []
  | value :: rest =>
    match decodeFieldPtr value, decodeFields rest with
    | some (some field), some fields => some (field :: fields)
    | _, _ => none

/-- `Unmarshal` into a slice `[]*Field` that so far is `old`. -/
def decodeFieldsValue (old : List Field) : Json → Option (List Field)
  | Json.null => some old
  | Json.arr items => decodeFields items
  | _ => none

/-- `Unmarshal` into a `model.DataStructure` that so far is `acc`. -/
def decodeDataStructureMembers : List (String × Json) → DataStructure → Option DataStructure
  | [], acc => some acc
  | (key, value) :: rest, acc =>
    if key = "name" then
      match decodeString acc.Name value with
      | none => none
      | some s => decodeDataStructureMembers rest ⟨s, acc.Ref, acc.ContentType, acc.Fields⟩
    else if key = "ref" then
      match decodeString acc.Ref value with
      | none => none
      | some s => decodeDataStructureMembers rest ⟨acc.Name, s, acc.ContentType, acc.Fields⟩
    else if key = "contentType" then
      match decodeString acc.ContentType value with
      | none => none
      | some s => decodeDataStructureMembers rest ⟨acc.Name, acc.Ref, s, acc.Fields⟩
    else if key = "fields" then
      match decodeFieldsValue acc.Fields value with
      | none => none
      | some fields => decodeDataStructureMembers rest ⟨acc.Name, acc.Ref, acc.ContentType, fields⟩
    else decodeDataStructureMembers rest acc

/-- `Unmarshal` into a `*DataStructure`. -/
def decodeDataStructurePtr : Json → Option (Option DataStructure)
  | Json.null => some none
  | Json.obj members =>
    match decodeDataStructureMembers members ⟨"", "", "", []⟩ with
    | none => none
    | some ds => some (some ds)
  | _ => none

/-- `Unmarshal` into a `model.ScenarioGraphVertex` that so far is `acc`. -/
def decodeVertexMembers :
    List (String × Json) → ScenarioGraphVertex → Option ScenarioGraphVertex
  | [], acc => some acc
  | (key, value) :: rest, acc =>
    if key = "path" then
      match decodeString acc.Path value with
      | none => none
      | some s =>
          decodeVertexMembers rest ⟨s, acc.Method, acc.Parameters, acc.RequestBody, acc.ResponseCode⟩
    else if key = "method" then
      match decodeString acc.Method value with
      | none => none
      | some s =>
          decodeVertexMembers rest ⟨acc.Path, s, acc.Parameters, acc.RequestBody, acc.ResponseCode⟩
    else if key = "parameters" then
      match decodeFieldsValue acc.Parameters value with
      | none => none
      | some fields =>
          decodeVertexMembers rest ⟨acc.Path, acc.Method, fields, acc.RequestBody, acc.ResponseCode⟩
    else if key = "requestBody" then
      match decodeDataStructurePtr value with
      | none => none
      | some body =>
          decodeVertexMembers rest ⟨acc.Path, acc.Method, acc.Parameters, body, acc.ResponseCode⟩
    else if key = "responseCode" then
      match decodeString acc.ResponseCode value with
      | none => none
      | some s =>
          decodeVertexMembers rest ⟨acc.Path, acc.Method, acc.Parameters, acc.RequestBody, s⟩
    else decodeVertexMembers rest acc

/-- `Unmarshal` into a `*ScenarioGraphVertex`.  A `null`, a nil pointer, has no
counterpart in the model and is taken as an error. -/
def decodeVertex : Json → Option ScenarioGraphVertex
  | Json.obj members => decodeVertexMembers members ⟨"", "", [], none, ""⟩
  | _ => none

/-- The members of the object read into the map `vertices`: the key is parsed as an
`int`, then `m[id] = vertex`. -/
def decodeVertices :
    List (String × Json) → GoMap Int ScenarioGraphVertex → Option (GoMap Int ScenarioGraphVertex)
  | [], acc => some acc
  | (key, value) :: rest, acc =>
    match parseInt key, decodeVertex value with
    | some id, some vertex => decodeVertices rest (GoMap.set acc id vertex)
    | _, _ => none

/-- The members of the object read into the map `Mappings`. -/
def decodeMappings : List (String × Json) → GoMap String String → Option (GoMap String String)
  | [], acc => some acc
  | (key, value) :: rest, acc =>
    match decodeString "" value with
    | none => none
    | some target => decodeMappings rest (GoMap.set acc key target)

/-- `Unmarshal` into the map `Mappings` that so far is `acc`. -/
def decodeMappingsValue (acc : GoMap String String) : Json → Option (GoMap String String)
  | Json.null => some acc
  | Json.obj members => decodeMappings members acc
  | _ => none

/-- `Unmarshal` into a `model.ScenarioGraphEdge` that so far is `acc`. -/
def decodeEdgeMembers : List (String × Json) → ScenarioGraphEdge → Option ScenarioGraphEdge
  | [], acc => some acc
  | (key, value) :: rest, acc =>
    if key = "from" then
      match decodeInt acc.From value with
      | none => none
      | some i => decodeEdgeMembers rest ⟨i, acc.To, acc.Mappings⟩
    else if key = "to" then
      match decodeInt acc.To value with
      | none => none
      | some i => decodeEdgeMembers rest ⟨acc.From, i, acc.Mappings⟩
    else if key = "mappings" then
      match decodeMappingsValue acc.Mappings value with
      | none => none
      | some mappings => decodeEdgeMembers rest ⟨acc.From, acc.To, mappings⟩
    else decodeEdgeMembers rest acc

/-- `Unmarshal` into a slice `[]*ScenarioGraphEdge`.  A `null` element has no counterpart
in the model and is taken as an error. -/
def decodeEdges : List Json → Option (List ScenarioGraphEdge)
  | [] => some []
  | Json.obj members :: rest =>
    match decodeEdgeMembers members ⟨0, 0, []⟩, decodeEdges rest with
    | some edge, some edges => some (edge :: edges)
    | _, _ => none
  | _ :: _ => none

/-- `Unmarshal` into the map `vertices` that so far is `acc`. -/
def decodeVerticesValue (acc : GoMap Int ScenarioGraphVertex) :
    Json → Option (GoMap Int ScenarioGraphVertex)
  | Json.null => some acc
  | Json.obj members => decodeVertices members acc
  | _ => none

/-- `Unmarshal` into the slice `edges` that so far is `old`. -/
def decodeEdgesValue (old : List ScenarioGraphEdge) : Json → Option (List ScenarioGraphEdge)
  | Json.null => some old
  | Json.arr items => decodeEdges items
  | _ => none

/-- `Unmarshal` into the struct `scenarioGraphJSON` that so far is `acc`. -/
def decodeGraphMembers : List (String × Json) → ScenarioGraph → Option ScenarioGraph
  | [], acc => some acc
  | (key, value) :: rest, acc =>
    if key = "vertices" then
      match decodeVerticesValue acc.vertices value with
      | none => none
      | some vertices => decodeGraphMembers rest ⟨vertices, acc.edges⟩
    else if key = "edges" then
      match decodeEdgesValue acc.edges value with
      | none => none
      | some edges => decodeGraphMembers rest ⟨acc.vertices, edges⟩
    else decodeGraphMembers rest acc

/-- The function `DeserializeScenarioGraph` on the content of the file: `none` when
`json.Unmarshal` fails.  A nil map or slice left by `Unmarshal` is replaced by an empty
one, which the model does not tell apart. -/
def DeserializeScenarioGraph : Json → Option ScenarioGraph
  | Json.null => some ⟨[], []⟩
  | Json.obj members => decodeGraphMembers members ⟨[], []⟩
  | _ => none

mutual

/-- The field with every `Schema` pointer, its own and those below it, set to nil. -/
def Field.eraseSchema : Field → Field
  | .mk n t f rq h u mi ma ml mxl p pa r items properties _ inn =>
    .mk n t f rq h u mi ma ml mxl p pa r (eraseSchemaItems items)
      (eraseSchemaProperties properties) none inn

def eraseSchemaItems : Option Field → Option Field
  | none => none
  | some field => some field.eraseSchema

def eraseSchemaProperties : List (String × Field) → List (String × Field)
  | [] => []
  | (key, field) :: rest => (key, field.eraseSchema) :: eraseSchemaProperties rest

end

/-- The vertex with every `Schema` pointer of its fields set to nil. -/
def ScenarioGraphVertex.eraseSchema (v : ScenarioGraphVertex) : ScenarioGraphVertex :=
  ⟨v.Path, v.Method, v.Parameters.map Field.eraseSchema,
    v.RequestBody.map (fun ds => ⟨ds.Name, ds.Ref, ds.ContentType,
      ds.Fields.map Field.eraseSchema⟩),
    v.ResponseCode⟩

/-- The graph with every `Schema` pointer of its fields set to nil. -/
def ScenarioGraph.eraseSchema (g : ScenarioGraph) : ScenarioGraph :=
  ⟨g.vertices.map (fun p => (p.1, p.2.eraseSchema)), g.edges⟩

mutual

/-- Every map `Properties` below the field is a map: no key occurs twice. -/
def Field.wellKeyed : Field → Bool
  | .mk _ _ _ _ _ _ _ _ _ _ _ _ _ items properties _ _ =>
    itemsWellKeyed items && propertiesWellKeyed properties

def itemsWellKeyed : Option Field → Bool
  | none => true
  | some field => field.wellKeyed

def propertiesWellKeyed : List (String × Field) → Bool
  | [] => true
  | (key, field) :: rest =>
    decide (key ∉ rest.map Prod.fst) && field.wellKeyed && propertiesWellKeyed rest

end

/-- A bound `*float64` is nil or points to a finite number. -/
def boundFinite : Option Float → Bool
  | none => true
  | some x => x.isFinite

mutual

/-- Every bound `Min`, `Max` of the field and of the fields below it is finite. -/
def Field.boundsFinite : Field → Bool
  | .mk _ _ _ _ _ _ min max _ _ _ _ _ items properties _ _ =>
    boundFinite min && boundFinite max && itemsBoundsFinite items &&
      propertiesBoundsFinite properties

def itemsBoundsFinite : Option Field → Bool
  | none => true
  | some field => field.boundsFinite

def propertiesBoundsFinite : List (String × Field) → Bool
  | [] => true
  | (_, field) :: rest => field.boundsFinite && propertiesBoundsFinite rest

end

/-- The fields of a vertex: its parameters and the fields of its request body. -/
def ScenarioGraphVertex.fields (v : ScenarioGraphVertex) : List Field :=
  v.Parameters ++ (match v.RequestBody with
    | none => []
    | some body => body.Fields)

/-- Every map of the graph is a map: the vertices, the mappings of each edge, and the
properties of each field. -/
def ScenarioGraph.mapsWellKeyed (g : ScenarioGraph) : Bool :=
  decide (GoMap.keys g.vertices).Nodup &&
    g.vertices.all (fun p => p.2.fields.all Field.wellKeyed) &&
    g.edges.all (fun e => decide (GoMap.keys e.Mappings).Nodup)

/-- Every bound of every field of the graph is finite. -/
def ScenarioGraph.boundsFinite (g : ScenarioGraph) : Bool :=
  g.vertices.all (fun p => p.2.fields.all Field.boundsFinite)

/-- A graph as the builder leaves it: the query parameter of its vertex keeps the pointer
to the schema it was built from. -/
def schemaGraph : ScenarioGraph :=
  ⟨[(0, ⟨"/owners", "get",
      [.mk "id" "string" "" false "" false none none 0 none "" "/owners/get/parameters/id" ""
        none [] (some 0) "query"],
      none, "200"⟩)], []⟩

/-- The schema of the field `email` of `testdata/constraints.yaml`, after the enrichment
has marked it: a string with a format, length bounds and the two vendor extensions. -/
def emailSchema : Schema :=
  ⟨some ["string"], "email", [("x-user-hint", ExtValue.str "email"),
      ("x-slsbench-unique", ExtValue.bool true)],
    none, none, 5, some 100, "", [], [], none, [], [], [], none, none⟩

/-- Vertices 0 and 1; the edge 0->5 names an id that is no vertex, the edge 1->1 is a
self-loop. -/
def strayEdgeGraph : ScenarioGraph :=
  ⟨[(0, blankVertex), (1, blankVertex)], [⟨0, 5, []⟩, ⟨1, 1, []⟩]⟩

/-- The `Path` members of the properties of the items of the fields of a list. -/
def itemPropertyPaths (fields : List Field) : List (List String) :=
  fields.map fun f => match f.Items with
    | none => []
    | some items => items.Properties.map fun p => p.2.Path

/-- A document whose only operation is `POST /GET/x`, answering `204` without a body:
one segment of the endpoint path is spelled like an HTTP method. -/
def methodSegmentSpec : Spec :=
  oneOperationSpec [] "/GET/x" "POST" [] ⟨[], none, [("204", some ⟨"", some ⟨[]⟩⟩)]⟩

/-- A scripted selector that can fail: `none` in the script is a call that returns an
error; after the script it answers `0` like `mockSelector`. -/
def failingSelector (calls : List (Option Int)) : Nat → Answer :=
  fun n => match calls[n]? with
    | some (some v) => Answer.ok v
    | some none => Answer.err
    | none => Answer.ok 0

/-- The world of a session with the selector `failingSelector calls`, every `range` loop
in the stored order. -/
def failingWorld (calls : List (Option Int)) : World :=
  ⟨failingSelector calls, 0, fun _ => [], 0⟩

/-! ## `internal/service/enrich` and `utils.HintOptions`

`SetHints` writes into the schema nodes of the document while the walker traverses
them.  The nodes the visitor has written so far are the heap of its state; the only
member it writes is `Extensions`, which the walker never reads, so the walker is run on
the heap of the document as it was handed over.  The prompt label built by
`formatPathForPrompt` is shown to the user and has no part in the result. -/

/-- The slice `utils.HintOptions`. -/
def HintOptions : List String :=
  ["firstName", "lastName", "fullName", "name",
   "email", "username", "password", "url", "uri", "domainName", "hostname", "ip", "ipv4",
   "ipv6",
   "city", "state", "country",
   "word", "string",
   "date", "timestamp", "dateTime", "iso8601",
   "uuid", "number", "integer", "int", "float", "double", "boolean", "byte", "binary",
   "id"]

/-- What `SetHints` mutates: the schema nodes of the document and the world of the
selector. -/
structure HintState where
  heap : Heap
  world : World

/-- The assignment `schema.Extensions[key] = value` on the schema node `schema`. -/
def setExtension (heap : Heap) (schema : SchemaId) (key : String) (value : ExtValue) : Heap :=
  match heap[schema]? with
  | none => heap
  | some s => heap.set schema { s with Extensions := GoMap.set s.Extensions key value }

/-- The function `setHintsOnSchema`; `none` is the run-time panic of `HintOptions[idx]`
on an index out of range, or the fuel running out.  A pointer that is not in the heap
(impossible in Go) is treated like a nil schema. -/
def setHintsOnSchema : Nat → Option SchemaId → String → HintState → Option HintState
  | 0, _, _, _ => none
  | fuel + 1, schema, fieldName, st =>
    match schema with
    | none => some st
    | some id =>
      match st.heap[id]? with
      | none => some st
      | some s =>
        if firstType s.Typ = "array" then
          match s.Items with
          | none => some st
          | some items =>
            match items.Value with
            | none => some st
            | some itemSchema => setHintsOnSchema fuel (some itemSchema) (fieldName ++ "[]") st
        else if firstType s.Typ = "object" ∧ s.Properties.length > 0 then some st
        else
          match st.world.Run.1 with
          | Answer.err => some ⟨st.heap, st.world.Run.2⟩
          | Answer.ok idx =>
            match goIndex HintOptions idx with
            | none => none
            | some hint =>
                some ⟨setExtension st.heap id "x-user-hint" (ExtValue.str hint), st.world.Run.2⟩

/-- The function `setHints`, on a parameter that is not nil. -/
def setHints (fuel : Nat) (parameter : Parameter) (path : String) (st : HintState) :
    Option HintState :=
  match parameter.Schema with
  | none => some st
  | some schemaRef =>
    match schemaRef.Value with
    | none => some st
    | some schema => setHintsOnSchema fuel (some schema) path st

/-- The method `HintSetterVisitor.VisitProperty`, on a schema reference that is not nil. -/
def hintVisitProperty (fuel : Nat) (path : String) (schemaRef : SchemaRef) (st : HintState) :
    Option HintState :=
  match schemaRef.Value with
  | none => some st
  | some schema => setHintsOnSchema fuel (some schema) path st

/-- The visitor `HintSetterVisitor`; its state is `none` once a call has panicked or
run out of fuel. -/
def HintSetterVisitor (fuel : Nat) : Visitor (Option HintState) where
  VisitPath := fun _ _ st => st
  VisitOperation := fun _ _ _ st => st
  VisitParameter := fun path parameter st => st.bind (setHints fuel parameter path)
  VisitRequestBody := fun _ _ _ st => st
  VisitResponse := fun _ _ _ _ st => st
  VisitComponentSchema := fun _ _ st => st
  VisitProperty := fun path schemaRef st => st.bind (hintVisitProperty fuel path schemaRef)

/-- The method `(*EnrichProcessor).SetHints` on the document `spec`, the selector being
part of the world `w`; the result holds the schema nodes as the call leaves them. -/
def SetHints (spec : Spec) (w : World) (fuel : Nat) : Option HintState :=
  (WalkSpec (some spec) (some (HintSetterVisitor fuel)) fuel (some ⟨spec.heap, w⟩)).join

/-- The value `schema.Extensions["x-user-hint"]` of the schema node `schema`. -/
def hintOf (heap : Heap) (schema : SchemaId) : Option ExtValue :=
  (heap[schema]?).bind fun s => GoMap.get? s.Extensions "x-user-hint"

/-- The condition under which `setHintsOnSchema` hands an array on to its items. -/
def Schema.isArray (s : Schema) : Prop := firstType s.Typ = "array"

/-- The condition under which `setHintsOnSchema` leaves an object to its properties:
an object schema with declared properties. -/
def Schema.isObjectWithProperties (s : Schema) : Prop :=
  firstType s.Typ = "object" ∧ s.Properties.length > 0

/-- A scalar leaf: no declared properties, no items schema, no `allOf`/`anyOf`/`oneOf`
branches, and a type that is neither `object` nor `array`. -/
def Schema.scalarLeaf (s : Schema) : Prop :=
  s.Properties = [] ∧ s.Items = none ∧ s.AllOf = [] ∧ s.AnyOf = [] ∧ s.OneOf = [] ∧
    firstType s.Typ ≠ "object" ∧ firstType s.Typ ≠ "array"

/-- The schema `leaf` under `n` array levels: `schema` is an array whose items are an
array ... whose items are `leaf`. -/
def ArrayChain (heap : Heap) : Nat → SchemaId → SchemaId → Prop
  | 0, schema, leaf => schema = leaf
  | n + 1, schema, leaf =>
    ∃ s items next, heap[schema]? = some s ∧ s.isArray ∧ s.Items = some items ∧
      items.Value = some next ∧ ArrayChain heap n next leaf

/-- A string under two array levels: node 2 is an array of node 1, an array of node 0. -/
def nestedArrayHeap : Heap :=
  [scalarSchema "string", arraySchema (inline 0), arraySchema (inline 1)]

/-- A world whose selector answers `idx` at every prompt. -/
def constantWorld (idx : Int) : World :=
  ⟨fun _ => Answer.ok idx, 0, fun _ => [], 0⟩

/-- An object schema without declared properties (a free-form object) at node 0, and at
node 1 a schema without declared type that has the property `name`, the string at
node 2. -/
def freeFormHeap : Heap :=
  [objectSchema [] [],
   ⟨none, "", [], none, none, 0, none, "", [], [("name", some (inline 2))], none, [], [], [],
     none, none⟩,
   scalarSchema "string"]

/-! ## Data used to state what the walker reaches -/

/-- A run `f` started in a state with `P` that returns ends in a state with `Q`. -/
def Hoare {β : Type} (P : β → Prop) (f : β → Option β) (Q : β → Prop) : Prop :=
  ∀ st st', P st → f st = some st' → Q st'

/-- Every method of the visitor keeps `P`. -/
def Visitor.Preserves {σ : Type} (V : Visitor σ) (P : σ → Prop) : Prop :=
  (∀ path item st, P st → P (V.VisitPath path item st)) ∧
  (∀ path method op st, P st → P (V.VisitOperation path method op st)) ∧
  (∀ path param st, P st → P (V.VisitParameter path param st)) ∧
  (∀ path ct body st, P st → P (V.VisitRequestBody path ct body st)) ∧
  (∀ path code ct resp st, P st → P (V.VisitResponse path code ct resp st)) ∧
  (∀ name ref st, P st → P (V.VisitComponentSchema name ref st)) ∧
  (∀ path ref st, P st → P (V.VisitProperty path ref st))

/-- The walker state is at top level and the visitor state has `P`. -/
def WalkState.Top {σ : Type} (P : σ → Prop) (st : WalkState σ) : Prop :=
  st.visitedSchemas = [] ∧ P st.visitor

/-- The references `walkSchema` follows from the schema `s`: a property, the items, an
`allOf`, `anyOf` or `oneOf` branch, the `not` schema, the additional properties. -/
def Schema.refersTo (s : Schema) (ref : SchemaRef) : Prop :=
  (∃ k, (k, some ref) ∈ s.Properties) ∨ s.Items = some ref ∨ some ref ∈ s.AllOf ∨
    some ref ∈ s.AnyOf ∨ some ref ∈ s.OneOf ∨ s.Not = some ref ∨
    s.AdditionalProperties = some ref

/-- The call `walkSchema(_, ref, ...)`, made while the schemas of `stack` are being
visited, executes the body of `walkSchema` on the node `target`: on the schema of `ref`
itself, or further down, through a reference of a schema that is not being visited. -/
inductive WalkEnters (heap : Heap) : List SchemaId → SchemaRef → SchemaId → Prop
  | here (stack : List SchemaId) (ref : SchemaRef) (id : SchemaId) :
      ref.Value = some id → id ∉ stack → WalkEnters heap stack ref id
  | deeper (stack : List SchemaId) (ref : SchemaRef) (id : SchemaId) (s : Schema)
      (child : SchemaRef) (target : SchemaId) :
      ref.Value = some id → id ∉ stack → heap[id]? = some s → s.refersTo child →
      WalkEnters heap (id :: stack) child target → WalkEnters heap stack ref target

/-- The schema of a parameter in the list. -/
def parameterSchema (parameters : List (Option ParameterRef)) (ref : SchemaRef) : Prop :=
  ∃ pr param, some pr ∈ parameters ∧ pr.Value = some param ∧ param.Schema = some ref

/-- The schema of a media type of the content map. -/
def contentSchema (content : GoMap String (Option MediaType)) (ref : SchemaRef) : Prop :=
  ∃ ct media, (ct, some media) ∈ content ∧ media.Schema = some ref

/-- The schema references `WalkSpec` starts `walkSchema` on for one operation: those of
its parameters, of its request body and of its responses. -/
def OperationDoc.rootSchema (op : OperationDoc) (ref : SchemaRef) : Prop :=
  parameterSchema op.Parameters ref ∨
    (∃ rb body, op.RequestBody = some rb ∧ rb.Value = some body ∧
      contentSchema body.Content ref) ∨
    (∃ code rr resp, (code, some rr) ∈ op.Responses ∧ rr.Value = some resp ∧
      contentSchema resp.Content ref)

/-- The schema references `WalkSpec` starts `walkSchema` on: those of the path-level
parameters, of the operations, and the component schemas. -/
def Spec.rootSchema (spec : Spec) (ref : SchemaRef) : Prop :=
  (∃ pathName item, (pathName, some item) ∈ spec.Paths ∧
    (parameterSchema item.Parameters ref ∨
      ∃ m op, (m, some op) ∈ item.Operations ∧ op.rootSchema ref)) ∨
  (∃ comps name, spec.Components = some comps ∧ (name, some ref) ∈ comps.Schemas)

/-- The schema node `target` is reached by the walker: `WalkSpec` executes the body of
`walkSchema` on it. -/
def Spec.walkerReaches (spec : Spec) (target : SchemaId) : Prop :=
  ∃ ref, spec.rootSchema ref ∧ WalkEnters spec.heap [] ref target

/-- The schema `s` with `x-user-hint` set to `hint`. -/
def Schema.hinted (s : Schema) (hint : String) : Schema :=
  { s with Extensions := GoMap.set s.Extensions "x-user-hint" (ExtValue.str hint) }

/-- What holds of the state of the hint setter during a walk of a document with the
schema nodes `heap` when every selection gives `hint`: the selector is the one the walk
started with, and every schema node is as it was in `heap`, or is a node that is neither
an array nor an object with declared properties and has been given the hint. -/
def HintInv (heap : Heap) (answers : Nat → Answer) (hint : String)
    (st : Option HintState) : Prop :=
  ∀ hs, st = some hs →
    hs.world.answers = answers ∧
    ∀ j : SchemaId, hs.heap[j]? = heap[j]? ∨
      ∃ s : Schema, heap[j]? = some s ∧ ¬ s.isArray ∧ ¬ s.isObjectWithProperties ∧
        hs.heap[j]? = some (s.hinted hint)

/-- The schema node `p` carries `x-user-hint = hint`, if the hint setter is still
running. -/
def HintAt (p : SchemaId) (hint : String) (st : Option HintState) : Prop :=
  ∀ hs, st = some hs → hintOf hs.heap p = some (ExtValue.str hint)

/-- The schema `setHintsOnSchema` hands the request on to from the node `schema`: the
items of an array. -/
def nextArray (heap : Heap) (schema : SchemaId) : Option SchemaId :=
  (heap[schema]?).bind fun s =>
    if firstType s.Typ = "array" then s.Items.bind SchemaRef.Value else none

/-- From the node `schema`, the nesting of arrays in arrays ends within `d` levels. -/
def arrayEnds (heap : Heap) : Nat → SchemaId → Bool
  | 0, schema => (nextArray heap schema).isNone
  | d + 1, schema =>
    match nextArray heap schema with
    | none => true
    | some next => arrayEnds heap d next

/-- In the document with the schema nodes `heap`, the nesting of arrays in arrays ends
within `d` levels, from whatever node. -/
def arraysEnd (heap : Heap) (d : Nat) : Bool :=
  (List.range heap.length).all fun schema => arrayEnds heap d schema

/-- The hint setter is running in a state with `HintInv`. -/
def HintRuns (heap : Heap) (answers : Nat → Answer) (hint : String)
    (st : Option HintState) : Prop :=
  st.isSome = true ∧ HintInv heap answers hint st

/-- A schema node without its extensions. -/
def Schema.eraseExtensions (s : Schema) : Schema :=
  { s with Extensions := [] }

/-- The document of `testdata/simple.yaml` in which the response object already carries
`x-user-hint = "email"`. -/
def hintedObjectSpec : Spec :=
  oneOperationSpec
    [⟨some ["object"], "", [("x-user-hint", ExtValue.str "email")], none, none, 0, none, "",
        [], [("id", some (inline 1)), ("name", some (inline 2)), ("email", some (inline 3))],
        none, [], [], [], none, none⟩,
      scalarSchema "integer", scalarSchema "string", scalarSchema "string"]
    "/api/users" "GET" []
    ⟨[], none, [("200", jsonResponse (inline 0))]⟩

/-- A document whose response object has the property `children`, an array whose items
are that array itself. -/
def selfArraySpec : Spec :=
  oneOperationSpec
    [objectSchema [] [("children", some (inline 1))], arraySchema (inline 1)]
    "/api/trees" "GET" []
    ⟨[], none, [("200", jsonResponse (inline 0))]⟩

/-! # Theorems -/

/-! ## Lemmas on Go maps -/

namespace GoMap

variable {κ ν : Type} [DecidableEq κ]

theorem get?_set_self (m : GoMap κ ν) (k : κ) (v : ν) : get? (set m k v) k = some v := by
  induction m with
  | nil => simp [set, get?]
  | cons p rest ih =>
    obtain ⟨k', v'⟩ := p
    by_cases h : k' = k
    · simp [set, get?, h]
    · simp [set, get?, h, ih]

theorem get?_set_ne (m : GoMap κ ν) {k k' : κ} (v : ν) (h : k ≠ k') :
    get? (set m k v) k' = get? m k' := by
  induction m with
  | nil => simp [set, get?, h]
  | cons p rest ih =>
    obtain ⟨k₀, v₀⟩ := p
    by_cases h₀ : k₀ = k
    · subst h₀
      simp [set, get?, h]
    · by_cases h₁ : k₀ = k'
      · subst h₁
        simp [set, get?, h₀]
      · simp [set, get?, h₀, h₁, ih]

theorem get_set_self (z : ν) (m : GoMap κ ν) (k : κ) (v : ν) : get z (set m k v) k = v := by
  simp [get, get?_set_self]

theorem get_set_ne (z : ν) (m : GoMap κ ν) {k k' : κ} (v : ν) (h : k ≠ k') :
    get z (set m k v) k' = get z m k' := by
  simp [get, get?_set_ne m v h]

theorem mem_keys_set (m : GoMap κ ν) (k : κ) (v : ν) (x : κ) :
    x ∈ keys (set m k v) ↔ x = k ∨ x ∈ keys m := by
  induction m with
  | nil => simp [set, keys]
  | cons p rest ih =>
    obtain ⟨k₀, v₀⟩ := p
    by_cases h₀ : k₀ = k
    · subst h₀
      simp [set, keys]
    · simp only [set, h₀, if_false, keys, List.map_cons, List.mem_cons] at ih ⊢
      rw [ih]
      tauto

theorem nodup_keys_set (m : GoMap κ ν) (k : κ) (v : ν) (h : (keys m).Nodup) :
    (keys (set m k v)).Nodup := by
  induction m with
  | nil => simp [set, keys]
  | cons p rest ih =>
    obtain ⟨k₀, v₀⟩ := p
    have h' : k₀ ∉ keys rest ∧ (keys rest).Nodup := by
      simpa [keys] using h
    by_cases h₀ : k₀ = k
    · subst h₀
      simpa [set, keys] using h
    · have hmem := mem_keys_set rest k v k₀
      simp only [set, h₀, if_false, keys, List.map_cons, List.nodup_cons]
      refine ⟨?_, ih h'.2⟩
      intro hc
      rcases hmem.1 hc with h1 | h1
      · exact h₀ h1
      · exact h'.1 h1

theorem keys_set_of_mem (m : GoMap κ ν) (k : κ) (v : ν) (h : k ∈ keys m) :
    keys (set m k v) = keys m := by
  induction m with
  | nil => simp [keys] at h
  | cons p rest ih =>
    obtain ⟨k₀, v₀⟩ := p
    by_cases h₀ : k₀ = k
    · subst h₀
      simp [set, keys]
    · have : k ∈ keys rest := by
        have h2 : k = k₀ ∨ k ∈ keys rest := by simpa [keys] using h
        rcases h2 with h2 | h2
        · exact absurd h2.symm h₀
        · exact h2
      simp only [set, h₀, if_false, keys, List.map_cons]
      rw [show List.map Prod.fst (set rest k v) = keys (set rest k v) from rfl, ih this]
      rfl

theorem keys_set_of_not_mem (m : GoMap κ ν) (k : κ) (v : ν) (h : k ∉ keys m) :
    keys (set m k v) = keys m ++ [k] := by
  induction m with
  | nil => simp [set, keys]
  | cons p rest ih =>
    obtain ⟨k₀, v₀⟩ := p
    have h2 : ¬ k = k₀ ∧ k ∉ keys rest := by simpa [keys] using h
    have h₀ : ¬ k₀ = k := fun e => h2.1 e.symm
    simp only [set, h₀, if_false, keys, List.map_cons, List.cons_append]
    rw [show List.map Prod.fst (set rest k v) = keys (set rest k v) from rfl, ih h2.2]
    rfl

theorem get?_eq_none_iff (m : GoMap κ ν) (k : κ) : get? m k = none ↔ k ∉ keys m := by
  induction m with
  | nil => simp [get?, keys]
  | cons p rest ih =>
    obtain ⟨k₀, v₀⟩ := p
    by_cases h₀ : k₀ = k
    · simp [get?, keys, h₀]
    · have : ¬ k = k₀ := fun e => h₀ e.symm
      simp only [get?, h₀, if_false, ih, keys, List.map_cons, List.mem_cons, this, false_or]

theorem mem_iff_get?_of_nodup (m : GoMap κ ν) (h : (keys m).Nodup) (k : κ) (v : ν) :
    (k, v) ∈ m ↔ get? m k = some v := by
  induction m with
  | nil => simp [get?]
  | cons p rest ih =>
    obtain ⟨k₀, v₀⟩ := p
    have h' : k₀ ∉ keys rest ∧ (keys rest).Nodup := by
      simpa [keys] using h
    by_cases h₀ : k₀ = k
    · subst h₀
      have hn : ∀ w, (k₀, w) ∉ rest := by
        intro w hw
        exact h'.1 (List.mem_map_of_mem Prod.fst hw)
      simp [get?, hn]
      exact eq_comm
    · have : ¬ k = k₀ := fun e => h₀ e.symm
      simp [get?, h₀, this, ih h'.2]

end GoMap

/-! ## Lemmas on `goRange` -/

theorem perm_get?_eraseIdx {α : Type} (l : List α) (i : Nat) (h : i < l.length) :
    List.Perm ((l.get? i).toList ++ l.eraseIdx i) l := by
  induction l generalizing i with
  | nil => simp at h
  | cons x xs ih =>
    cases i with
    | zero => simp
    | succ j =>
      have hj : j < xs.length := by simpa using h
      have := ih j hj
      simp only [List.get?_cons_succ, List.eraseIdx_cons_succ]
      exact (List.perm_middle).trans (List.Perm.cons x this)

theorem goRange_perm {α : Type} (seed : List Nat) (l : List α) :
    List.Perm (goRange seed l) l := by
  induction seed generalizing l with
  | nil => cases l <;> simp [goRange]
  | cons s seed ih =>
    cases l with
    | nil => simp [goRange]
    | cons x xs =>
      simp only [goRange]
      have hlt : s % (x :: xs).length < (x :: xs).length :=
        Nat.mod_lt _ (by simp)
      exact (List.Perm.append_left _ (ih _)).trans (perm_get?_eraseIdx _ _ hlt)

namespace ScenarioGraph

/-! ## Lemmas on the maps built by `TopologicalSort` -/

theorem foldl_init_spec (vs : GoMap Int ScenarioGraphVertex) (m : GoMap Int Int)
    (hn : (GoMap.keys m).Nodup) (hz : ∀ v, GoMap.get 0 m v = 0) :
    (GoMap.keys (vs.foldl (fun inDegree p => GoMap.set inDegree p.1 0) m)).Nodup ∧
    (∀ v, v ∈ GoMap.keys (vs.foldl (fun inDegree p => GoMap.set inDegree p.1 0) m) ↔
      v ∈ GoMap.keys m ∨ v ∈ GoMap.keys vs) ∧
    (∀ v, GoMap.get 0 (vs.foldl (fun inDegree p => GoMap.set inDegree p.1 0) m) v = 0) := by
  induction vs generalizing m with
  | nil =>
    refine ⟨hn, fun v => ?_, hz⟩
    simp [GoMap.keys]
  | cons p rest ih =>
    simp only [List.foldl_cons]
    have hz' : ∀ v, GoMap.get 0 (GoMap.set m p.1 0) v = 0 := by
      intro v
      by_cases h : p.1 = v
      · subst h; exact GoMap.get_set_self 0 m _ 0
      · rw [GoMap.get_set_ne 0 m 0 h]; exact hz v
    obtain ⟨h1, h2, h3⟩ := ih (GoMap.set m p.1 0) (GoMap.nodup_keys_set m _ _ hn) hz'
    refine ⟨h1, ?_, h3⟩
    intro v
    rw [h2, GoMap.mem_keys_set]
    simp only [GoMap.keys, List.map_cons, List.mem_cons]
    tauto

theorem initInDegree_spec (g : ScenarioGraph) :
    (GoMap.keys (initInDegree g)).Nodup ∧
    (∀ v, v ∈ GoMap.keys (initInDegree g) ↔ v ∈ GoMap.keys g.vertices) ∧
    (∀ v, GoMap.get 0 (initInDegree g) v = 0) := by
  have := foldl_init_spec g.vertices [] (by simp [GoMap.keys]) (by intro v; rfl)
  refine ⟨this.1, ?_, this.2.2⟩
  intro v
  have h := this.2.1 v
  simpa [GoMap.keys] using h

theorem countInDegree_spec (edges : List ScenarioGraphEdge) (m : GoMap Int Int)
    (hn : (GoMap.keys m).Nodup) :
    (GoMap.keys (countInDegree edges m)).Nodup ∧
    (∀ v, v ∈ GoMap.keys (countInDegree edges m) ↔
      v ∈ GoMap.keys m ∨ ∃ e ∈ edges, e.To = v) ∧
    (∀ v, GoMap.get 0 (countInDegree edges m) v =
      GoMap.get 0 m v + (edges.countP (fun e => e.To = v) : Nat)) := by
  induction edges generalizing m with
  | nil => simp [countInDegree, hn]
  | cons e rest ih =>
    have hstep : countInDegree (e :: rest) m =
        countInDegree rest (GoMap.set m e.To (GoMap.get 0 m e.To + 1)) := rfl
    rw [hstep]
    obtain ⟨h1, h2, h3⟩ := ih _ (GoMap.nodup_keys_set m e.To (GoMap.get 0 m e.To + 1) hn)
    refine ⟨h1, ?_, ?_⟩
    · intro v
      rw [h2, GoMap.mem_keys_set]
      simp only [List.mem_cons, exists_eq_or_imp]
      constructor
      · rintro ((h | h) | h)
        · exact Or.inr (Or.inl h.symm)
        · exact Or.inl h
        · exact Or.inr (Or.inr h)
      · rintro (h | h | h)
        · exact Or.inl (Or.inr h)
        · exact Or.inl (Or.inl h.symm)
        · exact Or.inr h
    · intro v
      rw [h3, List.countP_cons]
      by_cases h : e.To = v
      · subst h
        rw [GoMap.get_set_self]
        simp
        ring
      · rw [GoMap.get_set_ne 0 m _ h]
        simp [h]

theorem foldl_adjacency_spec (edges : List ScenarioGraphEdge) (m : GoMap Int (List Int))
    (u : Int) :
    GoMap.get [] (edges.foldl
      (fun m e => GoMap.set m e.From (GoMap.get [] m e.From ++ [e.To])) m) u =
    GoMap.get [] m u ++ (edges.filter (fun e => e.From = u)).map (fun e => e.To) := by
  induction edges generalizing m with
  | nil => simp
  | cons e rest ih =>
    simp only [List.foldl_cons]
    rw [ih]
    by_cases h : e.From = u
    · subst h
      rw [GoMap.get_set_self]
      simp [List.filter_cons]
    · rw [GoMap.get_set_ne [] m _ h]
      simp [List.filter_cons, h]

theorem buildAdjacency_spec (edges : List ScenarioGraphEdge) (u : Int) :
    GoMap.get [] (buildAdjacency edges) u =
      (edges.filter (fun e => e.From = u)).map (fun e => e.To) := by
  have := foldl_adjacency_spec edges [] u
  simpa [buildAdjacency, GoMap.get, GoMap.get?] using this

theorem mem_seedQueue (seed : List Nat) (m : GoMap Int Int) (hn : (GoMap.keys m).Nodup)
    (v : Int) :
    v ∈ seedQueue seed m ↔ v ∈ GoMap.keys m ∧ GoMap.get 0 m v = 0 := by
  unfold seedQueue
  constructor
  · intro h
    obtain ⟨⟨k, d⟩, hp, hkv⟩ := List.mem_map.1 h
    simp only at hkv
    subst hkv
    obtain ⟨hmem, hd⟩ := List.mem_filter.1 hp
    have hd' : d = 0 := by simpa using hd
    have hm : (k, d) ∈ m := (goRange_perm seed m).mem_iff.1 hmem
    have hg := (GoMap.mem_iff_get?_of_nodup m hn k d).1 hm
    refine ⟨List.mem_map_of_mem Prod.fst hm, ?_⟩
    simp [GoMap.get, hg, hd']
  · rintro ⟨hk, hz⟩
    obtain ⟨⟨k, d⟩, hp, hkv⟩ := List.mem_map.1 hk
    simp only at hkv
    subst hkv
    have hg := (GoMap.mem_iff_get?_of_nodup m hn k d).1 hp
    have hd : d = 0 := by simpa [GoMap.get, hg] using hz
    refine List.mem_map.2 ⟨(k, d), List.mem_filter.2 ⟨(goRange_perm seed m).mem_iff.2 hp, ?_⟩, rfl⟩
    simp [hd]

theorem nodup_seedQueue (seed : List Nat) (m : GoMap Int Int) (hn : (GoMap.keys m).Nodup) :
    (seedQueue seed m).Nodup := by
  unfold seedQueue
  have h1 : (List.map Prod.fst (goRange seed m)).Nodup :=
    ((goRange_perm seed m).map Prod.fst).nodup_iff.2 hn
  exact (List.Nodup.sublist (List.Sublist.map Prod.fst (List.filter_sublist _)) h1)

end ScenarioGraph

namespace ScenarioGraph

/-! ## The inner loop of `TopologicalSort` -/

theorem relaxOne_fst (deg : GoMap Int Int) (q : List Int) (n : Int) :
    (relaxOne (deg, q) n).1 = GoMap.set deg n (GoMap.get 0 deg n - 1) := by
  simp only [relaxOne]
  split <;> rfl

theorem relaxOne_snd (deg : GoMap Int Int) (q : List Int) (n : Int) :
    (relaxOne (deg, q) n).2 = if GoMap.get 0 deg n - 1 = 0 then q ++ [n] else q := by
  simp only [relaxOne, GoMap.get_set_self]
  split <;> rfl

theorem relaxNeighbors_cons (n : Int) (rest : List Int) (deg : GoMap Int Int) (q : List Int) :
    relaxNeighbors (n :: rest) deg q =
      relaxNeighbors rest (relaxOne (deg, q) n).1 (relaxOne (deg, q) n).2 := rfl

theorem relaxNeighbors_spec (nbrs : List Int) (deg : GoMap Int Int) (q : List Int)
    (hpre : ∀ v ∈ nbrs, ((nbrs.count v : Nat) : Int) ≤ GoMap.get 0 deg v) :
    (∀ v, GoMap.get 0 (relaxNeighbors nbrs deg q).1 v =
      GoMap.get 0 deg v - ((nbrs.count v : Nat) : Int)) ∧
    ∃ newq, (relaxNeighbors nbrs deg q).2 = q ++ newq ∧ newq.Nodup ∧
      ∀ v, v ∈ newq ↔ v ∈ nbrs ∧ GoMap.get 0 deg v = ((nbrs.count v : Nat) : Int) := by
  induction nbrs generalizing deg q with
  | nil =>
    refine ⟨fun v => by simp [relaxNeighbors], [], by simp [relaxNeighbors], List.nodup_nil, ?_⟩
    intro v
    simp
  | cons n rest ih =>
    rw [relaxNeighbors_cons, relaxOne_fst, relaxOne_snd]
    have hget : ∀ v, GoMap.get 0 (GoMap.set deg n (GoMap.get 0 deg n - 1)) v =
        if v = n then GoMap.get 0 deg n - 1 else GoMap.get 0 deg v := by
      intro v
      by_cases h : v = n
      · subst h
        simp [GoMap.get_set_self]
      · have h' : n ≠ v := fun e => h e.symm
        simp [GoMap.get_set_ne 0 deg _ h', h]
    have hcount : ∀ v, (List.count v (n :: rest)) =
        List.count v rest + if v = n then 1 else 0 := by
      intro v
      rw [List.count_cons]
      by_cases h : v = n
      · subst h; simp
      · have h' : ¬ n = v := fun e => h e.symm
        simp [h, h']
    have hpre' : ∀ v ∈ rest, ((rest.count v : Nat) : Int) ≤
        GoMap.get 0 (GoMap.set deg n (GoMap.get 0 deg n - 1)) v := by
      intro v hv
      have h1 := hpre v (List.mem_cons_of_mem _ hv)
      rw [hcount v] at h1
      rw [hget v]
      by_cases h : v = n
      · subst h
        simp only [if_true] at h1 ⊢
        push_cast at h1
        omega
      · simp only [h, if_false] at h1 ⊢
        simpa using h1
    obtain ⟨ih1, newq, ih2, ih3, ih4⟩ :=
      ih (GoMap.set deg n (GoMap.get 0 deg n - 1))
        (if GoMap.get 0 deg n - 1 = 0 then q ++ [n] else q) hpre'
    have hn := hpre n (List.mem_cons_self _ _)
    rw [hcount n] at hn
    simp only [if_true] at hn
    push_cast at hn
    refine ⟨?_, ?_⟩
    · intro v
      rw [ih1 v, hget v, hcount v]
      by_cases h : v = n
      · subst h
        simp only [if_true]
        push_cast
        ring
      · simp [h]
    · by_cases hz : GoMap.get 0 deg n - 1 = 0
      · have hnr : n ∉ rest := by
          intro hmem
          have : 0 < rest.count n := List.count_pos_iff.2 hmem
          omega
        have hnq : n ∉ newq := fun hmem => hnr ((ih4 n).1 hmem).1
        refine ⟨n :: newq, ?_, List.nodup_cons.2 ⟨hnq, ih3⟩, ?_⟩
        · rw [ih2]; simp [hz]
        · intro v
          rw [List.mem_cons, ih4 v, hget v, hcount v]
          by_cases h : v = n
          · subst h
            have hc0 : rest.count v = 0 := List.count_eq_zero.2 hnr
            simp only [if_true, hc0, true_or, List.mem_cons, true_and, true_iff]
            push_cast
            omega
          · simp [h]
      · refine ⟨newq, ?_, ih3, ?_⟩
        · rw [ih2]; simp [hz]
        · intro v
          rw [ih4 v, hget v, hcount v]
          by_cases h : v = n
          · subst h
            simp only [if_true, List.mem_cons, true_or, true_and]
            constructor
            · rintro ⟨_, h2⟩
              push_cast
              omega
            · intro h2
              push_cast at h2
              refine ⟨?_, by omega⟩
              by_contra hmem
              have hc0 : rest.count v = 0 := List.count_eq_zero.2 hmem
              rw [hc0] at h2
              simp at h2
              omega
          · simp [h]

end ScenarioGraph

namespace ScenarioGraph

/-! ## The main loop of `TopologicalSort` -/

theorem pendingInto_append (edges : List ScenarioGraphEdge) (done : List Int) (c v : Int)
    (hc : c ∉ done) :
    pendingInto edges done v =
      pendingInto edges (done ++ [c]) v + edges.countP (fun e => e.From = c ∧ e.To = v) := by
  unfold pendingInto
  induction edges with
  | nil => simp
  | cons e rest ih =>
    simp only [List.countP_cons, ih]
    by_cases h1 : e.To = v
    · by_cases h2 : e.From = c
      · have : e.From ∉ done := h2 ▸ hc
        simp [h1, h2, this, hc]
        omega
      · by_cases h3 : e.From ∈ done
        · simp [h1, h2, h3]
        · simp [h1, h2, h3]
          omega
    · simp [h1]

theorem count_adjacent (edges : List ScenarioGraphEdge) (c v : Int) :
    ((edges.filter (fun e => e.From = c)).map (fun e => e.To)).count v =
      edges.countP (fun e => e.From = c ∧ e.To = v) := by
  induction edges with
  | nil => simp
  | cons e rest ih =>
    by_cases h2 : e.From = c
    · by_cases h1 : e.To = v
      · simp [List.filter_cons, List.countP_cons, h1, h2, ih]
      · simp [List.filter_cons, List.countP_cons, h1, h2, ih, List.count_cons]
    · simp [List.filter_cons, List.countP_cons, h2, ih]

theorem pendingInto_eq_zero (edges : List ScenarioGraphEdge) (done : List Int) (v : Int)
    (h : pendingInto edges done v = 0) : ∀ e ∈ edges, e.To = v → e.From ∈ done := by
  intro e he hv
  by_contra hn
  have : 0 < pendingInto edges done v := by
    unfold pendingInto
    exact List.countP_pos_iff.2 ⟨e, he, by simp [hv, hn]⟩
  omega

theorem pendingInto_pos (edges : List ScenarioGraphEdge) (done : List Int) (v : Int)
    (h : pendingInto edges done v ≠ 0) : ∃ e ∈ edges, e.To = v ∧ e.From ∉ done := by
  unfold pendingInto at h
  have hp : 0 < edges.countP (fun e => e.To = v ∧ e.From ∉ done) := Nat.pos_of_ne_zero h
  obtain ⟨e, he, hpe⟩ := List.countP_pos_iff.1 hp
  exact ⟨e, he, by simpa using hpe⟩

theorem kahnInv_step {edges : List ScenarioGraphEdge} {K : List Int}
    (hK : ∀ e ∈ edges, e.To ∈ K) {deg : GoMap Int Int} {c : Int} {q result : List Int}
    (inv : KahnInv edges K deg (c :: q) result) :
    KahnInv edges K
      (relaxNeighbors ((edges.filter (fun e => e.From = c)).map (fun e => e.To)) deg q).1
      (relaxNeighbors ((edges.filter (fun e => e.From = c)).map (fun e => e.To)) deg q).2
      (result ++ [c]) := by
  have hnd := inv.nodup
  have hc_res : c ∉ result := by
    intro hmem
    have := (List.nodup_append.1 hnd).2.2
    exact this hmem (List.mem_cons_self _ _)
  have hc_q : c ∉ q := by
    have := (List.nodup_append.1 hnd).2.1
    exact (List.nodup_cons.1 this).1
  have hsplit := fun v => pendingInto_append edges result c v hc_res
  have hcnt := fun v => count_adjacent edges c v
  have hpre : ∀ v ∈ (edges.filter (fun e => e.From = c)).map (fun e => e.To),
      (((List.count v ((edges.filter (fun e => e.From = c)).map (fun e => e.To))) : Nat) : Int) ≤
        GoMap.get 0 deg v := by
    intro v _
    rw [inv.deg_eq v, hsplit v, hcnt v]
    push_cast
    omega
  obtain ⟨r1, newq, r2, r3, r4⟩ := relaxNeighbors_spec _ deg q hpre
  have hdeg' : ∀ v, GoMap.get 0
      (relaxNeighbors ((edges.filter (fun e => e.From = c)).map (fun e => e.To)) deg q).1 v =
        ((pendingInto edges (result ++ [c]) v : Nat) : Int) := by
    intro v
    rw [r1 v, inv.deg_eq v, hsplit v, hcnt v]
    push_cast
    ring
  have hold : ∀ v, v ∈ result ++ [c] ++ q ↔ v ∈ result ++ c :: q := by
    intro v
    simp only [List.mem_append, List.mem_cons, List.mem_singleton, List.not_mem_nil, or_false]
    tauto
  have hcz : ∀ v, (v ∈ (edges.filter (fun e => e.From = c)).map (fun e => e.To)) ↔
      edges.countP (fun e => e.From = c ∧ e.To = v) ≠ 0 := by
    intro v
    rw [← hcnt v]
    constructor
    · intro h
      exact Nat.pos_iff_ne_zero.1 (List.count_pos_iff.2 h)
    · intro h
      exact List.count_pos_iff.1 (Nat.pos_of_ne_zero h)
  refine ⟨hdeg', ?_, ?_, ?_⟩
  · intro v
    have e1 := hsplit v
    have e2 := inv.deg_eq v
    have e3 := hdeg' v
    have e4 := r4 v
    rw [hcz v, hcnt v, e2] at e4
    rw [r2, ← List.append_assoc, List.mem_append, hold v, inv.mem_iff v, e4, e3, e2]
    have hkv : edges.countP (fun e => e.From = c ∧ e.To = v) ≠ 0 → v ∈ K := by
      intro hne
      obtain ⟨e, he, hpe⟩ := List.countP_pos_iff.1 (Nat.pos_of_ne_zero hne)
      have : e.From = c ∧ e.To = v := by simpa using hpe
      exact this.2 ▸ hK e he
    constructor
    · rintro (⟨hk, h0⟩ | ⟨hne, heq⟩)
      · refine ⟨hk, ?_⟩
        omega
      · refine ⟨hkv hne, ?_⟩
        omega
    · rintro ⟨hk, h0⟩
      by_cases hz : edges.countP (fun e => e.From = c ∧ e.To = v) = 0
      · left
        refine ⟨hk, ?_⟩
        omega
      · right
        refine ⟨hz, ?_⟩
        omega
  · rw [r2, ← List.append_assoc]
    have hperm : List.Perm (result ++ [c] ++ q) (result ++ c :: q) := by
      simp
    have hnd' : (result ++ [c] ++ q).Nodup := hperm.nodup_iff.2 hnd
    refine List.nodup_append.2 ⟨hnd', r3, ?_⟩
    intro v hv1 hv2
    have h1 := (inv.mem_iff v).1 ((hold v).1 hv1)
    have h2 := (r4 v).1 hv2
    have hpos : 0 < List.count v ((edges.filter (fun e => e.From = c)).map (fun e => e.To)) :=
      List.count_pos_iff.2 h2.1
    have := h2.2
    rw [h1.2] at this
    omega
  · intro e he hto
    rcases List.mem_append.1 hto with hto | hto
    · obtain ⟨o1, o2⟩ := inv.order e he hto
      refine ⟨List.mem_append_left _ o1, ?_⟩
      rw [List.indexOf_append_of_mem o1, List.indexOf_append_of_mem hto]
      exact o2
    · have hto' : e.To = c := by simpa using hto
      have hcq : c ∈ result ++ c :: q := by simp
      have h0 := ((inv.mem_iff c).1 hcq).2
      rw [inv.deg_eq c] at h0
      have h0' : pendingInto edges result c = 0 := by exact_mod_cast h0
      have hfrom : e.From ∈ result := pendingInto_eq_zero edges result c h0' e he hto'
      refine ⟨List.mem_append_left _ hfrom, ?_⟩
      rw [List.indexOf_append_of_mem hfrom, hto', List.indexOf_append_of_not_mem hc_res]
      have := List.indexOf_lt_length.2 hfrom
      omega

end ScenarioGraph

namespace ScenarioGraph

theorem kahnLoop_spec {edges : List ScenarioGraphEdge} {K : List Int}
    {adj : GoMap Int (List Int)}
    (hadj : ∀ u, GoMap.get [] adj u = (edges.filter (fun e => e.From = u)).map (fun e => e.To))
    (hK : ∀ e ∈ edges, e.To ∈ K) :
    ∀ (fuel : Nat) (deg : GoMap Int Int) (queue result : List Int),
      KahnInv edges K deg queue result → K.length < fuel + result.length →
      ∃ res deg', kahnLoop adj fuel deg queue result = some res ∧
        KahnInv edges K deg' [] res := by
  intro fuel
  induction fuel with
  | zero =>
    intro deg queue result inv hlt
    cases queue with
    | nil => exact ⟨result, deg, by simp [kahnLoop], inv⟩
    | cons c q =>
      exfalso
      have hsub : result ++ c :: q ⊆ K := fun v hv => ((inv.mem_iff v).1 hv).1
      have hle := (inv.nodup.subperm hsub).length_le
      simp only [List.length_append, List.length_cons] at hle
      omega
  | succ f ih =>
    intro deg queue result inv hlt
    cases queue with
    | nil => exact ⟨result, deg, by simp [kahnLoop], inv⟩
    | cons c q =>
      have hstep := kahnInv_step hK inv
      rw [← hadj c] at hstep
      have hlt' : K.length < f + (result ++ [c]).length := by
        simp only [List.length_append, List.length_singleton]
        omega
      obtain ⟨res, deg', h1, h2⟩ := ih _ _ _ hstep hlt'
      exact ⟨res, deg', by simpa [kahnLoop] using h1, h2⟩

theorem kahnInv_init (g : ScenarioGraph) (seed : List Nat) :
    KahnInv g.edges (GoMap.keys (countInDegree g.edges (initInDegree g)))
      (countInDegree g.edges (initInDegree g))
      (seedQueue seed (countInDegree g.edges (initInDegree g))) [] := by
  obtain ⟨i1, _, i3⟩ := initInDegree_spec g
  obtain ⟨c1, _, c3⟩ := countInDegree_spec g.edges (initInDegree g) i1
  refine ⟨?_, ?_, ?_, ?_⟩
  · intro v
    rw [c3 v, i3 v]
    simp [pendingInto]
  · intro v
    simpa using mem_seedQueue seed _ c1 v
  · simpa using nodup_seedQueue seed _ c1
  · intro e _ h
    simp at h

/-- The main loop returns within `|keys inDegree| + 1` iterations, and its result
satisfies the loop invariant with an empty queue. -/
theorem kahnLoop_result (g : ScenarioGraph) (seed : List Nat) (fuel : Nat)
    (hfuel : (GoMap.keys (countInDegree g.edges (initInDegree g))).length < fuel) :
    ∃ res deg', kahnLoop (buildAdjacency g.edges) fuel (countInDegree g.edges (initInDegree g))
        (seedQueue seed (countInDegree g.edges (initInDegree g))) [] = some res ∧
      KahnInv g.edges (GoMap.keys (countInDegree g.edges (initInDegree g))) deg' [] res := by
  obtain ⟨i1, _, _⟩ := initInDegree_spec g
  obtain ⟨_, c2, _⟩ := countInDegree_spec g.edges (initInDegree g) i1
  refine kahnLoop_spec (buildAdjacency_spec g.edges) ?_ fuel _ _ _ (kahnInv_init g seed) ?_
  · intro e he
    exact (c2 e.To).2 (Or.inr ⟨e, he, rfl⟩)
  · simpa using hfuel

theorem keys_inDegree_perm (g : ScenarioGraph) (hw : g.WellKeyed) (hj : g.EdgesJoinVertices) :
    List.Perm (GoMap.keys (countInDegree g.edges (initInDegree g))) (GoMap.keys g.vertices) := by
  obtain ⟨i1, i2, _⟩ := initInDegree_spec g
  obtain ⟨c1, c2, _⟩ := countInDegree_spec g.edges (initInDegree g) i1
  refine (List.perm_ext_iff_of_nodup c1 hw).2 ?_
  intro v
  rw [c2 v, i2 v]
  constructor
  · rintro (h | ⟨e, he, rfl⟩)
    · exact h
    · exact (hj e he).2
  · intro h
    exact Or.inl h

theorem order_transGen {g : ScenarioGraph} {res : List Int}
    (hord : ∀ e ∈ g.edges, e.To ∈ res → e.From ∈ res ∧ res.indexOf e.From < res.indexOf e.To)
    {u w : Int} (h : Relation.TransGen (EdgeRel g) u w) (hw : w ∈ res) :
    u ∈ res ∧ res.indexOf u < res.indexOf w := by
  induction h with
  | single h1 =>
    obtain ⟨e, he, rfl, rfl⟩ := h1
    exact hord e he hw
  | tail _ h2 ih =>
    obtain ⟨e, he, rfl, rfl⟩ := h2
    obtain ⟨o1, o2⟩ := hord e he hw
    obtain ⟨o3, o4⟩ := ih o1
    exact ⟨o3, lt_trans o4 o2⟩

/-- With an empty queue the invariant leaves no vertex of an acyclic graph out. -/
theorem all_sorted_of_acyclic (g : ScenarioGraph) (hj : g.EdgesJoinVertices)
    (hac : ¬ g.HasCycle) {K : List Int} (hKv : ∀ v, v ∈ GoMap.keys g.vertices → v ∈ K)
    {deg : GoMap Int Int} {res : List Int} (inv : KahnInv g.edges K deg [] res) :
    ∀ v, v ∈ GoMap.keys g.vertices → v ∈ res := by
  classical
  by_contra hcon
  push_neg at hcon
  obtain ⟨v0, hv0, hv0res⟩ := hcon
  let r : {v // v ∈ GoMap.keys g.vertices} → {v // v ∈ GoMap.keys g.vertices} → Prop :=
    fun a b => Relation.TransGen (EdgeRel g) a.1 b.1
  haveI : IsTrans _ r := ⟨fun a b c h1 h2 => Relation.TransGen.trans h1 h2⟩
  haveI : IsIrrefl _ r := ⟨fun a h => hac ⟨a.1, h⟩⟩
  have hwf : WellFounded r := Finite.wellFounded_of_trans_of_irrefl r
  obtain ⟨m, hm, hmin⟩ := hwf.has_min {a | a.1 ∉ res} ⟨⟨v0, hv0⟩, hv0res⟩
  have hm' : m.1 ∉ res := hm
  have hdeg : GoMap.get 0 deg m.1 ≠ 0 := by
    intro h0
    have := (inv.mem_iff m.1).2 ⟨hKv _ m.2, h0⟩
    simp at this
    exact hm' this
  rw [inv.deg_eq] at hdeg
  have hne : pendingInto g.edges res m.1 ≠ 0 := by exact_mod_cast hdeg
  obtain ⟨e, he, hto, hfrom⟩ := pendingInto_pos g.edges res m.1 hne
  exact hmin ⟨e.From, (hj e he).1⟩ hfrom (Relation.TransGen.single ⟨e, he, rfl, hto⟩)

end ScenarioGraph

namespace ScenarioGraph

theorem not_hasCycle_of_increasing (g : ScenarioGraph)
    (h : ∀ e ∈ g.edges, e.From < e.To) : ¬ g.HasCycle := by
  rintro ⟨v, hv⟩
  have key : ∀ u w, Relation.TransGen (EdgeRel g) u w → u < w := by
    intro u w huw
    induction huw with
    | single h1 =>
      obtain ⟨e, he, rfl, rfl⟩ := h1
      exact h e he
    | tail _ h2 ih =>
      obtain ⟨e, he, rfl, rfl⟩ := h2
      exact lt_trans ih (h e he)
  exact lt_irrefl v (key v v hv)

theorem topologicalSort_eq (g : ScenarioGraph) (seed : List Nat) (fuel : Nat) (res : List Int)
    (h : kahnLoop (buildAdjacency g.edges) fuel (countInDegree g.edges (initInDegree g))
        (seedQueue seed (countInDegree g.edges (initInDegree g))) [] = some res) :
    g.TopologicalSort seed fuel =
      if res.length ≠ g.vertices.length then some (none, some cycleError)
      else some (some res, none) := by
  simp only [TopologicalSort, h]

end ScenarioGraph

/-- C1. On a graph whose edges join existing vertices and form no directed cycle,
`TopologicalSort` returns, without error, a list holding every vertex id exactly once
and nothing else, in which the source of every edge comes strictly before its target;
for vertices 0, 1, 2 with the edges 0->1, 1->2, 0->2 the list is `[0, 1, 2]`. -/
theorem topologicalSort_acyclic :
    (∀ (g : ScenarioGraph) (seed : List Nat) (fuel : Nat),
      g.WellKeyed → g.EdgesJoinVertices → ¬ g.HasCycle → g.vertices.length < fuel →
      ∃ order, g.TopologicalSort seed fuel = some (some order, none) ∧
        List.Perm order (GoMap.keys g.vertices) ∧
        ∀ e ∈ g.edges, order.indexOf e.From < order.indexOf e.To) ∧
    (∀ (seed : List Nat) (fuel : Nat), 3 < fuel →
      triangleGraph.TopologicalSort seed fuel = some (some [0, 1, 2], none)) := by
  have general : ∀ (g : ScenarioGraph) (seed : List Nat) (fuel : Nat),
      g.WellKeyed → g.EdgesJoinVertices → ¬ g.HasCycle → g.vertices.length < fuel →
      ∃ order, g.TopologicalSort seed fuel = some (some order, none) ∧
        List.Perm order (GoMap.keys g.vertices) ∧
        ∀ e ∈ g.edges, order.indexOf e.From < order.indexOf e.To := by
    intro g seed fuel hw hj hac hfuel
    have hperm := ScenarioGraph.keys_inDegree_perm g hw hj
    have hlen : (GoMap.keys g.vertices).length = g.vertices.length := by simp [GoMap.keys]
    obtain ⟨res, deg', hrun, inv⟩ := ScenarioGraph.kahnLoop_result g seed fuel
      (by rw [hperm.length_eq, hlen]; exact hfuel)
    have hall := ScenarioGraph.all_sorted_of_acyclic g hj hac
      (fun v hv => hperm.mem_iff.2 hv) inv
    have hnd : res.Nodup := by simpa using inv.nodup
    have hres : List.Perm res (GoMap.keys g.vertices) := by
      refine (List.perm_ext_iff_of_nodup hnd hw).2 fun v => ⟨fun hv => ?_, hall v⟩
      have := ((inv.mem_iff v).1 (by simpa using hv)).1
      exact hperm.mem_iff.1 this
    refine ⟨res, ?_, hres, ?_⟩
    · rw [ScenarioGraph.topologicalSort_eq g seed fuel res hrun]
      have : res.length = g.vertices.length := by rw [hres.length_eq, hlen]
      simp [this]
    · intro e he
      exact (inv.order e he (hall _ (hj e he).2)).2
  refine ⟨general, ?_⟩
  intro seed fuel hfuel
  obtain ⟨order, h1, h2, h3⟩ := general triangleGraph seed fuel (by decide)
    (by decide) (ScenarioGraph.not_hasCycle_of_increasing _ (by decide)) hfuel
  have hmem : order ∈ List.permutations' [0, 1, 2] := List.mem_permutations'.2 h2
  have h01 := h3 ⟨0, 1, []⟩ (by simp [triangleGraph])
  have h12 := h3 ⟨1, 2, []⟩ (by simp [triangleGraph])
  have hfin : ∀ l ∈ List.permutations' ([0, 1, 2] : List Int),
      l.indexOf 0 < l.indexOf 1 → l.indexOf 1 < l.indexOf 2 → l = [0, 1, 2] := by decide
  rw [h1, hfin order hmem h01 h12]

/-- Witness for C1: the triangle graph meets the hypotheses of the general statement. -/
theorem topologicalSort_acyclic_witness :
    ∃ order, triangleGraph.TopologicalSort [] 4 = some (some order, none) ∧
      List.Perm order (GoMap.keys triangleGraph.vertices) ∧
      ∀ e ∈ triangleGraph.edges, order.indexOf e.From < order.indexOf e.To :=
  topologicalSort_acyclic.1 triangleGraph [] 4 (by decide) (by decide)
    (ScenarioGraph.not_hasCycle_of_increasing _ (by decide)) (by decide)

/-- C2. On a graph whose edges join existing vertices and which contains a directed
cycle, `TopologicalSort` returns the pair of a nil ordering and the cycle error; so it
does for vertices 0, 1 with the edges 0->1 and 1->0. -/
theorem topologicalSort_cyclic :
    (∀ (g : ScenarioGraph) (seed : List Nat) (fuel : Nat),
      g.WellKeyed → g.EdgesJoinVertices → g.HasCycle → g.vertices.length < fuel →
      g.TopologicalSort seed fuel = some (none, some ScenarioGraph.cycleError)) ∧
    (∀ (seed : List Nat) (fuel : Nat), 2 < fuel →
      twoCycleGraph.TopologicalSort seed fuel = some (none, some ScenarioGraph.cycleError)) := by
  have general : ∀ (g : ScenarioGraph) (seed : List Nat) (fuel : Nat),
      g.WellKeyed → g.EdgesJoinVertices → g.HasCycle → g.vertices.length < fuel →
      g.TopologicalSort seed fuel = some (none, some ScenarioGraph.cycleError) := by
    intro g seed fuel hw hj hcyc hfuel
    have hperm := ScenarioGraph.keys_inDegree_perm g hw hj
    have hlen : (GoMap.keys g.vertices).length = g.vertices.length := by simp [GoMap.keys]
    obtain ⟨res, deg', hrun, inv⟩ := ScenarioGraph.kahnLoop_result g seed fuel
      (by rw [hperm.length_eq, hlen]; exact hfuel)
    rw [ScenarioGraph.topologicalSort_eq g seed fuel res hrun]
    have hne : res.length ≠ g.vertices.length := by
      intro heq
      have hnd : res.Nodup := by simpa using inv.nodup
      have hsub : res ⊆ GoMap.keys g.vertices := by
        intro v hv
        exact hperm.mem_iff.1 ((inv.mem_iff v).1 (by simpa using hv)).1
      have hp : List.Perm res (GoMap.keys g.vertices) :=
        (hnd.subperm hsub).perm_of_length_le (by rw [hlen, heq])
      obtain ⟨v, hv⟩ := hcyc
      have hvk : v ∈ GoMap.keys g.vertices := by
        cases hv with
        | single h1 =>
          obtain ⟨e, he, _, hto⟩ := h1
          exact hto ▸ (hj e he).2
        | tail _ h2 =>
          obtain ⟨e, he, _, hto⟩ := h2
          exact hto ▸ (hj e he).2
      have hvr : v ∈ res := hp.mem_iff.2 hvk
      exact lt_irrefl _ (ScenarioGraph.order_transGen inv.order hv hvr).2
    simp [hne]
  refine ⟨general, ?_⟩
  intro seed fuel hfuel
  refine general twoCycleGraph seed fuel (by decide) (by decide) ?_ hfuel
  have h01 : twoCycleGraph.EdgeRel 0 1 := ⟨⟨0, 1, []⟩, by simp [twoCycleGraph], rfl, rfl⟩
  have h10 : twoCycleGraph.EdgeRel 1 0 := ⟨⟨1, 0, []⟩, by simp [twoCycleGraph], rfl, rfl⟩
  exact ⟨0, Relation.TransGen.tail (Relation.TransGen.single h01) h10⟩

/-- Witness for C2: a graph with a single self-loop meets the hypotheses. -/
theorem topologicalSort_cyclic_witness :
    ScenarioGraph.TopologicalSort ⟨[(0, blankVertex)], [⟨0, 0, []⟩]⟩ [] 2 =
      some (none, some ScenarioGraph.cycleError) :=
  topologicalSort_cyclic.1 ⟨[(0, blankVertex)], [⟨0, 0, []⟩]⟩ [] 2 (by decide) (by decide)
    ⟨0, Relation.TransGen.single ⟨⟨0, 0, []⟩, by simp, rfl, rfl⟩⟩ (by decide)

/-! ## The walker: the set `visitedSchemas` is the stack of active calls -/

theorem optRel_bind {α β : Type} {R : α → β → Prop} {x : Option α} {y : Option β}
    {f : α → Option α} {g : β → Option β} (h : OptRel R x y)
    (hfg : ∀ a b, R a b → OptRel R (f a) (g b)) : OptRel R (x.bind f) (y.bind g) := by
  cases x <;> cases y <;> simp_all [OptRel]

theorem forEach_sim {α β γ : Type} (R : β → γ → Prop) (xs : List α)
    (body₁ : α → β → Option β) (body₂ : α → γ → Option γ)
    (h : ∀ x ∈ xs, ∀ a b, R a b → OptRel R (body₁ x a) (body₂ x b)) :
    ∀ a b, R a b → OptRel R (forEach xs body₁ a) (forEach xs body₂ b) := by
  induction xs with
  | nil =>
    intro a b hab
    exact hab
  | cons x rest ih =>
    intro a b hab
    exact optRel_bind (h x (List.mem_cons_self _ _) a b hab)
      (ih (fun y hy => h y (List.mem_cons_of_mem _ hy)))

theorem walkOptional_sim {τ₁ τ₂ : Type} (R : τ₁ → τ₂ → Prop)
    {walk₁ : String → Option SchemaRef → τ₁ → Option τ₁}
    {walk₂ : String → Option SchemaRef → τ₂ → Option τ₂}
    (hw : ∀ p r a b, R a b → OptRel R (walk₁ p r a) (walk₂ p r b))
    (path : String) (r : Option SchemaRef) (a : τ₁) (b : τ₂) (hab : R a b) :
    OptRel R (walkOptional walk₁ path r a) (walkOptional walk₂ path r b) := by
  cases r with
  | none => exact hab
  | some r => exact hw path (some r) a b hab

theorem walkSchemaBody_sim {τ₁ τ₂ : Type} (R : τ₁ → τ₂ → Prop)
    (visit₁ : String → SchemaRef → τ₁ → τ₁) (visit₂ : String → SchemaRef → τ₂ → τ₂)
    (walk₁ : String → Option SchemaRef → τ₁ → Option τ₁)
    (walk₂ : String → Option SchemaRef → τ₂ → Option τ₂)
    (hv : ∀ p r a b, R a b → R (visit₁ p r a) (visit₂ p r b))
    (hw : ∀ p r a b, R a b → OptRel R (walk₁ p r a) (walk₂ p r b))
    (basePath : String) (s : Schema) (a : τ₁) (b : τ₂) (hab : R a b) :
    OptRel R (walkSchemaBody visit₁ walk₁ basePath s a)
      (walkSchemaBody visit₂ walk₂ basePath s b) := by
  have hbr : ∀ (tag : String) (l : List (Option SchemaRef)) a b, R a b →
      OptRel R (walkBranches walk₁ basePath tag l a) (walkBranches walk₂ basePath tag l b) := by
    intro tag l a b hab
    unfold walkBranches
    refine forEach_sim R _ _ _ ?_ a b hab
    intro x _ a b hab
    exact walkOptional_sim R hw _ _ a b hab
  unfold walkSchemaBody
  refine optRel_bind ?_ fun a b hab => optRel_bind (walkOptional_sim R hw _ _ a b hab)
    fun a b hab => optRel_bind (hbr _ _ a b hab)
    fun a b hab => optRel_bind (hbr _ _ a b hab)
    fun a b hab => optRel_bind (hbr _ _ a b hab)
    fun a b hab => optRel_bind (walkOptional_sim R hw _ _ a b hab)
    fun a b hab => ?_
  · refine forEach_sim R _ _ _ ?_ a b hab
    intro x _ a b hab
    cases hx : x.2 with
    | none => simpa [hx] using hab
    | some r =>
      simp only [hx]
      exact hw _ _ _ _ (hv _ _ a b hab)
  · cases hx : s.AdditionalProperties with
    | none => simpa [walkAdditional, hx] using hab
    | some r =>
      simp only [walkAdditional, hx]
      exact hw _ _ _ _ (hv _ _ a b hab)

theorem filter_ne_cons_self (visited : List SchemaId) (i : SchemaId) (hn : i ∉ visited) :
    (i :: visited).filter (fun x => x ≠ i) = visited := by
  have h : visited.filter (fun x => decide (x ≠ i)) = visited := by
    apply List.filter_eq_self.2
    intro a ha
    have : a ≠ i := fun e => hn (e ▸ ha)
    simpa using this
  rw [List.filter_cons]
  simpa using h

/-- The code refines the specification: a call of `walkSchema` that is handed the set
`V` behaves like the stack-passing traversal on the stack `V`, and hands `V` back. -/
theorem walkSchema_eq_walkOnStack {σ : Type} (heap : Heap) (visitor : Visitor σ) :
    ∀ (fuel : Nat) (V : List SchemaId) (basePath : String) (schemaRef : Option SchemaRef)
      (st : σ),
      walkSchema heap visitor fuel basePath schemaRef ⟨V, st⟩ =
        (walkOnStack heap visitor fuel V basePath schemaRef st).map (fun s => ⟨V, s⟩) := by
  intro fuel
  induction fuel with
  | zero => intro V basePath schemaRef st; rfl
  | succ f ih =>
    intro V basePath schemaRef st
    cases schemaRef with
    | none => simp only [walkSchema, walkOnStack, Option.map_some']
    | some ref =>
      cases hv : ref.Value with
      | none => simp only [walkSchema, walkOnStack, hv, Option.map_some']
      | some schema =>
        by_cases hseen : schema ∈ V
        · simp only [walkSchema, walkOnStack, hv, hseen, if_true, Option.map_some']
        · cases hh : heap[schema]? with
          | none => simp only [walkSchema, walkOnStack, hv, hseen, hh, if_false, Option.map_some']
          | some s =>
            simp only [walkSchema, walkOnStack, hv, hseen, hh, if_false]
            have hsim := walkSchemaBody_sim
              (fun (a : WalkState σ) (b : σ) => a = ⟨schema :: V, b⟩)
              (fun path r => WalkState.call (visitor.VisitProperty path r))
              visitor.VisitProperty
              (walkSchema heap visitor f)
              (walkOnStack heap visitor f (schema :: V))
              (by
                intro p r a b hab
                subst hab
                rfl)
              (by
                intro p r a b hab
                subst hab
                rw [ih]
                cases walkOnStack heap visitor f (schema :: V) p r b <;> simp [OptRel])
              basePath s ⟨schema :: V, st⟩ st rfl
            revert hsim
            cases walkSchemaBody (fun path r => WalkState.call (visitor.VisitProperty path r))
                (walkSchema heap visitor f) basePath s ⟨schema :: V, st⟩ <;>
              cases walkSchemaBody visitor.VisitProperty
                (walkOnStack heap visitor f (schema :: V)) basePath s st <;>
              intro hsim
            · rfl
            · exact absurd hsim (by simp [OptRel])
            · exact absurd hsim (by simp [OptRel])
            · simp only [OptRel] at hsim
              subst hsim
              simp only [Option.some_bind, Option.map_some', Option.some.injEq,
                WalkState.mk.injEq, and_true]
              exact filter_ne_cons_self _ _ hseen

/-! ## The walker: termination -/

theorem agreeOn_pure {β : Type} (P : β → Prop) : AgreeOn P some some :=
  fun st hst => ⟨st, rfl, rfl, hst⟩

theorem agreeOn_bind {β : Type} {P : β → Prop} {f₁ g₁ f₂ g₂ : β → Option β}
    (h₁ : AgreeOn P f₁ g₁) (h₂ : AgreeOn P f₂ g₂) :
    AgreeOn P (fun st => (f₁ st).bind f₂) (fun st => (g₁ st).bind g₂) := by
  intro st hst
  obtain ⟨st1, e1, e1', p1⟩ := h₁ st hst
  obtain ⟨st2, e2, e2', p2⟩ := h₂ st1 p1
  exact ⟨st2, by simp [e1, e2], by simp [e1', e2'], p2⟩

theorem agreeOn_after {β : Type} {P : β → Prop} {f g : β → Option β} (h : AgreeOn P f g)
    (c : β → β) (hc : ∀ st, P st → P (c st)) :
    AgreeOn P (fun st => f (c st)) (fun st => g (c st)) :=
  fun st hst => h (c st) (hc st hst)

theorem agreeOn_forEach {α β : Type} {P : β → Prop} (xs : List α)
    (body₁ body₂ : α → β → Option β) (h : ∀ x ∈ xs, AgreeOn P (body₁ x) (body₂ x)) :
    AgreeOn P (forEach xs body₁) (forEach xs body₂) := by
  induction xs with
  | nil => exact agreeOn_pure P
  | cons x rest ih =>
    exact agreeOn_bind (h x (List.mem_cons_self _ _))
      (ih (fun y hy => h y (List.mem_cons_of_mem _ hy)))

theorem walkOptional_agree {τ : Type} {P : τ → Prop}
    {walk₁ walk₂ : String → Option SchemaRef → τ → Option τ}
    (hw : ∀ p r, AgreeOn P (walk₁ p r) (walk₂ p r)) (path : String) (r : Option SchemaRef) :
    AgreeOn P (walkOptional walk₁ path r) (walkOptional walk₂ path r) := by
  cases r with
  | none => exact agreeOn_pure P
  | some r => exact hw path (some r)

theorem walkBranches_agree {τ : Type} {P : τ → Prop}
    {walk₁ walk₂ : String → Option SchemaRef → τ → Option τ}
    (hw : ∀ p r, AgreeOn P (walk₁ p r) (walk₂ p r)) (basePath tag : String)
    (l : List (Option SchemaRef)) :
    AgreeOn P (walkBranches walk₁ basePath tag l) (walkBranches walk₂ basePath tag l) :=
  agreeOn_forEach _ _ _ fun _ _ => walkOptional_agree hw _ _

theorem walkSchemaBody_agree {τ : Type} {P : τ → Prop} (visit : String → SchemaRef → τ → τ)
    {walk₁ walk₂ : String → Option SchemaRef → τ → Option τ}
    (hv : ∀ p r st, P st → P (visit p r st))
    (hw : ∀ p r, AgreeOn P (walk₁ p r) (walk₂ p r)) (basePath : String) (s : Schema) :
    AgreeOn P (walkSchemaBody visit walk₁ basePath s) (walkSchemaBody visit walk₂ basePath s) := by
  refine agreeOn_bind ?_ (agreeOn_bind (walkOptional_agree hw _ _)
    (agreeOn_bind (walkBranches_agree hw _ _ _) (agreeOn_bind (walkBranches_agree hw _ _ _)
    (agreeOn_bind (walkBranches_agree hw _ _ _) (agreeOn_bind (walkOptional_agree hw _ _) ?_)))))
  · refine agreeOn_forEach _ _ _ fun x _ => ?_
    cases hx : x.2 with
    | none => simpa [hx] using agreeOn_pure P
    | some r =>
      simp only [hx]
      exact agreeOn_after (hw _ _) _ (hv _ _)
  · cases hx : s.AdditionalProperties with
    | none => exact agreeOn_pure P
    | some r => exact agreeOn_after (hw _ _) _ (hv _ _)

theorem unvisitedCount_cons_lt (heap : Heap) (visited : List SchemaId) (i : SchemaId)
    (hi : i < heap.length) (hn : i ∉ visited) :
    unvisitedCount heap (i :: visited) < unvisitedCount heap visited := by
  unfold unvisitedCount
  have hsub : (List.range heap.length).filter (fun j => j ∉ i :: visited) =
      ((List.range heap.length).filter (fun j => j ∉ visited)).filter (fun j => j ≠ i) := by
    rw [List.filter_filter]
    congr 1
    funext j
    simp only [List.mem_cons, not_or, decide_eq_true_eq, Bool.decide_and, ne_eq, decide_not,
      Bool.and_comm]
  rw [hsub]
  apply List.length_filter_lt_length_iff_exists.2
  exact ⟨i, List.mem_filter.2 ⟨List.mem_range.2 hi, by simpa using hn⟩, by simp⟩

theorem unvisitedCount_le (heap : Heap) (visited : List SchemaId) :
    unvisitedCount heap visited ≤ heap.length := by
  unfold unvisitedCount
  exact (List.length_filter_le _ _).trans (by simp)

/-- The stack-passing traversal returns as soon as the fuel exceeds the number of
schema nodes that are not on the stack. -/
theorem walkOnStack_returns {σ : Type} (heap : Heap) (visitor : Visitor σ) :
    ∀ (fuel : Nat) (V : List SchemaId) (basePath : String) (schemaRef : Option SchemaRef)
      (st : σ), unvisitedCount heap V < fuel →
      ∃ st', walkOnStack heap visitor fuel V basePath schemaRef st = some st' := by
  intro fuel
  induction fuel with
  | zero => intro _ _ _ _ h; omega
  | succ f ih =>
    intro V basePath schemaRef st hfuel
    cases schemaRef with
    | none => exact ⟨st, by simp only [walkOnStack]⟩
    | some ref =>
      cases hv : ref.Value with
      | none => exact ⟨st, by simp only [walkOnStack, hv]⟩
      | some schema =>
        by_cases hseen : schema ∈ V
        · exact ⟨st, by simp only [walkOnStack, hv, hseen, if_true]⟩
        · cases hh : heap[schema]? with
          | none => exact ⟨st, by simp only [walkOnStack, hv, hseen, hh, if_false]⟩
          | some s =>
            have hlt : schema < heap.length := by
              by_contra hge
              have := List.getElem?_eq_none (Nat.le_of_not_lt hge)
              rw [this] at hh
              cases hh
            have hm : unvisitedCount heap (schema :: V) < f := by
              have := unvisitedCount_cons_lt heap V schema hlt hseen
              omega
            have hw : ∀ p r, AgreeOn (fun _ : σ => True)
                (walkOnStack heap visitor f (schema :: V) p r)
                (walkOnStack heap visitor f (schema :: V) p r) := by
              intro p r t _
              obtain ⟨t', h1⟩ := ih (schema :: V) p r t hm
              exact ⟨t', h1, h1, trivial⟩
            obtain ⟨t', h1, _, _⟩ := walkSchemaBody_agree
              visitor.VisitProperty (fun _ _ _ _ => trivial) hw basePath s st trivial
            exact ⟨t', by simp only [walkOnStack, hv, hseen, hh, if_false, h1]⟩

/-- A call of `walkSchema` returns as soon as the fuel exceeds the number of schema
nodes of the heap, and it leaves the set `visitedSchemas` as it found it. -/
theorem walkSchema_returns {σ : Type} (heap : Heap) (visitor : Visitor σ) (fuel : Nat)
    (basePath : String) (schemaRef : Option SchemaRef) (st : WalkState σ)
    (hfuel : heap.length < fuel) :
    ∃ st', walkSchema heap visitor fuel basePath schemaRef st = some st' ∧
      st'.visitedSchemas = st.visitedSchemas := by
  obtain ⟨s', h⟩ := walkOnStack_returns heap visitor fuel st.visitedSchemas basePath schemaRef
    st.visitor (lt_of_le_of_lt (unvisitedCount_le heap _) hfuel)
  refine ⟨⟨st.visitedSchemas, s'⟩, ?_, rfl⟩
  have := walkSchema_eq_walkOnStack heap visitor fuel st.visitedSchemas basePath schemaRef
    st.visitor
  rw [h] at this
  exact this

/-! ## The walker: the top-level calls of `WalkSpec` -/

theorem atTopLevel_call {σ : Type} (f : σ → σ) (st : WalkState σ) (h : st.AtTopLevel) :
    (st.call f).AtTopLevel := h

theorem walkParameters_agree {σ : Type} (visitor : Visitor σ)
    {walk₁ walk₂ : String → Option SchemaRef → WalkState σ → Option (WalkState σ)}
    (hw : ∀ p r, AgreeOn WalkState.AtTopLevel (walk₁ p r) (walk₂ p r))
    (basePath : String) (parameters : List (Option ParameterRef)) :
    AgreeOn WalkState.AtTopLevel (walkParameters visitor walk₁ basePath parameters)
      (walkParameters visitor walk₂ basePath parameters) := by
  refine agreeOn_forEach _ _ _ fun x _ => ?_
  cases x with
  | none => exact agreeOn_pure _
  | some pr =>
    cases hv : pr.Value with
    | none => simpa [hv] using agreeOn_pure _
    | some param =>
      cases hs : param.Schema with
      | none =>
        simp only [hv, hs]
        exact agreeOn_after (agreeOn_pure _) _ (atTopLevel_call _)
      | some schema =>
        simp only [hv, hs]
        exact agreeOn_after (hw _ _) _
          (fun st h => atTopLevel_call _ _ (atTopLevel_call _ st h))

theorem walkMedia_agree {σ : Type}
    {walk₁ walk₂ : String → Option SchemaRef → WalkState σ → Option (WalkState σ)}
    (hw : ∀ p r, AgreeOn WalkState.AtTopLevel (walk₁ p r) (walk₂ p r))
    (path : String) (mediaType : Option MediaType) :
    AgreeOn WalkState.AtTopLevel (walkMedia walk₁ path mediaType)
      (walkMedia walk₂ path mediaType) := by
  intro st hst
  cases mediaType with
  | none => exact ⟨st, rfl, rfl, hst⟩
  | some m =>
    cases hs : m.Schema with
    | none => exact ⟨st, by simp only [walkMedia, hs], by simp only [walkMedia, hs], hst⟩
    | some schema =>
      simp only [walkMedia, hs]
      exact hw _ _ st hst

theorem walkRequestBody_agree {σ : Type} (visitor : Visitor σ)
    {walk₁ walk₂ : String → Option SchemaRef → WalkState σ → Option (WalkState σ)}
    (hw : ∀ p r, AgreeOn WalkState.AtTopLevel (walk₁ p r) (walk₂ p r))
    (operationPath : String) (requestBody : Option RequestBodyRef) :
    AgreeOn WalkState.AtTopLevel (walkRequestBody visitor walk₁ operationPath requestBody)
      (walkRequestBody visitor walk₂ operationPath requestBody) := by
  intro st hst
  cases requestBody with
  | none => exact ⟨st, rfl, rfl, hst⟩
  | some rb =>
    cases hv : rb.Value with
    | none =>
      exact ⟨st, by simp only [walkRequestBody, hv], by simp only [walkRequestBody, hv], hst⟩
    | some body =>
      simp only [walkRequestBody, hv]
      refine agreeOn_forEach _ _ _ (fun c _ => ?_) st hst
      exact agreeOn_after (walkMedia_agree hw _ _) _ (atTopLevel_call _)

theorem walkResponses_agree {σ : Type} (visitor : Visitor σ)
    {walk₁ walk₂ : String → Option SchemaRef → WalkState σ → Option (WalkState σ)}
    (hw : ∀ p r, AgreeOn WalkState.AtTopLevel (walk₁ p r) (walk₂ p r))
    (operationPath : String) (responses : GoMap String (Option ResponseRef)) :
    AgreeOn WalkState.AtTopLevel (walkResponses visitor walk₁ operationPath responses)
      (walkResponses visitor walk₂ operationPath responses) := by
  refine agreeOn_forEach _ _ _ fun r _ => ?_
  cases hr : r.2 with
  | none => simpa [hr] using agreeOn_pure _
  | some responseRef =>
    cases hv : responseRef.Value with
    | none => simpa [hr, hv] using agreeOn_pure _
    | some response =>
      simp only [hr, hv]
      refine agreeOn_forEach _ _ _ fun c _ => ?_
      exact agreeOn_after (walkMedia_agree hw _ _) _ (atTopLevel_call _)

theorem walkOperations_agree {σ : Type} (visitor : Visitor σ)
    {walk₁ walk₂ : String → Option SchemaRef → WalkState σ → Option (WalkState σ)}
    (hw : ∀ p r, AgreeOn WalkState.AtTopLevel (walk₁ p r) (walk₂ p r))
    (pathName : String) (operations : GoMap String (Option OperationDoc)) :
    AgreeOn WalkState.AtTopLevel (walkOperations visitor walk₁ pathName operations)
      (walkOperations visitor walk₂ pathName operations) := by
  refine agreeOn_forEach _ _ _ fun o _ => ?_
  cases ho : o.2 with
  | none => simpa [ho] using agreeOn_pure _
  | some operation =>
    simp only [ho]
    exact agreeOn_bind
      (agreeOn_after (walkParameters_agree visitor hw _ _) _ (atTopLevel_call _))
      (agreeOn_bind (walkRequestBody_agree visitor hw _ _) (walkResponses_agree visitor hw _ _))

theorem walkPaths_agree {σ : Type} (visitor : Visitor σ)
    {walk₁ walk₂ : String → Option SchemaRef → WalkState σ → Option (WalkState σ)}
    (hw : ∀ p r, AgreeOn WalkState.AtTopLevel (walk₁ p r) (walk₂ p r))
    (paths : GoMap String (Option PathItem)) :
    AgreeOn WalkState.AtTopLevel (walkPaths visitor walk₁ paths)
      (walkPaths visitor walk₂ paths) := by
  refine agreeOn_forEach _ _ _ fun p _ => ?_
  cases hp : p.2 with
  | none => simpa [hp] using agreeOn_pure _
  | some pathItem =>
    simp only [hp]
    exact agreeOn_bind
      (agreeOn_after (walkParameters_agree visitor hw _ _) _ (atTopLevel_call _))
      (walkOperations_agree visitor hw _ _)

theorem walkComponents_agree {σ : Type} (visitor : Visitor σ)
    {walk₁ walk₂ : String → Option SchemaRef → WalkState σ → Option (WalkState σ)}
    (hw : ∀ p r, AgreeOn WalkState.AtTopLevel (walk₁ p r) (walk₂ p r))
    (components : Option Components) :
    AgreeOn WalkState.AtTopLevel (walkComponents visitor walk₁ components)
      (walkComponents visitor walk₂ components) := by
  cases components with
  | none => exact agreeOn_pure _
  | some comps =>
    show AgreeOn WalkState.AtTopLevel (forEach comps.Schemas _) (forEach comps.Schemas _)
    refine agreeOn_forEach _ _ _ fun c _ => ?_
    cases hc : c.2 with
    | none => simpa [hc] using agreeOn_pure _
    | some schemaRef =>
      simp only [hc]
      exact agreeOn_after (hw _ _) _ (atTopLevel_call _)

theorem walkDocument_agree {σ : Type} (visitor : Visitor σ)
    {walk₁ walk₂ : String → Option SchemaRef → WalkState σ → Option (WalkState σ)}
    (hw : ∀ p r, AgreeOn WalkState.AtTopLevel (walk₁ p r) (walk₂ p r)) (spec : Spec) :
    AgreeOn WalkState.AtTopLevel (walkDocument visitor walk₁ spec)
      (walkDocument visitor walk₂ spec) :=
  agreeOn_bind (walkPaths_agree visitor hw _) (walkComponents_agree visitor hw _)

/-- With enough fuel a top-level call of `walkSchema` agrees with the same call handed
the empty set. -/
theorem walkSchema_agree_fresh {σ : Type} (heap : Heap) (visitor : Visitor σ) (fuel : Nat)
    (hfuel : heap.length < fuel) (p : String) (r : Option SchemaRef) :
    AgreeOn WalkState.AtTopLevel (walkSchema heap visitor fuel p r)
      (fun st => walkSchema heap visitor fuel p r ⟨[], st.visitor⟩) := by
  intro st hst
  obtain ⟨st', h1, h2⟩ := walkSchema_returns heap visitor fuel p r st hfuel
  refine ⟨st', h1, ?_, by rw [WalkState.AtTopLevel, h2]; exact hst⟩
  cases st
  simp only [WalkState.AtTopLevel] at hst
  subst hst
  exact h1

/-- Beyond the number of schema nodes off the stack, the fuel does not matter. -/
theorem walkOnStack_fuel {σ : Type} (heap : Heap) (visitor : Visitor σ) :
    ∀ (fuel₁ fuel₂ : Nat) (V : List SchemaId) (basePath : String)
      (schemaRef : Option SchemaRef) (st : σ),
      unvisitedCount heap V < fuel₁ → unvisitedCount heap V < fuel₂ →
      walkOnStack heap visitor fuel₁ V basePath schemaRef st =
        walkOnStack heap visitor fuel₂ V basePath schemaRef st := by
  intro fuel₁
  induction fuel₁ with
  | zero => intro _ _ _ _ _ h; omega
  | succ f ih =>
    intro fuel₂ V basePath schemaRef st h1 h2
    cases fuel₂ with
    | zero => omega
    | succ g =>
      cases schemaRef with
      | none => simp only [walkOnStack]
      | some ref =>
        cases hv : ref.Value with
        | none => simp only [walkOnStack, hv]
        | some schema =>
          by_cases hseen : schema ∈ V
          · simp only [walkOnStack, hv, hseen, if_true]
          · cases hh : heap[schema]? with
            | none => simp only [walkOnStack, hv, hseen, hh, if_false]
            | some s =>
              have hlt : schema < heap.length := by
                by_contra hge
                have := List.getElem?_eq_none (Nat.le_of_not_lt hge)
                rw [this] at hh
                cases hh
              have hm := unvisitedCount_cons_lt heap V schema hlt hseen
              have hw : ∀ p r, AgreeOn (fun _ : σ => True)
                  (walkOnStack heap visitor f (schema :: V) p r)
                  (walkOnStack heap visitor g (schema :: V) p r) := by
                intro p r t _
                obtain ⟨t', e⟩ := walkOnStack_returns heap visitor f (schema :: V) p r t
                  (by omega)
                refine ⟨t', e, ?_, trivial⟩
                rw [← ih g (schema :: V) p r t (by omega) (by omega)]
                exact e
              obtain ⟨t', e1, e2, _⟩ := walkSchemaBody_agree
                visitor.VisitProperty (fun _ _ _ _ => trivial) hw basePath s st trivial
              simp only [walkOnStack, hv, hseen, hh, if_false, e1, e2]

theorem walkSchema_fuel {σ : Type} (heap : Heap) (visitor : Visitor σ) (fuel₁ fuel₂ : Nat)
    (basePath : String) (schemaRef : Option SchemaRef) (st : WalkState σ)
    (h1 : heap.length < fuel₁) (h2 : heap.length < fuel₂) :
    walkSchema heap visitor fuel₁ basePath schemaRef st =
      walkSchema heap visitor fuel₂ basePath schemaRef st := by
  cases st with
  | mk V s =>
    rw [walkSchema_eq_walkOnStack, walkSchema_eq_walkOnStack,
      walkOnStack_fuel heap visitor fuel₁ fuel₂ V basePath schemaRef s
        (lt_of_le_of_lt (unvisitedCount_le heap _) h1)
        (lt_of_le_of_lt (unvisitedCount_le heap _) h2)]

/-- C3. On every finite schema heap, cyclic or not, `walkSchema` returns once the fuel
exceeds the number of schema nodes, with one and the same result for every such fuel;
so does `WalkSpec`, for every visitor, and the test visitor ends with a finite log of
events.  An object whose property refers back to it is walked in two events. -/
theorem walker_terminates :
    (∀ (σ : Type) (heap : Heap) (visitor : Visitor σ) (fuel : Nat) (basePath : String)
        (schemaRef : Option SchemaRef) (st : WalkState σ), heap.length < fuel →
        ∃ st', walkSchema heap visitor fuel basePath schemaRef st = some st' ∧
          ∀ fuel', heap.length < fuel' →
            walkSchema heap visitor fuel' basePath schemaRef st = some st') ∧
    (∀ (σ : Type) (spec : Spec) (visitor : Visitor σ) (fuel : Nat) (st : σ),
        spec.heap.length < fuel →
        ∃ st', WalkSpec (some spec) (some visitor) fuel st = some st') ∧
    (∀ (spec : Spec) (fuel : Nat), spec.heap.length < fuel →
        ∃ log : List Event, WalkSpec (some spec) (some TestVisitor) fuel [] = some log) ∧
    (∀ fuel : Nat, 2 < fuel →
        walkedPaths selfRefHeap fuel "base" (some (inline 0)) =
          some ["base.name", "base.parent"]) := by
  have hspec : ∀ (σ : Type) (spec : Spec) (visitor : Visitor σ) (fuel : Nat) (st : σ),
      spec.heap.length < fuel →
      ∃ st', WalkSpec (some spec) (some visitor) fuel st = some st' := by
    intro σ spec visitor fuel st hfuel
    obtain ⟨st', h1, _, _⟩ := walkDocument_agree visitor
      (walkSchema_agree_fresh spec.heap visitor fuel hfuel) spec ⟨[], st⟩ rfl
    exact ⟨st'.visitor, by simp only [WalkSpec, h1, Option.map_some']⟩
  refine ⟨?_, hspec, fun spec fuel hfuel => hspec _ spec TestVisitor fuel [] hfuel, ?_⟩
  · intro σ heap visitor fuel basePath schemaRef st hfuel
    obtain ⟨st', h1, _⟩ := walkSchema_returns heap visitor fuel basePath schemaRef st hfuel
    refine ⟨st', h1, fun fuel' hfuel' => ?_⟩
    rw [walkSchema_fuel heap visitor fuel' fuel basePath schemaRef st hfuel' hfuel]
    exact h1
  · intro fuel hfuel
    unfold walkedPaths
    rw [walkSchema_fuel selfRefHeap TestVisitor fuel 3 _ _ _ hfuel (by decide)]
    decide

/-- Witness for C3: the self-referential heap with the fuel 3. -/
theorem walker_terminates_witness :
    ∃ st', walkSchema selfRefHeap TestVisitor 3 "base" (some (inline 0)) ⟨[], []⟩ = some st' ∧
      ∀ fuel', selfRefHeap.length < fuel' →
        walkSchema selfRefHeap TestVisitor fuel' "base" (some (inline 0)) ⟨[], []⟩ = some st' :=
  walker_terminates.1 (List Event) selfRefHeap TestVisitor 3 "base" (some (inline 0)) ⟨[], []⟩
    (by decide)

/-- C4. The set handed to `walkSchema` is the stack of the active calls: the code
behaves like the traversal that passes the stack as an argument and hands its set back
unchanged; every top-level call of `WalkSpec` receives the empty set; a property that
refers back to an enclosing schema is reported once with nothing beneath it; a schema
reached through two sibling properties is walked both times. -/
theorem visitedSchemas_is_stack :
    (∀ (σ : Type) (heap : Heap) (visitor : Visitor σ) (fuel : Nat) (V : List SchemaId)
        (basePath : String) (schemaRef : Option SchemaRef) (st : σ),
        walkSchema heap visitor fuel basePath schemaRef ⟨V, st⟩ =
          (walkOnStack heap visitor fuel V basePath schemaRef st).map (fun s => ⟨V, s⟩)) ∧
    (∀ (σ : Type) (spec : Spec) (visitor : Visitor σ) (fuel : Nat) (st : σ),
        spec.heap.length < fuel →
        walkDocument visitor (walkSchema spec.heap visitor fuel) spec ⟨[], st⟩ =
          walkDocument visitor
            (fun p r t => walkSchema spec.heap visitor fuel p r ⟨[], t.visitor⟩) spec ⟨[], st⟩) ∧
    (∀ fuel : Nat, 2 < fuel →
        walkedPaths selfRefHeap fuel "base" (some (inline 0)) =
          some ["base.name", "base.parent"]) ∧
    (∀ fuel : Nat, 3 < fuel →
        walkedPaths diamondHeap fuel "base" (some (inline 0)) =
          some ["base.a", "base.a.x", "base.b", "base.b.x"]) := by
  refine ⟨fun σ heap visitor => walkSchema_eq_walkOnStack heap visitor, ?_, ?_, ?_⟩
  · intro σ spec visitor fuel st hfuel
    obtain ⟨st', h1, h2, _⟩ := walkDocument_agree visitor
      (walkSchema_agree_fresh spec.heap visitor fuel hfuel) spec ⟨[], st⟩ rfl
    rw [h1, h2]
  · intro fuel hfuel
    unfold walkedPaths
    rw [walkSchema_fuel selfRefHeap TestVisitor fuel 3 _ _ _ hfuel (by decide)]
    decide
  · intro fuel hfuel
    unfold walkedPaths
    rw [walkSchema_fuel diamondHeap TestVisitor fuel 4 _ _ _ hfuel (by decide)]
    decide

/-- Witness for C4: the document of `testdata/simple.yaml` with the fuel 5. -/
theorem visitedSchemas_is_stack_witness :
    walkDocument TestVisitor (walkSchema simpleSpec.heap TestVisitor 5) simpleSpec ⟨[], []⟩ =
      walkDocument TestVisitor
        (fun p r t => walkSchema simpleSpec.heap TestVisitor 5 p r ⟨[], t.visitor⟩)
        simpleSpec ⟨[], []⟩ :=
  visitedSchemas_is_stack.2.1 (List Event) simpleSpec TestVisitor 5 [] (by decide)

/-! ## The walker: the events of one call -/

theorem schemaEvents_eq (heap : Heap) (fuel : Nat) (V : List SchemaId) (basePath : String)
    (schemaRef : Option SchemaRef) :
    schemaEvents heap fuel V basePath schemaRef =
      (walkOnStack heap TestVisitor fuel V basePath schemaRef []).getD [] := by
  unfold schemaEvents
  rw [walkSchema_eq_walkOnStack]
  cases walkOnStack heap TestVisitor fuel V basePath schemaRef [] <;> rfl

/-- The test visitor only appends: a walk started on the log `L` ends with `L` followed
by the log of the same walk started on the empty log. -/
theorem walkOnStack_append (heap : Heap) :
    ∀ (fuel : Nat) (V : List SchemaId) (basePath : String) (schemaRef : Option SchemaRef)
      (L : List Event),
      walkOnStack heap TestVisitor fuel V basePath schemaRef L =
        (walkOnStack heap TestVisitor fuel V basePath schemaRef []).map (fun l => L ++ l) := by
  intro fuel
  induction fuel with
  | zero => intro V basePath schemaRef L; rfl
  | succ f ih =>
    intro V basePath schemaRef L
    cases schemaRef with
    | none => simp only [walkOnStack, Option.map_some', List.append_nil]
    | some ref =>
      cases hv : ref.Value with
      | none => simp only [walkOnStack, hv, Option.map_some', List.append_nil]
      | some schema =>
        by_cases hseen : schema ∈ V
        · simp only [walkOnStack, hv, hseen, if_true, Option.map_some', List.append_nil]
        · cases hh : heap[schema]? with
          | none =>
            simp only [walkOnStack, hv, hseen, hh, if_false, Option.map_some', List.append_nil]
          | some s =>
            simp only [walkOnStack, hv, hseen, hh, if_false]
            have hsim := walkSchemaBody_sim
              (fun (a b : List Event) => a = L ++ b)
              TestVisitor.VisitProperty TestVisitor.VisitProperty
              (walkOnStack heap TestVisitor f (schema :: V))
              (walkOnStack heap TestVisitor f (schema :: V))
              (by
                intro p r a b hab
                subst hab
                simp [TestVisitor])
              (by
                intro p r a b hab
                subst hab
                rw [ih (schema :: V) p r (L ++ b), ih (schema :: V) p r b]
                cases walkOnStack heap TestVisitor f (schema :: V) p r [] <;> simp [OptRel])
              basePath s L [] (by simp)
            revert hsim
            cases walkSchemaBody TestVisitor.VisitProperty
                (walkOnStack heap TestVisitor f (schema :: V)) basePath s L <;>
              cases walkSchemaBody TestVisitor.VisitProperty
                (walkOnStack heap TestVisitor f (schema :: V)) basePath s [] <;>
              intro hsim
            · rfl
            · exact absurd hsim (by simp [OptRel])
            · exact absurd hsim (by simp [OptRel])
            · simp only [OptRel] at hsim
              simp [hsim]

theorem walkOnStack_log (heap : Heap) (fuel : Nat) (V : List SchemaId) (basePath : String)
    (schemaRef : Option SchemaRef) (L : List Event) (hfuel : unvisitedCount heap V < fuel) :
    walkOnStack heap TestVisitor fuel V basePath schemaRef L =
      some (L ++ schemaEvents heap fuel V basePath schemaRef) := by
  obtain ⟨l, hl⟩ := walkOnStack_returns heap TestVisitor fuel V basePath schemaRef [] hfuel
  rw [walkOnStack_append, schemaEvents_eq, hl]
  rfl

theorem forEach_log {α : Type} (xs : List α) (body : α → List Event → Option (List Event))
    (ev : α → List Event) (h : ∀ x ∈ xs, ∀ L, body x L = some (L ++ ev x)) (L : List Event) :
    forEach xs body L = some (L ++ xs.flatMap ev) := by
  induction xs generalizing L with
  | nil => simp [forEach]
  | cons x rest ih =>
    simp only [forEach, h x (List.mem_cons_self _ _) L, Option.some_bind]
    rw [ih (fun y hy => h y (List.mem_cons_of_mem _ hy))]
    simp [List.flatMap_cons]

theorem schemaEvents_fuel (heap : Heap) (fuel₁ fuel₂ : Nat) (V : List SchemaId)
    (basePath : String) (schemaRef : Option SchemaRef)
    (h1 : unvisitedCount heap V < fuel₁) (h2 : unvisitedCount heap V < fuel₂) :
    schemaEvents heap fuel₁ V basePath schemaRef = schemaEvents heap fuel₂ V basePath schemaRef := by
  rw [schemaEvents_eq, schemaEvents_eq,
    walkOnStack_fuel heap TestVisitor fuel₁ fuel₂ V basePath schemaRef [] h1 h2]

theorem walkOptional_log (heap : Heap) (fuel : Nat) (W : List SchemaId)
    {walk : String → Option SchemaRef → List Event → Option (List Event)}
    (hw : ∀ p r L, walk p r L = some (L ++ schemaEvents heap fuel W p r))
    (path : String) (r : Option SchemaRef) (L : List Event) :
    walkOptional walk path r L = some (L ++ optionalEvents heap fuel W path r) := by
  cases r with
  | none => simp [walkOptional, optionalEvents]
  | some r => simp [walkOptional, optionalEvents, hw]

theorem walkBranches_log (heap : Heap) (fuel : Nat) (W : List SchemaId)
    {walk : String → Option SchemaRef → List Event → Option (List Event)}
    (hw : ∀ p r L, walk p r L = some (L ++ schemaEvents heap fuel W p r))
    (basePath tag : String) (l : List (Option SchemaRef)) (L : List Event) :
    walkBranches walk basePath tag l L = some (L ++ branchEvents heap fuel W basePath tag l) := by
  unfold walkBranches branchEvents
  refine forEach_log _ _ _ (fun x _ L => ?_) L
  exact walkOptional_log heap fuel W hw _ _ L

theorem walkProperties_log (heap : Heap) (fuel : Nat) (W : List SchemaId)
    {walk : String → Option SchemaRef → List Event → Option (List Event)}
    (hw : ∀ p r L, walk p r L = some (L ++ schemaEvents heap fuel W p r))
    (basePath : String) (properties : GoMap String (Option SchemaRef)) (L : List Event) :
    walkProperties TestVisitor.VisitProperty walk basePath properties L =
      some (L ++ properties.flatMap fun p =>
        reportedEvents heap fuel W (basePath ++ "." ++ p.1) p.2) := by
  unfold walkProperties
  refine forEach_log _ _ _ (fun x _ L => ?_) L
  cases hx : x.2 with
  | none => simp [reportedEvents]
  | some r => simp [reportedEvents, hw, TestVisitor]

theorem walkAdditional_log (heap : Heap) (fuel : Nat) (W : List SchemaId)
    {walk : String → Option SchemaRef → List Event → Option (List Event)}
    (hw : ∀ p r L, walk p r L = some (L ++ schemaEvents heap fuel W p r))
    (basePath : String) (r : Option SchemaRef) (L : List Event) :
    walkAdditional TestVisitor.VisitProperty walk basePath r L =
      some (L ++ reportedEvents heap fuel W (basePath ++ "/additionalProperties") r) := by
  cases r with
  | none => simp [walkAdditional, reportedEvents]
  | some r => simp [walkAdditional, reportedEvents, hw, TestVisitor]

/-- Beyond the number of schema nodes, the fuel of `WalkSpec` does not matter. -/
theorem WalkSpec_fuel {σ : Type} (spec : Spec) (visitor : Visitor σ) (fuel₁ fuel₂ : Nat)
    (st : σ) (h1 : spec.heap.length < fuel₁) (h2 : spec.heap.length < fuel₂) :
    WalkSpec (some spec) (some visitor) fuel₁ st = WalkSpec (some spec) (some visitor) fuel₂ st := by
  have hw : ∀ p r, AgreeOn WalkState.AtTopLevel (walkSchema spec.heap visitor fuel₁ p r)
      (walkSchema spec.heap visitor fuel₂ p r) := by
    intro p r t ht
    obtain ⟨t', e1, e2⟩ := walkSchema_returns spec.heap visitor fuel₁ p r t h1
    refine ⟨t', e1, ?_, by rw [WalkState.AtTopLevel, e2]; exact ht⟩
    rw [← walkSchema_fuel spec.heap visitor fuel₁ fuel₂ p r t h1 h2]
    exact e1
  obtain ⟨t', e1, e2, _⟩ := walkDocument_agree visitor hw spec ⟨[], st⟩ rfl
  simp only [WalkSpec, e1, e2]

/-- C6. The events of `walkSchema(base, S)`, for a schema `S` not on the stack, are: for
each non-nil property `n`, one event at `base.n` followed by the events of walking the
property at that path; the events of walking the items at `base[]`; those of walking
the `i`-th non-nil branch at `base/allOf[i]`, `base/anyOf[i]`, `base/oneOf[i]`; those of
walking the `not` schema at `base/not`; one event at `base/additionalProperties`
followed by the events beneath it; and nothing else.  The document of `simple.yaml`
yields exactly the three paths of the properties `id`, `name`, `email`. -/
theorem walkSchema_events :
    (∀ (heap : Heap) (fuel : Nat) (V : List SchemaId) (basePath : String) (ref : SchemaRef)
        (S : SchemaId) (s : Schema),
        ref.Value = some S → S ∉ V → heap[S]? = some s → heap.length < fuel →
        schemaEvents heap fuel V basePath (some ref) =
          (s.Properties.flatMap fun p =>
              reportedEvents heap fuel (S :: V) (basePath ++ "." ++ p.1) p.2) ++
            optionalEvents heap fuel (S :: V) (basePath ++ "[]") s.Items ++
            branchEvents heap fuel (S :: V) basePath "/allOf[" s.AllOf ++
            branchEvents heap fuel (S :: V) basePath "/anyOf[" s.AnyOf ++
            branchEvents heap fuel (S :: V) basePath "/oneOf[" s.OneOf ++
            optionalEvents heap fuel (S :: V) (basePath ++ "/not") s.Not ++
            reportedEvents heap fuel (S :: V) (basePath ++ "/additionalProperties")
              s.AdditionalProperties) ∧
    (∀ fuel : Nat, 4 < fuel →
        (WalkSpec (some simpleSpec) (some TestVisitor) fuel []).map visitedPaths =
          some ["/api/users/GET/response/200/application/json.id",
            "/api/users/GET/response/200/application/json.name",
            "/api/users/GET/response/200/application/json.email"]) := by
  constructor
  · intro heap fuel V basePath ref S s hv hseen hh hfuel
    cases fuel with
    | zero => omega
    | succ f =>
      have hlt : S < heap.length := by
        by_contra hge
        have := List.getElem?_eq_none (Nat.le_of_not_lt hge)
        rw [this] at hh
        cases hh
      have hm := unvisitedCount_cons_lt heap V S hlt hseen
      have hle := unvisitedCount_le heap V
      have hw : ∀ p r L, walkOnStack heap TestVisitor f (S :: V) p r L =
          some (L ++ schemaEvents heap (f + 1) (S :: V) p r) := by
        intro p r L
        rw [walkOnStack_log heap f (S :: V) p r L (by omega),
          schemaEvents_fuel heap f (f + 1) (S :: V) p r (by omega) (by omega)]
      rw [schemaEvents_eq]
      simp only [walkOnStack, hv, hseen, hh, if_false, walkSchemaBody,
        walkProperties_log heap (f + 1) (S :: V) hw,
        walkOptional_log heap (f + 1) (S :: V) hw,
        walkBranches_log heap (f + 1) (S :: V) hw,
        walkAdditional_log heap (f + 1) (S :: V) hw, Option.some_bind, Option.getD_some,
        List.nil_append, List.append_assoc]
  · intro fuel hfuel
    rw [WalkSpec_fuel simpleSpec TestVisitor fuel 5 [] hfuel (by decide)]
    decide

/-- Witness for C6: an array of objects with a `name` property, walked at `base`. -/
theorem walkSchema_events_witness :
    schemaEvents [arraySchema (inline 1), objectSchema [] [("name", some (inline 2))],
        scalarSchema "string"] 4 [] "base" (some (inline 0)) =
      [Event.property "base[].name" (inline 2)] := by
  have h := walkSchema_events.1
    [arraySchema (inline 1), objectSchema [] [("name", some (inline 2))], scalarSchema "string"]
    4 [] "base" (inline 0) 0 (arraySchema (inline 1)) rfl (by decide) rfl (by decide)
  rw [h]
  decide

/-! ## The data-model builder on a self-referential schema -/

theorem forEach_none_of_mem {α β : Type} (xs : List α) (body : α → β → Option β) (x : α)
    (hx : x ∈ xs) (h : ∀ st, body x st = none) : ∀ st, forEach xs body st = none := by
  induction xs with
  | nil => simp at hx
  | cons y rest ih =>
    intro st
    rcases List.mem_cons.1 hx with rfl | hmem
    · simp [forEach, h]
    · simp only [forEach]
      cases body y st with
      | none => rfl
      | some st' => exact ih hmem st'

theorem buildFieldFromSchema_selfRef :
    ∀ (fuel : Nat) (name path : String) (V : List SchemaId),
      buildFieldFromSchema selfRefHeap fuel name (some (inline 0)) path V = none := by
  intro fuel
  induction fuel with
  | zero => intro name path V; rfl
  | succ f ih =>
    intro name path V
    have hloop := forEach_none_of_mem
      [("name", some (inline 1)), ("parent", some (inline 0))]
      (fun (p : String × Option SchemaRef) (acc : GoMap String Field) => match p.2 with
        | none => some acc
        | some propRef =>
          match propRef.Value with
          | none => some acc
          | some _ =>
              (buildFieldFromSchema selfRefHeap f p.1 (some propRef) (path ++ "." ++ p.1)
                V).map fun g => GoMap.set acc p.1 g)
      ("parent", some (inline 0)) (by simp)
      (by
        intro st
        simp only [inline]
        rw [show (⟨"", some 0⟩ : SchemaRef) = inline 0 from rfl, ih]
        rfl)
      []
    simp only [buildFieldFromSchema, inline, selfRefHeap, objectSchema, List.getElem?_cons_zero,
      Option.some_bind] at hloop ⊢
    rw [hloop]
    rfl

theorem buildFieldsFromSchema_selfRef (fuel : Nat) (path : String) :
    buildFieldsFromSchema selfRefHeap fuel (some 0) path [] = none := by
  cases fuel with
  | zero => rfl
  | succ f =>
    have hloop := forEach_none_of_mem
      [("name", some (inline 1)), ("parent", some (inline 0))]
      (fun (p : String × Option SchemaRef) (st : List SchemaId × List Field) => match p.2 with
        | none => some st
        | some propRef =>
          match propRef.Value with
          | none => some st
          | some _ =>
              (buildFieldFromSchema selfRefHeap f p.1 (some propRef) (path ++ "." ++ p.1)
                st.1).map fun field =>
                (st.1, st.2 ++ [if p.1 ∈ ([] : List String) then field.setRequired true
                  else field]))
      ("parent", some (inline 0)) (by simp)
      (by
        intro st
        simp only [inline]
        rw [show (⟨"", some 0⟩ : SchemaRef) = inline 0 from rfl, buildFieldFromSchema_selfRef]
        rfl)
      (0 :: [], [])
    simp only [buildFieldsFromSchema, inline, selfRefHeap, objectSchema,
      List.getElem?_cons_zero, List.not_mem_nil, if_false] at hloop ⊢
    rw [hloop]
    rfl

theorem optRel_eq_self {α : Type} {a : α} {x : Option α}
    (h : OptRel (fun u v => u = v ∧ u = a) x x) : x = none ∨ x = some a := by
  cases x with
  | none => exact Or.inl rfl
  | some b =>
    simp only [OptRel] at h
    exact Or.inr (by rw [h.2])

/-- A visitor that ignores `VisitProperty` ends a walk of a schema in the state it
started in. -/
theorem walkOnStack_of_ignored {σ : Type} (heap : Heap) (visitor : Visitor σ)
    (hid : ∀ p r s, visitor.VisitProperty p r s = s) (st : σ) :
    ∀ (fuel : Nat) (V : List SchemaId) (basePath : String) (schemaRef : Option SchemaRef),
      OptRel (fun u v => u = v ∧ u = st)
        (walkOnStack heap visitor fuel V basePath schemaRef st)
        (walkOnStack heap visitor fuel V basePath schemaRef st) := by
  intro fuel
  induction fuel with
  | zero => intro V basePath schemaRef; simp [walkOnStack, OptRel]
  | succ f ih =>
    intro V basePath schemaRef
    cases schemaRef with
    | none => simp [walkOnStack, OptRel]
    | some ref =>
      cases hv : ref.Value with
      | none => simp [walkOnStack, hv, OptRel]
      | some schema =>
        by_cases hseen : schema ∈ V
        · simp [walkOnStack, hv, hseen, OptRel]
        · cases hh : heap[schema]? with
          | none => simp [walkOnStack, hv, hseen, hh, OptRel]
          | some s =>
            simp only [walkOnStack, hv, hseen, hh, if_false]
            refine walkSchemaBody_sim (fun u v => u = v ∧ u = st) visitor.VisitProperty
              visitor.VisitProperty _ _ ?_ ?_ basePath s st st ⟨rfl, rfl⟩
            · intro p r a b hab
              rw [hid, hid]
              exact hab
            · intro p r a b hab
              obtain ⟨rfl, rfl⟩ := hab
              exact ih (schema :: V) p r

theorem walkSchema_of_ignored {σ : Type} (heap : Heap) (visitor : Visitor σ)
    (hid : ∀ p r s, visitor.VisitProperty p r s = s) (fuel : Nat) (basePath : String)
    (schemaRef : Option SchemaRef) (st : WalkState σ) :
    walkSchema heap visitor fuel basePath schemaRef st = none ∨
      walkSchema heap visitor fuel basePath schemaRef st = some st := by
  cases st with
  | mk V s =>
    rw [walkSchema_eq_walkOnStack]
    rcases optRel_eq_self (walkOnStack_of_ignored heap visitor hid s fuel V basePath schemaRef)
      with h | h
    · exact Or.inl (by rw [h]; rfl)
    · exact Or.inr (by rw [h]; rfl)

/-- C5 (code at the failing input). On the object schema whose property `parent` refers
back to the object, `buildFieldFromSchema`, `buildFieldsFromSchema`,
`buildDataStructureFromSchema` and the visitor method `VisitRequestBody` return for no
amount of fuel, and `buildDataModelFromSpec` yields no data model for the document whose
request body is that schema; the walker does return on the same schema. -/
theorem buildFields_diverges_on_cycle :
    (∀ (fuel : Nat) (name path : String) (V : List SchemaId),
        buildFieldFromSchema selfRefHeap fuel name (some (inline 0)) path V = none) ∧
    (∀ (fuel : Nat) (path : String),
        buildFieldsFromSchema selfRefHeap fuel (some 0) path [] = none) ∧
    (∀ (fuel : Nat) (path contentType : String),
        buildDataStructureFromSchema selfRefHeap fuel path (some (inline 0)) contentType [] =
          none) ∧
    (∀ (fuel : Nat) (dm : DataModel),
        dmVisitRequestBody selfRefHeap fuel "/nodes/POST/requestBody/application/json"
          "application/json" ⟨[("application/json", some ⟨some (inline 0)⟩)]⟩ dm = none) ∧
    (∀ fuel : Nat, buildDataModelFromSpec selfRefSpec fuel = none) ∧
    (∀ n : Nat,
        walkedPaths selfRefHeap (n + 3) "/nodes/POST/requestBody/application/json"
            (some (inline 0)) =
          some ["/nodes/POST/requestBody/application/json.name",
            "/nodes/POST/requestBody/application/json.parent"]) := by
  have hds : ∀ (fuel : Nat) (path contentType : String),
      buildDataStructureFromSchema selfRefHeap fuel path (some (inline 0)) contentType [] =
        none := by
    intro fuel path contentType
    simp only [buildDataStructureFromSchema, inline, buildFieldsFromSchema_selfRef,
      Option.map_none']
  have hparse : parseEndpointAndMethod "/nodes/POST/requestBody/application/json" =
      some ("/nodes", "POST") := by decide
  have hvisit : ∀ (fuel : Nat) (dm : DataModel),
      dmVisitRequestBody selfRefHeap fuel "/nodes/POST/requestBody/application/json"
        "application/json" ⟨[("application/json", some ⟨some (inline 0)⟩)]⟩ dm = none := by
    intro fuel dm
    have h := hds fuel "/nodes/POST/requestBody/application/json" "application/json"
    simp only [inline] at h
    simp [dmVisitRequestBody, hparse, GoMap.get?, inline, h]
  refine ⟨buildFieldFromSchema_selfRef, buildFieldsFromSchema_selfRef, hds, hvisit, ?_, ?_⟩
  · intro fuel
    have hop : parseEndpointAndMethod "/nodes/POST" = some ("/nodes", "POST") := by decide
    have hw := walkSchema_of_ignored selfRefHeap (dataModelVisitor selfRefHeap fuel)
      (fun _ _ _ => rfl) fuel "/nodes/POST/requestBody/application/json" (some (inline 0))
      ⟨[], none⟩
    have hv := hvisit fuel (ensureOperation ⟨[]⟩ "/nodes" "POST")
    simp only [inline] at hw hv
    simp only [buildDataModelFromSpec, WalkSpec, selfRefSpec, oneOperationSpec]
    generalize walkSchema selfRefHeap (dataModelVisitor selfRefHeap fuel) fuel = W at hw ⊢
    simp only [walkDocument, walkPaths, walkOperations, walkParameters, walkRequestBody,
      walkResponses, walkComponents, walkMedia, forEach, jsonRequestBody, WalkState.call,
      dataModelVisitor, dmVisitOperation, hop, inline, Option.some_bind, Option.bind_eq_bind]
    simp only [show (("/nodes" : String) = "" ∨ ("POST" : String) = "") = False from by decide,
      if_false, Option.some_bind, hv, hop,
      show ("/nodes" ++ "/" ++ "POST" ++ "/requestBody/" ++ "application/json" : String) =
        "/nodes/POST/requestBody/application/json" from by decide,
      show ("/nodes" ++ "/" ++ "POST" : String) = "/nodes/POST" from by decide]
    rcases hw with hw | hw <;> simp [hw, hv]
  · intro n
    unfold walkedPaths
    rw [walkSchema_fuel selfRefHeap TestVisitor (n + 3) 3 _ _ _
      (by simp [selfRefHeap]) (by decide)]
    decide

/-! ## The data-model builder: responses -/

/-- C7 (code at the failing input). For a response without content the walker calls no
visitor method, whatever the visitor; so the operation `DELETE /api/users`, whose only
declared response is a `204` without content, is built with an empty `Responses` map
and no entry for `204`.  A response whose media type has no schema does get its entry,
with a nil data structure. -/
theorem response_without_content_not_recorded :
    (∀ (σ : Type) (visitor : Visitor σ)
        (walk : String → Option SchemaRef → WalkState σ → Option (WalkState σ))
        (operationPath statusCode ref : String) (st : WalkState σ),
        walkResponses visitor walk operationPath [(statusCode, some ⟨ref, some ⟨[]⟩⟩)] st =
          some st) ∧
    (∀ fuel : Nat, ∃ dm op, buildDataModelFromSpec noContentSpec fuel = some dm ∧
        lookupOperation dm "/api/users" "DELETE" = some op ∧
        op.Responses.length = 0 ∧ GoMap.get? op.Responses "204" = none) ∧
    (∀ fuel : Nat, ∃ dm op, buildDataModelFromSpec noSchemaSpec fuel = some dm ∧
        lookupOperation dm "/api/users" "GET" = some op ∧
        GoMap.get? op.Responses "200" = some none) := by
  have hd : parseEndpointAndMethod "/api/users/DELETE" = some ("/api/users", "DELETE") := by
    decide
  have hg : parseEndpointAndMethod "/api/users/GET" = some ("/api/users", "GET") := by
    decide
  have hr : parseEndpointAndMethod "/api/users/GET/response/200/application/json" =
      some ("/api/users", "GET") := by decide
  refine ⟨?_, ?_, ?_⟩
  · intro σ visitor walk operationPath statusCode ref st
    simp [walkResponses, forEach]
  · intro fuel
    have h : buildDataModelFromSpec noContentSpec fuel =
        some (ensureOperation ⟨[]⟩ "/api/users" "DELETE") := by
      simp only [buildDataModelFromSpec, WalkSpec, noContentSpec, oneOperationSpec]
      generalize walkSchema [] (dataModelVisitor [] fuel) fuel = W
      simp only [walkDocument, walkPaths, walkOperations, walkParameters, walkRequestBody,
        walkResponses, walkComponents, forEach, WalkState.call, dataModelVisitor,
        dmVisitOperation, Option.some_bind, Option.bind_eq_bind, Option.map_some',
        show ("/api/users" ++ "/" ++ "DELETE" : String) = "/api/users/DELETE" from by decide,
        hd, show (("/api/users" : String) = "" ∨ ("DELETE" : String) = "") = False from by decide,
        if_false, Option.join, id]
    exact ⟨_, ⟨"DELETE", [], none, []⟩, h, by rfl, rfl, rfl⟩
  · intro fuel
    have h : buildDataModelFromSpec noSchemaSpec fuel =
        some (updateOperation
          (ensureOperation (ensureOperation ⟨[]⟩ "/api/users" "GET") "/api/users" "GET")
          "/api/users" "GET"
          (fun op => ⟨op.Method, op.Parameters, op.RequestBody,
            GoMap.set op.Responses "200" none⟩)) := by
      simp only [buildDataModelFromSpec, WalkSpec, noSchemaSpec, oneOperationSpec]
      generalize walkSchema [] (dataModelVisitor [] fuel) fuel = W
      simp only [walkDocument, walkPaths, walkOperations, walkParameters, walkRequestBody,
        walkResponses, walkComponents, walkMedia, forEach, WalkState.call, dataModelVisitor,
        dmVisitOperation, dmVisitResponse, dmResponseBody, GoMap.get?, Option.some_bind,
        Option.bind_eq_bind, Option.map_some', Option.join, id,
        show ("/api/users" ++ "/" ++ "GET" : String) = "/api/users/GET" from by decide,
        show ("/api/users/GET" ++ "/response/" ++ "200" ++ "/" ++ "application/json" : String) =
          "/api/users/GET/response/200/application/json" from by decide,
        hg, hr, show (("/api/users" : String) = "" ∨ ("GET" : String) = "") = False from by decide,
        if_false, if_true]
    exact ⟨_, ⟨"GET", [], none, [("200", none)]⟩, h, by rfl, by rfl⟩

/-! ## The data-model builder: required flags and array bodies -/

theorem forEach_some_inv {α β : Type} (P : β → Prop) (xs : List α) (body : α → β → Option β)
    (h : ∀ x ∈ xs, ∀ st st', P st → body x st = some st' → P st') :
    ∀ st st', P st → forEach xs body st = some st' → P st' := by
  induction xs with
  | nil =>
    intro st st' hst hrun
    simp only [forEach, Option.some.injEq] at hrun
    exact hrun ▸ hst
  | cons x rest ih =>
    intro st st' hst hrun
    simp only [forEach] at hrun
    cases hb : body x st with
    | none => simp [hb] at hrun
    | some st1 =>
      rw [hb] at hrun
      exact ih (fun y hy => h y (List.mem_cons_of_mem _ hy)) st1 st'
        (h x (List.mem_cons_self _ _) st st1 hst hb) hrun

theorem GoMap.mem_of_mem_set {κ ν : Type} [DecidableEq κ] (m : GoMap κ ν) (k : κ) (v : ν)
    (p : κ × ν) (hp : p ∈ GoMap.set m k v) : p = (k, v) ∨ p ∈ m := by
  induction m with
  | nil =>
    simp only [GoMap.set, List.mem_singleton] at hp
    exact Or.inl hp
  | cons q rest ih =>
    obtain ⟨k₀, v₀⟩ := q
    by_cases h₀ : k₀ = k
    · simp only [GoMap.set, h₀, if_true, List.mem_cons] at hp
      rcases hp with hp | hp
      · exact Or.inl hp
      · exact Or.inr (List.mem_cons_of_mem _ hp)
    · simp only [GoMap.set, h₀, if_false, List.mem_cons] at hp
      rcases hp with hp | hp
      · exact Or.inr (hp ▸ List.mem_cons_self _ _)
      · rcases ih hp with h | h
        · exact Or.inl h
        · exact Or.inr (List.mem_cons_of_mem _ h)

/-- The function `buildFieldFromSchema` never sets `Required`: the field it returns is
not required, whatever the schema says. -/
theorem buildFieldFromSchema_required (heap : Heap) (fuel : Nat) (name : String)
    (schemaRef : Option SchemaRef) (path : String) (V : List SchemaId) (f : Field)
    (h : buildFieldFromSchema heap fuel name schemaRef path V = some f) :
    f.Required = false := by
  cases fuel with
  | zero => simp [buildFieldFromSchema] at h
  | succ n =>
    cases schemaRef with
    | none =>
      simp only [buildFieldFromSchema, Option.some.injEq] at h
      rw [← h]; rfl
    | some ref =>
      cases hv : ref.Value with
      | none =>
        simp only [buildFieldFromSchema, hv, Option.some.injEq] at h
        rw [← h]; rfl
      | some schema =>
        cases hh : heap[schema]? with
        | none =>
          simp only [buildFieldFromSchema, hv, hh, Option.some.injEq] at h
          rw [← h]; rfl
        | some s =>
          simp only [buildFieldFromSchema, hv, hh] at h
          obtain ⟨items, _, h⟩ := Option.bind_eq_some.1 h
          obtain ⟨props, _, h⟩ := Option.bind_eq_some.1 h
          simp only [Option.some.injEq] at h
          rw [← h]; rfl

/-- Every property nested in a field returned by `buildFieldFromSchema` is not
required either. -/
theorem buildFieldFromSchema_nested_required (heap : Heap) (fuel : Nat) (name : String)
    (schemaRef : Option SchemaRef) (path : String) (V : List SchemaId) (f : Field)
    (h : buildFieldFromSchema heap fuel name schemaRef path V = some f) :
    (∀ p ∈ f.Properties, p.2.Required = false) ∧
      (∀ items, f.Items = some items → items.Required = false) := by
  cases fuel with
  | zero => simp [buildFieldFromSchema] at h
  | succ n =>
    cases schemaRef with
    | none =>
      simp only [buildFieldFromSchema, Option.some.injEq] at h
      rw [← h]
      exact ⟨by simp [Field.Properties], by simp [Field.Items]⟩
    | some ref =>
      cases hv : ref.Value with
      | none =>
        simp only [buildFieldFromSchema, hv, Option.some.injEq] at h
        rw [← h]
        exact ⟨by simp [Field.Properties], by simp [Field.Items]⟩
      | some schema =>
        cases hh : heap[schema]? with
        | none =>
          simp only [buildFieldFromSchema, hv, hh, Option.some.injEq] at h
          rw [← h]
          exact ⟨by simp [Field.Properties], by simp [Field.Items]⟩
        | some s =>
          simp only [buildFieldFromSchema, hv, hh] at h
          obtain ⟨items, hitems, h⟩ := Option.bind_eq_some.1 h
          obtain ⟨props, hprops, h⟩ := Option.bind_eq_some.1 h
          simp only [Option.some.injEq] at h
          rw [← h]
          constructor
          · show ∀ p ∈ props, p.2.Required = false
            refine forEach_some_inv (fun acc : GoMap String Field => ∀ p ∈ acc,
              p.2.Required = false) _ _ ?_ [] props (by simp) hprops
            intro x _ acc acc' hacc hbody
            cases hx : x.2 with
            | none =>
              simp only [hx, Option.some.injEq] at hbody
              exact hbody ▸ hacc
            | some propRef =>
              cases hpv : propRef.Value with
              | none =>
                simp only [hx, hpv, Option.some.injEq] at hbody
                exact hbody ▸ hacc
              | some _ =>
                simp only [hx, hpv] at hbody
                obtain ⟨g, hg, hset⟩ := Option.map_eq_some'.1 hbody
                intro p hp
                rw [← hset] at hp
                rcases GoMap.mem_of_mem_set acc x.1 g p hp with rfl | hp
                · exact buildFieldFromSchema_required heap n _ _ _ _ g hg
                · exact hacc p hp
          · show ∀ i, items = some i → i.Required = false
            intro i hi
            subst hi
            cases hit : s.Items with
            | none => simp [hit] at hitems
            | some itemsRef =>
              simp only [hit] at hitems
              obtain ⟨g, hg, hsome⟩ := Option.map_eq_some'.1 hitems
              cases hsome
              exact buildFieldFromSchema_required heap n _ _ _ _ _ hg

/-- C8 (code at the failing input). The body object requires `address`, and the object
`address` requires `city`: the field built for the direct property `address` is
required, the field built for the nested property `city` is not, although `city` is in
the required-name list of its object. -/
theorem nested_required_not_set :
    (∀ n : Nat,
        (buildDataStructureFromSchema nestedRequiredHeap (n + 3) "body" (some (inline 0))
            "application/json" []).map
          (fun ds => ds.Fields.map fun f =>
            (f.Name, f.Required, f.Properties.map fun p => (p.1, p.2.Required))) =
          some [("address", true, [("city", false)])]) ∧
    nestedRequiredHeap[0]?.map Schema.Required = some ["address"] ∧
    nestedRequiredHeap[1]?.map Schema.Required = some ["city"] := by
  refine ⟨fun n => ?_, rfl, rfl⟩
  simp [buildDataStructureFromSchema, buildFieldsFromSchema, buildFieldFromSchema, forEach,
    nestedRequiredHeap, objectSchema, scalarSchema, inline, GoMap.set, Field.setRequired,
    Field.Name, Field.Required, Field.Properties]

/-- A body schema without properties and without `allOf` branches, such as an array,
is given no fields, whatever its items are. -/
theorem buildDataStructure_no_properties (heap : Heap) (n : Nat) (path contentType : String)
    (ref : SchemaRef) (schema : SchemaId) (s : Schema) (hv : ref.Value = some schema)
    (hh : heap[schema]? = some s) (hp : s.Properties = []) (ha : s.AllOf = []) :
    buildDataStructureFromSchema heap (n + 1) path (some ref) contentType [] =
      some ⟨path, ref.Ref, contentType, []⟩ := by
  simp [buildDataStructureFromSchema, buildFieldsFromSchema, hv, hh, hp, ha, forEach]

/-- C10 (code at the failing input). For a body that is an array of objects with the
properties `id` and `name`, `buildDataStructureFromSchema` returns no field at all; the
same array as the property `users` of an object is expanded into its item properties,
and the walker reports the item properties of the array body. -/
theorem array_body_not_expanded :
    (∀ n : Nat,
        (buildDataStructureFromSchema arrayBodyHeap (n + 1) "body" (some (inline 0))
            "application/json" []).map (fun ds => fieldNames ds.Fields) = some []) ∧
    (∀ n : Nat,
        (buildDataStructureFromSchema arrayBodyHeap (n + 4) "body" (some (inline 4))
            "application/json" []).map
          (fun ds => (fieldNames ds.Fields, itemPropertyNames ds.Fields)) =
          some (["users"], [["id", "name"]])) ∧
    (∀ n : Nat,
        walkedPaths arrayBodyHeap (n + 6) "body" (some (inline 0)) =
          some ["body[].id", "body[].name"]) := by
  refine ⟨fun n => ?_, fun n => ?_, fun n => ?_⟩
  · rw [buildDataStructure_no_properties arrayBodyHeap n "body" "application/json" (inline 0) 0
      (arraySchema (inline 1)) rfl rfl rfl rfl]
    rfl
  · simp [buildDataStructureFromSchema, buildFieldsFromSchema, buildFieldFromSchema, forEach,
      arrayBodyHeap, objectSchema, arraySchema, scalarSchema, inline, GoMap.set, fieldNames,
      itemPropertyNames, Field.Name, Field.Items, Field.Properties]
  · unfold walkedPaths
    rw [walkSchema_fuel arrayBodyHeap TestVisitor (n + 6) 6 _ _ _
      (by simp [arrayBodyHeap]) (by decide)]
    decide

/-! ## The data-model builder: parameters -/

theorem lookupOperation_ensure_self (dm : DataModel) (ep m : String) :
    lookupOperation (ensureOperation dm ep m) ep m = some (operationOrNew dm ep m) := by
  unfold lookupOperation ensureOperation operationOrNew lookupOperation
  simp only [GoMap.get?_set_self, Option.some_bind]
  cases GoMap.get? dm.Endpoints ep with
  | none => simp [GoMap.get?]
  | some e =>
    simp only [Option.some_bind]
    cases GoMap.get? e.Operations m <;> simp

theorem lookupOperation_ensure_other (dm : DataModel) (ep m ep' m' : String)
    (h : (ep', m') ≠ (ep, m)) :
    lookupOperation (ensureOperation dm ep m) ep' m' = lookupOperation dm ep' m' := by
  unfold lookupOperation ensureOperation
  by_cases he : ep = ep'
  · subst he
    have hm : m ≠ m' := fun e => h (by rw [e])
    simp only [GoMap.get?_set_self, Option.some_bind]
    rw [GoMap.get?_set_ne _ _ hm]
    cases GoMap.get? dm.Endpoints ep with
    | none => simp [GoMap.get?]
    | some e => simp
  · rw [GoMap.get?_set_ne _ _ he]

theorem lookupOperation_update_self (dm : DataModel) (ep m : String) (f : Operation → Operation)
    (op : Operation) (h : lookupOperation dm ep m = some op) :
    lookupOperation (updateOperation dm ep m f) ep m = some (f op) := by
  unfold lookupOperation at h
  unfold lookupOperation updateOperation
  cases he : GoMap.get? dm.Endpoints ep with
  | none => simp [he] at h
  | some e =>
    simp only [he, Option.some_bind] at h
    simp only [h, GoMap.get?_set_self, Option.some_bind]

theorem lookupOperation_update_other (dm : DataModel) (ep m ep' m' : String)
    (f : Operation → Operation) (h : (ep', m') ≠ (ep, m)) :
    lookupOperation (updateOperation dm ep m f) ep' m' = lookupOperation dm ep' m' := by
  cases he : GoMap.get? dm.Endpoints ep with
  | none => simp only [updateOperation, he]
  | some e =>
    cases ho : GoMap.get? e.Operations m with
    | none => simp only [updateOperation, he, ho]
    | some op =>
      simp only [updateOperation, he, ho]
      unfold lookupOperation
      by_cases hep : ep = ep'
      · subst hep
        have hm : m ≠ m' := fun e => h (by rw [e])
        simp only [GoMap.get?_set_self, Option.some_bind, he]
        rw [GoMap.get?_set_ne _ _ hm]
      · rw [GoMap.get?_set_ne _ _ hep]

theorem buildFieldFromSchema_name (heap : Heap) (fuel : Nat) (name : String)
    (schemaRef : Option SchemaRef) (path : String) (V : List SchemaId) (f : Field)
    (h : buildFieldFromSchema heap fuel name schemaRef path V = some f) :
    f.Name = name := by
  cases fuel with
  | zero => simp [buildFieldFromSchema] at h
  | succ n =>
    cases schemaRef with
    | none =>
      simp only [buildFieldFromSchema, Option.some.injEq] at h
      rw [← h]; rfl
    | some ref =>
      cases hv : ref.Value with
      | none =>
        simp only [buildFieldFromSchema, hv, Option.some.injEq] at h
        rw [← h]; rfl
      | some schema =>
        cases hh : heap[schema]? with
        | none =>
          simp only [buildFieldFromSchema, hv, hh, Option.some.injEq] at h
          rw [← h]; rfl
        | some s =>
          simp only [buildFieldFromSchema, hv, hh] at h
          obtain ⟨items, _, h⟩ := Option.bind_eq_some.1 h
          obtain ⟨props, _, h⟩ := Option.bind_eq_some.1 h
          simp only [Option.some.injEq] at h
          rw [← h]; rfl

theorem field_set_projections (f : Field) (b : Bool) (loc : String) :
    ((f.setRequired b).setIn loc).Name = f.Name ∧
      ((f.setRequired b).setIn loc).Required = b ∧ ((f.setRequired b).setIn loc).In = loc := by
  cases f
  exact ⟨rfl, rfl, rfl⟩

theorem parseLoop_no_method (parts : List String) :
    ∀ (rest : List String) (i : Nat), (∀ seg ∈ rest, seg ∉ httpMethods) →
      parseLoop parts i rest = some ("", "") := by
  intro rest
  induction rest with
  | nil => intro i _; rfl
  | cons p rest ih =>
    intro i h
    have hp : p ∉ httpMethods := h p (List.mem_cons_self _ _)
    simp only [parseLoop, hp, if_false]
    exact ih (i + 1) (fun seg hseg => h seg (List.mem_cons_of_mem _ hseg))

/-- The effect of one `VisitParameter` event.  An event whose path
`parseEndpointAndMethod` reads as a non-empty endpoint and method, for a query or path
parameter whose schema is resolved and built into a field, appends exactly one field to
the parameter list of that operation, with the name, the required flag and the location
of the parameter, and changes no other operation.  For any other location the data model
is unchanged.  An event whose path has no method segment leaves the data model unchanged
whatever the location. -/
theorem visitParameter_effect :
    (∀ (heap : Heap) (fuel : Nat) (path : String) (parameter : Parameter) (dm : DataModel)
        (ep m : String) (ref : SchemaRef) (S : SchemaId) (field : Field),
        parseEndpointAndMethod path = some (ep, m) → ep ≠ "" → m ≠ "" →
        parameter.Schema = some ref → ref.Value = some S →
        (parameter.In = "query" ∨ parameter.In = "path") →
        buildFieldFromSchema heap fuel parameter.Name (some ref) path [] = some field →
        ∃ dm' f, dmVisitParameter heap fuel path parameter dm = some dm' ∧
          f.Name = parameter.Name ∧ f.Required = parameter.Required ∧
          f.In = parameter.In ∧
          lookupOperation dm' ep m =
            some ⟨(operationOrNew dm ep m).Method, (operationOrNew dm ep m).Parameters ++ [f],
              (operationOrNew dm ep m).RequestBody, (operationOrNew dm ep m).Responses⟩ ∧
          ∀ ep' m', (ep', m') ≠ (ep, m) →
            lookupOperation dm' ep' m' = lookupOperation dm ep' m') ∧
    (∀ (heap : Heap) (fuel : Nat) (path : String) (parameter : Parameter) (dm : DataModel)
        (ep m : String),
        parseEndpointAndMethod path = some (ep, m) →
        parameter.In ≠ "query" → parameter.In ≠ "path" →
        dmVisitParameter heap fuel path parameter dm = some dm) ∧
    (∀ (heap : Heap) (fuel : Nat) (path : String) (parameter : Parameter) (dm : DataModel),
        (∀ seg ∈ splitSlash path, seg ∉ httpMethods) →
        dmVisitParameter heap fuel path parameter dm = some dm) := by
  refine ⟨?_, ?_, ?_⟩
  · intro heap fuel path parameter dm ep m ref S field hparse hep hm hs hv hin hfield
    have hin' : ¬ (parameter.In ≠ "query" ∧ parameter.In ≠ "path") := by
      rintro ⟨h1, h2⟩
      rcases hin with h | h
      · exact h1 h
      · exact h2 h
    have hg : ¬ (ep = "" ∨ m = "") := by
      rintro (h | h)
      · exact hep h
      · exact hm h
    refine ⟨updateOperation (ensureOperation dm ep m) ep m
        (fun op => ⟨op.Method,
          op.Parameters ++ [(field.setRequired parameter.Required).setIn parameter.In],
          op.RequestBody, op.Responses⟩),
      (field.setRequired parameter.Required).setIn parameter.In, ?_, ?_, ?_, ?_, ?_, ?_⟩
    · simp only [dmVisitParameter, hparse, hg, if_false, hs, hv, hin', hfield, Option.map_some']
    · rw [(field_set_projections field _ _).1]
      exact buildFieldFromSchema_name heap fuel _ _ _ _ field hfield
    · exact (field_set_projections field _ _).2.1
    · exact (field_set_projections field _ _).2.2
    · rw [lookupOperation_update_self _ ep m _ _ (lookupOperation_ensure_self dm ep m)]
    · intro ep' m' hne
      rw [lookupOperation_update_other _ ep m ep' m' _ hne,
        lookupOperation_ensure_other dm ep m ep' m' hne]
  · intro heap fuel path parameter dm ep m hparse h1 h2
    simp only [dmVisitParameter, hparse]
    by_cases hg : ep = "" ∨ m = ""
    · simp [hg]
    · simp only [hg, if_false]
      cases hs : parameter.Schema with
      | none => rfl
      | some ref =>
        cases hv : ref.Value with
        | none => simp only [hv]
        | some S => simp only [hv, h1, h2, ne_eq, not_false_eq_true, and_self, if_true]
  · intro heap fuel path parameter dm hno
    have hparse : parseEndpointAndMethod path = some ("", "") :=
      parseLoop_no_method _ _ 0 hno
    simp [dmVisitParameter, hparse]

/-- An instance of the effect of `VisitParameter`: the event of the operation-level
parameter `limit` of `GET /api/vets`. -/
theorem visitParameter_effect_witness :
    ∃ dm' f, dmVisitParameter [scalarSchema "integer"] 1 "/api/vets/GET/parameter/limit"
        limitParameter (ensureOperation ⟨[]⟩ "/api/vets" "GET") = some dm' ∧
      f.Name = "limit" ∧ f.Required = true ∧ f.In = "query" ∧
      lookupOperation dm' "/api/vets" "GET" =
        some ⟨(operationOrNew (ensureOperation ⟨[]⟩ "/api/vets" "GET") "/api/vets" "GET").Method,
          (operationOrNew (ensureOperation ⟨[]⟩ "/api/vets" "GET") "/api/vets" "GET").Parameters
            ++ [f],
          (operationOrNew (ensureOperation ⟨[]⟩ "/api/vets" "GET") "/api/vets"
            "GET").RequestBody,
          (operationOrNew (ensureOperation ⟨[]⟩ "/api/vets" "GET") "/api/vets"
            "GET").Responses⟩ ∧
      ∀ ep' m', (ep', m') ≠ ("/api/vets", "GET") →
        lookupOperation dm' ep' m' =
          lookupOperation (ensureOperation ⟨[]⟩ "/api/vets" "GET") ep' m' :=
  visitParameter_effect.1 [scalarSchema "integer"] 1 "/api/vets/GET/parameter/limit"
    limitParameter (ensureOperation ⟨[]⟩ "/api/vets" "GET") "/api/vets" "GET" (inline 0) 0
    (Field.mk "limit" "integer" "" false "" false none none 0 none ""
      "/api/vets/GET/parameter/limit" "" none [] (some 0) "")
    (by decide) (by decide) (by decide) rfl rfl (Or.inl rfl) rfl

/-- C9 (code at the failing input).  The event of the path-level query parameter `limit`
of the path `/api/vets` leaves the data model as it was, and the operation
`GET /api/vets`, to which the parameter applies, is built with an empty parameter list;
declared on the operation itself the same parameter is retained. -/
theorem visitParameter_path_level_dropped :
    dmVisitParameter [scalarSchema "integer"] 2 "/api/vets/parameter/limit" limitParameter
        (ensureOperation ⟨[]⟩ "/api/vets" "GET") =
      some (ensureOperation ⟨[]⟩ "/api/vets" "GET") ∧
    ((buildDataModelFromSpec pathLevelSpec 2).bind fun dm =>
        (lookupOperation dm "/api/vets" "GET").map fun op => fieldNames op.Parameters) =
      some [] ∧
    ((buildDataModelFromSpec operationLevelSpec 2).bind fun dm =>
        (lookupOperation dm "/api/vets" "GET").map fun op => fieldNames op.Parameters) =
      some ["limit"] := by
  refine ⟨?_, by decide, by decide⟩
  have hparse : parseEndpointAndMethod "/api/vets/parameter/limit" = some ("", "") := by
    decide
  simp [dmVisitParameter, hparse]

/-! ## The operations on a scenario graph -/

theorem GoMap.get?_append {κ ν : Type} [DecidableEq κ] (m m' : GoMap κ ν) (k : κ) :
    GoMap.get? (m ++ m') k = (GoMap.get? m k).orElse (fun _ => GoMap.get? m' k) := by
  induction m with
  | nil => simp [GoMap.get?]
  | cons p rest ih =>
    obtain ⟨k₀, v₀⟩ := p
    by_cases h₀ : k₀ = k
    · simp [GoMap.get?, h₀]
    · simpa [GoMap.get?, h₀] using ih

theorem addedVertices_append (cs ds : List GraphCall) :
    addedVertices (cs ++ ds) = addedVertices cs ++ addedVertices ds := by
  induction cs with
  | nil => rfl
  | cons c cs ih => cases c <;> simp [addedVertices, ih]

theorem ScenarioGraph.calls_append (g : ScenarioGraph) (cs ds : List GraphCall) :
    g.calls (cs ++ ds) = (g.calls cs).calls ds := by
  simp [ScenarioGraph.calls, List.foldl_append]

theorem ScenarioGraph.keys_length (g : ScenarioGraph) :
    (GoMap.keys g.vertices).length = g.vertices.length := by
  simp [GoMap.keys]

theorem ScenarioGraph.dense_not_mem (g : ScenarioGraph) (h : g.Dense) :
    (g.vertices.length : Int) ∉ GoMap.keys g.vertices := by
  rw [h]
  simp

theorem ScenarioGraph.dense_nodup (g : ScenarioGraph) (h : g.Dense) :
    (GoMap.keys g.vertices).Nodup := by
  rw [h]
  exact (List.nodup_range _).map (fun a b hab => by exact_mod_cast hab)

theorem ScenarioGraph.dense_mem (g : ScenarioGraph) (h : g.Dense) (id : Int) :
    id ∈ GoMap.keys g.vertices ↔ 0 ≤ id ∧ id < g.vertices.length := by
  rw [h]
  simp only [List.mem_map, List.mem_range]
  constructor
  · rintro ⟨k, hk, rfl⟩
    exact ⟨Int.natCast_nonneg k, by exact_mod_cast hk⟩
  · rintro ⟨h0, h1⟩
    refine ⟨id.toNat, ?_, Int.toNat_of_nonneg h0⟩
    omega

/-- On a dense graph `AddVertex` appends the entry `(n, vertex)`. -/
theorem ScenarioGraph.addVertex_dense (g : ScenarioGraph) (h : g.Dense)
    (vertex : ScenarioGraphVertex) :
    (g.AddVertex vertex).1.vertices = g.vertices ++ [((g.vertices.length : Int), vertex)] := by
  have hn := g.dense_not_mem h
  simp only [AddVertex]
  generalize (g.vertices.length : Int) = n at hn
  generalize g.vertices = m at hn
  induction m with
  | nil => simp [GoMap.set]
  | cons p rest ih =>
    obtain ⟨k₀, v₀⟩ := p
    have h2 : ¬ n = k₀ ∧ n ∉ GoMap.keys rest := by simpa [GoMap.keys] using hn
    have h₀ : ¬ k₀ = n := fun e => h2.1 e.symm
    simp [GoMap.set, h₀, ih h2.2]

theorem ScenarioGraph.dense_addVertex (g : ScenarioGraph) (h : g.Dense)
    (vertex : ScenarioGraphVertex) : (g.AddVertex vertex).1.Dense := by
  unfold Dense
  rw [g.addVertex_dense h]
  simp only [GoMap.keys, List.map_append, List.length_append, List.length_cons, List.length_nil,
    List.map_cons, List.map_nil, List.range_succ]
  rw [show List.map Prod.fst g.vertices = GoMap.keys g.vertices from rfl, h]

theorem ScenarioGraph.addMappingAt_vertices (g : ScenarioGraph) (i : Nat) (s t : String) :
    (g.addMappingAt i s t).vertices = g.vertices := by
  unfold addMappingAt
  cases g.edges[i]? <;> rfl

theorem ScenarioGraph.call_vertices (g : ScenarioGraph) (h : g.Dense) (c : GraphCall) :
    (g.call c).vertices = g.vertices ++ ((addedVertices [c]).map
      (fun v => ((g.vertices.length : Int), v))) := by
  cases c with
  | addVertex vertex => simpa [call, addedVertices] using g.addVertex_dense h vertex
  | addEdge src dst => simp [call, addedVertices, AddEdge]
  | addMapping e s t => simp [call, addedVertices, addMappingAt_vertices]

theorem ScenarioGraph.dense_call (g : ScenarioGraph) (h : g.Dense) (c : GraphCall) :
    (g.call c).Dense := by
  cases c with
  | addVertex vertex => exact g.dense_addVertex h vertex
  | addEdge src dst => exact h
  | addMapping e s t =>
    unfold Dense
    simp only [call, addMappingAt_vertices]
    exact h

/-- The invariant of call sequences: the ids are dense and id `k` holds the vertex of the
`k`-th `AddVertex` call. -/
theorem ScenarioGraph.calls_vertices (cs : List GraphCall) :
    (NewScenarioGraph.calls cs).Dense ∧
      (NewScenarioGraph.calls cs).vertices.length = (addedVertices cs).length ∧
      ∀ k (hk : k < (addedVertices cs).length),
        (NewScenarioGraph.calls cs).GetVertex (k : Int) = some ((addedVertices cs).get ⟨k, hk⟩) := by
  induction cs using List.reverseRecOn with
  | nil => exact ⟨by simp [Dense, NewScenarioGraph, calls, GoMap.keys], rfl, by simp [addedVertices]⟩
  | append_singleton cs c ih =>
    obtain ⟨hd, hl, hg⟩ := ih
    have hv := (NewScenarioGraph.calls cs).call_vertices hd c
    have hcalls : NewScenarioGraph.calls (cs ++ [c]) = (NewScenarioGraph.calls cs).call c := by
      simp [calls, List.foldl_append]
    rw [hcalls, addedVertices_append]
    refine ⟨(NewScenarioGraph.calls cs).dense_call hd c, ?_, ?_⟩
    · rw [hv]; simp [hl]
    · intro k hk
      simp only [GetVertex, hv]
      by_cases hk' : k < (addedVertices cs).length
      · have h1 := hg k hk'
        simp only [GetVertex] at h1
        rw [GoMap.get?_append, h1]
        simp [List.getElem_append_left, hk']
      · have hk2 : k = (addedVertices cs).length := by
          simp only [List.length_append] at hk
          cases c <;> simp [addedVertices] at hk <;> omega
        subst hk2
        have h1 : GoMap.get? (NewScenarioGraph.calls cs).vertices
            (((addedVertices cs).length : Nat) : Int) = none := by
          rw [GoMap.get?_eq_none_iff, ← hl]
          exact dense_not_mem _ hd
        rw [GoMap.get?_append, h1]
        cases c with
        | addVertex vertex => simp [addedVertices, GoMap.get?, hl]
        | addEdge src dst => simp [addedVertices] at hk
        | addMapping e s t => simp [addedVertices] at hk

/-- C11: in the graph reached from `NewScenarioGraph` by any sequence `cs` of `AddVertex`,
`AddEdge` and `AddMapping` calls, with `n` the number of `AddVertex` calls in `cs`: the ids
in use are exactly `0, …, n-1` (each once); the next `AddVertex` call returns `n` and stores
its vertex under `n`; `GetVertex k` is the vertex passed to the `k`-th `AddVertex` call, and
stays so after any further calls `more`; `AddVertex` leaves every other id as it was, only
appends the id `n` to the ids in use, and leaves the edge list unchanged. -/
theorem addVertex_ids_dense (cs more : List GraphCall) (vertex : ScenarioGraphVertex) :
    (∀ id : Int, id ∈ GoMap.keys (NewScenarioGraph.calls cs).vertices ↔
        0 ≤ id ∧ id < (addedVertices cs).length) ∧
      (GoMap.keys (NewScenarioGraph.calls cs).vertices).Nodup ∧
      ((NewScenarioGraph.calls cs).AddVertex vertex).2 = (addedVertices cs).length ∧
      ((NewScenarioGraph.calls cs).AddVertex vertex).1.GetVertex (addedVertices cs).length =
        some vertex ∧
      (∀ k (hk : k < (addedVertices cs).length),
        ((NewScenarioGraph.calls cs).calls more).GetVertex (k : Int) =
          some ((addedVertices cs).get ⟨k, hk⟩)) ∧
      (∀ id : Int, id ≠ (addedVertices cs).length →
        ((NewScenarioGraph.calls cs).AddVertex vertex).1.GetVertex id =
          (NewScenarioGraph.calls cs).GetVertex id) ∧
      GoMap.keys ((NewScenarioGraph.calls cs).AddVertex vertex).1.vertices =
        GoMap.keys (NewScenarioGraph.calls cs).vertices ++ [((addedVertices cs).length : Int)] ∧
      ((NewScenarioGraph.calls cs).AddVertex vertex).1.edges = (NewScenarioGraph.calls cs).edges := by
  obtain ⟨hd, hl, hg⟩ := ScenarioGraph.calls_vertices cs
  refine ⟨?_, ScenarioGraph.dense_nodup _ hd, ?_, ?_, ?_, ?_, ?_, rfl⟩
  · intro id
    rw [ScenarioGraph.dense_mem _ hd, hl]
  · simp [ScenarioGraph.AddVertex, hl]
  · simp only [ScenarioGraph.AddVertex, ScenarioGraph.GetVertex, ← hl]
    exact GoMap.get?_set_self _ _ _
  · intro k hk
    obtain ⟨_, _, hg'⟩ := ScenarioGraph.calls_vertices (cs ++ more)
    have hk' : k < (addedVertices (cs ++ more)).length := by
      rw [addedVertices_append, List.length_append]; omega
    rw [← ScenarioGraph.calls_append, hg' k hk']
    simp [addedVertices_append, List.getElem_append_left, hk]
  · intro id hid
    simp only [ScenarioGraph.AddVertex, ScenarioGraph.GetVertex]
    rw [← hl] at hid
    exact GoMap.get?_set_ne _ _ (fun e => hid e.symm)
  · simp only [ScenarioGraph.AddVertex, ← hl]
    exact GoMap.keys_set_of_not_mem _ _ _ (ScenarioGraph.dense_not_mem _ hd)

theorem ScenarioGraph.getEdgeFrom_some (src dst : Int) (l : List ScenarioGraphEdge) (i j : Nat)
    (e : ScenarioGraphEdge) (h : getEdgeFrom src dst l i = some (j, e)) :
    i ≤ j ∧ l[j - i]? = some e ∧ e.From = src ∧ e.To = dst ∧
      ∀ k e', k < j - i → l[k]? = some e' → ¬ (e'.From = src ∧ e'.To = dst) := by
  induction l generalizing i with
  | nil => simp [getEdgeFrom] at h
  | cons x rest ih =>
    by_cases hx : x.From = src ∧ x.To = dst
    · simp only [getEdgeFrom, hx, and_self, if_true, Option.some.injEq, Prod.mk.injEq] at h
      obtain ⟨rfl, rfl⟩ := h
      simp [hx]
    · simp only [getEdgeFrom, hx, if_false] at h
      obtain ⟨h1, h2, h3, h4, h5⟩ := ih (i + 1) h
      have hji : j - i = (j - (i + 1)) + 1 := by omega
      refine ⟨by omega, ?_, h3, h4, ?_⟩
      · rw [hji]; simpa using h2
      · intro k e' hk hk'
        cases k with
        | zero =>
          simp only [List.getElem?_cons_zero, Option.some.injEq] at hk'
          subst hk'
          exact hx
        | succ k =>
          simp only [List.getElem?_cons_succ] at hk'
          exact h5 k e' (by omega) hk'

theorem ScenarioGraph.getEdgeFrom_none (src dst : Int) (l : List ScenarioGraphEdge) (i : Nat) :
    getEdgeFrom src dst l i = none ↔ ∀ e ∈ l, ¬ (e.From = src ∧ e.To = dst) := by
  induction l generalizing i with
  | nil => simp [getEdgeFrom]
  | cons x rest ih =>
    by_cases hx : x.From = src ∧ x.To = dst
    · simp only [getEdgeFrom, hx, and_self, if_true, List.mem_cons, forall_eq_or_imp]
      simp
    · simp only [getEdgeFrom, hx, if_false, List.mem_cons, forall_eq_or_imp, ih (i + 1)]
      simp [hx]

theorem ScenarioGraph.getEdgeFrom_append (src dst : Int) (l l' : List ScenarioGraphEdge)
    (i : Nat) :
    getEdgeFrom src dst (l ++ l') i =
      (getEdgeFrom src dst l i).orElse (fun _ => getEdgeFrom src dst l' (i + l.length)) := by
  induction l generalizing i with
  | nil => simp [getEdgeFrom]
  | cons x rest ih =>
    by_cases hx : x.From = src ∧ x.To = dst
    · simp [getEdgeFrom, hx]
    · have e : i + 1 + rest.length = i + (rest.length + 1) := by omega
      have := ih (i + 1)
      rw [e] at this
      simpa [getEdgeFrom, hx] using this

/-- C12: `GetEdge src dst` returns the edge at the first position of the edge list whose
`From` and `To` are `src` and `dst` (no earlier edge matches; the reversed pair does not
count), and `nil` exactly when no edge matches.  `AddEdge` appends one edge with the given
ends and no mapping, whatever the graph holds, and keeps the vertices and the earlier
edges; a pair that `GetEdge` already finds is found at the same place after any `AddEdge`,
and a pair it does not find is found at the new last position after `AddEdge` of it. -/
theorem getEdge_first_match (g : ScenarioGraph) (src dst a b : Int) :
    (∀ i e, g.GetEdge src dst = some (i, e) →
        g.edges[i]? = some e ∧ e.From = src ∧ e.To = dst ∧
          ∀ j e', j < i → g.edges[j]? = some e' → ¬ (e'.From = src ∧ e'.To = dst)) ∧
      (g.GetEdge src dst = none ↔ ∀ e ∈ g.edges, ¬ (e.From = src ∧ e.To = dst)) ∧
      (g.AddEdge a b).edges = g.edges ++ [⟨a, b, []⟩] ∧
      (g.AddEdge a b).vertices = g.vertices ∧
      ((g.GetEdge src dst).isSome → (g.AddEdge a b).GetEdge src dst = g.GetEdge src dst) ∧
      (g.GetEdge src dst = none →
        (g.AddEdge src dst).GetEdge src dst = some (g.edges.length, ⟨src, dst, []⟩)) := by
  refine ⟨?_, ScenarioGraph.getEdgeFrom_none src dst g.edges 0, rfl, rfl, ?_, ?_⟩
  · intro i e h
    have := ScenarioGraph.getEdgeFrom_some src dst g.edges 0 i e h
    simpa using this.2
  · intro h
    simp only [ScenarioGraph.GetEdge, ScenarioGraph.AddEdge, ScenarioGraph.getEdgeFrom_append]
    simp only [ScenarioGraph.GetEdge] at h
    obtain ⟨x, hx⟩ := Option.isSome_iff_exists.1 h
    simp [hx]
  · intro h
    simp only [ScenarioGraph.GetEdge, ScenarioGraph.AddEdge, ScenarioGraph.getEdgeFrom_append]
    simp only [ScenarioGraph.GetEdge] at h
    simp [h, ScenarioGraph.getEdgeFrom]

/-! ## The graph builder: the world -/

@[simp] theorem World.run_fst (w : World) : w.Run.1 = w.answers w.prompts := rfl

@[simp] theorem World.run_snd (w : World) : w.Run.2 = w.advance 1 0 := rfl

@[simp] theorem World.rangeMap_fst {κ ν : Type} (w : World) (m : GoMap κ ν) :
    (w.rangeMap m).1 = goRange (w.seeds w.ranges) m := rfl

@[simp] theorem World.rangeMap_snd {κ ν : Type} (w : World) (m : GoMap κ ν) :
    (w.rangeMap m).2 = w.advance 0 1 := rfl

@[simp] theorem World.advance_answers (w : World) (p r : Nat) :
    (w.advance p r).answers = w.answers := rfl

@[simp] theorem World.advance_seeds (w : World) (p r : Nat) :
    (w.advance p r).seeds = w.seeds := rfl

@[simp] theorem World.advance_prompts (w : World) (p r : Nat) :
    (w.advance p r).prompts = w.prompts + p := rfl

@[simp] theorem World.advance_ranges (w : World) (p r : Nat) :
    (w.advance p r).ranges = w.ranges + r := rfl

@[simp] theorem World.advance_advance (w : World) (p r p' r' : Nat) :
    (w.advance p r).advance p' r' = w.advance (p + p') (r + r') := by
  simp [World.advance, Nat.add_assoc]

@[simp] theorem World.advance_zero (w : World) : w.advance 0 0 = w := rfl

theorem goIndex_some {α : Type} (l : List α) (i : Int) (x : α) (h : goIndex l i = some x) :
    0 ≤ i ∧ l[i.toNat]? = some x ∧ x ∈ l := by
  unfold goIndex at h
  split at h
  · simp at h
  · exact ⟨by omega, h, List.getElem?_mem h⟩

/-! ## The graph builder: selection failure -/

theorem addEndpoint_err (g : ScenarioGraph) (ops : List availableOperation) (w : World)
    (h : w.errBetween (addEndpointToGraph g ops w).2) : (addEndpointToGraph g ops w).1 = some g := by
  obtain ⟨k, hk1, hk2, hk3⟩ := h
  unfold addEndpointToGraph at hk2 ⊢
  split
  · rfl
  · rename_i hops
    simp only [hops, if_false] at hk2
    cases h0 : w.answers w.prompts with
    | err => simp [h0]
    | ok idx =>
      simp only [World.run_fst, h0] at hk2 ⊢
      cases hop : goIndex ops idx with
      | none =>
        simp only [hop, World.run_snd, World.advance_prompts] at hk2
        have : k = w.prompts := by omega
        subst this
        simp [h0] at hk3
      | some op =>
        simp only [hop] at hk2 ⊢
        split_ifs at hk2 ⊢ with hr0 hr1
        · simp only [World.run_snd, World.advance_prompts] at hk2
          have : k = w.prompts := by omega
          subst this
          simp [h0] at hk3
        · simp only [World.run_snd, World.advance_prompts] at hk2
          have : k = w.prompts := by omega
          subst this
          simp [h0] at hk3
        · simp only [World.run_snd, World.rangeMap_snd, World.advance_advance, World.run_fst,
            World.advance_answers, World.advance_prompts] at hk2 ⊢
          cases h1 : w.answers (w.prompts + 1) with
          | err => simp
          | ok respIdx =>
            simp only [h1] at hk2 ⊢
            have hk : k = w.prompts ∨ k = w.prompts + 1 := by
              split at hk2 <;> simp at hk2 <;> omega
            rcases hk with rfl | rfl
            · simp [h0] at hk3
            · simp [h1] at hk3

theorem addConnection_err (g : ScenarioGraph) (w : World)
    (h : w.errBetween (addConnectionToGraph g w).2) : (addConnectionToGraph g w).1 = some g := by
  obtain ⟨k, hk1, hk2, hk3⟩ := h
  unfold addConnectionToGraph at hk2 ⊢
  split
  · rfl
  · rename_i hlen
    simp only [hlen, if_false, World.rangeMap_snd, World.run_fst, World.run_snd,
      World.advance_advance, World.advance_answers, World.advance_prompts,
      Nat.add_zero, Nat.zero_add] at hk2 ⊢
    cases h0 : w.answers w.prompts with
    | err => simp
    | ok srcIdx =>
      simp only [h0] at hk2 ⊢
      cases hs : goIndex (srcIDs g w) srcIdx with
      | none =>
        simp only [hs, World.advance_prompts] at hk2
        have : k = w.prompts := by omega
        subst this
        simp [h0] at hk3
      | some src =>
        simp only [hs] at hk2 ⊢
        split_ifs at hk2 ⊢ with hd
        · simp only [World.advance_prompts] at hk2
          have : k = w.prompts := by omega
          subst this
          simp [h0] at hk3
        · cases h1 : w.answers (w.prompts + 1) with
          | err => simp
          | ok dstIdx =>
            simp only [h1] at hk2 ⊢
            have hk : k = w.prompts ∨ k = w.prompts + 1 := by
              split at hk2
              · simp at hk2; omega
              · split_ifs at hk2 <;> simp at hk2 <;> omega
            rcases hk with rfl | rfl
            · simp [h0] at hk3
            · simp [h1] at hk3

theorem addFieldMapping_err (g : ScenarioGraph) (w : World)
    (h : w.errBetween (addFieldMappingToGraph g w).2) :
    (addFieldMappingToGraph g w).1 = some g := by
  obtain ⟨k, hk1, hk2, hk3⟩ := h
  unfold addFieldMappingToGraph at hk2 ⊢
  split
  · rfl
  · rename_i hlen
    simp only [hlen, if_false, World.run_fst, World.run_snd,
      World.advance_advance, World.advance_answers, World.advance_prompts,
      Nat.add_zero, Nat.zero_add] at hk2 ⊢
    cases h0 : w.answers w.prompts with
    | err => simp
    | ok edgeIdx =>
      simp only [h0] at hk2 ⊢
      cases he : goIndex g.edges edgeIdx with
      | none =>
        simp only [he, World.advance_prompts] at hk2
        have : k = w.prompts := by omega
        subst this
        simp [h0] at hk3
      | some edge =>
        simp only [he] at hk2 ⊢
        split
        · rename_i vs vd hvs hvd
          simp only [hvs, hvd] at hk2
          split_ifs at hk2 ⊢ with hsf htf
          · rfl
          · rfl
          · cases h1 : w.answers (w.prompts + 1) with
            | err => simp
            | ok srcIdx =>
              simp only [h1] at hk2 ⊢
              cases hsi : goIndex (collectRequestFields vs) srcIdx with
              | none =>
                simp only [hsi, World.advance_prompts] at hk2
                have hk : k = w.prompts ∨ k = w.prompts + 1 := by omega
                rcases hk with rfl | rfl
                · simp [h0] at hk3
                · simp [h1] at hk3
              | some sf =>
                simp only [hsi] at hk2 ⊢
                cases h2 : w.answers (w.prompts + 1 + 1) with
                | err => simp
                | ok dstIdx =>
                  simp only [h2] at hk2 ⊢
                  have hk : k = w.prompts ∨ k = w.prompts + 1 ∨ k = w.prompts + 1 + 1 := by
                    split at hk2 <;> simp at hk2 <;> omega
                  rcases hk with rfl | rfl | rfl
                  · simp [h0] at hk3
                  · simp [h1] at hk3
                  · simp [h2] at hk3
        · rfl

/-- C20: a selection failure leaves the graph as it was.  If the selector returns an error
at any prompt made by `addEndpointToGraph` (operation, response code),
`addConnectionToGraph` (source, target) or `addFieldMappingToGraph` (edge, source field,
target field), the action returns and the graph after it is the graph before it; the menu
loop then goes on with that graph.  If the menu prompt itself fails, `buildScenarioGraph`'s
loop stops and returns the graph as it stands. -/
theorem selection_failure_atomic (g : ScenarioGraph) (ops : List availableOperation)
    (w : World) (fuel : Nat) :
    (w.errBetween (addEndpointToGraph g ops w).2 → (addEndpointToGraph g ops w).1 = some g) ∧
      (w.errBetween (addConnectionToGraph g w).2 → (addConnectionToGraph g w).1 = some g) ∧
      (w.errBetween (addFieldMappingToGraph g w).2 →
        (addFieldMappingToGraph g w).1 = some g) ∧
      (w.answers w.prompts = Answer.ok 0 →
        (w.advance 1 0).errBetween (addEndpointToGraph g ops (w.advance 1 0)).2 →
        menuLoop ops (fuel + 1) g w =
          menuLoop ops fuel g (addEndpointToGraph g ops (w.advance 1 0)).2) ∧
      (w.answers w.prompts = Answer.ok 1 →
        (w.advance 1 0).errBetween (addConnectionToGraph g (w.advance 1 0)).2 →
        menuLoop ops (fuel + 1) g w =
          menuLoop ops fuel g (addConnectionToGraph g (w.advance 1 0)).2) ∧
      (w.answers w.prompts = Answer.ok 2 →
        (w.advance 1 0).errBetween (addFieldMappingToGraph g (w.advance 1 0)).2 →
        menuLoop ops (fuel + 1) g w =
          menuLoop ops fuel g (addFieldMappingToGraph g (w.advance 1 0)).2) ∧
      (w.answers w.prompts = Answer.err →
        menuLoop ops (fuel + 1) g w = (some g, w.advance 1 0)) := by
  refine ⟨addEndpoint_err g ops w, addConnection_err g w, addFieldMapping_err g w,
    ?_, ?_, ?_, ?_⟩
  · intro h0 he
    simp [menuLoop, h0, andThen, addEndpoint_err g ops _ he]
  · intro h0 he
    simp [menuLoop, h0, andThen, addConnection_err g _ he]
  · intro h0 he
    simp [menuLoop, h0, andThen, addFieldMapping_err g _ he]
  · intro h0
    simp [menuLoop, h0]

/-- Witness for C20: the add-edge action on the graph with two vertices, the selector
failing at the target prompt. -/
theorem selection_failure_atomic_witness :
    (addConnectionToGraph linkedGraph
      ⟨fun n => if n = 1 then Answer.err else Answer.ok 0, 0, fun _ => [], 0⟩).1 =
        some linkedGraph :=
  (selection_failure_atomic linkedGraph []
    ⟨fun n => if n = 1 then Answer.err else Answer.ok 0, 0, fun _ => [], 0⟩ 0).2.1
    ⟨1, by decide, by decide, rfl⟩

/-! ## The graph builder: the add-edge action -/

theorem mem_srcIDs (g : ScenarioGraph) (w : World) (id : Int) :
    id ∈ srcIDs g w ↔ id ∈ GoMap.keys g.vertices := by
  unfold srcIDs GoMap.keys
  simp only [World.rangeMap_fst]
  exact ((goRange_perm (w.seeds w.ranges) g.vertices).map Prod.fst).mem_iff

theorem mem_dstIDs (g : ScenarioGraph) (w : World) (src id : Int) :
    id ∈ dstIDs g w src ↔ id ∈ GoMap.keys g.vertices ∧ id ≠ src := by
  unfold dstIDs GoMap.keys
  simp only [World.rangeMap_fst, List.mem_map, List.mem_filter, decide_eq_true_eq]
  constructor
  · rintro ⟨p, ⟨hp, hne⟩, rfl⟩
    exact ⟨⟨p, (goRange_perm _ _).mem_iff.1 hp, rfl⟩, hne⟩
  · rintro ⟨⟨p, hp, rfl⟩, hne⟩
    exact ⟨p, ⟨(goRange_perm _ _).mem_iff.2 hp, hne⟩, rfl⟩

/-- The add-edge action when both selections are in range. -/
theorem addConnection_eq (g : ScenarioGraph) (w : World) (srcIdx dstIdx src dst : Int)
    (hlen : 2 ≤ g.vertices.length)
    (h0 : w.answers w.prompts = Answer.ok srcIdx) (hs : goIndex (srcIDs g w) srcIdx = some src)
    (h1 : w.answers (w.prompts + 1) = Answer.ok dstIdx)
    (hd : goIndex (dstIDs g (w.advance 1 1) src) dstIdx = some dst) :
    addConnectionToGraph g w =
      (if (g.GetEdge src dst).isSome then some g else some (g.AddEdge src dst),
        w.advance 2 2) := by
  have hlen' : ¬ g.vertices.length < 2 := by omega
  have hne : ¬ (dstIDs g (w.advance 1 1) src).length = 0 := by
    intro h
    have := (goIndex_some _ _ _ hd).2.2
    rw [List.length_eq_zero.1 h] at this
    simp at this
  unfold addConnectionToGraph
  simp only [hlen', if_false, World.rangeMap_snd, World.run_fst, World.run_snd,
    World.advance_advance, World.advance_answers, World.advance_prompts,
    Nat.add_zero, Nat.zero_add, h0, hs, hne, h1, hd]
  split_ifs <;> rfl

/-- What the add-edge action can do to a graph. -/
theorem addConnection_cases (g g' : ScenarioGraph) (w : World)
    (h : (addConnectionToGraph g w).1 = some g') :
    g' = g ∨ ∃ src dst, src ∈ GoMap.keys g.vertices ∧ dst ∈ GoMap.keys g.vertices ∧
      dst ≠ src ∧ g.GetEdge src dst = none ∧ g' = g.AddEdge src dst := by
  unfold addConnectionToGraph at h
  split at h
  · left; simpa using h.symm
  · simp only [World.rangeMap_snd, World.run_fst, World.run_snd,
      World.advance_advance, World.advance_answers, World.advance_prompts,
      Nat.add_zero, Nat.zero_add] at h
    split at h
    · left; simpa using h.symm
    · split at h
      · simp at h
      · rename_i src hs
        split_ifs at h with hd
        · left; simpa using h.symm
        · split at h
          · left; simpa using h.symm
          · split at h
            · simp at h
            · rename_i dst hdst
              have hsm := (mem_srcIDs g w src).1 (goIndex_some _ _ _ hs).2.2
              have hdm := (mem_dstIDs g _ src dst).1 (goIndex_some _ _ _ hdst).2.2
              split_ifs at h with he
              · left; simpa using h.symm
              · right
                refine ⟨src, dst, hsm, hdm.1, hdm.2, ?_, by simpa using h.symm⟩
                simpa using he

theorem two_le_length_of_mem_ne {α : Type} (l : List α) (a b : α) (ha : a ∈ l) (hb : b ∈ l)
    (hab : b ≠ a) : 2 ≤ l.length := by
  match l, ha, hb with
  | [x], ha, hb =>
    simp only [List.mem_singleton] at ha hb
    exact absurd (hb.trans ha.symm) hab
  | _ :: _ :: _, _, _ => simp

/-- C15: in `addConnectionToGraph`, when the source selection picks the vertex `src`, the
target selection picks the vertex `dst`, and the graph already holds an edge from `src`
to `dst`, the action returns the graph it was given: vertices, edge list and mappings are
unchanged. -/
theorem addConnection_duplicate_noop :
    ∀ (g : ScenarioGraph) (w : World) (srcIdx dstIdx src dst : Int),
      w.answers w.prompts = Answer.ok srcIdx → goIndex (srcIDs g w) srcIdx = some src →
      w.answers (w.prompts + 1) = Answer.ok dstIdx →
      goIndex (dstIDs g (w.advance 1 1) src) dstIdx = some dst →
      (g.GetEdge src dst).isSome →
      addConnectionToGraph g w = (some g, w.advance 2 2) := by
  intro g w srcIdx dstIdx src dst h0 hs h1 hd he
  have hsm := (mem_srcIDs g w src).1 (goIndex_some _ _ _ hs).2.2
  have hdm := (mem_dstIDs g _ src dst).1 (goIndex_some _ _ _ hd).2.2
  have hlen : 2 ≤ g.vertices.length := by
    have := two_le_length_of_mem_ne _ src dst hsm hdm.1 hdm.2
    simpa [GoMap.keys] using this
  rw [addConnection_eq g w srcIdx dstIdx src dst hlen h0 hs h1 hd]
  simp [he]

/-- Witness for C15: on the graph with the edge 0->1, selecting the source 0 and the
target 1 again changes nothing. -/
theorem addConnection_duplicate_noop_witness :
    addConnectionToGraph linkedGraph (scriptWorld [0, 0]) =
      (some linkedGraph, (scriptWorld [0, 0]).advance 2 2) :=
  addConnection_duplicate_noop linkedGraph (scriptWorld [0, 0]) 0 0 0 1 rfl rfl rfl rfl rfl

/-! ## The graph builder: what the actions can do to a graph -/

/-- What the add-vertex action can do to a graph. -/
theorem addEndpoint_cases (g g' : ScenarioGraph) (ops : List availableOperation) (w : World)
    (h : (addEndpointToGraph g ops w).1 = some g') :
    g' = g ∨ ∃ op code, op ∈ ops ∧ g' = (g.AddVertex (vertexOf op code)).1 := by
  unfold addEndpointToGraph at h
  split at h
  · left; simpa using h.symm
  · split at h
    · left; simpa using h.symm
    · split at h
      · simp at h
      · rename_i op hop
        have hmem := (goIndex_some _ _ _ hop).2.2
        split_ifs at h
        · right; exact ⟨op, _, hmem, by simpa using h.symm⟩
        · right; exact ⟨op, _, hmem, by simpa using h.symm⟩
        · split at h
          · left; simpa using h.symm
          · split at h
            · simp at h
            · right; exact ⟨op, _, hmem, by simpa using h.symm⟩

/-- What the add-field-mapping action can do to a graph. -/
theorem addFieldMapping_cases (g g' : ScenarioGraph) (w : World)
    (h : (addFieldMappingToGraph g w).1 = some g') :
    g' = g ∨ ∃ i e vs vd s t, g.edges[i]? = some e ∧ g.GetVertex e.From = some vs ∧
      g.GetVertex e.To = some vd ∧ s ∈ collectRequestFields vs ∧
      t ∈ collectRequestFields vd ∧ g' = g.addMappingAt i s t := by
  unfold addFieldMappingToGraph at h
  split at h
  · left; simpa using h.symm
  · split at h
    · left; simpa using h.symm
    · split at h
      · simp at h
      · rename_i edgeIdx _ e he
        have hi := (goIndex_some _ _ _ he).2.1
        split at h
        · rename_i vs vd hvs hvd
          split_ifs at h
          · left; simpa using h.symm
          · left; simpa using h.symm
          · split at h
            · left; simpa using h.symm
            · split at h
              · simp at h
              · rename_i s hs
                split at h
                · left; simpa using h.symm
                · split at h
                  · simp at h
                  · rename_i t ht
                    right
                    exact ⟨_, e, vs, vd, s, t, hi, hvs, hvd,
                      (goIndex_some _ _ _ hs).2.2, (goIndex_some _ _ _ ht).2.2,
                      by simpa using h.symm⟩
        · left; simpa using h.symm

theorem ScenarioGraph.addMappingAt_ends (g : ScenarioGraph) (i : Nat) (s t : String) :
    (g.addMappingAt i s t).edges.map (fun e => (e.From, e.To)) =
      g.edges.map (fun e => (e.From, e.To)) := by
  unfold addMappingAt
  cases he : g.edges[i]? with
  | none => rfl
  | some e =>
    simp only
    apply List.ext_getElem?
    intro j
    by_cases hj : i = j
    · subst hj
      have hlt : i < g.edges.length := by
        by_contra hc
        rw [List.getElem?_eq_none (by omega)] at he
        simp at he
      have h2 := List.getElem?_eq_getElem hlt
      rw [he] at h2
      simp [List.getElem?_set, hlt, ScenarioGraphEdge.AddMapping, ← Option.some.inj h2]
    · simp [List.getElem?_set, hj]

/-! ## The graph builder: the graphs it builds are dense and well formed -/

theorem wellFormed_addVertex (g : ScenarioGraph) (vertex : ScenarioGraphVertex)
    (h : g.WellFormed) : (g.AddVertex vertex).1.WellFormed := by
  obtain ⟨h1, h2, h3⟩ := h
  refine ⟨?_, h2, h3⟩
  intro e he
  have := h1 e he
  simp only [ScenarioGraph.AddVertex, GoMap.mem_keys_set]
  exact ⟨Or.inr this.1, Or.inr this.2⟩

theorem wellFormed_addEdge (g : ScenarioGraph) (src dst : Int) (h : g.WellFormed)
    (hs : src ∈ GoMap.keys g.vertices) (hd : dst ∈ GoMap.keys g.vertices) (hne : dst ≠ src)
    (he : g.GetEdge src dst = none) : (g.AddEdge src dst).WellFormed := by
  obtain ⟨h1, h2, h3⟩ := h
  have hno := (ScenarioGraph.getEdgeFrom_none src dst g.edges 0).1 he
  refine ⟨?_, ?_, ?_⟩
  · intro e hmem
    simp only [ScenarioGraph.AddEdge, List.mem_append, List.mem_singleton] at hmem
    rcases hmem with hmem | rfl
    · exact h1 e hmem
    · exact ⟨hs, hd⟩
  · intro e hmem
    simp only [ScenarioGraph.AddEdge, List.mem_append, List.mem_singleton] at hmem
    rcases hmem with hmem | rfl
    · exact h2 e hmem
    · exact fun e => hne e.symm
  · simp only [ScenarioGraph.AddEdge, List.map_append, List.map_cons, List.map_nil]
    rw [List.nodup_append]
    refine ⟨h3, by simp, ?_⟩
    intro p hp hp'
    simp only [List.mem_singleton] at hp'
    subst hp'
    obtain ⟨e, hmem, heq⟩ := List.mem_map.1 hp
    simp only [Prod.mk.injEq] at heq
    exact hno e hmem heq

theorem wellFormed_addMappingAt (g : ScenarioGraph) (i : Nat) (s t : String)
    (h : g.WellFormed) : (g.addMappingAt i s t).WellFormed := by
  obtain ⟨h1, h2, h3⟩ := h
  have hends := g.addMappingAt_ends i s t
  have hmem : ∀ e ∈ (g.addMappingAt i s t).edges, ∃ e₀ ∈ g.edges,
      e₀.From = e.From ∧ e₀.To = e.To := by
    intro e he
    have : (e.From, e.To) ∈ (g.addMappingAt i s t).edges.map (fun e => (e.From, e.To)) :=
      List.mem_map.2 ⟨e, he, rfl⟩
    rw [hends] at this
    obtain ⟨e₀, he₀, heq⟩ := List.mem_map.1 this
    simp only [Prod.mk.injEq] at heq
    exact ⟨e₀, he₀, heq⟩
  refine ⟨?_, ?_, ?_⟩
  · intro e he
    obtain ⟨e₀, he₀, hf, ht⟩ := hmem e he
    rw [ScenarioGraph.addMappingAt_vertices, ← hf, ← ht]
    exact h1 e₀ he₀
  · intro e he
    obtain ⟨e₀, he₀, hf, ht⟩ := hmem e he
    rw [← hf, ← ht]
    exact h2 e₀ he₀
  · rw [hends]
    exact h3

theorem dense_addMappingAt (g : ScenarioGraph) (i : Nat) (s t : String) (h : g.Dense) :
    (g.addMappingAt i s t).Dense := by
  unfold ScenarioGraph.Dense
  rw [ScenarioGraph.addMappingAt_vertices]
  exact h

/-- The menu loop keeps the graph dense and well formed. -/
theorem menuLoop_invariant (ops : List availableOperation) (fuel : Nat) :
    ∀ (g g' : ScenarioGraph) (w : World), g.Dense ∧ g.WellFormed →
      (menuLoop ops fuel g w).1 = some g' → g'.Dense ∧ g'.WellFormed := by
  induction fuel with
  | zero =>
    intro g g' w _ h
    simp [menuLoop] at h
  | succ fuel ih =>
    intro g g' w hg h
    have step : ∀ r : Option ScenarioGraph × World,
        (∀ g₁, r.1 = some g₁ → g₁.Dense ∧ g₁.WellFormed) →
        (andThen r (menuLoop ops fuel)).1 = some g' → g'.Dense ∧ g'.WellFormed := by
      intro r hr h'
      unfold andThen at h'
      cases hr1 : r.1 with
      | none => simp [hr1] at h'
      | some g₁ =>
        simp only [hr1] at h'
        exact ih g₁ g' r.2 (hr g₁ hr1) h'
    unfold menuLoop at h
    split at h
    · have : g' = g := by simpa using h.symm
      subst this
      exact hg
    · rename_i idx _
      split_ifs at h
      · refine step _ ?_ h
        intro g₁ h₁
        rcases addEndpoint_cases g g₁ ops _ h₁ with rfl | ⟨op, code, _, rfl⟩
        · exact hg
        · exact ⟨g.dense_addVertex hg.1 _, wellFormed_addVertex g _ hg.2⟩
      · refine step _ ?_ h
        intro g₁ h₁
        rcases addConnection_cases g g₁ _ h₁ with rfl | ⟨src, dst, hs, hd, hne, he, rfl⟩
        · exact hg
        · exact ⟨hg.1, wellFormed_addEdge g src dst hg.2 hs hd hne he⟩
      · refine step _ ?_ h
        intro g₁ h₁
        rcases addFieldMapping_cases g g₁ _ h₁ with rfl | ⟨i, e, vs, vd, s, t, _, _, _, _, _, rfl⟩
        · exact hg
        · exact ⟨dense_addMappingAt g i s t hg.1, wellFormed_addMappingAt g i s t hg.2⟩
      · have : g' = g := by simpa using h.symm
        subst this
        exact hg
      · exact ih g g' _ hg h

theorem newScenarioGraph_invariant : NewScenarioGraph.Dense ∧ NewScenarioGraph.WellFormed := by
  refine ⟨by simp [ScenarioGraph.Dense, NewScenarioGraph, GoMap.keys], ?_, ?_, ?_⟩
  · intro e he
    simp [NewScenarioGraph] at he
  · intro e he
    simp [NewScenarioGraph] at he
  · simp [NewScenarioGraph]

theorem buildScenarioGraph_invariant (dataModel : DataModel) (w : World) (fuel : Nat)
    (g : ScenarioGraph) (h : (buildScenarioGraph dataModel w fuel).1 = some g) :
    g.Dense ∧ g.WellFormed := by
  unfold buildScenarioGraph at h
  split_ifs at h
  · have : g = NewScenarioGraph := by simpa using h.symm
    subst this
    exact newScenarioGraph_invariant
  · exact menuLoop_invariant _ fuel _ g _ newScenarioGraph_invariant h

/-- C16: every graph `buildScenarioGraph` returns, for any data model, any selector
answers and any visiting orders of the maps, is well formed: the ends of every edge are
ids of vertices of the graph, no edge has `From = To`, and no two edges have the same
`(From, To)`; and on a graph with fewer than two vertices `addConnectionToGraph` returns
at once, asking nothing and adding nothing. -/
theorem buildScenarioGraph_wellFormed :
    (∀ (dataModel : DataModel) (w : World) (fuel : Nat) (g : ScenarioGraph),
      (buildScenarioGraph dataModel w fuel).1 = some g →
        (∀ e ∈ g.edges, e.From ∈ GoMap.keys g.vertices ∧ e.To ∈ GoMap.keys g.vertices) ∧
        (∀ e ∈ g.edges, e.From ≠ e.To) ∧
        (g.edges.map (fun e => (e.From, e.To))).Nodup) ∧
      (∀ (g : ScenarioGraph) (w : World), g.vertices.length < 2 →
        addConnectionToGraph g w = (some g, w)) := by
  refine ⟨?_, ?_⟩
  · intro dataModel w fuel g h
    exact (buildScenarioGraph_invariant dataModel w fuel g h).2
  · intro g w h
    simp [addConnectionToGraph, h]

/-- Witness for C16: two vertices, one edge and one mapping built from `ownersModel`. -/
theorem buildScenarioGraph_wellFormed_witness :
    ∃ g, (buildScenarioGraph ownersModel
        (scriptWorld [0, 0, 0, 1, 1, 1, 0, 0, 2, 0, 0, 0, 3]) 6).1 = some g ∧
      g.edges.map (fun e => (e.From, e.To)) = [(0, 1)] ∧
      (∀ e ∈ g.edges, e.From ∈ GoMap.keys g.vertices ∧ e.To ∈ GoMap.keys g.vertices) ∧
      (∀ e ∈ g.edges, e.From ≠ e.To) ∧
      (g.edges.map (fun e => (e.From, e.To))).Nodup :=
  ⟨_, rfl, rfl, buildScenarioGraph_wellFormed.1 ownersModel
    (scriptWorld [0, 0, 0, 1, 1, 1, 0, 0, 2, 0, 0, 0, 3]) 6 _ rfl⟩

/-! ## The graph builder: the add-vertex action -/

/-- C17: `addEndpointToGraph` on a graph of the builder (ids `0, …, n-1`), when the
operation selection picks `op`.  The action appends exactly one vertex, under the id `n`,
with the path, method, parameters and request body of `op`, and leaves the edges alone.
Its response code is `"default"` when `op` records no response; the only status code when
it records exactly one, the selector being asked nothing more; and, when it records
several, the status code which the second answer picks from the codes in the order of the
`range` loop. -/
theorem addEndpoint_adds_vertex :
    ∀ (g : ScenarioGraph) (ops : List availableOperation) (w : World) (idx : Int)
      (op : availableOperation),
      g.Dense → w.answers w.prompts = Answer.ok idx → goIndex ops idx = some op →
      (op.Operation.Responses.length = 0 →
        addEndpointToGraph g ops w =
          (some ⟨g.vertices ++ [((g.vertices.length : Int),
              ⟨op.Path, op.Method, op.Operation.Parameters, op.Operation.RequestBody,
                "default"⟩)], g.edges⟩,
            w.advance 1 0)) ∧
      (∀ code body, op.Operation.Responses = [(code, body)] →
        addEndpointToGraph g ops w =
          (some ⟨g.vertices ++ [((g.vertices.length : Int),
              ⟨op.Path, op.Method, op.Operation.Parameters, op.Operation.RequestBody,
                code⟩)], g.edges⟩,
            w.advance 1 0)) ∧
      (2 ≤ op.Operation.Responses.length → ∀ respIdx code,
        w.answers (w.prompts + 1) = Answer.ok respIdx →
        goIndex ((goRange (w.seeds w.ranges) op.Operation.Responses).map Prod.fst) respIdx =
          some code →
        code ∈ GoMap.keys op.Operation.Responses ∧
        addEndpointToGraph g ops w =
          (some ⟨g.vertices ++ [((g.vertices.length : Int),
              ⟨op.Path, op.Method, op.Operation.Parameters, op.Operation.RequestBody,
                code⟩)], g.edges⟩,
            w.advance 2 1)) := by
  intro g ops w idx op hd h0 hop
  have hops : ¬ ops.length = 0 := by
    intro h
    have := (goIndex_some _ _ _ hop).2.2
    rw [List.length_eq_zero.1 h] at this
    simp at this
  have hadd : ∀ code, (g.AddVertex (vertexOf op code)).1 =
      ⟨g.vertices ++ [((g.vertices.length : Int),
        ⟨op.Path, op.Method, op.Operation.Parameters, op.Operation.RequestBody, code⟩)],
        g.edges⟩ := by
    intro code
    have := g.addVertex_dense hd (vertexOf op code)
    cases hg : g.AddVertex (vertexOf op code) with
    | mk g' id =>
      have he : g'.edges = g.edges := by
        have : (g.AddVertex (vertexOf op code)).1.edges = g.edges := rfl
        rw [hg] at this
        exact this
      rw [hg] at this
      cases g'
      simp only at this he
      simp only [this, he, vertexOf]
  refine ⟨?_, ?_, ?_⟩
  · intro hr
    simp only [addEndpointToGraph, hops, if_false, World.run_fst, h0, hop, hr, if_true,
      World.run_snd, hadd]
  · intro code body hr
    simp only [addEndpointToGraph, hops, if_false, World.run_fst, h0, hop, hr, if_true,
      World.run_snd, hadd, List.length_singleton, one_ne_zero, GoMap.keys, List.map_cons,
      List.map_nil, List.foldl_cons, List.foldl_nil]
  · intro hr respIdx code h1 hcode
    have hr0 : ¬ op.Operation.Responses.length = 0 := by omega
    have hr1 : ¬ op.Operation.Responses.length = 1 := by omega
    refine ⟨?_, ?_⟩
    · have := (goIndex_some _ _ _ hcode).2.2
      exact ((goRange_perm _ _).map Prod.fst).mem_iff.1 this
    · simp only [addEndpointToGraph, hops, if_false, World.run_fst, h0, hop, hr0, hr1,
        World.run_snd, World.rangeMap_snd, World.rangeMap_fst, World.advance_advance,
        World.advance_answers, World.advance_prompts, World.advance_seeds,
        World.advance_ranges, Nat.add_zero, Nat.zero_add, h1, hcode, hadd]

/-- Witness for C17: the second operation of `ownersModel` records two responses; the
answers 1 and 1 select it and its second status code. -/
theorem addEndpoint_adds_vertex_witness :
    addEndpointToGraph NewScenarioGraph
        (buildAvailableOperations ownersModel (scriptWorld [])).1 (scriptWorld [1, 1]) =
      (some ⟨[(0, ⟨"/owners", "post", [], some ownerBody, "400"⟩)], []⟩,
        (scriptWorld [1, 1]).advance 2 1) :=
  ((addEndpoint_adds_vertex NewScenarioGraph
    (buildAvailableOperations ownersModel (scriptWorld [])).1 (scriptWorld [1, 1]) 1
    ⟨"/owners", "post", ⟨"post", [], some ownerBody, [("201", none), ("400", none)]⟩⟩
    newScenarioGraph_invariant.1 rfl rfl).2.2 (by decide) 1 "400" rfl rfl).2

/-! ## The graph builder: the request fields of a vertex -/

mutual

theorem collectFieldPathsOf_starts : ∀ (field : Field) (pfx p : String),
    p ∈ collectFieldPathsOf pfx field → ∃ rest, p = pfx ++ "." ++ rest
  | .mk name _ _ _ _ _ _ _ _ _ _ _ _ items properties _ _, pfx, p, h => by
    simp only [collectFieldPathsOf, List.mem_cons, List.mem_append] at h
    rcases h with h | h | h
    · exact ⟨name, h⟩
    · obtain ⟨rest, hr⟩ := collectPropertyPaths_starts properties (pfx ++ "." ++ name) p h
      exact ⟨name ++ "." ++ rest, by simp [hr, String.append_assoc]⟩
    · obtain ⟨rest, hr⟩ := collectItemPaths_starts items (pfx ++ "." ++ name ++ "[]") p h
      exact ⟨name ++ "[]" ++ "." ++ rest, by simp [hr, String.append_assoc]⟩

theorem collectPropertyPaths_starts : ∀ (properties : List (String × Field))
    (fieldPath p : String),
    p ∈ collectPropertyPaths fieldPath properties → ∃ rest, p = fieldPath ++ "." ++ rest
  | [], _, _, h => by simp [collectPropertyPaths] at h
  | (_, prop) :: more, fieldPath, p, h => by
    simp only [collectPropertyPaths, List.mem_append] at h
    rcases h with h | h
    · exact collectFieldPathsOf_starts prop fieldPath p h
    · exact collectPropertyPaths_starts more fieldPath p h

theorem collectItemPaths_starts : ∀ (items : Option Field) (itemPath p : String),
    p ∈ collectItemPaths itemPath items → ∃ rest, p = itemPath ++ "." ++ rest
  | none, _, _, h => by simp [collectItemPaths] at h
  | some field, itemPath, p, h => by
    simp only [collectItemPaths] at h
    exact collectFieldPathsOf_starts field itemPath p h

end

theorem collectFieldPaths_starts (fields : List (Option Field)) (pfx p : String)
    (h : p ∈ collectFieldPaths fields pfx) : ∃ rest, p = pfx ++ "." ++ rest := by
  induction fields with
  | nil => simp [collectFieldPaths] at h
  | cons f more ih =>
    cases f with
    | none => exact ih (by simpa [collectFieldPaths] using h)
    | some field =>
      simp only [collectFieldPaths, List.mem_append] at h
      rcases h with h | h
      · exact collectFieldPathsOf_starts field pfx p h
      · exact ih h

theorem collectParameterFields_eq (params : List (Option Field)) :
    collectParameterFields params =
      (params.filterMap id).map
        (fun param => (if param.In = "" then "param" else param.In) ++ "." ++ param.Name) := by
  induction params with
  | nil => rfl
  | cons f more ih =>
    cases f with
    | none => simpa [collectParameterFields] using ih
    | some param =>
      by_cases hin : param.In = "" <;> simp [collectParameterFields, ih, hin]

theorem collectPropertyPaths_eq (fieldPath : String) (properties : List (String × Field)) :
    collectPropertyPaths fieldPath properties =
      (properties.map (fun prop => collectFieldPathsOf fieldPath prop.2)).flatten := by
  induction properties with
  | nil => rfl
  | cons p more ih =>
    obtain ⟨k, prop⟩ := p
    simp [collectPropertyPaths, ih]

theorem collectFieldPaths_eq (fields : List (Option Field)) (pfx : String) :
    collectFieldPaths fields pfx =
      ((fields.filterMap id).map (collectFieldPathsOf pfx)).flatten := by
  induction fields with
  | nil => rfl
  | cons f more ih =>
    cases f with
    | none => simpa [collectFieldPaths] using ih
    | some field => simp [collectFieldPaths, ih]

theorem collectFieldPathsOf_eq (pfx : String) (field : Field) :
    collectFieldPathsOf pfx field =
      (pfx ++ "." ++ field.Name) ::
        ((field.Properties.map
            (fun prop => collectFieldPathsOf (pfx ++ "." ++ field.Name) prop.2)).flatten ++
          (field.Items.toList.map
            (collectFieldPathsOf (pfx ++ "." ++ field.Name ++ "[]"))).flatten) := by
  cases field with
  | mk name _ _ _ _ _ _ _ _ _ _ _ _ items properties _ _ =>
    simp only [collectFieldPathsOf, Field.Name, Field.Properties, Field.Items,
      collectPropertyPaths_eq]
    cases items <;> simp [collectItemPaths]

theorem ScenarioGraph.addMappingAt_edge (g : ScenarioGraph) (i : Nat) (e : ScenarioGraphEdge)
    (s t : String) (he : g.edges[i]? = some e) :
    (g.addMappingAt i s t).edges[i]? = some (e.AddMapping s t) ∧
      (∀ j, j ≠ i → (g.addMappingAt i s t).edges[j]? = g.edges[j]?) ∧
      (g.addMappingAt i s t).edges.length = g.edges.length ∧
      (g.addMappingAt i s t).vertices = g.vertices := by
  have hlt : i < g.edges.length := by
    by_contra hc
    rw [List.getElem?_eq_none (by omega)] at he
    simp at he
  have hg : g.addMappingAt i s t = ⟨g.vertices, g.edges.set i (e.AddMapping s t)⟩ := by
    unfold addMappingAt
    rw [he]
  rw [hg]
  refine ⟨by simp [List.getElem?_set, hlt], ?_, by simp, rfl⟩
  intro j hj
  have hij : ¬ i = j := fun h => hj h.symm
  simp [List.getElem?_set, hij]

/-- The add-field-mapping action when the three selections are in range. -/
theorem addFieldMapping_eq (g : ScenarioGraph) (w : World) (edgeIdx srcIdx dstIdx : Int)
    (e : ScenarioGraphEdge) (vs vd : ScenarioGraphVertex) (s t : String)
    (h0 : w.answers w.prompts = Answer.ok edgeIdx) (he : goIndex g.edges edgeIdx = some e)
    (hvs : g.GetVertex e.From = some vs) (hvd : g.GetVertex e.To = some vd)
    (h1 : w.answers (w.prompts + 1) = Answer.ok srcIdx)
    (hs : goIndex (collectRequestFields vs) srcIdx = some s)
    (h2 : w.answers (w.prompts + 2) = Answer.ok dstIdx)
    (ht : goIndex (collectRequestFields vd) dstIdx = some t) :
    addFieldMappingToGraph g w = (some (g.addMappingAt edgeIdx.toNat s t), w.advance 3 0) := by
  have nonempty : ∀ {α : Type} (l : List α) (i : Int) (x : α), goIndex l i = some x →
      ¬ l.length = 0 := by
    intro α l i x h hl
    have := (goIndex_some _ _ _ h).2.2
    rw [List.length_eq_zero.1 hl] at this
    simp at this
  unfold addFieldMappingToGraph
  simp only [nonempty _ _ _ he, nonempty _ _ _ hs, nonempty _ _ _ ht, if_false, World.run_fst,
    World.run_snd, World.advance_advance, World.advance_answers, World.advance_prompts,
    Nat.add_zero, Nat.zero_add, h0, he, hvs, hvd, h1, hs, h2, ht]

/-- The add-field-mapping action when the selected edge offers no source field or no
target field. -/
theorem addFieldMapping_no_fields (g : ScenarioGraph) (w : World) (edgeIdx : Int)
    (e : ScenarioGraphEdge) (vs vd : ScenarioGraphVertex)
    (h0 : w.answers w.prompts = Answer.ok edgeIdx) (he : goIndex g.edges edgeIdx = some e)
    (hvs : g.GetVertex e.From = some vs) (hvd : g.GetVertex e.To = some vd)
    (hempty : collectRequestFields vs = [] ∨ collectRequestFields vd = []) :
    addFieldMappingToGraph g w = (some g, w.advance 1 0) := by
  have hne : ¬ g.edges.length = 0 := by
    intro hl
    have := (goIndex_some _ _ _ he).2.2
    rw [List.length_eq_zero.1 hl] at this
    simp at this
  unfold addFieldMappingToGraph
  simp only [hne, if_false, World.run_fst, World.run_snd, h0, he, hvs, hvd]
  rcases hempty with h | h
  · simp [h]
  · simp [h]

/-- C18: `collectRequestFields v` is the flattened paths of the request-body fields of `v`
under the prefix `body` (nothing when `v` has no request body), followed by one entry
`location.name` for each non-nil parameter in order, the location being `param` when `In`
is empty.  Flattened means: for each non-nil field its own path `pfx.name`, then the paths
of its properties under that path, then those of its items under that path followed by
`[]`.  Every body entry starts with `body.`; the result does not depend on the path, the
method or the response code of the vertex.  When `addFieldMappingToGraph` changes the
graph, it stores at one edge a mapping whose key is in `collectRequestFields` of the
vertex at the edge's `From` and whose value is in `collectRequestFields` of the vertex at
its `To`, and it changes nothing else; it returns the graph unchanged when there is no
edge, and when either list of the selected edge is empty. -/
theorem collectRequestFields_spec :
    (∀ v : ScenarioGraphVertex, collectRequestFields v =
      (match v.RequestBody with
        | none => []
        | some body => (body.Fields.map (collectFieldPathsOf "body")).flatten) ++
      v.Parameters.map
        (fun param => (if param.In = "" then "param" else param.In) ++ "." ++ param.Name)) ∧
    (∀ params : List (Option Field), collectParameterFields params =
      (params.filterMap id).map
        (fun param => (if param.In = "" then "param" else param.In) ++ "." ++ param.Name)) ∧
    (∀ (fields : List (Option Field)) (pfx : String), collectFieldPaths fields pfx =
      ((fields.filterMap id).map (collectFieldPathsOf pfx)).flatten) ∧
    (∀ (pfx : String) (field : Field), collectFieldPathsOf pfx field =
      (pfx ++ "." ++ field.Name) ::
        ((field.Properties.map
            (fun prop => collectFieldPathsOf (pfx ++ "." ++ field.Name) prop.2)).flatten ++
          (field.Items.toList.map
            (collectFieldPathsOf (pfx ++ "." ++ field.Name ++ "[]"))).flatten)) ∧
    (∀ (v : ScenarioGraphVertex) (p : String), p ∈ collectBodyFields v.RequestBody →
      ∃ rest, p = "body." ++ rest) ∧
    (∀ (v : ScenarioGraphVertex) (path method code : String),
      collectRequestFields ⟨path, method, v.Parameters, v.RequestBody, code⟩ =
        collectRequestFields v) ∧
    (∀ (g g' : ScenarioGraph) (w : World), (addFieldMappingToGraph g w).1 = some g' →
      g' = g ∨ ∃ (i : Nat) (e : ScenarioGraphEdge) (vs vd : ScenarioGraphVertex) (s t : String),
        g.edges[i]? = some e ∧ g.GetVertex e.From = some vs ∧
        g.GetVertex e.To = some vd ∧ s ∈ collectRequestFields vs ∧
        t ∈ collectRequestFields vd ∧ g'.edges[i]? = some (e.AddMapping s t) ∧
        GoMap.get? (e.AddMapping s t).Mappings s = some t ∧
        (∀ k, k ≠ s → GoMap.get? (e.AddMapping s t).Mappings k = GoMap.get? e.Mappings k) ∧
        (∀ j, j ≠ i → g'.edges[j]? = g.edges[j]?) ∧ g'.vertices = g.vertices) ∧
    (∀ (g : ScenarioGraph) (w : World), g.edges = [] →
      addFieldMappingToGraph g w = (some g, w)) ∧
    (∀ (g : ScenarioGraph) (w : World) (edgeIdx : Int) (e : ScenarioGraphEdge)
      (vs vd : ScenarioGraphVertex),
      w.answers w.prompts = Answer.ok edgeIdx → goIndex g.edges edgeIdx = some e →
      g.GetVertex e.From = some vs → g.GetVertex e.To = some vd →
      collectRequestFields vs = [] ∨ collectRequestFields vd = [] →
      addFieldMappingToGraph g w = (some g, w.advance 1 0)) := by
  refine ⟨?_, collectParameterFields_eq, collectFieldPaths_eq, collectFieldPathsOf_eq,
    ?_, fun _ _ _ _ => rfl, ?_, ?_, addFieldMapping_no_fields⟩
  · intro v
    unfold collectRequestFields
    congr 1
    · cases v.RequestBody with
      | none => rfl
      | some body =>
        simp only [collectBodyFields, collectFieldPaths_eq]
        simp [List.filterMap_map]
    · rw [collectParameterFields_eq]
      simp [List.filterMap_map]
  · intro v p hp
    cases hb : v.RequestBody with
    | none => simp [hb, collectBodyFields] at hp
    | some body =>
      rw [hb] at hp
      obtain ⟨rest, hr⟩ := collectFieldPaths_starts _ _ _ hp
      exact ⟨rest, hr⟩
  · intro g g' w h
    rcases addFieldMapping_cases g g' w h with h | ⟨i, e, vs, vd, s, t, he, hvs, hvd, hs, ht, rfl⟩
    · exact Or.inl h
    · have := g.addMappingAt_edge i e s t he
      exact Or.inr ⟨i, e, vs, vd, s, t, he, hvs, hvd, hs, ht, this.1,
        GoMap.get?_set_self _ _ _, fun k hk => GoMap.get?_set_ne _ _ (fun h => hk h.symm),
        this.2.1, this.2.2.2⟩
  · intro g w h
    simp [addFieldMappingToGraph, h]

/-- Witness for C18: the request fields of a vertex with the body of `POST /owners` and a
query parameter. -/
theorem collectRequestFields_spec_witness :
    collectRequestFields ⟨"/owners", "post", [stringField "id" "query", stringField "n" ""],
        some ownerBody, "400"⟩ =
      ["body.name", "body.address", "body.address.city", "query.id", "param.n"] :=
  (collectRequestFields_spec.1 ⟨"/owners", "post",
    [stringField "id" "query", stringField "n" ""], some ownerBody, "400"⟩).trans (by decide)

/-! ## The mappings of an edge -/

theorem GoMap.length_set_of_mem {κ ν : Type} [DecidableEq κ] (m : GoMap κ ν) (k : κ) (v : ν)
    (h : k ∈ GoMap.keys m) : (GoMap.set m k v).length = m.length := by
  have := congrArg List.length (GoMap.keys_set_of_mem m k v h)
  simpa [GoMap.keys] using this

theorem GoMap.filter_key_length {κ ν : Type} [DecidableEq κ] (m : GoMap κ ν) (k : κ)
    (hn : (GoMap.keys m).Nodup) (hk : k ∈ GoMap.keys m) :
    (m.filter (fun p => p.1 = k)).length = 1 := by
  induction m with
  | nil => simp [GoMap.keys] at hk
  | cons p rest ih =>
    obtain ⟨k₀, v₀⟩ := p
    have hn' : k₀ ∉ GoMap.keys rest ∧ (GoMap.keys rest).Nodup := by
      simpa [GoMap.keys] using hn
    by_cases h₀ : k₀ = k
    · subst h₀
      have : rest.filter (fun p => p.1 = k₀) = [] := by
        rw [List.filter_eq_nil_iff]
        intro q hq hq'
        have hq'' : q.1 = k₀ := by simpa using hq'
        exact hn'.1 (hq'' ▸ List.mem_map_of_mem Prod.fst hq)
      simp [List.filter_cons, this]
    · have hk' : k ∈ GoMap.keys rest := by
        have h2 : k = k₀ ∨ k ∈ GoMap.keys rest := by simpa [GoMap.keys] using hk
        rcases h2 with h2 | h2
        · exact absurd h2.symm h₀
        · exact h2
      simp [List.filter_cons, h₀, ih hn'.2 hk']

/-- C13: `AddMapping` is last-write-wins per source key.  On an edge (whose mappings are a
map), after `AddMapping(s, t1)` and then `AddMapping(s, t2)` the edge maps `s` to `t2`,
holds exactly one entry for `s`, has as many entries as after the first call, maps every
other source key as before, and keeps its ends.  In the builder, when the three
selections of `addFieldMappingToGraph` are in range and the selected source field `s` is
already mapped on the selected edge, the action replaces that edge by the edge after
`AddMapping(s, t)`: `s` is mapped to the selected target field, the number of entries is
unchanged, every other key, every other edge and the vertices are unchanged. -/
theorem addMapping_last_write_wins :
    (∀ (e : ScenarioGraphEdge) (s t1 t2 : String), (GoMap.keys e.Mappings).Nodup →
      GoMap.get? ((e.AddMapping s t1).AddMapping s t2).Mappings s = some t2 ∧
      (((e.AddMapping s t1).AddMapping s t2).Mappings.filter (fun p => p.1 = s)).length = 1 ∧
      ((e.AddMapping s t1).AddMapping s t2).Mappings.length =
        (e.AddMapping s t1).Mappings.length ∧
      (∀ k, k ≠ s → GoMap.get? ((e.AddMapping s t1).AddMapping s t2).Mappings k =
        GoMap.get? e.Mappings k) ∧
      ((e.AddMapping s t1).AddMapping s t2).From = e.From ∧
      ((e.AddMapping s t1).AddMapping s t2).To = e.To) ∧
    (∀ (g : ScenarioGraph) (w : World) (edgeIdx srcIdx dstIdx : Int) (e : ScenarioGraphEdge)
      (vs vd : ScenarioGraphVertex) (s t old : String),
      w.answers w.prompts = Answer.ok edgeIdx → goIndex g.edges edgeIdx = some e →
      g.GetVertex e.From = some vs → g.GetVertex e.To = some vd →
      w.answers (w.prompts + 1) = Answer.ok srcIdx →
      goIndex (collectRequestFields vs) srcIdx = some s →
      w.answers (w.prompts + 2) = Answer.ok dstIdx →
      goIndex (collectRequestFields vd) dstIdx = some t →
      GoMap.get? e.Mappings s = some old →
      ∃ g', addFieldMappingToGraph g w = (some g', w.advance 3 0) ∧
        g'.edges[edgeIdx.toNat]? = some (e.AddMapping s t) ∧
        GoMap.get? (e.AddMapping s t).Mappings s = some t ∧
        (e.AddMapping s t).Mappings.length = e.Mappings.length ∧
        (∀ k, k ≠ s → GoMap.get? (e.AddMapping s t).Mappings k = GoMap.get? e.Mappings k) ∧
        (∀ j, j ≠ edgeIdx.toNat → g'.edges[j]? = g.edges[j]?) ∧
        g'.edges.length = g.edges.length ∧ g'.vertices = g.vertices) := by
  refine ⟨?_, ?_⟩
  · intro e s t1 t2 hn
    have hmem : s ∈ GoMap.keys (GoMap.set e.Mappings s t1) :=
      (GoMap.mem_keys_set _ _ _ _).2 (Or.inl rfl)
    have hn1 : (GoMap.keys (GoMap.set e.Mappings s t1)).Nodup := GoMap.nodup_keys_set _ _ _ hn
    refine ⟨GoMap.get?_set_self _ _ _, ?_, GoMap.length_set_of_mem _ _ _ hmem, ?_, rfl, rfl⟩
    · exact GoMap.filter_key_length _ s (GoMap.nodup_keys_set _ _ _ hn1)
        ((GoMap.mem_keys_set _ _ _ _).2 (Or.inl rfl))
    · intro k hk
      have hne : s ≠ k := fun h => hk h.symm
      simp only [ScenarioGraphEdge.AddMapping]
      rw [GoMap.get?_set_ne _ _ hne, GoMap.get?_set_ne _ _ hne]
  · intro g w edgeIdx srcIdx dstIdx e vs vd s t old h0 he hvs hvd h1 hs h2 ht hold
    have hi := (goIndex_some _ _ _ he).2.1
    have hedge := g.addMappingAt_edge edgeIdx.toNat e s t hi
    have hmem : s ∈ GoMap.keys e.Mappings := by
      by_contra hc
      rw [(GoMap.get?_eq_none_iff _ _).2 hc] at hold
      simp at hold
    exact ⟨_, addFieldMapping_eq g w edgeIdx srcIdx dstIdx e vs vd s t h0 he hvs hvd h1 hs h2 ht,
      hedge.1, GoMap.get?_set_self _ _ _, GoMap.length_set_of_mem _ _ _ hmem,
      fun k hk => GoMap.get?_set_ne _ _ (fun h => hk h.symm), hedge.2.1, hedge.2.2.1,
      hedge.2.2.2⟩

/-- Witness for C13: the key `a` written twice on an edge that maps `a` and `b`. -/
theorem addMapping_last_write_wins_witness :
    GoMap.get? (((⟨0, 1, [("a", "x"), ("b", "y")]⟩ : ScenarioGraphEdge).AddMapping "a"
        "p").AddMapping "a" "q").Mappings "a" = some "q" ∧
      ((((⟨0, 1, [("a", "x"), ("b", "y")]⟩ : ScenarioGraphEdge).AddMapping "a"
        "p").AddMapping "a" "q").Mappings.filter (fun p => p.1 = "a")).length = 1 :=
  ⟨(addMapping_last_write_wins.1 ⟨0, 1, [("a", "x"), ("b", "y")]⟩ "a" "p" "q" (by decide)).1,
    (addMapping_last_write_wins.1 ⟨0, 1, [("a", "x"), ("b", "y")]⟩ "a" "p" "q"
      (by decide)).2.1⟩

/-! ## The graph builder: the steps of a session -/

/-- The add-vertex action when its selections are in range. -/
theorem addEndpoint_eq (g : ScenarioGraph) (ops : List availableOperation) (w : World)
    (idx : Int) (op : availableOperation) (code : String)
    (h0 : w.answers w.prompts = Answer.ok idx) (hop : goIndex ops idx = some op)
    (hc : responseChoice op (w.advance 1 0) = some code) :
    addEndpointToGraph g ops w =
      (some (g.AddVertex (vertexOf op code)).1,
        w.advance (1 + responsePrompts op) (responsePrompts op)) := by
  have hops : ¬ ops.length = 0 := by
    intro h
    have := (goIndex_some _ _ _ hop).2.2
    rw [List.length_eq_zero.1 h] at this
    simp at this
  unfold responseChoice at hc
  unfold responsePrompts
  by_cases hr0 : op.Operation.Responses.length = 0
  · simp only [hr0, if_true, Option.some.injEq] at hc
    subst hc
    simp only [addEndpointToGraph, hops, if_false, World.run_fst, h0, hop, hr0, if_true,
      World.run_snd]
  · by_cases hr1 : op.Operation.Responses.length = 1
    · rw [if_neg hr0, if_pos hr1, Option.some.injEq] at hc
      subst hc
      rw [if_neg hr0, if_pos hr1]
      simp only [addEndpointToGraph, hops, if_false, World.run_fst, h0, hop, World.run_snd]
      rw [if_neg hr0, if_pos hr1]
    · rw [if_neg hr0, if_neg hr1] at hc
      simp only [World.advance_answers, World.advance_prompts,
        World.advance_seeds, World.advance_ranges, Nat.add_zero] at hc
      cases h1 : w.answers (w.prompts + 1) with
      | err => simp [h1] at hc
      | ok respIdx =>
        simp only [h1] at hc
        simp only [addEndpointToGraph, hops, if_false, World.run_fst, h0, hop, hr0, hr1,
          World.run_snd, World.rangeMap_snd, World.rangeMap_fst, World.advance_advance,
          World.advance_answers, World.advance_prompts, World.advance_seeds,
          World.advance_ranges, Nat.add_zero, Nat.zero_add, h1, hc]

theorem menuLoop_addEndpoint (ops : List availableOperation) (fuel : Nat) (g : ScenarioGraph)
    (w : World) (idx : Int) (op : availableOperation) (code : String)
    (hm : w.answers w.prompts = Answer.ok 0)
    (h0 : w.answers (w.prompts + 1) = Answer.ok idx) (hop : goIndex ops idx = some op)
    (hc : responseChoice op (w.advance 2 0) = some code) :
    menuLoop ops (fuel + 1) g w =
      menuLoop ops fuel (g.AddVertex (vertexOf op code)).1
        (w.advance (2 + responsePrompts op) (responsePrompts op)) := by
  have := addEndpoint_eq g ops (w.advance 1 0) idx op code (by simpa using h0) hop
    (by simpa using hc)
  simp only [menuLoop, World.run_fst, hm, World.run_snd, if_true, this, andThen,
    World.advance_advance, Nat.zero_add]
  congr 2
  omega

theorem menuLoop_addConnection (ops : List availableOperation) (fuel : Nat)
    (g : ScenarioGraph) (w : World) (srcIdx dstIdx src dst : Int)
    (hlen : 2 ≤ g.vertices.length)
    (hm : w.answers w.prompts = Answer.ok 1)
    (h0 : w.answers (w.prompts + 1) = Answer.ok srcIdx)
    (hs : goIndex (srcIDs g (w.advance 1 0)) srcIdx = some src)
    (h1 : w.answers (w.prompts + 2) = Answer.ok dstIdx)
    (hd : goIndex (dstIDs g (w.advance 2 1) src) dstIdx = some dst)
    (he : g.GetEdge src dst = none) :
    menuLoop ops (fuel + 1) g w = menuLoop ops fuel (g.AddEdge src dst) (w.advance 3 2) := by
  have := addConnection_eq g (w.advance 1 0) srcIdx dstIdx src dst hlen (by simpa using h0) hs
    (by simpa using h1) (by simpa using hd)
  simp only [menuLoop, World.run_fst, hm, World.run_snd, this, andThen, he,
    World.advance_advance]
  simp

theorem menuLoop_addFieldMapping (ops : List availableOperation) (fuel : Nat)
    (g : ScenarioGraph) (w : World) (edgeIdx srcIdx dstIdx : Int)
    (e : ScenarioGraphEdge) (vs vd : ScenarioGraphVertex) (s t : String)
    (hm : w.answers w.prompts = Answer.ok 2)
    (h0 : w.answers (w.prompts + 1) = Answer.ok edgeIdx) (he : goIndex g.edges edgeIdx = some e)
    (hvs : g.GetVertex e.From = some vs) (hvd : g.GetVertex e.To = some vd)
    (h1 : w.answers (w.prompts + 2) = Answer.ok srcIdx)
    (hs : goIndex (collectRequestFields vs) srcIdx = some s)
    (h2 : w.answers (w.prompts + 3) = Answer.ok dstIdx)
    (ht : goIndex (collectRequestFields vd) dstIdx = some t) :
    menuLoop ops (fuel + 1) g w =
      menuLoop ops fuel (g.addMappingAt edgeIdx.toNat s t) (w.advance 4 0) := by
  have := addFieldMapping_eq g (w.advance 1 0) edgeIdx srcIdx dstIdx e vs vd s t
    (by simpa using h0) he hvs hvd (by simpa [Nat.add_assoc] using h1) hs
    (by simpa [Nat.add_assoc] using h2) ht
  simp only [menuLoop, World.run_fst, hm, World.run_snd, this, andThen,
    World.advance_advance]
  simp

theorem menuLoop_done (ops : List availableOperation) (fuel : Nat) (g : ScenarioGraph)
    (w : World) (hm : w.answers w.prompts = Answer.ok 3) :
    menuLoop ops (fuel + 1) g w = (some g, w.advance 1 0) := by
  simp [menuLoop, hm]

theorem World.advance_congr (w : World) {p p' r r' : Nat} (hp : p = p') (hr : r = r') :
    w.advance p r = w.advance p' r' := by
  rw [hp, hr]

theorem World.answers_congr (w : World) {n m : Nat} (a : Answer) (h : w.answers m = a)
    (hnm : n = m) : w.answers n = a := by
  rw [hnm, h]

/-- C19: the session "add vertex A, add vertex B, add edge from A's vertex to B's vertex,
add a field mapping on that edge, finish".  `ops` are the available operations of the data
model and `w0` the world after listing them; `a` and `b` below are the numbers of response
prompts of `A` and `B` (one when the operation records several responses, else none).
When every selection is in range (the menu answers are 0, 0, 1, 2, 3; the operation
answers pick `A` and `B`; the response answers, if asked, pick `cA` and `cB`; the source
answer picks the id 0 and the target answer the id 1 from the lists shown; the edge answer
is 0; the field answers pick `s` among the request fields of A's vertex and `t` among those
of B's vertex), `buildScenarioGraph` returns the graph with exactly the two vertices 0
(for `A`) and 1 (for `B`), exactly the one edge 0 -> 1, and exactly the one mapping
`s -> t` on it. -/
theorem two_vertices_one_edge_one_mapping :
    ∀ (dataModel : DataModel) (w : World) (fuel : Nat) (ops : List availableOperation)
      (w0 : World) (iA iB iSrc iDst x y : Int) (A B : availableOperation)
      (cA cB s t : String),
      buildAvailableOperations dataModel w = (ops, w0) → 5 ≤ fuel →
      w0.answers w0.prompts = Answer.ok 0 →
      w0.answers (w0.prompts + 1) = Answer.ok iA → goIndex ops iA = some A →
      responseChoice A (w0.advance 2 0) = some cA →
      w0.answers (w0.prompts + (2 + responsePrompts A)) = Answer.ok 0 →
      w0.answers (w0.prompts + (3 + responsePrompts A)) = Answer.ok iB →
      goIndex ops iB = some B →
      responseChoice B (w0.advance (4 + responsePrompts A) (responsePrompts A)) = some cB →
      w0.answers (w0.prompts + (4 + responsePrompts A + responsePrompts B)) = Answer.ok 1 →
      w0.answers (w0.prompts + (5 + responsePrompts A + responsePrompts B)) = Answer.ok iSrc →
      goIndex (srcIDs ⟨[(0, vertexOf A cA), (1, vertexOf B cB)], []⟩
        (w0.advance (5 + responsePrompts A + responsePrompts B)
          (responsePrompts A + responsePrompts B))) iSrc = some 0 →
      w0.answers (w0.prompts + (6 + responsePrompts A + responsePrompts B)) = Answer.ok iDst →
      goIndex (dstIDs ⟨[(0, vertexOf A cA), (1, vertexOf B cB)], []⟩
        (w0.advance (6 + responsePrompts A + responsePrompts B)
          (responsePrompts A + responsePrompts B + 1)) 0) iDst = some 1 →
      w0.answers (w0.prompts + (7 + responsePrompts A + responsePrompts B)) = Answer.ok 2 →
      w0.answers (w0.prompts + (8 + responsePrompts A + responsePrompts B)) = Answer.ok 0 →
      w0.answers (w0.prompts + (9 + responsePrompts A + responsePrompts B)) = Answer.ok x →
      goIndex (collectRequestFields (vertexOf A cA)) x = some s →
      w0.answers (w0.prompts + (10 + responsePrompts A + responsePrompts B)) = Answer.ok y →
      goIndex (collectRequestFields (vertexOf B cB)) y = some t →
      w0.answers (w0.prompts + (11 + responsePrompts A + responsePrompts B)) = Answer.ok 3 →
      buildScenarioGraph dataModel w fuel =
        (some ⟨[(0, vertexOf A cA), (1, vertexOf B cB)], [⟨0, 1, [(s, t)]⟩]⟩,
          w0.advance (12 + responsePrompts A + responsePrompts B)
            (responsePrompts A + responsePrompts B + 2)) := by
  intro dataModel w fuel ops w0 iA iB iSrc iDst x y A B cA cB s t hops hfuel
    hm1 h1 hA hcA hm2 h2 hB hcB hm3 h3 hsrc h4 hdst hm4 h5 h6 hs h7 ht hm5
  obtain ⟨f, rfl⟩ : ∃ f, fuel = f + 5 := ⟨fuel - 5, by omega⟩
  have hne : ¬ ops.length = 0 := by
    intro h
    have := (goIndex_some _ _ _ hA).2.2
    rw [List.length_eq_zero.1 h] at this
    simp at this
  have start : buildScenarioGraph dataModel w (f + 5) =
      menuLoop ops (f + 4 + 1) NewScenarioGraph w0 := by
    simp only [buildScenarioGraph, hops, hne, if_false]
  have step1 := menuLoop_addEndpoint ops (f + 4) NewScenarioGraph w0 iA A cA hm1 h1 hA hcA
  have g1 : (NewScenarioGraph.AddVertex (vertexOf A cA)).1 = ⟨[(0, vertexOf A cA)], []⟩ := rfl
  rw [g1] at step1
  have step2 := menuLoop_addEndpoint ops (f + 3) ⟨[(0, vertexOf A cA)], []⟩
    (w0.advance (2 + responsePrompts A) (responsePrompts A)) iB B cB hm2
    (w0.answers_congr _ h2 (by simp only [World.advance_prompts]; omega)) hB
    (by
      rw [World.advance_advance, World.advance_congr w0
        (by omega : 2 + responsePrompts A + 2 = 4 + responsePrompts A)
        (by omega : responsePrompts A + 0 = responsePrompts A)]
      exact hcB)
  have g2 : (ScenarioGraph.AddVertex ⟨[(0, vertexOf A cA)], []⟩ (vertexOf B cB)).1 =
      ⟨[(0, vertexOf A cA), (1, vertexOf B cB)], []⟩ := rfl
  rw [g2, World.advance_advance, World.advance_congr w0
    (by omega : 2 + responsePrompts A + (2 + responsePrompts B) =
      4 + responsePrompts A + responsePrompts B) (rfl : responsePrompts A + responsePrompts B = _)]
    at step2
  have step3 := menuLoop_addConnection ops (f + 2)
    ⟨[(0, vertexOf A cA), (1, vertexOf B cB)], []⟩
    (w0.advance (4 + responsePrompts A + responsePrompts B)
      (responsePrompts A + responsePrompts B)) iSrc iDst 0 1 (by simp) hm3
    (w0.answers_congr _ h3 (by simp only [World.advance_prompts]; omega))
    (by
      rw [World.advance_advance, World.advance_congr w0
        (by omega : 4 + responsePrompts A + responsePrompts B + 1 =
          5 + responsePrompts A + responsePrompts B)
        (by omega : responsePrompts A + responsePrompts B + 0 =
          responsePrompts A + responsePrompts B)]
      exact hsrc)
    (w0.answers_congr _ h4 (by simp only [World.advance_prompts]; omega))
    (by
      rw [World.advance_advance, World.advance_congr w0
        (by omega : 4 + responsePrompts A + responsePrompts B + 2 =
          6 + responsePrompts A + responsePrompts B)
        (rfl : responsePrompts A + responsePrompts B + 1 = _)]
      exact hdst)
    rfl
  have g3 : ScenarioGraph.AddEdge ⟨[(0, vertexOf A cA), (1, vertexOf B cB)], []⟩ 0 1 =
      ⟨[(0, vertexOf A cA), (1, vertexOf B cB)], [⟨0, 1, []⟩]⟩ := rfl
  rw [g3, World.advance_advance, World.advance_congr w0
    (by omega : 4 + responsePrompts A + responsePrompts B + 3 =
      7 + responsePrompts A + responsePrompts B)
    (rfl : responsePrompts A + responsePrompts B + 2 = _)] at step3
  have step4 := menuLoop_addFieldMapping ops (f + 1)
    ⟨[(0, vertexOf A cA), (1, vertexOf B cB)], [⟨0, 1, []⟩]⟩
    (w0.advance (7 + responsePrompts A + responsePrompts B)
      (responsePrompts A + responsePrompts B + 2)) 0 x y ⟨0, 1, []⟩
    (vertexOf A cA) (vertexOf B cB) s t hm4
    (w0.answers_congr _ h5 (by simp only [World.advance_prompts]; omega)) rfl rfl rfl
    (w0.answers_congr _ h6 (by simp only [World.advance_prompts]; omega)) hs
    (w0.answers_congr _ h7 (by simp only [World.advance_prompts]; omega)) ht
  have g4 : ScenarioGraph.addMappingAt
      ⟨[(0, vertexOf A cA), (1, vertexOf B cB)], [⟨0, 1, []⟩]⟩ (0 : Int).toNat s t =
      ⟨[(0, vertexOf A cA), (1, vertexOf B cB)], [⟨0, 1, [(s, t)]⟩]⟩ := rfl
  rw [g4, World.advance_advance, World.advance_congr w0
    (by omega : 7 + responsePrompts A + responsePrompts B + 4 =
      11 + responsePrompts A + responsePrompts B)
    (by omega : responsePrompts A + responsePrompts B + 2 + 0 =
      responsePrompts A + responsePrompts B + 2)] at step4
  have step5 := menuLoop_done ops f
    ⟨[(0, vertexOf A cA), (1, vertexOf B cB)], [⟨0, 1, [(s, t)]⟩]⟩
    (w0.advance (11 + responsePrompts A + responsePrompts B)
      (responsePrompts A + responsePrompts B + 2)) hm5
  rw [World.advance_advance, World.advance_congr w0
    (by omega : 11 + responsePrompts A + responsePrompts B + 1 =
      12 + responsePrompts A + responsePrompts B)
    (by omega : responsePrompts A + responsePrompts B + 2 + 0 =
      responsePrompts A + responsePrompts B + 2)] at step5
  rw [start, step1, step2, step3, step4, step5]

/-- Witness for C19: on `ownersModel`, the session that adds `get /owners` and
`post /owners` (response 400), joins them and maps `query.id` to `body.name`. -/
theorem two_vertices_one_edge_one_mapping_witness :
    (buildScenarioGraph ownersModel (scriptWorld [0, 0, 0, 1, 1, 1, 0, 0, 2, 0, 0, 0, 3]) 5).1 =
      some ⟨[(0, ⟨"/owners", "get", [stringField "id" "query"], none, "200"⟩),
             (1, ⟨"/owners", "post", [], some ownerBody, "400"⟩)],
            [⟨0, 1, [("query.id", "body.name")]⟩]⟩ :=
  congrArg Prod.fst
    (two_vertices_one_edge_one_mapping ownersModel
      (scriptWorld [0, 0, 0, 1, 1, 1, 0, 0, 2, 0, 0, 0, 3]) 5
      [⟨"/owners", "get", ⟨"get", [stringField "id" "query"], none, [("200", none)]⟩⟩,
       ⟨"/owners", "post", ⟨"post", [], some ownerBody, [("201", none), ("400", none)]⟩⟩]
      ⟨mockSelector [0, 0, 0, 1, 1, 1, 0, 0, 2, 0, 0, 0, 3], 0, fun _ => [], 2⟩
      0 1 0 0 0 0
      ⟨"/owners", "get", ⟨"get", [stringField "id" "query"], none, [("200", none)]⟩⟩
      ⟨"/owners", "post", ⟨"post", [], some ownerBody, [("201", none), ("400", none)]⟩⟩
      "200" "400" "query.id" "body.name"
      rfl (by decide) rfl rfl rfl rfl rfl rfl rfl rfl rfl rfl rfl rfl rfl rfl rfl rfl rfl rfl
      rfl rfl)

/-! ## The file of a scenario graph: a field written and read back -/

theorem decodeFieldMembers_nil (acc : Field) : decodeFieldMembers [] acc = some acc := by
  simp [decodeFieldMembers]

theorem decodeFieldMembers_append (l₁ l₂ : List (String × Json)) (acc : Field) :
    decodeFieldMembers (l₁ ++ l₂) acc =
      (decodeFieldMembers l₁ acc).bind (decodeFieldMembers l₂) := by
  induction l₁ generalizing acc with
  | nil => simp [decodeFieldMembers]
  | cons p rest ih =>
    obtain ⟨key, value⟩ := p
    simp only [List.cons_append, decodeFieldMembers]
    cases assignFieldMember key value (decodeFieldPtr value)
      (decodePropertiesValue value acc.Properties) acc with
    | none => rfl
    | some acc' => exact ih acc'

theorem decodeFieldMembers_step (l₁ l₂ : List (String × Json)) (acc acc' : Field)
    (h : decodeFieldMembers l₁ acc = some acc') :
    decodeFieldMembers (l₁ ++ l₂) acc = decodeFieldMembers l₂ acc' := by
  rw [decodeFieldMembers_append, h]
  rfl

theorem decode_name_type (acc : Field) (n t : String) :
    decodeFieldMembers [("name", Json.str n), ("type", Json.str t)] acc =
      some ((acc.setName n).setTyp t) := by
  simp [decodeFieldMembers, assignFieldMember, decodeString]

theorem Field.setFormat_self (acc : Field) : acc.setFormat acc.Format = acc := by
  cases acc; rfl

theorem Field.setHint_self (acc : Field) : acc.setHint acc.Hint = acc := by
  cases acc; rfl

theorem Field.setUnique_self (acc : Field) : acc.setUnique acc.Unique = acc := by
  cases acc; rfl

theorem Field.setMin_self (acc : Field) : acc.setMin acc.Min = acc := by
  cases acc; rfl

theorem Field.setMax_self (acc : Field) : acc.setMax acc.Max = acc := by
  cases acc; rfl

theorem Field.setMinLength_self (acc : Field) : acc.setMinLength acc.MinLength = acc := by
  cases acc; rfl

theorem Field.setMaxLength_self (acc : Field) : acc.setMaxLength acc.MaxLength = acc := by
  cases acc; rfl

theorem Field.setPattern_self (acc : Field) : acc.setPattern acc.Pattern = acc := by
  cases acc; rfl

theorem Field.setRef_self (acc : Field) : acc.setRef acc.Ref = acc := by
  cases acc; rfl

theorem Field.setItems_self (acc : Field) : acc.setItems acc.Items = acc := by
  cases acc; rfl

theorem Field.setProperties_self (acc : Field) : acc.setProperties acc.Properties = acc := by
  cases acc; rfl

theorem Field.setIn_self (acc : Field) : acc.setIn acc.In = acc := by
  cases acc; rfl

theorem decode_format (acc : Field) (v : String) (h : acc.Format = "") :
    decodeFieldMembers (omitEmpty "format" (v = "") (Json.str v)) acc =
      some (acc.setFormat v) := by
  by_cases hv : v = ""
  · subst hv
    simp [omitEmpty, decodeFieldMembers, ← h, Field.setFormat_self]
  · simp [omitEmpty, hv, decodeFieldMembers, assignFieldMember, decodeString]

theorem decode_required (acc : Field) (b : Bool) :
    decodeFieldMembers [("required", Json.bool b)] acc = some (acc.setRequired b) := by
  simp [decodeFieldMembers, assignFieldMember, decodeBool]

theorem decode_hint (acc : Field) (v : String) (h : acc.Hint = "") :
    decodeFieldMembers (omitEmpty "hint" (v = "") (Json.str v)) acc = some (acc.setHint v) := by
  by_cases hv : v = ""
  · subst hv
    simp [omitEmpty, decodeFieldMembers, ← h, Field.setHint_self]
  · simp [omitEmpty, hv, decodeFieldMembers, assignFieldMember, decodeString]

theorem decode_unique (acc : Field) (b : Bool) (h : acc.Unique = false) :
    decodeFieldMembers (omitEmpty "unique" (!b) (Json.bool b)) acc = some (acc.setUnique b) := by
  cases b
  · simp [omitEmpty, decodeFieldMembers, ← h, Field.setUnique_self]
  · simp [omitEmpty, decodeFieldMembers, assignFieldMember, decodeBool]

theorem encodeFloatPtr_some (key : String) (v : Option Float) (js : List (String × Json))
    (he : encodeFloatPtr key v = some js) :
    (v = none ∧ js = []) ∨ ∃ x, v = some x ∧ js = [(key, Json.float x)] := by
  cases v with
  | none =>
    left
    simp only [encodeFloatPtr, Option.some.injEq] at he
    exact ⟨rfl, he.symm⟩
  | some x =>
    right
    refine ⟨x, rfl, ?_⟩
    simp only [encodeFloatPtr, encodeFloat] at he
    by_cases hx : x.isFinite = true
    · simp only [hx, if_true, Option.some.injEq] at he
      exact he.symm
    · simp [hx] at he

theorem decode_min (acc : Field) (v : Option Float) (js : List (String × Json))
    (h : acc.Min = none) (he : encodeFloatPtr "min" v = some js) :
    decodeFieldMembers js acc = some (acc.setMin v) := by
  rcases encodeFloatPtr_some _ _ _ he with ⟨rfl, rfl⟩ | ⟨x, rfl, rfl⟩
  · simp [decodeFieldMembers, ← h, Field.setMin_self]
  · simp [decodeFieldMembers, assignFieldMember, decodeFloatPtr]

theorem decode_max (acc : Field) (v : Option Float) (js : List (String × Json))
    (h : acc.Max = none) (he : encodeFloatPtr "max" v = some js) :
    decodeFieldMembers js acc = some (acc.setMax v) := by
  rcases encodeFloatPtr_some _ _ _ he with ⟨rfl, rfl⟩ | ⟨x, rfl, rfl⟩
  · simp [decodeFieldMembers, ← h, Field.setMax_self]
  · simp [decodeFieldMembers, assignFieldMember, decodeFloatPtr]

theorem decode_minLength (acc : Field) (n : Nat) (h : acc.MinLength = 0) :
    decodeFieldMembers (omitEmpty "minLength" (n = 0) (Json.int n)) acc =
      some (acc.setMinLength n) := by
  by_cases hn : n = 0
  · subst hn
    simp [omitEmpty, decodeFieldMembers, ← h, Field.setMinLength_self]
  · have hn0 : ¬ ((n : Int) < 0) := by omega
    simp [omitEmpty, hn, decodeFieldMembers, assignFieldMember, decodeUint, hn0]

theorem decode_maxLength (acc : Field) (v : Option Nat) (h : acc.MaxLength = none) :
    decodeFieldMembers
        (match v with
          | none => []
          | some n => [("maxLength", Json.int n)]) acc =
      some (acc.setMaxLength v) := by
  cases v with
  | none => simp [decodeFieldMembers, ← h, Field.setMaxLength_self]
  | some n =>
    have hn0 : ¬ ((n : Int) < 0) := by omega
    simp [decodeFieldMembers, assignFieldMember, decodeUintPtr, hn0]

theorem decode_pattern (acc : Field) (v : String) (h : acc.Pattern = "") :
    decodeFieldMembers (omitEmpty "pattern" (v = "") (Json.str v)) acc =
      some (acc.setPattern v) := by
  by_cases hv : v = ""
  · subst hv
    simp [omitEmpty, decodeFieldMembers, ← h, Field.setPattern_self]
  · simp [omitEmpty, hv, decodeFieldMembers, assignFieldMember, decodeString]

theorem decode_path (acc : Field) (v : String) :
    decodeFieldMembers [("path", Json.str v)] acc = some (acc.setPath v) := by
  simp [decodeFieldMembers, assignFieldMember, decodeString]

theorem decode_ref (acc : Field) (v : String) (h : acc.Ref = "") :
    decodeFieldMembers (omitEmpty "ref" (v = "") (Json.str v)) acc = some (acc.setRef v) := by
  by_cases hv : v = ""
  · subst hv
    simp [omitEmpty, decodeFieldMembers, ← h, Field.setRef_self]
  · simp [omitEmpty, hv, decodeFieldMembers, assignFieldMember, decodeString]

theorem decode_in (acc : Field) (v : String) (h : acc.In = "") :
    decodeFieldMembers (omitEmpty "in" (v = "") (Json.str v)) acc = some (acc.setIn v) := by
  by_cases hv : v = ""
  · subst hv
    simp [omitEmpty, decodeFieldMembers, ← h, Field.setIn_self]
  · simp [omitEmpty, hv, decodeFieldMembers, assignFieldMember, decodeString]

theorem decode_items (acc : Field) (items : Option Field) (js : List (String × Json))
    (h : acc.Items = none)
    (hjs : (items = none ∧ js = []) ∨ ∃ field j, items = some field ∧ js = [("items", j)] ∧
      decodeFieldPtr j = some (some field.eraseSchema)) :
    decodeFieldMembers js acc = some (acc.setItems (eraseSchemaItems items)) := by
  rcases hjs with ⟨rfl, rfl⟩ | ⟨field, j, rfl, rfl, hd⟩
  · simp [decodeFieldMembers, eraseSchemaItems, ← h, Field.setItems_self]
  · simp [decodeFieldMembers, assignFieldMember, hd, eraseSchemaItems]

theorem decode_properties (acc : Field) (properties : List (String × Field))
    (js : List (String × Json)) (h : acc.Properties = [])
    (hkeys : js.map Prod.fst = properties.map Prod.fst)
    (hd : decodeProperties js [] = some (eraseSchemaProperties properties)) :
    decodeFieldMembers (omitEmpty "properties" js.isEmpty (Json.obj js)) acc =
      some (acc.setProperties (eraseSchemaProperties properties)) := by
  cases js with
  | nil =>
    have : properties = [] := by
      cases properties with
      | nil => rfl
      | cons p rest => simp at hkeys
    subst this
    simp [omitEmpty, decodeFieldMembers, eraseSchemaProperties, ← h, Field.setProperties_self]
  | cons p rest =>
    simp [omitEmpty, decodeFieldMembers, assignFieldMember, decodePropertiesValue, h, hd]

theorem GoMap.set_eq_append {κ ν : Type} [DecidableEq κ] (m : GoMap κ ν) (k : κ) (v : ν)
    (h : k ∉ GoMap.keys m) : GoMap.set m k v = m ++ [(k, v)] := by
  induction m with
  | nil => simp [GoMap.set]
  | cons p rest ih =>
    obtain ⟨k₀, v₀⟩ := p
    have h2 : ¬ k = k₀ ∧ k ∉ GoMap.keys rest := by simpa [GoMap.keys] using h
    have h₀ : ¬ k₀ = k := fun e => h2.1 e.symm
    simp [GoMap.set, h₀, ih h2.2]

mutual

theorem encodeField_decode : ∀ (field : Field), field.wellKeyed = true →
    ∀ j, encodeField field = some j → decodeFieldPtr j = some (some field.eraseSchema)
  | .mk n t f rq h u mi ma ml mxl p pa r items properties s inn, hw, j, he => by
    simp only [Field.wellKeyed, Bool.and_eq_true] at hw
    simp only [encodeField] at he
    cases h1 : encodeFloatPtr "min" mi with
    | none => simp [h1] at he
    | some jmin =>
      cases h2 : encodeFloatPtr "max" ma with
      | none => simp [h1, h2] at he
      | some jmax =>
        cases h3 : encodeItems items with
        | none => simp [h1, h2, h3] at he
        | some jitems =>
          cases h4 : encodeProperties properties with
          | none => simp [h1, h2, h3, h4] at he
          | some jproperties =>
            simp only [h1, h2, h3, h4, Option.some.injEq] at he
            subst he
            have hi := encodeItems_decode items hw.1 jitems h3
            have hp := encodeProperties_decode properties hw.2 jproperties h4
            have hp' := hp.2 [] (by simp [GoMap.keys])
            simp only [List.nil_append] at hp'
            simp only [decodeFieldPtr, List.append_assoc]
            have e0 := decode_name_type zeroField n t
            have e1 := decode_format ((zeroField.setName n).setTyp t) f rfl
            have e2 := decode_required (((zeroField.setName n).setTyp t).setFormat f) rq
            have e3 := decode_hint ((((zeroField.setName n).setTyp t).setFormat f).setRequired
                rq) h rfl
            have e4 := decode_unique (((((zeroField.setName n).setTyp t).setFormat f).setRequired
                rq).setHint h) u rfl
            have e5 := decode_min ((((((zeroField.setName n).setTyp t).setFormat f).setRequired
                rq).setHint h).setUnique u) mi jmin rfl h1
            have e6 := decode_max (((((((zeroField.setName n).setTyp t).setFormat f).setRequired
                rq).setHint h).setUnique u).setMin mi) ma jmax rfl h2
            have e7 := decode_minLength ((((((((zeroField.setName n).setTyp t).setFormat
                f).setRequired rq).setHint h).setUnique u).setMin mi).setMax ma) ml rfl
            have e8 := decode_maxLength (((((((((zeroField.setName n).setTyp t).setFormat
                f).setRequired rq).setHint h).setUnique u).setMin mi).setMax ma).setMinLength ml)
                mxl rfl
            have e9 := decode_pattern ((((((((((zeroField.setName n).setTyp t).setFormat
                f).setRequired rq).setHint h).setUnique u).setMin mi).setMax ma).setMinLength
                ml).setMaxLength mxl) p rfl
            have e10 := decode_path (((((((((((zeroField.setName n).setTyp t).setFormat
                f).setRequired rq).setHint h).setUnique u).setMin mi).setMax ma).setMinLength
                ml).setMaxLength mxl).setPattern p) pa
            have e11 := decode_ref ((((((((((((zeroField.setName n).setTyp t).setFormat
                f).setRequired rq).setHint h).setUnique u).setMin mi).setMax ma).setMinLength
                ml).setMaxLength mxl).setPattern p).setPath pa) r rfl
            have e12 := decode_items (((((((((((((zeroField.setName n).setTyp t).setFormat
                f).setRequired rq).setHint h).setUnique u).setMin mi).setMax ma).setMinLength
                ml).setMaxLength mxl).setPattern p).setPath pa).setRef r) items jitems rfl hi
            have e13 := decode_properties ((((((((((((((zeroField.setName n).setTyp t).setFormat
                f).setRequired rq).setHint h).setUnique u).setMin mi).setMax ma).setMinLength
                ml).setMaxLength mxl).setPattern p).setPath pa).setRef r).setItems
                (eraseSchemaItems items)) properties jproperties rfl hp.1 hp'
            have e14 := decode_in (((((((((((((((zeroField.setName n).setTyp t).setFormat
                f).setRequired rq).setHint h).setUnique u).setMin mi).setMax ma).setMinLength
                ml).setMaxLength mxl).setPattern p).setPath pa).setRef r).setItems
                (eraseSchemaItems items)).setProperties (eraseSchemaProperties properties)) inn rfl
            rw [decodeFieldMembers_step _ _ _ _ e0,
              decodeFieldMembers_step _ _ _ _ e1,
              decodeFieldMembers_step _ _ _ _ e2,
              decodeFieldMembers_step _ _ _ _ e3,
              decodeFieldMembers_step _ _ _ _ e4,
              decodeFieldMembers_step _ _ _ _ e5,
              decodeFieldMembers_step _ _ _ _ e6,
              decodeFieldMembers_step _ _ _ _ e7,
              decodeFieldMembers_step _ _ _ _ e8,
              decodeFieldMembers_step _ _ _ _ e9,
              decodeFieldMembers_step _ _ _ _ e10,
              decodeFieldMembers_step _ _ _ _ e11,
              decodeFieldMembers_step _ _ _ _ e12,
              decodeFieldMembers_step _ _ _ _ e13,
              e14]
            rfl

theorem encodeItems_decode : ∀ (items : Option Field), itemsWellKeyed items = true →
    ∀ js, encodeItems items = some js →
      (items = none ∧ js = []) ∨ ∃ field j, items = some field ∧ js = [("items", j)] ∧
        decodeFieldPtr j = some (some field.eraseSchema)
  | none, _, js, he => by
    simp only [encodeItems, Option.some.injEq] at he
    exact Or.inl ⟨rfl, he.symm⟩
  | some field, hw, js, he => by
    simp only [itemsWellKeyed] at hw
    simp only [encodeItems] at he
    cases h1 : encodeField field with
    | none => simp [h1] at he
    | some j =>
      simp only [h1, Option.some.injEq] at he
      exact Or.inr ⟨field, j, rfl, he.symm, encodeField_decode field hw j h1⟩

theorem encodeProperties_decode : ∀ (properties : List (String × Field)),
    propertiesWellKeyed properties = true →
    ∀ js, encodeProperties properties = some js →
      js.map Prod.fst = properties.map Prod.fst ∧
      ∀ acc : GoMap String Field, (∀ k ∈ properties.map Prod.fst, k ∉ GoMap.keys acc) →
        decodeProperties js acc = some (acc ++ eraseSchemaProperties properties)
  | [], _, js, he => by
    simp only [encodeProperties, Option.some.injEq] at he
    subst he
    simp [decodeProperties, eraseSchemaProperties]
  | (key, field) :: rest, hw, js, he => by
    simp only [propertiesWellKeyed, Bool.and_eq_true, decide_eq_true_eq] at hw
    simp only [encodeProperties] at he
    cases h1 : encodeField field with
    | none => simp [h1] at he
    | some j =>
      cases h2 : encodeProperties rest with
      | none => simp [h1, h2] at he
      | some js' =>
        simp only [h1, h2, Option.some.injEq] at he
        subst he
        have hf := encodeField_decode field hw.1.2 j h1
        have hr := encodeProperties_decode rest hw.2 js' h2
        refine ⟨by simp [hr.1], ?_⟩
        intro acc hacc
        have hk : key ∉ GoMap.keys acc := hacc key (by simp)
        simp only [decodeProperties, hf, GoMap.set_eq_append acc key _ hk]
        rw [hr.2]
        · simp [eraseSchemaProperties]
        · intro k hk' hmem
          simp only [GoMap.keys, List.map_append, List.map_cons, List.map_nil, List.mem_append,
            List.mem_singleton] at hmem
          rcases hmem with hmem | rfl
          · exact hacc k (by simp [hk']) hmem
          · exact hw.1.1 hk'

end

/-! ## The file of a scenario graph: the keys of the vertices -/

/-- The number written by decimal digits given lowest first. -/
theorem decimalDigits_spec (fuel n : Nat) (h : n < fuel) :
    decimalDigits fuel n ≠ [] ∧ (∀ d ∈ decimalDigits fuel n, d < 10) ∧
      (decimalDigits fuel n).foldr (fun d acc => d + 10 * acc) 0 = n := by
  induction fuel generalizing n with
  | zero => omega
  | succ fuel ih =>
    by_cases hn : n < 10
    · simp [decimalDigits, hn]
    · have := ih (n / 10) (by omega)
      simp only [decimalDigits, hn, if_false, List.foldr_cons, List.mem_cons]
      refine ⟨by simp, ?_, ?_⟩
      · rintro d (rfl | hd)
        · omega
        · exact this.2.1 d hd
      · rw [this.2.2]
        omega

theorem digitChar_toNat (d : Nat) (h : d < 10) : (digitChar d).toNat = 48 + d := by
  interval_cases d <;> rfl

theorem parseDigits_append (l₁ l₂ : List Char) (acc : Nat) :
    parseDigits (l₁ ++ l₂) acc = (parseDigits l₁ acc).bind (parseDigits l₂) := by
  induction l₁ generalizing acc with
  | nil => rfl
  | cons c rest ih =>
    simp only [List.cons_append, parseDigits]
    split_ifs
    · exact ih _
    · rfl

theorem parseDigits_digits (ds : List Nat) (h : ∀ d ∈ ds, d < 10) (acc : Nat) :
    parseDigits (ds.reverse.map digitChar) acc =
      some (acc * 10 ^ ds.length + ds.foldr (fun d acc => d + 10 * acc) 0) := by
  induction ds generalizing acc with
  | nil => simp [parseDigits]
  | cons d rest ih =>
    have hd : d < 10 := h d (by simp)
    have hr := ih (fun x hx => h x (by simp [hx])) acc
    simp only [List.reverse_cons, List.map_append, List.map_cons, List.map_nil,
      parseDigits_append, hr, Option.some_bind, parseDigits, digitChar_toNat d hd,
      List.length_cons, List.foldr_cons]
    have h1 : 48 ≤ 48 + d ∧ 48 + d ≤ 57 := by omega
    simp only [h1, and_self, if_true, Option.some.injEq]
    rw [pow_succ]
    have : 48 + d - 48 = d := by omega
    rw [this]
    ring

theorem parseInt_formatInt (i : Int) : parseInt (formatInt i) = some i := by
  obtain ⟨hne, hlt, hval⟩ := decimalDigits_spec (i.natAbs + 1) i.natAbs (by omega)
  have hparse := parseDigits_digits _ hlt 0
  rw [hval, Nat.zero_mul, Nat.zero_add] at hparse
  have hcs : (decimalDigits (i.natAbs + 1) i.natAbs).reverse.map digitChar ≠ [] := by
    simpa using hne
  by_cases hi : i < 0
  · simp only [formatInt, hi, if_true, parseInt]
    have hemp : ((decimalDigits (i.natAbs + 1) i.natAbs).reverse.map digitChar).isEmpty =
        false := by
      cases hc : (decimalDigits (i.natAbs + 1) i.natAbs).reverse.map digitChar with
      | nil => exact absurd hc hcs
      | cons c cs => rfl
    simp only [if_true, hemp, hparse, Option.map_some', Option.some.injEq]
    simp only [Bool.false_eq_true, if_false, Option.some.injEq]
    omega
  · simp only [formatInt, hi, if_false, parseInt]
    cases hc : (decimalDigits (i.natAbs + 1) i.natAbs).reverse.map digitChar with
    | nil => exact absurd hc hcs
    | cons c cs =>
      have hmem : c ∈ (decimalDigits (i.natAbs + 1) i.natAbs).reverse.map digitChar := by
        rw [hc]; simp
      obtain ⟨d, hd, rfl⟩ := List.mem_map.1 hmem
      have hd10 : d < 10 := hlt d (by simpa using hd)
      have hn := digitChar_toNat d hd10
      have h1 : digitChar d ≠ '-' := by
        intro h
        rw [h] at hn
        have : ('-' : Char).toNat = 45 := rfl
        omega
      have h2 : digitChar d ≠ '+' := by
        intro h
        rw [h] at hn
        have : ('+' : Char).toNat = 43 := rfl
        omega
      rw [hc] at hparse
      simp only [h1, h2, if_false, hparse, Option.map_some', Option.some.injEq]
      omega

/-! ## The file of a scenario graph: vertices and edges written and read back -/

theorem encodeFields_decode (fields : List Field)
    (hw : fields.all Field.wellKeyed = true) :
    ∀ js, encodeFields fields = some js → decodeFields js = some (fields.map Field.eraseSchema) := by
  induction fields with
  | nil =>
    intro js he
    simp only [encodeFields, Option.some.injEq] at he
    subst he
    rfl
  | cons field rest ih =>
    intro js he
    simp only [List.all_cons, Bool.and_eq_true] at hw
    simp only [encodeFields] at he
    cases h1 : encodeField field with
    | none => simp [h1] at he
    | some j =>
      cases h2 : encodeFields rest with
      | none => simp [h1, h2] at he
      | some js' =>
        simp only [h1, h2, Option.some.injEq] at he
        subst he
        simp [decodeFields, encodeField_decode field hw.1 j h1, ih hw.2 js' h2]

theorem encodeDataStructure_decode (ds : DataStructure)
    (hw : ds.Fields.all Field.wellKeyed = true) :
    ∀ j, encodeDataStructure ds = some j →
      decodeDataStructurePtr j =
        some (some ⟨ds.Name, ds.Ref, ds.ContentType, ds.Fields.map Field.eraseSchema⟩) := by
  intro j he
  simp only [encodeDataStructure] at he
  cases h1 : encodeFields ds.Fields with
  | none => simp [h1] at he
  | some js =>
    simp only [h1, Option.some.injEq] at he
    subst he
    have hd := encodeFields_decode ds.Fields hw js h1
    by_cases hr : ds.Ref = ""
    · simp [decodeDataStructurePtr, decodeDataStructureMembers, omitEmpty, hr, decodeString,
        decodeFieldsValue, hd]
    · simp [decodeDataStructurePtr, decodeDataStructureMembers, omitEmpty, hr, decodeString,
        decodeFieldsValue, hd]

theorem encodeVertex_decode (v : ScenarioGraphVertex)
    (hw : v.fields.all Field.wellKeyed = true) :
    ∀ j, encodeVertex v = some j → decodeVertex j = some v.eraseSchema := by
  intro j he
  simp only [ScenarioGraphVertex.fields, List.all_append, Bool.and_eq_true] at hw
  simp only [encodeVertex] at he
  cases h1 : encodeFields v.Parameters with
  | none => simp [h1] at he
  | some js =>
    cases h2 : encodeRequestBody v.RequestBody with
    | none => simp [h1, h2] at he
    | some body =>
      simp only [h1, h2, Option.some.injEq] at he
      subst he
      have hd := encodeFields_decode v.Parameters hw.1 js h1
      cases hb : v.RequestBody with
      | none =>
        simp only [hb, encodeRequestBody, Option.some.injEq] at h2
        subst h2
        simp [decodeVertex, decodeVertexMembers, decodeString, decodeFieldsValue, hd,
          ScenarioGraphVertex.eraseSchema, hb]
      | some ds =>
        simp only [hb] at hw
        simp only [hb, encodeRequestBody] at h2
        cases h3 : encodeDataStructure ds with
        | none => simp [h3] at h2
        | some jb =>
          simp only [h3, Option.some.injEq] at h2
          subst h2
          have hds := encodeDataStructure_decode ds hw.2 jb h3
          simp [decodeVertex, decodeVertexMembers, decodeString, decodeFieldsValue, hd, hds,
            ScenarioGraphVertex.eraseSchema, hb]

theorem decodeMappings_encode (mappings acc : GoMap String String)
    (hn : (GoMap.keys mappings).Nodup) (hd : ∀ k ∈ GoMap.keys mappings, k ∉ GoMap.keys acc) :
    decodeMappings (mappings.map (fun p => (p.1, Json.str p.2))) acc = some (acc ++ mappings) := by
  induction mappings generalizing acc with
  | nil => simp [decodeMappings]
  | cons p rest ih =>
    obtain ⟨k, v⟩ := p
    have hn' : k ∉ GoMap.keys rest ∧ (GoMap.keys rest).Nodup := by
      simpa [GoMap.keys] using hn
    have hk : k ∉ GoMap.keys acc := hd k (by simp [GoMap.keys])
    simp only [List.map_cons, decodeMappings, decodeString, GoMap.set_eq_append acc k v hk]
    rw [ih _ hn'.2]
    · simp
    · intro k' hk' hmem
      simp only [GoMap.keys, List.map_append, List.map_cons, List.map_nil, List.mem_append,
        List.mem_singleton] at hmem
      rcases hmem with hmem | rfl
      · exact hd k' (by simp [GoMap.keys] at hk' ⊢; exact Or.inr hk') hmem
      · exact hn'.1 hk'

theorem decodeEdges_encode (edges : List ScenarioGraphEdge)
    (hw : edges.all (fun e => decide (GoMap.keys e.Mappings).Nodup) = true) :
    decodeEdges (edges.map encodeEdge) = some edges := by
  induction edges with
  | nil => rfl
  | cons e rest ih =>
    simp only [List.all_cons, Bool.and_eq_true, decide_eq_true_eq] at hw
    have hm := decodeMappings_encode e.Mappings [] hw.1 (by simp [GoMap.keys])
    simp only [List.nil_append] at hm
    simp [encodeEdge, decodeEdges, decodeEdgeMembers, decodeMappingsValue, decodeInt, hm, ih hw.2]

theorem decodeVertices_encode (vertices acc : GoMap Int ScenarioGraphVertex)
    (hn : (GoMap.keys vertices).Nodup)
    (hw : vertices.all (fun p => p.2.fields.all Field.wellKeyed) = true)
    (hd : ∀ k ∈ GoMap.keys vertices, k ∉ GoMap.keys acc) :
    ∀ js, encodeVertices vertices = some js →
      decodeVertices js acc = some (acc ++ vertices.map (fun p => (p.1, p.2.eraseSchema))) := by
  induction vertices generalizing acc with
  | nil =>
    intro js he
    simp only [encodeVertices, Option.some.injEq] at he
    subst he
    simp [decodeVertices]
  | cons p rest ih =>
    obtain ⟨id, v⟩ := p
    intro js he
    have hn' : id ∉ GoMap.keys rest ∧ (GoMap.keys rest).Nodup := by
      simpa [GoMap.keys] using hn
    simp only [List.all_cons, Bool.and_eq_true] at hw
    have hk : id ∉ GoMap.keys acc := hd id (by simp [GoMap.keys])
    simp only [encodeVertices] at he
    cases h1 : encodeVertex v with
    | none => simp [h1] at he
    | some j =>
      cases h2 : encodeVertices rest with
      | none => simp [h1, h2] at he
      | some js' =>
        simp only [h1, h2, Option.some.injEq] at he
        subst he
        simp only [decodeVertices, parseInt_formatInt, encodeVertex_decode v hw.1 j h1,
          GoMap.set_eq_append acc id _ hk]
        rw [ih _ hn'.2 hw.2 _ js' h2]
        · simp
        · intro k' hk' hmem
          simp only [GoMap.keys, List.map_append, List.map_cons, List.map_nil, List.mem_append,
            List.mem_singleton] at hmem
          rcases hmem with hmem | rfl
          · exact hd k' (by simp [GoMap.keys] at hk' ⊢; exact Or.inr hk') hmem
          · exact hn'.1 hk'

/-- A graph whose maps are maps, once written, is read back with its `Schema` pointers
erased. -/
theorem deserialize_serialize (g : ScenarioGraph) (hw : g.mapsWellKeyed = true) :
    ∀ j, SerializeScenarioGraph g = some j → DeserializeScenarioGraph j = some g.eraseSchema := by
  intro j he
  simp only [ScenarioGraph.mapsWellKeyed, Bool.and_eq_true, decide_eq_true_eq] at hw
  simp only [SerializeScenarioGraph] at he
  cases h1 : encodeVertices g.vertices with
  | none => simp [h1] at he
  | some js =>
    simp only [h1, Option.some.injEq] at he
    subst he
    have hv := decodeVertices_encode g.vertices [] hw.1.1 hw.1.2 (by simp [GoMap.keys]) js h1
    simp only [List.nil_append] at hv
    simp [DeserializeScenarioGraph, decodeGraphMembers, decodeVerticesValue, decodeEdgesValue, hv,
      decodeEdges_encode g.edges hw.2,
      ScenarioGraph.eraseSchema]

/-! ## The file of a scenario graph: when `Marshal` succeeds -/

theorem encodeFloatPtr_isSome (key : String) (v : Option Float) (h : boundFinite v = true) :
    ∃ js, encodeFloatPtr key v = some js := by
  cases v with
  | none => exact ⟨[], rfl⟩
  | some x =>
    simp only [boundFinite] at h
    exact ⟨[(key, Json.float x)], by simp [encodeFloatPtr, encodeFloat, h]⟩

mutual

theorem encodeField_isSome : ∀ (field : Field), field.boundsFinite = true →
    ∃ j, encodeField field = some j
  | .mk n t f rq h u mi ma ml mxl p pa r items properties s inn, hb => by
    simp only [Field.boundsFinite, Bool.and_eq_true] at hb
    obtain ⟨jmin, h1⟩ := encodeFloatPtr_isSome "min" mi hb.1.1.1
    obtain ⟨jmax, h2⟩ := encodeFloatPtr_isSome "max" ma hb.1.1.2
    obtain ⟨jitems, h3⟩ := encodeItems_isSome items hb.1.2
    obtain ⟨jproperties, h4⟩ := encodeProperties_isSome properties hb.2
    exact Option.isSome_iff_exists.1 (by simp only [encodeField, h1, h2, h3, h4]; rfl)

theorem encodeItems_isSome : ∀ (items : Option Field), itemsBoundsFinite items = true →
    ∃ js, encodeItems items = some js
  | none, _ => ⟨[], rfl⟩
  | some field, hb => by
    simp only [itemsBoundsFinite] at hb
    obtain ⟨j, h1⟩ := encodeField_isSome field hb
    exact Option.isSome_iff_exists.1 (by simp only [encodeItems, h1]; rfl)

theorem encodeProperties_isSome : ∀ (properties : List (String × Field)),
    propertiesBoundsFinite properties = true → ∃ js, encodeProperties properties = some js
  | [], _ => ⟨[], rfl⟩
  | (key, field) :: rest, hb => by
    simp only [propertiesBoundsFinite, Bool.and_eq_true] at hb
    obtain ⟨j, h1⟩ := encodeField_isSome field hb.1
    obtain ⟨js, h2⟩ := encodeProperties_isSome rest hb.2
    exact Option.isSome_iff_exists.1 (by simp only [encodeProperties, h1, h2]; rfl)

end

theorem encodeFields_isSome (fields : List Field)
    (hb : fields.all Field.boundsFinite = true) : ∃ js, encodeFields fields = some js := by
  induction fields with
  | nil => exact ⟨[], rfl⟩
  | cons field rest ih =>
    simp only [List.all_cons, Bool.and_eq_true] at hb
    obtain ⟨j, h1⟩ := encodeField_isSome field hb.1
    obtain ⟨js, h2⟩ := ih hb.2
    exact Option.isSome_iff_exists.1 (by simp only [encodeFields, h1, h2]; rfl)

theorem encodeVertex_isSome (v : ScenarioGraphVertex)
    (hb : v.fields.all Field.boundsFinite = true) : ∃ j, encodeVertex v = some j := by
  simp only [ScenarioGraphVertex.fields, List.all_append, Bool.and_eq_true] at hb
  obtain ⟨js, h1⟩ := encodeFields_isSome v.Parameters hb.1
  cases hbody : v.RequestBody with
  | none => exact Option.isSome_iff_exists.1 (by simp only [encodeVertex, h1, hbody, encodeRequestBody]; rfl)
  | some ds =>
    simp only [hbody] at hb
    obtain ⟨jf, h2⟩ := encodeFields_isSome ds.Fields hb.2
    exact Option.isSome_iff_exists.1 (by simp only [encodeVertex, h1, hbody, encodeRequestBody, encodeDataStructure, h2]; rfl)

theorem serialize_isSome (g : ScenarioGraph) (hb : g.boundsFinite = true) :
    ∃ j, SerializeScenarioGraph g = some j := by
  have : ∃ js, encodeVertices g.vertices = some js := by
    unfold ScenarioGraph.boundsFinite at hb
    generalize g.vertices = vertices at hb
    induction vertices with
    | nil => exact ⟨[], rfl⟩
    | cons p rest ih =>
      obtain ⟨id, v⟩ := p
      simp only [List.all_cons, Bool.and_eq_true] at hb
      obtain ⟨j, h1⟩ := encodeVertex_isSome v hb.1
      obtain ⟨js, h2⟩ := ih hb.2
      exact Option.isSome_iff_exists.1 (by simp only [encodeVertices, h1, h2]; rfl)
  obtain ⟨js, h⟩ := this
  exact Option.isSome_iff_exists.1 (by simp only [SerializeScenarioGraph, h]; rfl)

theorem encodeFields_none (fields : List Field) (field : Field) (hm : field ∈ fields)
    (h : encodeField field = none) : encodeFields fields = none := by
  induction fields with
  | nil => simp at hm
  | cons f rest ih =>
    simp only [List.mem_cons] at hm
    rcases hm with rfl | hm
    · simp [encodeFields, h]
    · simp only [encodeFields, ih hm]
      cases encodeField f <;> rfl

theorem encodeVertices_none (vertices : GoMap Int ScenarioGraphVertex) (id : Int)
    (v : ScenarioGraphVertex) (hm : (id, v) ∈ vertices) (h : encodeVertex v = none) :
    encodeVertices vertices = none := by
  induction vertices with
  | nil => simp at hm
  | cons p rest ih =>
    obtain ⟨id', v'⟩ := p
    simp only [List.mem_cons] at hm
    rcases hm with hm | hm
    · simp only [Prod.mk.injEq] at hm
      obtain ⟨rfl, rfl⟩ := hm
      simp [encodeVertices, h]
    · simp only [encodeVertices, ih hm]
      cases encodeVertex v' <;> rfl

/-- `Marshal` fails on a graph with a parameter whose `Min` is not finite. -/
theorem serialize_none_of_bound (g : ScenarioGraph) (id : Int) (v : ScenarioGraphVertex)
    (param : Field) (x : Float) (hv : (id, v) ∈ g.vertices) (hp : param ∈ v.Parameters)
    (hmin : param.Min = some x) (hx : x.isFinite = false) :
    SerializeScenarioGraph g = none := by
  have h1 : encodeField param = none := by
    cases param with
    | mk n t f rq h u mi ma ml mxl p pa r items properties s inn =>
      simp only [Field.Min] at hmin
      subst hmin
      simp [encodeField, encodeFloatPtr, encodeFloat, hx]
  have h2 : encodeVertex v = none := by
    simp [encodeVertex, encodeFields_none v.Parameters param hp h1]
  simp [SerializeScenarioGraph, encodeVertices_none g.vertices id v hv h2]

theorem eraseSchemaProperties_eq (properties : List (String × Field)) :
    eraseSchemaProperties properties = properties.map (fun p => (p.1, p.2.eraseSchema)) := by
  induction properties with
  | nil => rfl
  | cons p rest ih =>
    obtain ⟨k, f⟩ := p
    simp [eraseSchemaProperties, ih]

theorem eraseSchemaItems_eq (items : Option Field) :
    eraseSchemaItems items = items.map Field.eraseSchema := by
  cases items <;> rfl

theorem GoMap.get?_map_snd {κ ν μ : Type} [DecidableEq κ] (m : GoMap κ ν) (f : ν → μ) (k : κ) :
    GoMap.get? (m.map (fun p => (p.1, f p.2))) k = (GoMap.get? m k).map f := by
  induction m with
  | nil => rfl
  | cons p rest ih =>
    obtain ⟨k₀, v₀⟩ := p
    by_cases h₀ : k₀ = k
    · simp [GoMap.get?, h₀]
    · simpa [GoMap.get?, h₀] using ih

/-- C14, amended: for every scenario graph whose bounds `Min`, `Max` are finite (and whose
maps are maps), writing it with `SerializeScenarioGraph` and reading the file back with
`DeserializeScenarioGraph` succeeds and yields the graph with every `Schema` pointer
erased: the same vertex ids, under each id the vertex with the same path, method and
response code and with parameters and request-body fields that agree with the original
ones in every member (names, types, bounds, paths, items, properties, ...) except that
`Schema`, which is tagged `json:"-"`, is nil; and the same edges in the same order with
the same ends and mappings.  A bound that is not finite makes the writing fail. -/
theorem serialize_round_trip :
    (∀ g : ScenarioGraph, g.mapsWellKeyed = true → g.boundsFinite = true →
      ∃ j, SerializeScenarioGraph g = some j ∧
        DeserializeScenarioGraph j = some g.eraseSchema) ∧
    (∀ g : ScenarioGraph,
      GoMap.keys g.eraseSchema.vertices = GoMap.keys g.vertices ∧
      (∀ id, g.eraseSchema.GetVertex id =
        (g.GetVertex id).map ScenarioGraphVertex.eraseSchema) ∧
      g.eraseSchema.edges = g.edges) ∧
    (∀ v : ScenarioGraphVertex,
      v.eraseSchema.Path = v.Path ∧ v.eraseSchema.Method = v.Method ∧
      v.eraseSchema.ResponseCode = v.ResponseCode ∧
      v.eraseSchema.Parameters = v.Parameters.map Field.eraseSchema ∧
      v.eraseSchema.RequestBody = v.RequestBody.map (fun ds =>
        ⟨ds.Name, ds.Ref, ds.ContentType, ds.Fields.map Field.eraseSchema⟩)) ∧
    (∀ f : Field,
      f.eraseSchema.Name = f.Name ∧ f.eraseSchema.Typ = f.Typ ∧
      f.eraseSchema.Format = f.Format ∧ f.eraseSchema.Required = f.Required ∧
      f.eraseSchema.Hint = f.Hint ∧ f.eraseSchema.Unique = f.Unique ∧
      f.eraseSchema.Min = f.Min ∧ f.eraseSchema.Max = f.Max ∧
      f.eraseSchema.MinLength = f.MinLength ∧ f.eraseSchema.MaxLength = f.MaxLength ∧
      f.eraseSchema.Pattern = f.Pattern ∧ f.eraseSchema.Path = f.Path ∧
      f.eraseSchema.Ref = f.Ref ∧ f.eraseSchema.In = f.In ∧
      f.eraseSchema.Schema = none ∧
      f.eraseSchema.Items = f.Items.map Field.eraseSchema ∧
      f.eraseSchema.Properties = f.Properties.map (fun p => (p.1, p.2.eraseSchema))) ∧
    (∀ (g : ScenarioGraph) (id : Int) (v : ScenarioGraphVertex) (param : Field) (x : Float),
      (id, v) ∈ g.vertices → param ∈ v.Parameters → param.Min = some x →
      x.isFinite = false → SerializeScenarioGraph g = none) := by
  refine ⟨?_, ?_, fun v => ⟨rfl, rfl, rfl, rfl, rfl⟩, ?_, serialize_none_of_bound⟩
  · intro g hw hb
    obtain ⟨j, hj⟩ := serialize_isSome g hb
    exact ⟨j, hj, deserialize_serialize g hw j hj⟩
  · intro g
    refine ⟨?_, ?_, rfl⟩
    · simp [ScenarioGraph.eraseSchema, GoMap.keys]
    · intro id
      exact GoMap.get?_map_snd g.vertices _ id
  · intro f
    cases f with
    | mk n t f rq h u mi ma ml mxl p pa r items properties s inn =>
      refine ⟨rfl, rfl, rfl, rfl, rfl, rfl, rfl, rfl, rfl, rfl, rfl, rfl, rfl, rfl, rfl, ?_, ?_⟩
      · exact eraseSchemaItems_eq items
      · exact eraseSchemaProperties_eq properties

/-- Witness for C14 (amended): the graph with two vertices and the edge 0->1. -/
theorem serialize_round_trip_witness :
    ∃ j, SerializeScenarioGraph linkedGraph = some j ∧
      DeserializeScenarioGraph j = some linkedGraph.eraseSchema :=
  serialize_round_trip.1 linkedGraph rfl rfl

/-- Counterexample for C14 as stated: a parameter field that points to its schema, as the
builder leaves it, is read back with a nil `Schema`; the vertex read back is not equal to
the vertex written. -/
theorem round_trip_drops_schema :
    ∃ j g', SerializeScenarioGraph schemaGraph = some j ∧
      DeserializeScenarioGraph j = some g' ∧
      (schemaGraph.GetVertex 0).map (fun v => v.Parameters.map Field.Schema) =
        some [some 0] ∧
      (g'.GetVertex 0).map (fun v => v.Parameters.map Field.Schema) = some [none] :=
  ⟨_, _, rfl, rfl, rfl, rfl⟩

/-! ## The walker on a nil document, a nil visitor, a nil schema reference -/

/-- C27: `WalkSpec` returns at once on a nil document and on a nil visitor: whatever the
visitor and its state, the state is the one it had (no method of it was called; with the
test visitor the log stays empty).  Inside a walk, `walkSchema` on a nil schema reference,
and on a reference without schema value, returns with the set `visitedSchemas` and the
visitor state unchanged, so it produces no event. -/
theorem walkSpec_nil_noop :
    (∀ (σ : Type) (visitor : Option (Visitor σ)) (fuel : Nat) (st : σ),
      WalkSpec none visitor fuel st = some st) ∧
    (∀ (σ : Type) (spec : Option Spec) (fuel : Nat) (st : σ),
      WalkSpec spec (none : Option (Visitor σ)) fuel st = some st) ∧
    (∀ (fuel : Nat), WalkSpec none (some TestVisitor) fuel [] = some [] ∧
      WalkSpec (some simpleSpec) (none : Option (Visitor (List Event))) fuel [] = some []) ∧
    (∀ (σ : Type) (heap : Heap) (visitor : Visitor σ) (fuel : Nat) (basePath : String)
      (st : WalkState σ), walkSchema heap visitor (fuel + 1) basePath none st = some st) ∧
    (∀ (σ : Type) (heap : Heap) (visitor : Visitor σ) (fuel : Nat) (basePath : String)
      (ref : SchemaRef) (st : WalkState σ), ref.Value = none →
      walkSchema heap visitor (fuel + 1) basePath (some ref) st = some st) ∧
    (∀ (heap : Heap) (fuel : Nat) (V : List SchemaId) (basePath : String) (ref : SchemaRef),
      ref.Value = none →
      schemaEvents heap (fuel + 1) V basePath none = [] ∧
      schemaEvents heap (fuel + 1) V basePath (some ref) = []) := by
  refine ⟨?_, ?_, ?_, ?_, ?_, ?_⟩
  · intro σ visitor fuel st
    cases visitor <;> rfl
  · intro σ spec fuel st
    cases spec <;> rfl
  · intro fuel
    exact ⟨rfl, rfl⟩
  · intro σ heap visitor fuel basePath st
    rfl
  · intro σ heap visitor fuel basePath ref st h
    simp [walkSchema, h]
  · intro heap fuel V basePath ref h
    simp [schemaEvents, walkSchema, h]

/-- Witness for C27: a reference `$ref` that was not resolved, walked by the test visitor. -/
theorem walkSpec_nil_noop_witness :
    walkSchema [] TestVisitor 1 "base" (some ⟨"#/components/schemas/Missing", none⟩) ⟨[], []⟩ =
      some ⟨[], []⟩ :=
  walkSpec_nil_noop.2.2.2.2.1 (List Event) [] TestVisitor 0 "base"
    ⟨"#/components/schemas/Missing", none⟩ ⟨[], []⟩ rfl

/-! ## The data-model builder: the metadata of a field -/

/-- C26: the `Field` that `buildFieldFromSchema` produces for a reference to the schema
`s` copies the metadata of `s`: `Type` is the first declared type (empty when the schema
declares none), `Format`, `Min`, `Max`, `MinLength`, `MaxLength` and `Pattern` are those of
`s`, `Hint` is the extension `x-user-hint` when that is a string and empty otherwise,
`Unique` is the extension `x-slsbench-unique` when that is a boolean and false otherwise.
For a schema without items and properties the function returns for every positive fuel. -/
theorem buildFieldFromSchema_copies_metadata :
    (∀ (heap : Heap) (fuel : Nat) (name : String) (ref : SchemaRef) (path : String)
      (V : List SchemaId) (id : SchemaId) (s : Schema) (f : Field),
      ref.Value = some id → heap[id]? = some s →
      buildFieldFromSchema heap fuel name (some ref) path V = some f →
      f.Typ = firstType s.Typ ∧ f.Format = s.Format ∧ f.Min = s.Min ∧ f.Max = s.Max ∧
      f.MinLength = s.MinLength ∧ f.MaxLength = s.MaxLength ∧ f.Pattern = s.Pattern ∧
      f.Hint = extHint s.Extensions ∧ f.Unique = extUnique s.Extensions) ∧
    (firstType none = "" ∧ firstType (some []) = "" ∧
      ∀ t ts, firstType (some (t :: ts)) = t) ∧
    (∀ (ext : GoMap String ExtValue),
      (∀ h, GoMap.get? ext "x-user-hint" = some (ExtValue.str h) → extHint ext = h) ∧
      ((∀ h, GoMap.get? ext "x-user-hint" ≠ some (ExtValue.str h)) → extHint ext = "") ∧
      (∀ b, GoMap.get? ext "x-slsbench-unique" = some (ExtValue.bool b) → extUnique ext = b) ∧
      ((∀ b, GoMap.get? ext "x-slsbench-unique" ≠ some (ExtValue.bool b)) →
        extUnique ext = false)) ∧
    (∀ (heap : Heap) (fuel : Nat) (name : String) (ref : SchemaRef) (path : String)
      (V : List SchemaId) (id : SchemaId) (s : Schema),
      ref.Value = some id → heap[id]? = some s → s.Items = none → s.Properties = [] →
      buildFieldFromSchema heap (fuel + 1) name (some ref) path V =
        some (Field.mk name (firstType s.Typ) s.Format false (extHint s.Extensions)
          (extUnique s.Extensions) s.Min s.Max s.MinLength s.MaxLength s.Pattern path ref.Ref
          none [] (some id) "")) := by
  refine ⟨?_, ⟨rfl, rfl, fun _ _ => rfl⟩, ?_, ?_⟩
  · intro heap fuel name ref path V id s f hv hh h
    cases fuel with
    | zero => simp [buildFieldFromSchema] at h
    | succ n =>
      simp only [buildFieldFromSchema, hv, hh] at h
      obtain ⟨items, _, h⟩ := Option.bind_eq_some.1 h
      obtain ⟨props, _, h⟩ := Option.bind_eq_some.1 h
      simp only [Option.some.injEq] at h
      subst h
      exact ⟨rfl, rfl, rfl, rfl, rfl, rfl, rfl, rfl, rfl⟩
  · intro ext
    refine ⟨?_, ?_, ?_, ?_⟩
    · intro h hg
      simp [extHint, hg]
    · intro hn
      unfold extHint
      split
      · rename_i h heq
        exact absurd heq (hn h)
      · rfl
    · intro b hg
      simp [extUnique, hg]
    · intro hn
      unfold extUnique
      split
      · rename_i b heq
        exact absurd heq (hn b)
      · rfl
  · intro heap fuel name ref path V id s hv hh hi hp
    simp [buildFieldFromSchema, hv, hh, hi, hp, forEach]

/-- Witness for C26: the field built for the schema of `email`. -/
theorem buildFieldFromSchema_copies_metadata_witness :
    buildFieldFromSchema [emailSchema] 1 "email" (some (inline 0)) "body.email" [] =
      some (Field.mk "email" "string" "email" false "email" true none none 5 (some 100) ""
        "body.email" "" none [] (some 0) "") :=
  buildFieldFromSchema_copies_metadata.2.2.2 [emailSchema] 0 "email" (inline 0) "body.email" []
    0 emailSchema rfl rfl rfl rfl

/-! ## `TopologicalSort` on a graph with an edge to an id that is no vertex -/

theorem seedQueue_strayEdgeGraph (seed : List Nat) :
    ScenarioGraph.seedQueue seed
      (ScenarioGraph.countInDegree strayEdgeGraph.edges (ScenarioGraph.initInDegree strayEdgeGraph)) =
      [0] := by
  have hdeg : ScenarioGraph.countInDegree strayEdgeGraph.edges
      (ScenarioGraph.initInDegree strayEdgeGraph) = [(0, 0), (1, 1), (5, 1)] := by decide
  rw [hdeg]
  unfold ScenarioGraph.seedQueue
  have hp := (goRange_perm seed [((0 : Int), (0 : Int)), (1, 1), (5, 1)]).filter
    (fun p => decide (p.2 = 0))
  have hf : List.filter (fun p : Int × Int => decide (p.2 = 0)) [(0, 0), (1, 1), (5, 1)] =
      [(0, 0)] := by decide
  rw [hf] at hp
  rw [List.perm_singleton.1 hp]
  rfl

/-- Counterexample for C30 as stated: on the graph with the vertices 0, 1 and the edges
0->5, 1->1, for every visiting order of the in-degree map and every fuel of at least two,
`TopologicalSort` returns the list `[0, 5]` and no error.  The list holds the id 5, which
is no vertex, and lacks the vertex 1, which lies on a cycle; its length equals the number
of vertices, so the cycle test passes. -/
theorem topologicalSort_stray_edge :
    (∀ (seed : List Nat) (n : Nat),
      strayEdgeGraph.TopologicalSort seed (n + 2) = some (some [0, 5], none)) ∧
    (5 : Int) ∉ GoMap.keys strayEdgeGraph.vertices ∧
    (1 : Int) ∈ GoMap.keys strayEdgeGraph.vertices ∧ (1 : Int) ∉ [(0 : Int), 5] ∧
    strayEdgeGraph.HasCycle := by
  refine ⟨?_, by decide, by decide, by decide, ?_⟩
  · intro seed n
    have hadj : ScenarioGraph.buildAdjacency strayEdgeGraph.edges = [(0, [5]), (1, [1])] := by
      decide
    have hdeg : ScenarioGraph.countInDegree strayEdgeGraph.edges
        (ScenarioGraph.initInDegree strayEdgeGraph) = [(0, 0), (1, 1), (5, 1)] := by decide
    have hloop : ScenarioGraph.kahnLoop [(0, [5]), (1, [1])] (n + 2) [(0, 0), (1, 1), (5, 1)]
        [0] [] = some [0, 5] := by
      simp [ScenarioGraph.kahnLoop, ScenarioGraph.relaxNeighbors, ScenarioGraph.relaxOne,
        GoMap.get, GoMap.get?, GoMap.set]
    unfold ScenarioGraph.TopologicalSort
    simp only [seedQueue_strayEdgeGraph]
    rw [hadj, hdeg, hloop]
    rfl
  · exact ⟨1, Relation.TransGen.single ⟨⟨1, 1, []⟩, by simp [strayEdgeGraph], rfl, rfl⟩⟩

/-! ## The candidate paths of an array field -/

/-- The field of the items of an array is built with the empty name. -/
theorem buildFieldFromSchema_items_name (heap : Heap) (fuel : Nat) (name : String)
    (schemaRef : Option SchemaRef) (path : String) (V : List SchemaId) (f items : Field)
    (h : buildFieldFromSchema heap fuel name schemaRef path V = some f)
    (hi : f.Items = some items) : items.Name = "" := by
  cases fuel with
  | zero => simp [buildFieldFromSchema] at h
  | succ n =>
    cases schemaRef with
    | none =>
      simp only [buildFieldFromSchema, Option.some.injEq] at h
      subst h
      simp [Field.Items] at hi
    | some ref =>
      cases hv : ref.Value with
      | none =>
        simp only [buildFieldFromSchema, hv, Option.some.injEq] at h
        subst h
        simp [Field.Items] at hi
      | some schema =>
        cases hh : heap[schema]? with
        | none =>
          simp only [buildFieldFromSchema, hv, hh, Option.some.injEq] at h
          subst h
          simp [Field.Items] at hi
        | some s =>
          simp only [buildFieldFromSchema, hv, hh] at h
          obtain ⟨its, hits, h⟩ := Option.bind_eq_some.1 h
          obtain ⟨props, _, h⟩ := Option.bind_eq_some.1 h
          simp only [Option.some.injEq] at h
          subst h
          simp only [Field.Items] at hi
          subst hi
          cases hsi : s.Items with
          | none => simp [hsi] at hits
          | some r =>
            simp only [hsi, Option.map_eq_some'] at hits
            obtain ⟨g, hg, hge⟩ := hits
            simp only [Option.some.injEq] at hge
            subst hge
            exact buildFieldFromSchema_name heap n "" (some r) _ V g hg

/-- C29 fails on array fields.  The items of an array field are a field with the empty
name, and `collectFieldPaths` joins the prefix `fieldPath + "[]"`, a dot and that name: an
array field `f` with items is listed with the candidate `pfx.f[].`, which ends with a dot,
and a property `p` of its items as `pfx.f[]..p`, never as `pfx.f[].p`.  So it is for the
body object whose property `users` is an array of objects with `id` and `name`, as the
data-model builder builds it, while the `Path` members of the same item properties are
written with a single dot. -/
theorem array_item_paths_malformed :
    (∀ n : Nat,
      (buildDataStructureFromSchema arrayBodyHeap (n + 4)
          "/users/POST/requestBody/application/json" (some (inline 4)) "application/json"
          []).map (fun ds => collectBodyFields (some ds)) =
        some ["body.users", "body.users[].", "body.users[]..id", "body.users[]..name"]) ∧
    "body.users[].id" ∉ ["body.users", "body.users[].", "body.users[]..id",
      "body.users[]..name"] ∧
    (∀ n : Nat,
      (buildDataStructureFromSchema arrayBodyHeap (n + 4)
          "/users/POST/requestBody/application/json" (some (inline 4)) "application/json"
          []).map (fun ds => itemPropertyPaths ds.Fields) =
        some [["/users/POST/requestBody/application/json.users[].id",
          "/users/POST/requestBody/application/json.users[].name"]]) ∧
    (∀ (heap : Heap) (fuel : Nat) (name : String) (schemaRef : Option SchemaRef)
      (path : String) (V : List SchemaId) (f items : Field) (pfx : String),
      buildFieldFromSchema heap fuel name schemaRef path V = some f → f.Items = some items →
      (pfx ++ "." ++ f.Name ++ "[]" ++ ".") ∈ collectFieldPathsOf pfx f ∧
      ∀ p ∈ items.Properties,
        (pfx ++ "." ++ f.Name ++ "[]" ++ "." ++ "." ++ p.2.Name) ∈ collectFieldPathsOf pfx f) := by
  refine ⟨fun n => ?_, by decide, fun n => ?_, ?_⟩
  · simp [buildDataStructureFromSchema, buildFieldsFromSchema, buildFieldFromSchema, forEach,
      arrayBodyHeap, objectSchema, arraySchema, scalarSchema, inline, GoMap.set,
      collectBodyFields, collectFieldPaths, collectFieldPathsOf, collectPropertyPaths,
      collectItemPaths]
  · simp [buildDataStructureFromSchema, buildFieldsFromSchema, buildFieldFromSchema, forEach,
      arrayBodyHeap, objectSchema, arraySchema, scalarSchema, inline, GoMap.set,
      itemPropertyPaths, Field.Items, Field.Properties, Field.Path]
  · intro heap fuel name schemaRef path V f items pfx h hi
    have hname := buildFieldFromSchema_items_name heap fuel name schemaRef path V f items h hi
    rw [collectFieldPathsOf_eq pfx f, hi]
    simp only [Option.toList, List.map_cons, List.map_nil, List.flatten_cons, List.flatten_nil,
      List.append_nil]
    rw [collectFieldPathsOf_eq _ items, hname]
    refine ⟨?_, ?_⟩
    · simp [String.append_assoc]
    · intro p hp
      simp only [List.mem_cons, List.mem_append, List.mem_flatten, List.mem_map]
      right; right; right; left
      refine ⟨collectFieldPathsOf (pfx ++ "." ++ f.Name ++ "[]" ++ "." ++ "") p.2, ⟨p, hp, rfl⟩, ?_⟩
      rw [collectFieldPathsOf_eq]
      simp [String.append_assoc]

/-! ## `parseEndpointAndMethod` on the paths of the walker events -/

theorem splitOnChar_ne_nil (sep : Char) (cs : List Char) : splitOnChar sep cs ≠ [] := by
  cases cs with
  | nil => simp [splitOnChar]
  | cons c cs =>
    simp only [splitOnChar]
    split_ifs
    · simp
    · split <;> simp

theorem splitOnChar_append (sep : Char) (a b : List Char) :
    splitOnChar sep (a ++ sep :: b) = splitOnChar sep a ++ splitOnChar sep b := by
  induction a with
  | nil => simp [splitOnChar]
  | cons c a ih =>
    by_cases hc : c = sep
    · simp [splitOnChar, hc, ih]
    · cases hs : splitOnChar sep a with
      | nil => exact absurd hs (splitOnChar_ne_nil sep a)
      | cons seg segs =>
        rw [hs] at ih
        simp [splitOnChar, hc, ih, hs]

theorem splitOnChar_of_not_mem (sep : Char) (cs : List Char) (h : sep ∉ cs) :
    splitOnChar sep cs = [cs] := by
  induction cs with
  | nil => rfl
  | cons c cs ih =>
    have h2 : ¬ sep = c ∧ sep ∉ cs := by simpa using h
    have hc : ¬ c = sep := fun e => h2.1 e.symm
    simp [splitOnChar, hc, ih h2.2]

/-- Joining the segments of a split with the separator gives the characters back. -/
theorem splitOnChar_join (sep : Char) (cs : List Char) :
    ∃ seg segs, splitOnChar sep cs = seg :: segs ∧
      seg ++ (segs.map (fun s => sep :: s)).flatten = cs := by
  induction cs with
  | nil => exact ⟨[], [], rfl, rfl⟩
  | cons c cs ih =>
    obtain ⟨seg, segs, hs, hj⟩ := ih
    by_cases hc : c = sep
    · refine ⟨[], seg :: segs, by simp [splitOnChar, hc, hs], ?_⟩
      simp [hj, hc]
    · refine ⟨c :: seg, segs, by simp [splitOnChar, hc, hs], ?_⟩
      simp [hj]

theorem intercalate_go_data (acc sep : String) (l : List String) :
    (String.intercalate.go acc sep l).data =
      acc.data ++ (l.map (fun a => sep.data ++ a.data)).flatten := by
  induction l generalizing acc with
  | nil => simp [String.intercalate.go]
  | cons a rest ih =>
    simp [String.intercalate.go, ih, String.data_append, List.append_assoc]

theorem joinSlash_splitOnChar (cs : List Char) :
    joinSlash ((splitOnChar '/' cs).map String.mk) = String.mk cs := by
  obtain ⟨seg, segs, hs, hj⟩ := splitOnChar_join '/' cs
  apply String.ext
  rw [hs]
  simp only [joinSlash, List.map_cons, String.intercalate, intercalate_go_data, List.map_map]
  rw [← hj]
  congr 1

theorem parseLoop_first_method (parts : List String) :
    ∀ (before : List String) (m : String) (after : List String) (i : Nat),
      (∀ seg ∈ before, seg ∉ httpMethods) → m ∈ httpMethods →
      parseLoop parts i (before ++ m :: after) =
        if i + before.length = 0 then none
        else some ("/" ++ joinSlash ((parts.drop 1).take (i + before.length - 1)), m) := by
  intro before
  induction before with
  | nil =>
    intro m after i _ hm
    simp [parseLoop, hm]
  | cons p rest ih =>
    intro m after i hb hm
    have hp : p ∉ httpMethods := hb p (by simp)
    have := ih m after (i + 1) (fun seg hs => hb seg (by simp [hs])) hm
    have e : i + 1 + rest.length = i + (rest.length + 1) := by omega
    rw [e] at this
    simp only [List.cons_append, parseLoop, hp, if_false, List.length_cons]
    exact this

theorem httpMethods_no_slash (m : String) (hm : m ∈ httpMethods) : '/' ∉ m.data := by
  simp only [httpMethods, List.mem_cons, List.mem_singleton, List.not_mem_nil, or_false] at hm
  rcases hm with h | h | h | h | h | h | h | h <;> subst h <;> decide

/-- C28 (code at the failing input).  `parseEndpointAndMethod` returns the first segment
spelled like an HTTP method, so the event path `"/GET/x" + "/" + "POST"` of the
operation `POST /GET/x` is parsed as endpoint `/` and method `GET`, and the data model
built from the document with that single operation files it under `/` and `GET` and
has nothing under `/GET/x` and `POST`.  For endpoint paths `"/" ++ q` none of whose
segments is spelled like a method the claimed equation holds: for every method `m` and
every suffix that is empty or begins with `/`, the path `p + "/" + m + s` is parsed
as `(p, m)`. -/
theorem parseEndpointAndMethod_first_method_segment :
    parseEndpointAndMethod ("/GET/x" ++ "/" ++ "POST" ++ "") = some ("/", "GET") ∧
    (∀ fuel : Nat, ∃ dm, buildDataModelFromSpec methodSegmentSpec fuel = some dm ∧
        (lookupOperation dm "/" "GET").isSome = true ∧
        lookupOperation dm "/GET/x" "POST" = none) ∧
    (∀ q m s : String, (∀ seg ∈ splitSlash q, seg ∉ httpMethods) → m ∈ httpMethods →
        (s = "" ∨ ∃ t : String, s = "/" ++ t) →
        parseEndpointAndMethod (("/" ++ q) ++ "/" ++ m ++ s) = some ("/" ++ q, m)) := by
  have hp : parseEndpointAndMethod "/GET/x/POST" = some ("/", "GET") := by decide
  refine ⟨by decide, ?_, ?_⟩
  · intro fuel
    have h : buildDataModelFromSpec methodSegmentSpec fuel =
        some (ensureOperation ⟨[]⟩ "/" "GET") := by
      simp only [buildDataModelFromSpec, WalkSpec, methodSegmentSpec, oneOperationSpec]
      generalize walkSchema [] (dataModelVisitor [] fuel) fuel = W
      simp only [walkDocument, walkPaths, walkOperations, walkParameters, walkRequestBody,
        walkResponses, walkComponents, forEach, WalkState.call, dataModelVisitor,
        dmVisitOperation, Option.some_bind, Option.bind_eq_bind, Option.map_some',
        show ("/GET/x" ++ "/" ++ "POST" : String) = "/GET/x/POST" from by decide,
        hp, show (("/" : String) = "" ∨ ("GET" : String) = "") = False from by decide,
        if_false, Option.join, id]
    exact ⟨_, h, by rfl, by rfl⟩
  · intro q m s hq hm hs
    have hslash := httpMethods_no_slash m hm
    have hparts : ∃ after : List String,
        splitSlash (("/" ++ q) ++ "/" ++ m ++ s) = ("" :: splitSlash q) ++ m :: after := by
      rcases hs with hs | ⟨t, hs⟩
      · refine ⟨[], ?_⟩
        subst hs
        have e : (("/" ++ q) ++ "/" ++ m ++ "" : String).data =
            [] ++ '/' :: (q.data ++ '/' :: m.data) := by
          simp [String.data_append]
        simp only [splitSlash, e, splitOnChar_append, splitOnChar_of_not_mem '/' m.data hslash]
        simp [splitOnChar]
      · refine ⟨splitSlash t, ?_⟩
        subst hs
        have e : (("/" ++ q) ++ "/" ++ m ++ ("/" ++ t) : String).data =
            [] ++ '/' :: (q.data ++ '/' :: (m.data ++ '/' :: t.data)) := by
          simp [String.data_append]
        simp only [splitSlash, e, splitOnChar_append, splitOnChar_of_not_mem '/' m.data hslash]
        simp [splitOnChar]
    obtain ⟨after, hparts⟩ := hparts
    have hbefore : ∀ seg ∈ "" :: splitSlash q, seg ∉ httpMethods := by
      intro seg hseg
      rcases List.mem_cons.1 hseg with h | h
      · subst h; decide
      · exact hq seg h
    have hjoin : joinSlash (splitSlash q) = q := by
      simp only [splitSlash, joinSlash_splitOnChar]
    unfold parseEndpointAndMethod
    rw [hparts, parseLoop_first_method _ _ _ _ 0 hbefore hm]
    simp [hjoin]

/-! ## The graph builder: how a session goes on and ends -/

theorem addEndpoint_world (g : ScenarioGraph) (ops : List availableOperation) (w : World) :
    (addEndpointToGraph g ops w).2.answers = w.answers ∧
      w.prompts ≤ (addEndpointToGraph g ops w).2.prompts := by
  unfold addEndpointToGraph
  repeat' split
  all_goals (simp only [World.Run, World.rangeMap, true_and]; try omega)

theorem addConnection_world (g : ScenarioGraph) (w : World) :
    (addConnectionToGraph g w).2.answers = w.answers ∧
      w.prompts ≤ (addConnectionToGraph g w).2.prompts := by
  unfold addConnectionToGraph
  repeat' split
  all_goals (simp only [World.Run, World.rangeMap, true_and]; try omega)

theorem addFieldMapping_world (g : ScenarioGraph) (w : World) :
    (addFieldMappingToGraph g w).2.answers = w.answers ∧
      w.prompts ≤ (addFieldMappingToGraph g w).2.prompts := by
  unfold addFieldMappingToGraph
  repeat' split
  all_goals (simp only [World.Run, World.rangeMap, true_and]; try omega)

theorem andThen_some (r : Option ScenarioGraph × World)
    (next : ScenarioGraph → World → Option ScenarioGraph × World) (g' : ScenarioGraph)
    (w' : World) (h : andThen r next = (some g', w')) :
    ∃ g1, r.1 = some g1 ∧ next g1 r.2 = (some g', w') := by
  unfold andThen at h
  split at h
  · simp at h
  · rename_i g1 h1
    exact ⟨g1, h1, h⟩

/-- When the menu loop returns a graph, the last prompt it made was answered "finish" or
failed. -/
theorem menuLoop_last_prompt (ops : List availableOperation) (fuel : Nat) :
    ∀ (g : ScenarioGraph) (w : World) (g' : ScenarioGraph) (w' : World),
      menuLoop ops fuel g w = (some g', w') →
      w'.answers = w.answers ∧ w.prompts < w'.prompts ∧
        (w.answers (w'.prompts - 1) = Answer.ok 3 ∨ w.answers (w'.prompts - 1) = Answer.err) := by
  induction fuel with
  | zero => intro g w g' w' h; simp [menuLoop] at h
  | succ n ih =>
    intro g w g' w' h
    have step : ∀ (r : Option ScenarioGraph × World), r.2.answers = w.answers →
        w.prompts + 1 ≤ r.2.prompts → andThen r (menuLoop ops n) = (some g', w') →
        w'.answers = w.answers ∧ w.prompts < w'.prompts ∧
          (w.answers (w'.prompts - 1) = Answer.ok 3 ∨
            w.answers (w'.prompts - 1) = Answer.err) := by
      intro r ha hp hr
      obtain ⟨g1, _, h1⟩ := andThen_some r _ g' w' hr
      obtain ⟨ia, ip, il⟩ := ih g1 r.2 g' w' h1
      rw [ha] at ia il
      exact ⟨ia, by omega, il⟩
    simp only [menuLoop] at h
    cases h0 : w.answers w.prompts with
    | err =>
      simp only [World.run_fst, h0, World.run_snd, Prod.mk.injEq] at h
      obtain ⟨_, rfl⟩ := h
      simp [h0]
    | ok idx =>
      simp only [World.run_fst, h0, World.run_snd] at h
      split_ifs at h with i0 i1 i2 i3
      · have := addEndpoint_world g ops (w.advance 1 0)
        exact step _ (by simpa using this.1) (by simpa using this.2) h
      · have := addConnection_world g (w.advance 1 0)
        exact step _ (by simpa using this.1) (by simpa using this.2) h
      · have := addFieldMapping_world g (w.advance 1 0)
        exact step _ (by simpa using this.1) (by simpa using this.2) h
      · simp only [Prod.mk.injEq] at h
        obtain ⟨_, rfl⟩ := h
        subst i3
        simp [h0]
      · obtain ⟨ia, ip, il⟩ := ih g (w.advance 1 0) g' w' h
        simp only [World.advance_answers, World.advance_prompts] at ia ip il
        exact ⟨ia, by omega, il⟩

/-- C21 (amended): a selection failure inside a builder action never ends the session.
When the menu answer is "add vertex", "add connection" or "add field mapping" and the
selector fails at a prompt of that action, the menu loop goes round again with the graph
it had and the world the action left, so the selections that follow are read and applied.
The loop returns at a menu prompt only: when that prompt is answered "finish" or fails
it returns the graph as it stands; and whenever the loop returns a graph, the last prompt
made was answered "finish" or failed. -/
theorem session_survives_action_failure (g : ScenarioGraph) (ops : List availableOperation)
    (w : World) (fuel : Nat) :
    (w.answers w.prompts = Answer.ok 0 →
        (w.advance 1 0).errBetween (addEndpointToGraph g ops (w.advance 1 0)).2 →
        menuLoop ops (fuel + 1) g w =
          menuLoop ops fuel g (addEndpointToGraph g ops (w.advance 1 0)).2) ∧
      (w.answers w.prompts = Answer.ok 1 →
        (w.advance 1 0).errBetween (addConnectionToGraph g (w.advance 1 0)).2 →
        menuLoop ops (fuel + 1) g w =
          menuLoop ops fuel g (addConnectionToGraph g (w.advance 1 0)).2) ∧
      (w.answers w.prompts = Answer.ok 2 →
        (w.advance 1 0).errBetween (addFieldMappingToGraph g (w.advance 1 0)).2 →
        menuLoop ops (fuel + 1) g w =
          menuLoop ops fuel g (addFieldMappingToGraph g (w.advance 1 0)).2) ∧
      (w.answers w.prompts = Answer.ok 3 ∨ w.answers w.prompts = Answer.err →
        menuLoop ops (fuel + 1) g w = (some g, w.advance 1 0)) ∧
      (∀ (g' : ScenarioGraph) (w' : World), menuLoop ops fuel g w = (some g', w') →
        w.prompts < w'.prompts ∧
          (w.answers (w'.prompts - 1) = Answer.ok 3 ∨
            w.answers (w'.prompts - 1) = Answer.err)) := by
  refine ⟨?_, ?_, ?_, ?_, ?_⟩
  · intro h0 he
    simp [menuLoop, h0, andThen, addEndpoint_err g ops _ he]
  · intro h0 he
    simp [menuLoop, h0, andThen, addConnection_err g _ he]
  · intro h0 he
    simp [menuLoop, h0, andThen, addFieldMapping_err g _ he]
  · rintro (h0 | h0) <;> simp [menuLoop, h0]
  · intro g' w' h
    exact (menuLoop_last_prompt ops fuel g w g' w' h).2

/-- Witness for C21 (amended): on the owners model the selector answers "add vertex",
fails at the operation prompt, then answers "add vertex", operation 0, "finish"; the
graph returned has the one vertex `get /owners [200]`. -/
theorem session_survives_action_failure_witness :
    (buildScenarioGraph ownersModel
        (failingWorld [some 0, none, some 0, some 0, some 3]) 3).1 =
      some ⟨[(0, ⟨"/owners", "get", [stringField "id" "query"], none, "200"⟩)], []⟩ := by
  have h := (session_survives_action_failure NewScenarioGraph
    (buildAvailableOperations ownersModel
      (failingWorld [some 0, none, some 0, some 0, some 3])).1
    (buildAvailableOperations ownersModel
      (failingWorld [some 0, none, some 0, some 0, some 3])).2 2).1 rfl
    ⟨1, by decide, by decide, rfl⟩
  have hb : buildScenarioGraph ownersModel
      (failingWorld [some 0, none, some 0, some 0, some 3]) 3 =
      menuLoop (buildAvailableOperations ownersModel
        (failingWorld [some 0, none, some 0, some 0, some 3])).1 (2 + 1) NewScenarioGraph
        (buildAvailableOperations ownersModel
          (failingWorld [some 0, none, some 0, some 0, some 3])).2 := rfl
  rw [hb, h]
  rfl

/-- Counterexample for C21 as stated: on the owners model a selector that fails on its
first call, the menu prompt, and would then answer "add vertex", operation 0, "finish"
ends the session at once: one prompt was made and the graph returned has no vertex. -/
theorem menu_failure_ends_session :
    (buildScenarioGraph ownersModel
        (failingWorld [none, some 0, some 0, some 3]) 10).1 = some NewScenarioGraph ∧
      NewScenarioGraph.vertices.length = 0 ∧
      (buildScenarioGraph ownersModel
        (failingWorld [none, some 0, some 0, some 3]) 10).2.prompts = 1 ∧
      ∀ fuel : Nat,
        (buildScenarioGraph ownersModel
          (failingWorld [none, some 0, some 0, some 3]) (fuel + 1)).1 =
            some NewScenarioGraph :=
  ⟨rfl, rfl, rfl, fun _ => rfl⟩

/-! ## The hint setter: one call of `setHintsOnSchema` -/

theorem GoMap.set_set_self {κ ν : Type} [DecidableEq κ] (m : GoMap κ ν) (k : κ) (v v' : ν) :
    GoMap.set (GoMap.set m k v) k v' = GoMap.set m k v' := by
  induction m with
  | nil => simp [GoMap.set]
  | cons p rest ih =>
    obtain ⟨k', w⟩ := p
    by_cases h : k' = k
    · simp [GoMap.set, h]
    · simp [GoMap.set, h, ih]

theorem setExtension_getElem?_ne (heap : Heap) (schema j : SchemaId) (key : String)
    (value : ExtValue) (h : j ≠ schema) : (setExtension heap schema key value)[j]? = heap[j]? := by
  unfold setExtension
  split
  · rfl
  · rw [List.getElem?_set_ne (Ne.symm h)]

theorem setExtension_getElem?_self (heap : Heap) (schema : SchemaId) (key : String)
    (value : ExtValue) (s : Schema) (h : heap[schema]? = some s) :
    (setExtension heap schema key value)[schema]? =
      some { s with Extensions := GoMap.set s.Extensions key value } := by
  have hlt : schema < heap.length := by
    by_contra hge
    rw [List.getElem?_eq_none (Nat.le_of_not_lt hge)] at h
    cases h
  simp only [setExtension, h]
  rw [List.getElem?_set_self hlt]

theorem hintOf_setExtension_self (heap : Heap) (schema : SchemaId) (value : ExtValue)
    (s : Schema) (h : heap[schema]? = some s) :
    hintOf (setExtension heap schema "x-user-hint" value) schema = some value := by
  simp [hintOf, setExtension_getElem?_self heap schema _ value s h, GoMap.get?_set_self]

theorem hintOf_setExtension_ne (heap : Heap) (schema j : SchemaId) (key : String)
    (value : ExtValue) (h : j ≠ schema) :
    hintOf (setExtension heap schema key value) j = hintOf heap j := by
  simp [hintOf, setExtension_getElem?_ne heap schema j key value h]

/-- What one call of `setHintsOnSchema` that returns has done: nothing; or one prompt
that failed, the schema nodes being as they were; or one prompt answered with an index
in range, and the hint of that index written on a schema that is neither an array nor an
object with declared properties. -/
theorem setHintsOnSchema_step (fuel : Nat) :
    ∀ (schema : Option SchemaId) (name : String) (st st' : HintState),
      setHintsOnSchema fuel schema name st = some st' →
      st' = st ∨
        (st.world.answers st.world.prompts = Answer.err ∧
          st' = ⟨st.heap, st.world.advance 1 0⟩) ∨
        ∃ (leaf : SchemaId) (s : Schema) (idx : Int) (hint : String),
          st.heap[leaf]? = some s ∧ ¬ s.isArray ∧ ¬ s.isObjectWithProperties ∧
            st.world.answers st.world.prompts = Answer.ok idx ∧
            goIndex HintOptions idx = some hint ∧
            st' = ⟨setExtension st.heap leaf "x-user-hint" (ExtValue.str hint),
              st.world.advance 1 0⟩ := by
  induction fuel with
  | zero => intro schema name st st' h; simp [setHintsOnSchema] at h
  | succ n ih =>
    intro schema name st st' h
    unfold setHintsOnSchema at h
    split at h
    · left; simpa using h.symm
    · rename_i id
      split at h
      · left; simpa using h.symm
      · rename_i s hs
        split_ifs at h with harr hobj
        · split at h
          · left; simpa using h.symm
          · split at h
            · left; simpa using h.symm
            · exact ih _ _ _ _ h
        · left; simpa using h.symm
        · cases h0 : st.world.answers st.world.prompts with
          | err =>
            simp only [World.run_fst, h0, World.run_snd, Option.some.injEq] at h
            right; left
            exact ⟨rfl, h.symm⟩
          | ok idx =>
            simp only [World.run_fst, h0, World.run_snd] at h
            cases hi : goIndex HintOptions idx with
            | none => simp [hi] at h
            | some hint =>
              simp only [hi, Option.some.injEq] at h
              right; right
              exact ⟨id, s, idx, hint, hs, harr, hobj, rfl, hi, h.symm⟩

/-- A call of `setHintsOnSchema` writes no member of a schema node other than
`Extensions`. -/
theorem setHintsOnSchema_keeps_structure (fuel : Nat) (schema : Option SchemaId)
    (name : String) (st st' : HintState)
    (h : setHintsOnSchema fuel schema name st = some st') (j : SchemaId) :
    (st'.heap[j]?).map (fun s => { s with Extensions := [] }) =
      (st.heap[j]?).map (fun s => { s with Extensions := [] }) := by
  rcases setHintsOnSchema_step fuel schema name st st' h with h1 | ⟨_, h1⟩ |
    ⟨leaf, s, _, hint, hleaf, _, _, _, _, h1⟩
  · rw [h1]
  · rw [h1]
  · rw [h1]
    by_cases hj : j = leaf
    · subst hj
      simp only [setExtension_getElem?_self _ _ _ _ s hleaf, hleaf, Option.map_some']
    · simp only [setExtension_getElem?_ne _ _ _ _ _ hj]

/-- A call of `setHintsOnSchema` on a schema that is neither an array nor an object with
declared properties makes one prompt. -/
theorem setHintsOnSchema_leaf (fuel : Nat) (schema : SchemaId) (s : Schema) (name : String)
    (st : HintState) (hs : st.heap[schema]? = some s) (harr : ¬ s.isArray)
    (hobj : ¬ s.isObjectWithProperties) :
    setHintsOnSchema (fuel + 1) (some schema) name st =
      match st.world.answers st.world.prompts with
      | Answer.err => some ⟨st.heap, st.world.advance 1 0⟩
      | Answer.ok idx =>
        match goIndex HintOptions idx with
        | none => none
        | some hint =>
            some ⟨setExtension st.heap schema "x-user-hint" (ExtValue.str hint),
              st.world.advance 1 0⟩ := by
  unfold Schema.isArray at harr
  unfold Schema.isObjectWithProperties at hobj
  simp only [setHintsOnSchema, hs, harr, hobj, if_false, World.run_fst, World.run_snd]

theorem scalarLeaf_not_container (s : Schema) (h : s.scalarLeaf) :
    ¬ s.isArray ∧ ¬ s.isObjectWithProperties :=
  ⟨h.2.2.2.2.2.2, fun ho => h.2.2.2.2.2.1 ho.1⟩

/-- Below `n` array levels, the call reaches the leaf and prompts once for it. -/
theorem setHintsOnSchema_chain (heap : Heap) (w : World) (leaf : SchemaId) :
    ∀ (n : Nat) (schema : SchemaId) (fuel : Nat) (name : String),
      ArrayChain heap n schema leaf → n < fuel →
      ∃ name', setHintsOnSchema fuel (some schema) name ⟨heap, w⟩ =
        setHintsOnSchema (fuel - n) (some leaf) name' ⟨heap, w⟩ := by
  intro n
  induction n with
  | zero =>
    intro schema fuel name hc _
    simp only [ArrayChain] at hc
    subst hc
    exact ⟨name, rfl⟩
  | succ n ih =>
    intro schema fuel name hc hf
    obtain ⟨t, items, next, ht, hta, hti, htv, hrest⟩ := hc
    obtain ⟨f, rfl⟩ : ∃ f, fuel = f + 1 := ⟨fuel - 1, by omega⟩
    obtain ⟨name', h'⟩ := ih next f (name ++ "[]") hrest (by omega)
    refine ⟨name', ?_⟩
    unfold Schema.isArray at hta
    rw [show f + 1 - (n + 1) = f - n from by omega, ← h']
    simp only [setHintsOnSchema, ht, hta, if_true, hti, htv]

/-- C22: `setHintsOnSchema` never writes onto an array schema and hands the request to
the items instead.  Whatever the call, a schema node whose first type is `array` is
after it what it was before.  For a scalar leaf under `n` array levels, a selector whose
answer is the in-range index `i`, and fuel for the `n + 1` calls, the call returns,
having made one prompt; the leaf then has `x-user-hint = HintOptions[i]`, and every other
schema node, the array levels among them, is unchanged, so no array level has gained an
`x-user-hint`. -/
theorem setHintsOnSchema_array_delegates :
    (∀ (fuel : Nat) (schema : Option SchemaId) (name : String) (st st' : HintState),
        setHintsOnSchema fuel schema name st = some st' →
        ∀ (j : SchemaId) (s : Schema), st.heap[j]? = some s → s.isArray →
          st'.heap[j]? = some s) ∧
    (∀ (heap : Heap) (n : Nat) (schema leaf : SchemaId) (s : Schema) (w : World) (i : Int)
        (hint : String) (fuel : Nat) (name : String),
        ArrayChain heap n schema leaf → heap[leaf]? = some s → s.scalarLeaf →
        w.answers w.prompts = Answer.ok i → goIndex HintOptions i = some hint → n < fuel →
        ∃ st', setHintsOnSchema fuel (some schema) name ⟨heap, w⟩ = some st' ∧
          st'.world = w.advance 1 0 ∧
          hintOf st'.heap leaf = some (ExtValue.str hint) ∧
          ∀ j, j ≠ leaf → st'.heap[j]? = heap[j]?) := by
  constructor
  · intro fuel schema name st st' h j s hj ha
    rcases setHintsOnSchema_step fuel schema name st st' h with h1 | ⟨_, h1⟩ |
      ⟨leaf, t, idx, hint, ht, hta, _, _, _, h1⟩
    · rw [h1]; exact hj
    · rw [h1]; exact hj
    · rw [h1]
      have hne : j ≠ leaf := by
        rintro rfl
        rw [hj] at ht
        cases ht
        exact hta ha
      simp only [setExtension_getElem?_ne _ _ _ _ _ hne, hj]
  · intro heap n schema leaf s w i hint fuel name hc hs hl h0 hi hf
    obtain ⟨name', h'⟩ := setHintsOnSchema_chain heap w leaf n schema fuel name hc hf
    obtain ⟨f, hfe⟩ : ∃ f, fuel - n = f + 1 := ⟨fuel - n - 1, by omega⟩
    have hleaf := setHintsOnSchema_leaf f leaf s name' ⟨heap, w⟩ hs
      (scalarLeaf_not_container s hl).1 (scalarLeaf_not_container s hl).2
    simp only [h0, hi] at hleaf
    refine ⟨_, by rw [h', hfe, hleaf], rfl, hintOf_setExtension_self heap leaf _ s hs, ?_⟩
    intro j hj
    exact setExtension_getElem?_ne _ _ _ _ _ hj

/-- Witness for C22: a string under two array levels, the selector answering 23
(`uuid`): the string has `x-user-hint = "uuid"`, the two arrays have none. -/
theorem setHintsOnSchema_array_delegates_witness :
    ∃ st', setHintsOnSchema 3 (some 2) "/api/tags/GET/response/200/application/json"
        ⟨nestedArrayHeap, constantWorld 23⟩ = some st' ∧
      st'.world = (constantWorld 23).advance 1 0 ∧
      hintOf st'.heap 0 = some (ExtValue.str "uuid") ∧
      ∀ j, j ≠ 0 → st'.heap[j]? = nestedArrayHeap[j]? :=
  setHintsOnSchema_array_delegates.2 nestedArrayHeap 2 2 0 (scalarSchema "string")
    (constantWorld 23) 23 "uuid" 3 "/api/tags/GET/response/200/application/json"
    ⟨arraySchema (inline 1), inline 1, 1, rfl, rfl, rfl, rfl,
      ⟨arraySchema (inline 0), inline 0, 0, rfl, rfl, rfl, rfl, rfl⟩⟩
    rfl ⟨rfl, rfl, rfl, rfl, rfl, by decide, by decide⟩ rfl rfl (by decide)

/-! ## The hint setter: which schemas receive a hint -/

/-- A call of `setHintsOnSchema` changes the `x-user-hint` of a schema only if that
schema is neither an array nor an object with declared properties. -/
theorem setHintsOnSchema_writes (fuel : Nat) (schema : Option SchemaId) (name : String)
    (st st' : HintState) (h : setHintsOnSchema fuel schema name st = some st')
    (j : SchemaId) (hj : hintOf st'.heap j ≠ hintOf st.heap j) :
    ∃ s, st.heap[j]? = some s ∧ ¬ s.isArray ∧ ¬ s.isObjectWithProperties := by
  rcases setHintsOnSchema_step fuel schema name st st' h with h1 | ⟨_, h1⟩ |
    ⟨leaf, t, idx, hint, ht, hta, hto, _, _, h1⟩
  · rw [h1] at hj; exact absurd rfl hj
  · rw [h1] at hj; exact absurd rfl hj
  · rw [h1] at hj
    by_cases hjl : j = leaf
    · subst hjl
      exact ⟨t, ht, hta, hto⟩
    · exact absurd (hintOf_setExtension_ne _ _ _ _ _ hjl) hj

/-- C24 (amended): only schemas that are neither arrays nor objects with declared
properties receive a hint.  Whenever `setHintsOnSchema`, called directly or from
`VisitProperty` or `VisitParameter`, changes the `x-user-hint` of a schema node, the first
declared type of that node is not `array`, and the node is not an object-typed schema
with declared properties. -/
theorem hint_only_on_non_containers (fuel : Nat) (path : String) (st st' : HintState)
    (j : SchemaId) (hj : hintOf st'.heap j ≠ hintOf st.heap j) :
    (∀ schema : Option SchemaId, setHintsOnSchema fuel schema path st = some st' →
        ∃ s, st.heap[j]? = some s ∧ firstType s.Typ ≠ "array" ∧
          ¬ (firstType s.Typ = "object" ∧ s.Properties.length > 0)) ∧
    (∀ schemaRef : SchemaRef,
        (HintSetterVisitor fuel).VisitProperty path schemaRef (some st) = some st' →
        ∃ s, st.heap[j]? = some s ∧ firstType s.Typ ≠ "array" ∧
          ¬ (firstType s.Typ = "object" ∧ s.Properties.length > 0)) ∧
    (∀ parameter : Parameter,
        (HintSetterVisitor fuel).VisitParameter path parameter (some st) = some st' →
        ∃ s, st.heap[j]? = some s ∧ firstType s.Typ ≠ "array" ∧
          ¬ (firstType s.Typ = "object" ∧ s.Properties.length > 0)) := by
  refine ⟨?_, ?_, ?_⟩
  · intro schema h
    exact setHintsOnSchema_writes fuel schema path st st' h j hj
  · intro schemaRef h
    simp only [HintSetterVisitor, Option.some_bind, hintVisitProperty] at h
    split at h
    · simp only [Option.some.injEq] at h
      rw [h] at hj; exact absurd rfl hj
    · exact setHintsOnSchema_writes fuel _ path st st' h j hj
  · intro parameter h
    simp only [HintSetterVisitor, Option.some_bind, setHints] at h
    split at h
    · simp only [Option.some.injEq] at h
      rw [h] at hj; exact absurd rfl hj
    · split at h
      · simp only [Option.some.injEq] at h
        rw [h] at hj; exact absurd rfl hj
      · exact setHintsOnSchema_writes fuel _ path st st' h j hj

/-- Witness for C24 (amended): the property `id` of `testdata/simple.yaml`, an integer,
receives the hint `uuid`. -/
theorem hint_only_on_non_containers_witness :
    ∃ s, simpleSpec.heap[1]? = some s ∧ firstType s.Typ ≠ "array" ∧
      ¬ (firstType s.Typ = "object" ∧ s.Properties.length > 0) :=
  (hint_only_on_non_containers 1 "/api/users/GET/response/200/application/json.id"
    ⟨simpleSpec.heap, constantWorld 23⟩
    ⟨setExtension simpleSpec.heap 1 "x-user-hint" (ExtValue.str "uuid"),
      (constantWorld 23).advance 1 0⟩ 1 (by decide)).1 (some 1) rfl

/-- Counterexample for C24 as stated: visited as a property, an object schema without
declared properties receives a hint although its type is `object`, and a schema without
declared type receives a hint although it has a declared property; neither is a scalar
leaf. -/
theorem hint_on_free_form_object :
    (∃ st', (HintSetterVisitor 1).VisitProperty
        "/api/users/GET/response/200/application/json.metadata" (inline 0)
        (some ⟨freeFormHeap, constantWorld 23⟩) = some st' ∧
      hintOf freeFormHeap 0 = none ∧ hintOf st'.heap 0 = some (ExtValue.str "uuid") ∧
      (freeFormHeap[0]?).map (fun s => firstType s.Typ) = some "object") ∧
    (∃ st', (HintSetterVisitor 1).VisitProperty
        "/api/users/GET/response/200/application/json.owner" (inline 1)
        (some ⟨freeFormHeap, constantWorld 23⟩) = some st' ∧
      hintOf freeFormHeap 1 = none ∧ hintOf st'.heap 1 = some (ExtValue.str "uuid") ∧
      (freeFormHeap[1]?).map (fun s => s.Properties.length) = some 1) :=
  ⟨⟨_, rfl, rfl, rfl, rfl⟩, ⟨_, rfl, rfl, rfl, rfl⟩⟩

/-! ## The hint setter: a selection that fails -/

/-- C25: a selection failure abandons that one field and nothing else.  A call of
`setHintsOnSchema` at whose prompt the selector returns an error leaves every schema
node as it was, so it writes no `x-user-hint` and an `x-user-hint` already present stays;
on a field that is prompted for, the call returns normally with one prompt used.  The
traversal continues: the state of the visitor stays defined, and when the next field
visited is prompted for and the selector then answers the in-range index `i`, that field
receives `x-user-hint = HintOptions[i]` while the field that failed is still as it was. -/
theorem selection_error_skips_field :
    (∀ (fuel : Nat) (schema : Option SchemaId) (name : String) (st st' : HintState),
        setHintsOnSchema fuel schema name st = some st' →
        st.world.answers st.world.prompts = Answer.err →
        st'.heap = st.heap) ∧
    (∀ (fuel : Nat) (schema : SchemaId) (s : Schema) (name : String) (heap : Heap)
        (w : World), heap[schema]? = some s → ¬ s.isArray → ¬ s.isObjectWithProperties →
        w.answers w.prompts = Answer.err →
        setHintsOnSchema (fuel + 1) (some schema) name ⟨heap, w⟩ =
          some ⟨heap, w.advance 1 0⟩) ∧
    (∀ (fuel : Nat) (path path' : String) (r r' : SchemaRef) (schema schema' : SchemaId)
        (s s' : Schema) (heap : Heap) (w : World) (i : Int) (hint : String),
        r.Value = some schema → heap[schema]? = some s → ¬ s.isArray →
        ¬ s.isObjectWithProperties →
        r'.Value = some schema' → heap[schema']? = some s' → ¬ s'.isArray →
        ¬ s'.isObjectWithProperties →
        w.answers w.prompts = Answer.err → w.answers (w.prompts + 1) = Answer.ok i →
        goIndex HintOptions i = some hint →
        ∃ st', (HintSetterVisitor (fuel + 1)).VisitProperty path' r'
            ((HintSetterVisitor (fuel + 1)).VisitProperty path r (some ⟨heap, w⟩)) =
            some st' ∧
          hintOf st'.heap schema' = some (ExtValue.str hint) ∧
          (schema ≠ schema' → st'.heap[schema]? = some s)) := by
  refine ⟨?_, ?_, ?_⟩
  · intro fuel schema name st st' h herr
    rcases setHintsOnSchema_step fuel schema name st st' h with h1 | ⟨_, h1⟩ |
      ⟨_, _, _, _, _, _, _, hok, _, _⟩
    · rw [h1]
    · rw [h1]
    · rw [herr] at hok; cases hok
  · intro fuel schema s name heap w hs ha ho herr
    have := setHintsOnSchema_leaf fuel schema s name ⟨heap, w⟩ hs ha ho
    simpa only [herr] using this
  · intro fuel path path' r r' schema schema' s s' heap w i hint hr hs ha ho hr' hs' ha' ho'
      herr hok hi
    have h1 := setHintsOnSchema_leaf fuel schema s path ⟨heap, w⟩ hs ha ho
    simp only [herr] at h1
    have h2 := setHintsOnSchema_leaf fuel schema' s' path' ⟨heap, w.advance 1 0⟩ hs' ha' ho'
    simp only [World.advance_answers, World.advance_prompts, hok, hi] at h2
    refine ⟨⟨setExtension heap schema' "x-user-hint" (ExtValue.str hint),
      (w.advance 1 0).advance 1 0⟩, ?_, hintOf_setExtension_self heap schema' _ s' hs', ?_⟩
    · simp only [HintSetterVisitor, Option.some_bind, hintVisitProperty, hr, hr', h1, h2]
    · intro hne
      show (setExtension heap schema' "x-user-hint" (ExtValue.str hint))[schema]? = some s
      rw [setExtension_getElem?_ne _ _ _ _ _ hne, hs]

/-- Witness for C25: `SetHints` on `testdata/simple.yaml` with a selector that fails at
its first call and then answers 23 (`uuid`): the property `id` has no hint, the
properties `name` and `email`, visited afterwards, have `uuid`. -/
theorem selection_error_skips_field_witness :
    (SetHints simpleSpec (failingWorld [none, some 23, some 23]) 3).map
        (fun st => [hintOf st.heap 0, hintOf st.heap 1, hintOf st.heap 2, hintOf st.heap 3]) =
      some [none, none, some (ExtValue.str "uuid"), some (ExtValue.str "uuid")] ∧
    (failingWorld [none, some 23, some 23]).answers 0 = Answer.err ∧
    ∀ st', setHintsOnSchema 1 (some 1) "/api/users/GET/response/200/application/json.id"
        ⟨simpleSpec.heap, failingWorld [none, some 23, some 23]⟩ = some st' →
      st'.heap = simpleSpec.heap :=
  ⟨rfl, rfl, fun st' h => selection_error_skips_field.1 1 (some 1)
    "/api/users/GET/response/200/application/json.id"
    ⟨simpleSpec.heap, failingWorld [none, some 23, some 23]⟩ st' h rfl⟩

/-! ## The walker: what holds after a walk -/

theorem hoare_forEach {α β : Type} {P : β → Prop} (xs : List α) (body : α → β → Option β)
    (h : ∀ x ∈ xs, Hoare P (body x) P) : Hoare P (forEach xs body) P := by
  intro st st' hP hr
  exact forEach_some_inv P xs body (fun x hx a b ha hb => h x hx a b ha hb) st st' hP hr

theorem hoare_forEach_mem {α β : Type} {P Q : β → Prop} (xs : List α)
    (body : α → β → Option β) (x0 : α) (hx0 : x0 ∈ xs)
    (hP : ∀ x ∈ xs, Hoare P (body x) P) (hQ : ∀ x ∈ xs, Hoare Q (body x) Q)
    (h0 : Hoare P (body x0) Q) : Hoare P (forEach xs body) Q := by
  induction xs with
  | nil => cases hx0
  | cons x rest ih =>
    intro st st' hst hr
    simp only [forEach] at hr
    obtain ⟨st1, h1, h2⟩ := Option.bind_eq_some.1 hr
    rcases List.mem_cons.1 hx0 with rfl | hmem
    · exact hoare_forEach rest body (fun y hy => hQ y (List.mem_cons_of_mem _ hy)) st1 st'
        (h0 st st1 hst h1) h2
    · exact ih hmem (fun y hy => hP y (List.mem_cons_of_mem _ hy))
        (fun y hy => hQ y (List.mem_cons_of_mem _ hy)) st1 st'
        (hP x (List.mem_cons_self _ _) st st1 hst h1) h2

theorem walkProperties_hoare {τ : Type} {P : τ → Prop} (visit : String → SchemaRef → τ → τ)
    (walk : String → Option SchemaRef → τ → Option τ)
    (hv : ∀ p r st, P st → P (visit p r st)) (hw : ∀ p r, Hoare P (walk p r) P)
    (basePath : String) (properties : GoMap String (Option SchemaRef)) :
    Hoare P (walkProperties visit walk basePath properties) P := by
  refine hoare_forEach _ _ fun x _ => ?_
  intro st st' hst hr
  cases hx : x.2 with
  | none =>
    simp only [hx, Option.some.injEq] at hr
    exact hr ▸ hst
  | some r =>
    simp only [hx] at hr
    exact hw _ _ _ _ (hv _ _ _ hst) hr

theorem walkProperties_mem {τ : Type} {P Q : τ → Prop} (visit : String → SchemaRef → τ → τ)
    (walk : String → Option SchemaRef → τ → Option τ)
    (hvP : ∀ p r st, P st → P (visit p r st)) (hwP : ∀ p r, Hoare P (walk p r) P)
    (hvQ : ∀ p r st, Q st → Q (visit p r st)) (hwQ : ∀ p r, Hoare Q (walk p r) Q)
    (basePath : String) (properties : GoMap String (Option SchemaRef)) (k : String)
    (ref : SchemaRef) (hmem : (k, some ref) ∈ properties)
    (hel : ∀ p, Hoare P (fun st => walk p (some ref) (visit p ref st)) Q) :
    Hoare P (walkProperties visit walk basePath properties) Q := by
  have elem : ∀ (R : τ → Prop), (∀ p r st, R st → R (visit p r st)) →
      (∀ p r, Hoare R (walk p r) R) → ∀ x ∈ properties,
      Hoare R (fun st => match x.2 with
        | none => some st
        | some propRef =>
            walk (basePath ++ "." ++ x.1) (some propRef)
              (visit (basePath ++ "." ++ x.1) propRef st)) R := by
    intro R hv hw x _ st st' hst hr
    cases hx : x.2 with
    | none =>
      simp only [hx, Option.some.injEq] at hr
      exact hr ▸ hst
    | some r =>
      simp only [hx] at hr
      exact hw _ _ _ _ (hv _ _ _ hst) hr
  exact hoare_forEach_mem _ _ (k, some ref) hmem (elem P hvP hwP) (elem Q hvQ hwQ)
    (fun st st' hst hr => hel _ st st' hst hr)

theorem walkOptional_hoare {τ : Type} {P : τ → Prop}
    (walk : String → Option SchemaRef → τ → Option τ) (hw : ∀ p r, Hoare P (walk p r) P)
    (path : String) (r : Option SchemaRef) : Hoare P (walkOptional walk path r) P := by
  intro st st' hst hr
  cases r with
  | none =>
    simp only [walkOptional, Option.some.injEq] at hr
    exact hr ▸ hst
  | some r => exact hw _ _ _ _ hst hr

theorem walkBranches_hoare {τ : Type} {P : τ → Prop}
    (walk : String → Option SchemaRef → τ → Option τ) (hw : ∀ p r, Hoare P (walk p r) P)
    (basePath tag : String) (branches : List (Option SchemaRef)) :
    Hoare P (walkBranches walk basePath tag branches) P :=
  hoare_forEach _ _ fun _ _ => walkOptional_hoare walk hw _ _

theorem walkBranches_mem {τ : Type} {P Q : τ → Prop}
    (walk : String → Option SchemaRef → τ → Option τ)
    (hwP : ∀ p r, Hoare P (walk p r) P) (hwQ : ∀ p r, Hoare Q (walk p r) Q)
    (basePath tag : String) (branches : List (Option SchemaRef)) (ref : SchemaRef)
    (hmem : some ref ∈ branches) (hroot : ∀ p, Hoare P (walk p (some ref)) Q) :
    Hoare P (walkBranches walk basePath tag branches) Q := by
  obtain ⟨i, hi⟩ := List.getElem?_of_mem hmem
  have hmem' : (i, some ref) ∈ branches.enum := by
    apply List.mem_iff_getElem?.2
    exact ⟨i, by simp [List.enum, List.getElem?_enumFrom, hi]⟩
  exact hoare_forEach_mem _ _ (i, some ref) hmem'
    (fun _ _ => walkOptional_hoare walk hwP _ _)
    (fun _ _ => walkOptional_hoare walk hwQ _ _)
    (fun st st' hst hr => hroot _ st st' hst hr)

theorem walkAdditional_hoare {τ : Type} {P : τ → Prop} (visit : String → SchemaRef → τ → τ)
    (walk : String → Option SchemaRef → τ → Option τ)
    (hv : ∀ p r st, P st → P (visit p r st)) (hw : ∀ p r, Hoare P (walk p r) P)
    (basePath : String) (r : Option SchemaRef) :
    Hoare P (walkAdditional visit walk basePath r) P := by
  intro st st' hst hr
  cases r with
  | none =>
    simp only [walkAdditional, Option.some.injEq] at hr
    exact hr ▸ hst
  | some r => exact hw _ _ _ _ (hv _ _ _ hst) hr

theorem walkSchemaBody_hoare {τ : Type} {P : τ → Prop} (visit : String → SchemaRef → τ → τ)
    (walk : String → Option SchemaRef → τ → Option τ)
    (hv : ∀ p r st, P st → P (visit p r st)) (hw : ∀ p r, Hoare P (walk p r) P)
    (basePath : String) (s : Schema) : Hoare P (walkSchemaBody visit walk basePath s) P := by
  intro st st' hst hr
  unfold walkSchemaBody at hr
  obtain ⟨st1, h1, hr⟩ := Option.bind_eq_some.1 hr
  obtain ⟨st2, h2, hr⟩ := Option.bind_eq_some.1 hr
  obtain ⟨st3, h3, hr⟩ := Option.bind_eq_some.1 hr
  obtain ⟨st4, h4, hr⟩ := Option.bind_eq_some.1 hr
  obtain ⟨st5, h5, hr⟩ := Option.bind_eq_some.1 hr
  obtain ⟨st6, h6, hr⟩ := Option.bind_eq_some.1 hr
  exact walkAdditional_hoare visit walk hv hw _ _ _ _
    (walkOptional_hoare walk hw _ _ _ _
      (walkBranches_hoare walk hw _ _ _ _ _
        (walkBranches_hoare walk hw _ _ _ _ _
          (walkBranches_hoare walk hw _ _ _ _ _
            (walkOptional_hoare walk hw _ _ _ _
              (walkProperties_hoare visit walk hv hw _ _ _ _ hst h1) h2) h3) h4) h5) h6) hr

/-- The body of `walkSchema` on a schema one of whose references leads to `Q`, or one of
whose properties is visited into `Q`. -/
theorem walkSchemaBody_mem {τ : Type} {P Q : τ → Prop} (visit : String → SchemaRef → τ → τ)
    (walk : String → Option SchemaRef → τ → Option τ)
    (hvP : ∀ p r st, P st → P (visit p r st)) (hwP : ∀ p r, Hoare P (walk p r) P)
    (hvQ : ∀ p r st, Q st → Q (visit p r st)) (hwQ : ∀ p r, Hoare Q (walk p r) Q)
    (basePath : String) (s : Schema) (ref : SchemaRef)
    (h : (s.refersTo ref ∧ ∀ p, Hoare P (walk p (some ref)) Q) ∨
      ((∃ k, (k, some ref) ∈ s.Properties) ∧ ∀ p st, P st → Q (visit p ref st))) :
    Hoare P (walkSchemaBody visit walk basePath s) Q := by
  intro st st' hst hr
  unfold walkSchemaBody at hr
  obtain ⟨st1, h1, hr⟩ := Option.bind_eq_some.1 hr
  obtain ⟨st2, h2, hr⟩ := Option.bind_eq_some.1 hr
  obtain ⟨st3, h3, hr⟩ := Option.bind_eq_some.1 hr
  obtain ⟨st4, h4, hr⟩ := Option.bind_eq_some.1 hr
  obtain ⟨st5, h5, hr⟩ := Option.bind_eq_some.1 hr
  obtain ⟨st6, h6, hr⟩ := Option.bind_eq_some.1 hr
  have a1 := walkProperties_hoare visit walk hvP hwP basePath s.Properties
  have a2 := walkOptional_hoare walk hwP (basePath ++ "[]") s.Items
  have a3 := walkBranches_hoare walk hwP basePath "/allOf[" s.AllOf
  have a4 := walkBranches_hoare walk hwP basePath "/anyOf[" s.AnyOf
  have a5 := walkBranches_hoare walk hwP basePath "/oneOf[" s.OneOf
  have a6 := walkOptional_hoare walk hwP (basePath ++ "/not") s.Not
  have b2 := walkOptional_hoare walk hwQ (basePath ++ "[]") s.Items
  have b3 := walkBranches_hoare walk hwQ basePath "/allOf[" s.AllOf
  have b4 := walkBranches_hoare walk hwQ basePath "/anyOf[" s.AnyOf
  have b5 := walkBranches_hoare walk hwQ basePath "/oneOf[" s.OneOf
  have b6 := walkOptional_hoare walk hwQ (basePath ++ "/not") s.Not
  have b7 := walkAdditional_hoare visit walk hvQ hwQ basePath s.AdditionalProperties
  have p1 : Q st1 → Q st' := fun q =>
    b7 _ _ (b6 _ _ (b5 _ _ (b4 _ _ (b3 _ _ (b2 _ _ q h2) h3) h4) h5) h6) hr
  rcases h with ⟨hrefs, hroot⟩ | ⟨⟨k, hk⟩, hvis⟩
  · rcases hrefs with ⟨k, hk⟩ | hi | hall | hany | hone | hnot | hadd
    · exact p1 (walkProperties_mem visit walk hvP hwP hvQ hwQ basePath s.Properties k ref hk
        (fun p a b ha hb => hroot p _ _ (hvP _ _ _ ha) hb) st st1 hst h1)
    · rw [hi] at h2
      exact b7 _ _ (b6 _ _ (b5 _ _ (b4 _ _ (b3 _ _ (hroot _ _ _ (a1 _ _ hst h1) h2)
        h3) h4) h5) h6) hr
    · exact b7 _ _ (b6 _ _ (b5 _ _ (b4 _ _ (walkBranches_mem walk hwP hwQ basePath _ _ ref
        hall hroot _ _ (a2 _ _ (a1 _ _ hst h1) h2) h3) h4) h5) h6) hr
    · exact b7 _ _ (b6 _ _ (b5 _ _ (walkBranches_mem walk hwP hwQ basePath _ _ ref
        hany hroot _ _ (a3 _ _ (a2 _ _ (a1 _ _ hst h1) h2) h3) h4) h5) h6) hr
    · exact b7 _ _ (b6 _ _ (walkBranches_mem walk hwP hwQ basePath _ _ ref
        hone hroot _ _ (a4 _ _ (a3 _ _ (a2 _ _ (a1 _ _ hst h1) h2) h3) h4) h5) h6) hr
    · rw [hnot] at h6
      exact b7 _ _ (hroot _ _ _ (a5 _ _ (a4 _ _ (a3 _ _ (a2 _ _ (a1 _ _ hst h1) h2) h3) h4)
        h5) h6) hr
    · rw [hadd] at hr
      exact hroot _ _ _ (hvP _ _ _ (a6 _ _ (a5 _ _ (a4 _ _ (a3 _ _ (a2 _ _ (a1 _ _ hst h1)
        h2) h3) h4) h5) h6)) hr
  · exact p1 (walkProperties_mem visit walk hvP hwP hvQ hwQ basePath s.Properties k ref hk
      (fun p a b ha hb => hwQ _ _ _ _ (hvis p a ha) hb) st st1 hst h1)

theorem walkOnStack_hoare {σ : Type} {P : σ → Prop} (heap : Heap) (visitor : Visitor σ)
    (hv : ∀ p r st, P st → P (visitor.VisitProperty p r st)) :
    ∀ (fuel : Nat) (stack : List SchemaId) (path : String) (ref : Option SchemaRef),
      Hoare P (walkOnStack heap visitor fuel stack path ref) P := by
  intro fuel
  induction fuel with
  | zero => intro stack path ref st st' _ hr; simp [walkOnStack] at hr
  | succ n ih =>
    intro stack path ref st st' hst hr
    unfold walkOnStack at hr
    split at hr
    · simp only [Option.some.injEq] at hr; exact hr ▸ hst
    · split at hr
      · simp only [Option.some.injEq] at hr; exact hr ▸ hst
      · split_ifs at hr
        · simp only [Option.some.injEq] at hr; exact hr ▸ hst
        · split at hr
          · simp only [Option.some.injEq] at hr; exact hr ▸ hst
          · exact walkSchemaBody_hoare visitor.VisitProperty _ hv (fun p r => ih _ p r)
              _ _ _ _ hst hr

/-- A walk that enters the node `target`, one of whose properties is visited into `Q`,
ends in `Q`. -/
theorem walkOnStack_enters {σ : Type} {P Q : σ → Prop} (heap : Heap) (visitor : Visitor σ)
    (hvP : ∀ p r st, P st → P (visitor.VisitProperty p r st))
    (hvQ : ∀ p r st, Q st → Q (visitor.VisitProperty p r st))
    (target : SchemaId) (t : Schema) (ht : heap[target]? = some t) (k : String)
    (prop : SchemaRef) (hk : (k, some prop) ∈ t.Properties)
    (hvis : ∀ p st, P st → Q (visitor.VisitProperty p prop st))
    (stack : List SchemaId) (ref : SchemaRef) (he : WalkEnters heap stack ref target) :
    ∀ (fuel : Nat) (path : String),
      Hoare P (walkOnStack heap visitor fuel stack path (some ref)) Q := by
  induction he with
  | here stack ref id hval hnot =>
    intro fuel path st st' hst hr
    cases fuel with
    | zero => simp [walkOnStack] at hr
    | succ n =>
      simp only [walkOnStack, hval, hnot, if_false, ht] at hr
      exact walkSchemaBody_mem visitor.VisitProperty _ hvP
        (fun p r => walkOnStack_hoare heap visitor hvP n _ p r) hvQ
        (fun p r => walkOnStack_hoare heap visitor hvQ n _ p r) _ t prop
        (Or.inr ⟨⟨k, hk⟩, hvis⟩) st st' hst hr
  | deeper stack ref id s child target' hval hnot hs hchild _ ih =>
    intro fuel path st st' hst hr
    cases fuel with
    | zero => simp [walkOnStack] at hr
    | succ n =>
      simp only [walkOnStack, hval, hnot, if_false, hs] at hr
      exact walkSchemaBody_mem visitor.VisitProperty _ hvP
        (fun p r => walkOnStack_hoare heap visitor hvP n _ p r) hvQ
        (fun p r => walkOnStack_hoare heap visitor hvQ n _ p r) _ s child
        (Or.inl ⟨hchild, fun p => ih ht n p⟩) st st' hst hr

theorem walkSchema_top {σ : Type} {P Q : σ → Prop} (heap : Heap) (visitor : Visitor σ)
    (fuel : Nat) (path : String) (ref : Option SchemaRef)
    (h : Hoare P (walkOnStack heap visitor fuel [] path ref) Q) :
    Hoare (WalkState.Top P) (walkSchema heap visitor fuel path ref) (WalkState.Top Q) := by
  intro st st' hst hr
  obtain ⟨V, s⟩ := st
  obtain ⟨hV, hs⟩ := hst
  simp only at hV hs
  subst hV
  rw [walkSchema_eq_walkOnStack] at hr
  obtain ⟨s', h1, h2⟩ := Option.map_eq_some'.1 hr
  subst h2
  exact ⟨rfl, h _ _ hs h1⟩

theorem forEach_singleton {α β : Type} (x : α) (body : α → β → Option β) (st : β) :
    forEach [x] body st = body x st := by
  simp [forEach]

theorem top_call {σ : Type} {P : σ → Prop} (f : σ → σ) (st : WalkState σ)
    (h : WalkState.Top P st) (hf : ∀ s, P s → P (f s)) : WalkState.Top P (st.call f) :=
  ⟨h.1, hf _ h.2⟩

theorem walkParameters_hoare {σ : Type} {P : σ → Prop} (visitor : Visitor σ)
    (walk : String → Option SchemaRef → WalkState σ → Option (WalkState σ))
    (hV : visitor.Preserves P)
    (hw : ∀ p r, Hoare (WalkState.Top P) (walk p r) (WalkState.Top P))
    (basePath : String) (parameters : List (Option ParameterRef)) :
    Hoare (WalkState.Top P) (walkParameters visitor walk basePath parameters)
      (WalkState.Top P) := by
  refine hoare_forEach _ _ fun x _ => ?_
  intro st st' hst hr
  cases x with
  | none => simp only [Option.some.injEq] at hr; exact hr ▸ hst
  | some pr =>
    cases hv : pr.Value with
    | none => simp only [hv, Option.some.injEq] at hr; exact hr ▸ hst
    | some param =>
      cases hs : param.Schema with
      | none =>
        simp only [hv, hs, Option.some.injEq] at hr
        exact hr ▸ top_call _ _ hst (hV.2.2.1 _ _)
      | some schema =>
        simp only [hv, hs] at hr
        exact hw _ _ _ _ (top_call _ _ (top_call _ _ hst (hV.2.2.1 _ _))
          (hV.2.2.2.2.2.2 _ _)) hr

theorem walkParameters_mem {σ : Type} {P Q : σ → Prop} (visitor : Visitor σ)
    (walk : String → Option SchemaRef → WalkState σ → Option (WalkState σ))
    (hVP : visitor.Preserves P) (hVQ : visitor.Preserves Q)
    (hwP : ∀ p r, Hoare (WalkState.Top P) (walk p r) (WalkState.Top P))
    (hwQ : ∀ p r, Hoare (WalkState.Top Q) (walk p r) (WalkState.Top Q))
    (basePath : String) (parameters : List (Option ParameterRef)) (ref : SchemaRef)
    (hmem : parameterSchema parameters ref)
    (hroot : ∀ p, Hoare (WalkState.Top P) (walk p (some ref)) (WalkState.Top Q)) :
    Hoare (WalkState.Top P) (walkParameters visitor walk basePath parameters)
      (WalkState.Top Q) := by
  obtain ⟨pr, param, hpr, hv, hs⟩ := hmem
  refine hoare_forEach_mem _ _ (some pr) hpr ?_ ?_ ?_
  · intro x _ st st' hst hr
    refine walkParameters_hoare visitor walk hVP hwP basePath [x] st st' hst ?_
    unfold walkParameters
    rw [forEach_singleton]
    exact hr
  · intro x _ st st' hst hr
    refine walkParameters_hoare visitor walk hVQ hwQ basePath [x] st st' hst ?_
    unfold walkParameters
    rw [forEach_singleton]
    exact hr
  · intro st st' hst hr
    simp only [hv, hs] at hr
    exact hroot _ _ _ (top_call _ _ (top_call _ _ hst (hVP.2.2.1 _ _))
      (hVP.2.2.2.2.2.2 _ _)) hr

theorem walkMedia_hoare {σ : Type} {P : σ → Prop}
    (walk : String → Option SchemaRef → WalkState σ → Option (WalkState σ))
    (hw : ∀ p r, Hoare (WalkState.Top P) (walk p r) (WalkState.Top P))
    (path : String) (mediaType : Option MediaType) :
    Hoare (WalkState.Top P) (walkMedia walk path mediaType) (WalkState.Top P) := by
  intro st st' hst hr
  cases mediaType with
  | none => simp only [walkMedia, Option.some.injEq] at hr; exact hr ▸ hst
  | some media =>
    cases hs : media.Schema with
    | none => simp only [walkMedia, hs, Option.some.injEq] at hr; exact hr ▸ hst
    | some schema =>
      simp only [walkMedia, hs] at hr
      exact hw _ _ _ _ hst hr

/-- The loop over a content map, as in the request-body and response parts of
`WalkSpec`: `call` is the visitor call made for each media type. -/
theorem walkContent_hoare {σ : Type} {P : σ → Prop}
    (walk : String → Option SchemaRef → WalkState σ → Option (WalkState σ))
    (hw : ∀ p r, Hoare (WalkState.Top P) (walk p r) (WalkState.Top P))
    (pathOf : String → String) (call : String → σ → σ) (hcall : ∀ ct s, P s → P (call ct s))
    (content : GoMap String (Option MediaType)) :
    Hoare (WalkState.Top P)
      (forEach content (fun c st => walkMedia walk (pathOf c.1) c.2 (st.call (call c.1))))
      (WalkState.Top P) := by
  refine hoare_forEach _ _ fun x _ => ?_
  intro st st' hst hr
  exact walkMedia_hoare walk hw _ _ _ _ (top_call _ _ hst (hcall _)) hr

theorem walkContent_mem {σ : Type} {P Q : σ → Prop}
    (walk : String → Option SchemaRef → WalkState σ → Option (WalkState σ))
    (hwP : ∀ p r, Hoare (WalkState.Top P) (walk p r) (WalkState.Top P))
    (hwQ : ∀ p r, Hoare (WalkState.Top Q) (walk p r) (WalkState.Top Q))
    (pathOf : String → String) (call : String → σ → σ)
    (hcallP : ∀ ct s, P s → P (call ct s)) (hcallQ : ∀ ct s, Q s → Q (call ct s))
    (content : GoMap String (Option MediaType)) (ref : SchemaRef)
    (hmem : contentSchema content ref)
    (hroot : ∀ p, Hoare (WalkState.Top P) (walk p (some ref)) (WalkState.Top Q)) :
    Hoare (WalkState.Top P)
      (forEach content (fun c st => walkMedia walk (pathOf c.1) c.2 (st.call (call c.1))))
      (WalkState.Top Q) := by
  obtain ⟨ct, media, hc, hs⟩ := hmem
  refine hoare_forEach_mem _ _ (ct, some media) hc ?_ ?_ ?_
  · intro x _ st st' hst hr
    exact walkMedia_hoare walk hwP _ _ _ _ (top_call _ _ hst (hcallP _)) hr
  · intro x _ st st' hst hr
    exact walkMedia_hoare walk hwQ _ _ _ _ (top_call _ _ hst (hcallQ _)) hr
  · intro st st' hst hr
    simp only [walkMedia, hs] at hr
    exact hroot _ _ _ (top_call _ _ hst (hcallP _)) hr

theorem walkRequestBody_hoare {σ : Type} {P : σ → Prop} (visitor : Visitor σ)
    (walk : String → Option SchemaRef → WalkState σ → Option (WalkState σ))
    (hV : visitor.Preserves P)
    (hw : ∀ p r, Hoare (WalkState.Top P) (walk p r) (WalkState.Top P))
    (operationPath : String) (requestBody : Option RequestBodyRef) :
    Hoare (WalkState.Top P) (walkRequestBody visitor walk operationPath requestBody)
      (WalkState.Top P) := by
  intro st st' hst hr
  cases requestBody with
  | none => simp only [walkRequestBody, Option.some.injEq] at hr; exact hr ▸ hst
  | some rb =>
    cases hv : rb.Value with
    | none => simp only [walkRequestBody, hv, Option.some.injEq] at hr; exact hr ▸ hst
    | some body =>
      simp only [walkRequestBody, hv] at hr
      exact walkContent_hoare walk hw (fun ct => operationPath ++ "/requestBody/" ++ ct)
        (fun ct => visitor.VisitRequestBody (operationPath ++ "/requestBody/" ++ ct) ct body)
        (fun ct => hV.2.2.2.1 _ ct body) body.Content st st' hst hr

theorem walkRequestBody_mem {σ : Type} {P Q : σ → Prop} (visitor : Visitor σ)
    (walk : String → Option SchemaRef → WalkState σ → Option (WalkState σ))
    (hVP : visitor.Preserves P) (hVQ : visitor.Preserves Q)
    (hwP : ∀ p r, Hoare (WalkState.Top P) (walk p r) (WalkState.Top P))
    (hwQ : ∀ p r, Hoare (WalkState.Top Q) (walk p r) (WalkState.Top Q))
    (operationPath : String) (rb : RequestBodyRef) (body : RequestBody)
    (hv : rb.Value = some body) (ref : SchemaRef) (hmem : contentSchema body.Content ref)
    (hroot : ∀ p, Hoare (WalkState.Top P) (walk p (some ref)) (WalkState.Top Q)) :
    Hoare (WalkState.Top P) (walkRequestBody visitor walk operationPath (some rb))
      (WalkState.Top Q) := by
  intro st st' hst hr
  simp only [walkRequestBody, hv] at hr
  exact walkContent_mem walk hwP hwQ (fun ct => operationPath ++ "/requestBody/" ++ ct)
    (fun ct => visitor.VisitRequestBody (operationPath ++ "/requestBody/" ++ ct) ct body)
    (fun ct => hVP.2.2.2.1 _ ct body) (fun ct => hVQ.2.2.2.1 _ ct body) body.Content ref hmem
    hroot st st' hst hr

theorem walkResponses_hoare {σ : Type} {P : σ → Prop} (visitor : Visitor σ)
    (walk : String → Option SchemaRef → WalkState σ → Option (WalkState σ))
    (hV : visitor.Preserves P)
    (hw : ∀ p r, Hoare (WalkState.Top P) (walk p r) (WalkState.Top P))
    (operationPath : String) (responses : GoMap String (Option ResponseRef)) :
    Hoare (WalkState.Top P) (walkResponses visitor walk operationPath responses)
      (WalkState.Top P) := by
  refine hoare_forEach _ _ fun x _ => ?_
  intro st st' hst hr
  cases hx : x.2 with
  | none => simp only [hx, Option.some.injEq] at hr; exact hr ▸ hst
  | some rr =>
    cases hv : rr.Value with
    | none => simp only [hx, hv, Option.some.injEq] at hr; exact hr ▸ hst
    | some response =>
      simp only [hx, hv] at hr
      exact walkContent_hoare walk hw
        (fun ct => operationPath ++ "/response/" ++ x.1 ++ "/" ++ ct)
        (fun ct => visitor.VisitResponse (operationPath ++ "/response/" ++ x.1 ++ "/" ++ ct)
          x.1 ct response)
        (fun ct => hV.2.2.2.2.1 _ x.1 ct response) response.Content st st' hst hr

theorem walkResponses_mem {σ : Type} {P Q : σ → Prop} (visitor : Visitor σ)
    (walk : String → Option SchemaRef → WalkState σ → Option (WalkState σ))
    (hVP : visitor.Preserves P) (hVQ : visitor.Preserves Q)
    (hwP : ∀ p r, Hoare (WalkState.Top P) (walk p r) (WalkState.Top P))
    (hwQ : ∀ p r, Hoare (WalkState.Top Q) (walk p r) (WalkState.Top Q))
    (operationPath : String) (responses : GoMap String (Option ResponseRef))
    (code : String) (rr : ResponseRef) (response : Response)
    (hmem : (code, some rr) ∈ responses) (hv : rr.Value = some response)
    (ref : SchemaRef) (hc : contentSchema response.Content ref)
    (hroot : ∀ p, Hoare (WalkState.Top P) (walk p (some ref)) (WalkState.Top Q)) :
    Hoare (WalkState.Top P) (walkResponses visitor walk operationPath responses)
      (WalkState.Top Q) := by
  refine hoare_forEach_mem _ _ (code, some rr) hmem ?_ ?_ ?_
  · intro x _ st st' hst hr
    refine walkResponses_hoare visitor walk hVP hwP operationPath [x] st st' hst ?_
    unfold walkResponses
    rw [forEach_singleton]
    exact hr
  · intro x _ st st' hst hr
    refine walkResponses_hoare visitor walk hVQ hwQ operationPath [x] st st' hst ?_
    unfold walkResponses
    rw [forEach_singleton]
    exact hr
  · intro st st' hst hr
    simp only [hv] at hr
    exact walkContent_mem walk hwP hwQ
      (fun ct => operationPath ++ "/response/" ++ code ++ "/" ++ ct)
      (fun ct => visitor.VisitResponse (operationPath ++ "/response/" ++ code ++ "/" ++ ct)
        code ct response)
      (fun ct => hVP.2.2.2.2.1 _ code ct response)
      (fun ct => hVQ.2.2.2.2.1 _ code ct response) response.Content ref hc hroot st st' hst hr

/-- The walk of one operation: its parameters, its request body, its responses. -/
theorem walkOperation_hoare {σ : Type} {P : σ → Prop} (visitor : Visitor σ)
    (walk : String → Option SchemaRef → WalkState σ → Option (WalkState σ))
    (hV : visitor.Preserves P)
    (hw : ∀ p r, Hoare (WalkState.Top P) (walk p r) (WalkState.Top P))
    (pathName : String) (operations : GoMap String (Option OperationDoc)) :
    Hoare (WalkState.Top P) (walkOperations visitor walk pathName operations)
      (WalkState.Top P) := by
  refine hoare_forEach _ _ fun x _ => ?_
  intro st st' hst hr
  cases hx : x.2 with
  | none => simp only [hx, Option.some.injEq] at hr; exact hr ▸ hst
  | some operation =>
    simp only [hx] at hr
    obtain ⟨st1, h1, hr⟩ := Option.bind_eq_some.1 hr
    obtain ⟨st2, h2, hr⟩ := Option.bind_eq_some.1 hr
    exact walkResponses_hoare visitor walk hV hw _ _ _ _
      (walkRequestBody_hoare visitor walk hV hw _ _ _ _
        (walkParameters_hoare visitor walk hV hw _ _ _ _
          (top_call _ _ hst (hV.2.1 _ _ _)) h1) h2) hr

theorem walkOperations_mem {σ : Type} {P Q : σ → Prop} (visitor : Visitor σ)
    (walk : String → Option SchemaRef → WalkState σ → Option (WalkState σ))
    (hVP : visitor.Preserves P) (hVQ : visitor.Preserves Q)
    (hwP : ∀ p r, Hoare (WalkState.Top P) (walk p r) (WalkState.Top P))
    (hwQ : ∀ p r, Hoare (WalkState.Top Q) (walk p r) (WalkState.Top Q))
    (pathName : String) (operations : GoMap String (Option OperationDoc))
    (m : String) (op : OperationDoc) (hmem : (m, some op) ∈ operations)
    (ref : SchemaRef) (hop : op.rootSchema ref)
    (hroot : ∀ p, Hoare (WalkState.Top P) (walk p (some ref)) (WalkState.Top Q)) :
    Hoare (WalkState.Top P) (walkOperations visitor walk pathName operations)
      (WalkState.Top Q) := by
  refine hoare_forEach_mem _ _ (m, some op) hmem ?_ ?_ ?_
  · intro x _ st st' hst hr
    refine walkOperation_hoare visitor walk hVP hwP pathName [x] st st' hst ?_
    unfold walkOperations
    rw [forEach_singleton]
    exact hr
  · intro x _ st st' hst hr
    refine walkOperation_hoare visitor walk hVQ hwQ pathName [x] st st' hst ?_
    unfold walkOperations
    rw [forEach_singleton]
    exact hr
  · intro st st' hst hr
    simp only at hr
    obtain ⟨st1, h1, hr⟩ := Option.bind_eq_some.1 hr
    obtain ⟨st2, h2, hr⟩ := Option.bind_eq_some.1 hr
    have hst0 := top_call (visitor.VisitOperation (pathName ++ "/" ++ m) m op) st hst
      (hVP.2.1 _ _ _)
    rcases hop with hpar | ⟨rb, body, hrb, hv, hc⟩ | ⟨code, rr, resp, hmem', hv, hc⟩
    · exact walkResponses_hoare visitor walk hVQ hwQ _ _ _ _
        (walkRequestBody_hoare visitor walk hVQ hwQ _ _ _ _
          (walkParameters_mem visitor walk hVP hVQ hwP hwQ _ _ ref hpar hroot _ _ hst0 h1)
          h2) hr
    · rw [hrb] at h2
      exact walkResponses_hoare visitor walk hVQ hwQ _ _ _ _
        (walkRequestBody_mem visitor walk hVP hVQ hwP hwQ _ rb body hv ref hc hroot _ _
          (walkParameters_hoare visitor walk hVP hwP _ _ _ _ hst0 h1) h2) hr
    · exact walkResponses_mem visitor walk hVP hVQ hwP hwQ _ _ code rr resp hmem' hv ref hc
        hroot _ _
        (walkRequestBody_hoare visitor walk hVP hwP _ _ _ _
          (walkParameters_hoare visitor walk hVP hwP _ _ _ _ hst0 h1) h2) hr

theorem walkPaths_hoare {σ : Type} {P : σ → Prop} (visitor : Visitor σ)
    (walk : String → Option SchemaRef → WalkState σ → Option (WalkState σ))
    (hV : visitor.Preserves P)
    (hw : ∀ p r, Hoare (WalkState.Top P) (walk p r) (WalkState.Top P))
    (paths : GoMap String (Option PathItem)) :
    Hoare (WalkState.Top P) (walkPaths visitor walk paths) (WalkState.Top P) := by
  refine hoare_forEach _ _ fun x _ => ?_
  intro st st' hst hr
  cases hx : x.2 with
  | none => simp only [hx, Option.some.injEq] at hr; exact hr ▸ hst
  | some pathItem =>
    simp only [hx] at hr
    obtain ⟨st1, h1, hr⟩ := Option.bind_eq_some.1 hr
    exact walkOperation_hoare visitor walk hV hw _ _ _ _
      (walkParameters_hoare visitor walk hV hw _ _ _ _
        (top_call _ _ hst (hV.1 _ _)) h1) hr

theorem walkPaths_mem {σ : Type} {P Q : σ → Prop} (visitor : Visitor σ)
    (walk : String → Option SchemaRef → WalkState σ → Option (WalkState σ))
    (hVP : visitor.Preserves P) (hVQ : visitor.Preserves Q)
    (hwP : ∀ p r, Hoare (WalkState.Top P) (walk p r) (WalkState.Top P))
    (hwQ : ∀ p r, Hoare (WalkState.Top Q) (walk p r) (WalkState.Top Q))
    (paths : GoMap String (Option PathItem)) (pathName : String) (item : PathItem)
    (hmem : (pathName, some item) ∈ paths) (ref : SchemaRef)
    (hitem : parameterSchema item.Parameters ref ∨
      ∃ m op, (m, some op) ∈ item.Operations ∧ op.rootSchema ref)
    (hroot : ∀ p, Hoare (WalkState.Top P) (walk p (some ref)) (WalkState.Top Q)) :
    Hoare (WalkState.Top P) (walkPaths visitor walk paths) (WalkState.Top Q) := by
  refine hoare_forEach_mem _ _ (pathName, some item) hmem ?_ ?_ ?_
  · intro x _ st st' hst hr
    refine walkPaths_hoare visitor walk hVP hwP [x] st st' hst ?_
    unfold walkPaths
    rw [forEach_singleton]
    exact hr
  · intro x _ st st' hst hr
    refine walkPaths_hoare visitor walk hVQ hwQ [x] st st' hst ?_
    unfold walkPaths
    rw [forEach_singleton]
    exact hr
  · intro st st' hst hr
    simp only at hr
    obtain ⟨st1, h1, hr⟩ := Option.bind_eq_some.1 hr
    have hst0 := top_call (visitor.VisitPath pathName item) st hst (hVP.1 _ _)
    rcases hitem with hpar | ⟨m, op, hm, hop⟩
    · exact walkOperation_hoare visitor walk hVQ hwQ _ _ _ _
        (walkParameters_mem visitor walk hVP hVQ hwP hwQ _ _ ref hpar hroot _ _ hst0 h1) hr
    · exact walkOperations_mem visitor walk hVP hVQ hwP hwQ _ _ m op hm ref hop hroot _ _
        (walkParameters_hoare visitor walk hVP hwP _ _ _ _ hst0 h1) hr

theorem walkComponents_hoare {σ : Type} {P : σ → Prop} (visitor : Visitor σ)
    (walk : String → Option SchemaRef → WalkState σ → Option (WalkState σ))
    (hV : visitor.Preserves P)
    (hw : ∀ p r, Hoare (WalkState.Top P) (walk p r) (WalkState.Top P))
    (components : Option Components) :
    Hoare (WalkState.Top P) (walkComponents visitor walk components) (WalkState.Top P) := by
  intro st st' hst hr
  cases components with
  | none => simp only [walkComponents, Option.some.injEq] at hr; exact hr ▸ hst
  | some comps =>
    simp only [walkComponents] at hr
    refine hoare_forEach _ _ (fun x _ => ?_) st st' hst hr
    intro st st' hst hr
    cases hx : x.2 with
    | none => simp only [hx, Option.some.injEq] at hr; exact hr ▸ hst
    | some schemaRef =>
      simp only [hx] at hr
      exact hw _ _ _ _ (top_call _ _ hst (hV.2.2.2.2.2.1 _ _)) hr

theorem walkComponents_mem {σ : Type} {P Q : σ → Prop} (visitor : Visitor σ)
    (walk : String → Option SchemaRef → WalkState σ → Option (WalkState σ))
    (hVP : visitor.Preserves P) (hVQ : visitor.Preserves Q)
    (hwP : ∀ p r, Hoare (WalkState.Top P) (walk p r) (WalkState.Top P))
    (hwQ : ∀ p r, Hoare (WalkState.Top Q) (walk p r) (WalkState.Top Q))
    (comps : Components) (name : String) (ref : SchemaRef)
    (hmem : (name, some ref) ∈ comps.Schemas)
    (hroot : ∀ p, Hoare (WalkState.Top P) (walk p (some ref)) (WalkState.Top Q)) :
    Hoare (WalkState.Top P) (walkComponents visitor walk (some comps)) (WalkState.Top Q) := by
  intro st st' hst hr
  simp only [walkComponents] at hr
  refine hoare_forEach_mem _ _ (name, some ref) hmem ?_ ?_ ?_ st st' hst hr
  · intro x _ st st' hst hr
    refine walkComponents_hoare visitor walk hVP hwP (some ⟨[x]⟩) st st' hst ?_
    simp only [walkComponents]
    rw [forEach_singleton]
    exact hr
  · intro x _ st st' hst hr
    refine walkComponents_hoare visitor walk hVQ hwQ (some ⟨[x]⟩) st st' hst ?_
    simp only [walkComponents]
    rw [forEach_singleton]
    exact hr
  · intro st st' hst hr
    simp only at hr
    exact hroot _ _ _ (top_call _ _ hst (hVP.2.2.2.2.2.1 _ _)) hr

/-! ## The hint setter: a walk with a selector that always gives the same answer -/

theorem walkSpec_hoare {σ : Type} {P : σ → Prop} (spec : Spec) (visitor : Visitor σ)
    (hV : visitor.Preserves P) (fuel : Nat) :
    Hoare P (WalkSpec (some spec) (some visitor) fuel) P := by
  intro st st' hst hr
  simp only [WalkSpec] at hr
  obtain ⟨ws, h1, h2⟩ := Option.map_eq_some'.1 hr
  have hw : ∀ p r, Hoare (WalkState.Top P) (walkSchema spec.heap visitor fuel p r)
      (WalkState.Top P) := fun p r =>
    walkSchema_top spec.heap visitor fuel p r
      (walkOnStack_hoare spec.heap visitor hV.2.2.2.2.2.2 fuel [] p r)
  unfold walkDocument at h1
  obtain ⟨ws1, h3, h4⟩ := Option.bind_eq_some.1 h1
  have := walkComponents_hoare visitor _ hV hw _ _ _
    (walkPaths_hoare visitor _ hV hw _ _ _ ⟨rfl, hst⟩ h3) h4
  rw [← h2]
  exact this.2

/-- After a walk of the document, a property of a schema the walker reaches has been
visited: what its visit establishes, and every visitor call keeps, holds at the end. -/
theorem walkSpec_reaches {σ : Type} {P Q : σ → Prop} (spec : Spec) (visitor : Visitor σ)
    (hVP : visitor.Preserves P) (hVQ : visitor.Preserves Q)
    (target : SchemaId) (t : Schema) (ht : spec.heap[target]? = some t) (k : String)
    (prop : SchemaRef) (hk : (k, some prop) ∈ t.Properties)
    (hvis : ∀ p st, P st → Q (visitor.VisitProperty p prop st))
    (hreach : spec.walkerReaches target) (fuel : Nat) :
    Hoare P (WalkSpec (some spec) (some visitor) fuel) Q := by
  intro st st' hst hr
  simp only [WalkSpec] at hr
  obtain ⟨ws, h1, h2⟩ := Option.map_eq_some'.1 hr
  have hwP : ∀ p r, Hoare (WalkState.Top P) (walkSchema spec.heap visitor fuel p r)
      (WalkState.Top P) := fun p r =>
    walkSchema_top spec.heap visitor fuel p r
      (walkOnStack_hoare spec.heap visitor hVP.2.2.2.2.2.2 fuel [] p r)
  have hwQ : ∀ p r, Hoare (WalkState.Top Q) (walkSchema spec.heap visitor fuel p r)
      (WalkState.Top Q) := fun p r =>
    walkSchema_top spec.heap visitor fuel p r
      (walkOnStack_hoare spec.heap visitor hVQ.2.2.2.2.2.2 fuel [] p r)
  obtain ⟨ref, hroot, henters⟩ := hreach
  have hr0 : ∀ p, Hoare (WalkState.Top P) (walkSchema spec.heap visitor fuel p (some ref))
      (WalkState.Top Q) := fun p =>
    walkSchema_top spec.heap visitor fuel p (some ref)
      (walkOnStack_enters spec.heap visitor hVP.2.2.2.2.2.2 hVQ.2.2.2.2.2.2 target t ht k prop
        hk hvis [] ref henters fuel p)
  unfold walkDocument at h1
  obtain ⟨ws1, h3, h4⟩ := Option.bind_eq_some.1 h1
  rw [← h2]
  rcases hroot with ⟨pathName, item, hmem, hitem⟩ | ⟨comps, name, hcomps, hmem⟩
  · exact (walkComponents_hoare visitor _ hVQ hwQ _ _ _
      (walkPaths_mem visitor _ hVP hVQ hwP hwQ _ pathName item hmem ref hitem hr0 _ _
        ⟨rfl, hst⟩ h3) h4).2
  · rw [hcomps] at h4
    exact (walkComponents_mem visitor _ hVP hVQ hwP hwQ comps name ref hmem hr0 _ _
      (walkPaths_hoare visitor _ hVP hwP _ _ _ ⟨rfl, hst⟩ h3) h4).2

theorem hinted_hinted (s : Schema) (hint : String) :
    (s.hinted hint).hinted hint = s.hinted hint := by
  simp only [Schema.hinted, GoMap.set_set_self]

/-- One call of `setHintsOnSchema` under a selector that always answers `i`. -/
theorem hintInv_step (heap : Heap) (answers : Nat → Answer) (i : Int) (hint : String)
    (hconst : ∀ n, answers n = Answer.ok i) (hi : goIndex HintOptions i = some hint)
    (fuel : Nat) (schema : Option SchemaId) (name : String) (hs hs' : HintState)
    (hinv : HintInv heap answers hint (some hs))
    (hr : setHintsOnSchema fuel schema name hs = some hs') :
    HintInv heap answers hint (some hs') ∧
      ∀ p, hintOf hs.heap p = some (ExtValue.str hint) →
        hintOf hs'.heap p = some (ExtValue.str hint) := by
  obtain ⟨hans, hnodes⟩ := hinv hs rfl
  rcases setHintsOnSchema_step fuel schema name hs hs' hr with h1 | ⟨herr, _⟩ |
    ⟨leaf, s, idx, hint', hleaf, hsa, hso, hok, hidx, h1⟩
  · subst h1
    exact ⟨hinv, fun _ h => h⟩
  · rw [hans, hconst] at herr
    cases herr
  · rw [hans, hconst] at hok
    cases hok
    rw [hi] at hidx
    cases hidx
    subst h1
    constructor
    · intro hs2 h2
      cases h2
      refine ⟨hans, fun j => ?_⟩
      by_cases hj : j = leaf
      · subst hj
        right
        rcases hnodes j with h0 | ⟨s0, h0, ha0, ho0, hh0⟩
        · refine ⟨s, by rw [← h0, hleaf], hsa, hso, ?_⟩
          exact setExtension_getElem?_self _ _ _ _ s hleaf
        · refine ⟨s0, h0, ha0, ho0, ?_⟩
          rw [hleaf] at hh0
          cases hh0
          have := setExtension_getElem?_self hs.heap j "x-user-hint" (ExtValue.str hint)
            (s0.hinted hint) hleaf
          rw [this]
          exact congrArg some (hinted_hinted s0 hint)
      · show (setExtension hs.heap leaf "x-user-hint" (ExtValue.str hint))[j]? = heap[j]? ∨ _
        rw [setExtension_getElem?_ne _ _ _ _ _ hj]
        exact hnodes j
    · intro p hp
      by_cases hpl : p = leaf
      · subst hpl
        exact hintOf_setExtension_self _ _ _ s hleaf
      · show hintOf (setExtension hs.heap leaf "x-user-hint" (ExtValue.str hint)) p = _
        rw [hintOf_setExtension_ne _ _ _ _ _ hpl]
        exact hp

theorem hintSetter_preserves (heap : Heap) (answers : Nat → Answer) (i : Int) (hint : String)
    (hconst : ∀ n, answers n = Answer.ok i) (hi : goIndex HintOptions i = some hint)
    (fuel : Nat) (p : SchemaId) :
    (HintSetterVisitor fuel).Preserves (HintInv heap answers hint) ∧
    (HintSetterVisitor fuel).Preserves
      (fun st => HintInv heap answers hint st ∧ HintAt p hint st) := by
  have key : ∀ (f : HintState → Option HintState),
      (∀ hs hs', f hs = some hs' → hs' = hs ∨
        ∃ schema name, setHintsOnSchema fuel schema name hs = some hs') →
      ∀ st, HintInv heap answers hint st →
        HintInv heap answers hint (st.bind f) ∧
          (HintAt p hint st → HintAt p hint (st.bind f)) := by
    intro f hf st hinv
    cases st with
    | none => exact ⟨hinv, fun h => h⟩
    | some hs =>
      cases hfs : f hs with
      | none =>
        simp only [Option.some_bind, hfs]
        constructor
        · intro _ h; cases h
        · intro _ _ h; cases h
      | some hs' =>
        simp only [Option.some_bind, hfs]
        rcases hf hs hs' hfs with h1 | ⟨schema, name, h1⟩
        · subst h1
          exact ⟨hinv, fun h => h⟩
        · have := hintInv_step heap answers i hint hconst hi fuel schema name hs hs' hinv h1
          refine ⟨this.1, fun hat hs2 h2 => ?_⟩
          cases h2
          exact this.2 p (hat hs rfl)
  have hprop : ∀ path ref hs hs', hintVisitProperty fuel path ref hs = some hs' →
      hs' = hs ∨ ∃ schema name, setHintsOnSchema fuel schema name hs = some hs' := by
    intro path ref hs hs' h
    unfold hintVisitProperty at h
    split at h
    · left; simpa using h.symm
    · exact Or.inr ⟨_, _, h⟩
  have hpar : ∀ path param hs hs', setHints fuel param path hs = some hs' →
      hs' = hs ∨ ∃ schema name, setHintsOnSchema fuel schema name hs = some hs' := by
    intro path param hs hs' h
    unfold setHints at h
    split at h
    · left; simpa using h.symm
    · split at h
      · left; simpa using h.symm
      · exact Or.inr ⟨_, _, h⟩
  refine ⟨⟨fun _ _ _ h => h, fun _ _ _ _ h => h, ?_, fun _ _ _ _ h => h,
    fun _ _ _ _ _ h => h, fun _ _ _ h => h, ?_⟩,
    ⟨fun _ _ _ h => h, fun _ _ _ _ h => h, ?_, fun _ _ _ _ h => h,
    fun _ _ _ _ _ h => h, fun _ _ _ h => h, ?_⟩⟩
  · intro path param st h
    exact (key _ (hpar path param) st h).1
  · intro path ref st h
    exact (key _ (hprop path ref) st h).1
  · intro path param st h
    exact ⟨(key _ (hpar path param) st h.1).1, (key _ (hpar path param) st h.1).2 h.2⟩
  · intro path ref st h
    exact ⟨(key _ (hprop path ref) st h.1).1, (key _ (hprop path ref) st h.1).2 h.2⟩

/-- The visit of a property whose schema is a scalar leaf gives it the hint. -/
theorem hintVisit_leaf (heap : Heap) (answers : Nat → Answer) (i : Int) (hint : String)
    (hconst : ∀ n, answers n = Answer.ok i) (hi : goIndex HintOptions i = some hint)
    (fuel : Nat) (prop : SchemaRef) (p : SchemaId) (t : Schema) (hp : prop.Value = some p)
    (ht : heap[p]? = some t) (hleaf : t.scalarLeaf) (path : String)
    (st : Option HintState) (hinv : HintInv heap answers hint st) :
    HintAt p hint ((HintSetterVisitor fuel).VisitProperty path prop st) := by
  cases st with
  | none => intro hs h; cases h
  | some hs =>
    obtain ⟨hans, hnodes⟩ := hinv hs rfl
    obtain ⟨hta, hto⟩ := scalarLeaf_not_container t hleaf
    intro hs' h
    simp only [HintSetterVisitor, Option.some_bind, hintVisitProperty, hp] at h
    cases fuel with
    | zero => simp [setHintsOnSchema] at h
    | succ f =>
      have hnode : ∃ s, hs.heap[p]? = some s ∧ ¬ s.isArray ∧ ¬ s.isObjectWithProperties := by
        rcases hnodes p with h0 | ⟨s0, h0, ha0, ho0, hh0⟩
        · exact ⟨t, by rw [h0, ht], hta, hto⟩
        · exact ⟨s0.hinted hint, hh0, ha0, ho0⟩
      obtain ⟨s, hs1, hs2, hs3⟩ := hnode
      rw [setHintsOnSchema_leaf f p s path hs hs1 hs2 hs3] at h
      simp only [hans, hconst, hi, Option.some.injEq] at h
      rw [← h]
      exact hintOf_setExtension_self _ _ _ s hs1

/-- What `SetHints` leaves when it returns, the selector answering the in-range index
`i` at every prompt: every object schema with declared properties that the walker reaches
is as it was, and every property of such an object whose schema is a scalar leaf carries
`x-user-hint = HintOptions[i]`. -/
theorem setHints_after (spec : Spec) (w : World) (i : Int) (hint : String)
    (fuel : Nat) (st' : HintState) (hconst : ∀ n, w.answers n = Answer.ok i)
    (hi : goIndex HintOptions i = some hint) (hrun : SetHints spec w fuel = some st') :
    hint ∈ HintOptions ∧
    ∀ (o : SchemaId) (s : Schema), spec.walkerReaches o → spec.heap[o]? = some s →
      s.isObjectWithProperties →
      st'.heap[o]? = some s ∧ (hintOf spec.heap o = none → hintOf st'.heap o = none) ∧
      ∀ (k : String) (prop : SchemaRef) (p : SchemaId) (t : Schema),
        (k, some prop) ∈ s.Properties → prop.Value = some p → spec.heap[p]? = some t →
        t.scalarLeaf → hintOf st'.heap p = some (ExtValue.str hint) := by
  have hwalk : WalkSpec (some spec) (some (HintSetterVisitor fuel)) fuel
      (some ⟨spec.heap, w⟩) = some (some st') := by
    unfold SetHints at hrun
    cases hw : WalkSpec (some spec) (some (HintSetterVisitor fuel)) fuel
        (some ⟨spec.heap, w⟩) with
    | none => rw [hw] at hrun; cases hrun
    | some r =>
      rw [hw] at hrun
      cases r with
      | none => cases hrun
      | some r => exact congrArg some hrun
  have hinit : HintInv spec.heap w.answers hint (some ⟨spec.heap, w⟩) := by
    intro hs h
    cases h
    exact ⟨rfl, fun j => Or.inl rfl⟩
  have hinv := walkSpec_hoare spec (HintSetterVisitor fuel)
    (hintSetter_preserves spec.heap w.answers i hint hconst hi fuel 0).1 fuel _ _ hinit hwalk
  obtain ⟨_, hnodes⟩ := hinv st' rfl
  refine ⟨(goIndex_some _ _ _ hi).2.2, fun o s hreach hs hobj => ?_⟩
  have hsame : st'.heap[o]? = some s := by
    rcases hnodes o with h0 | ⟨s0, h0, _, ho0, _⟩
    · rw [h0, hs]
    · rw [hs] at h0
      cases h0
      exact absurd hobj ho0
  refine ⟨hsame, fun hnone => ?_, fun k prop p t hk hp ht hleaf => ?_⟩
  · simpa [hintOf, hsame, hs] using hnone
  · have hat := walkSpec_reaches spec (HintSetterVisitor fuel)
      (hintSetter_preserves spec.heap w.answers i hint hconst hi fuel p).1
      (hintSetter_preserves spec.heap w.answers i hint hconst hi fuel p).2
      o s hs k prop hk
      (fun path st hst =>
        ⟨(hintSetter_preserves spec.heap w.answers i hint hconst hi fuel p).1.2.2.2.2.2.2
            path prop st hst,
          hintVisit_leaf spec.heap w.answers i hint hconst hi fuel prop p t hp ht hleaf path
            st hst⟩)
      hreach fuel _ _ hinit hwalk
    exact hat.2 st' rfl

/-! ## `TopologicalSort` on the graphs it is called with -/

theorem ScenarioGraph.kahnLoop_more_fuel (adj : GoMap Int (List Int)) (k : Nat) :
    ∀ (fuel : Nat) (deg : GoMap Int Int) (queue result res : List Int),
      ScenarioGraph.kahnLoop adj fuel deg queue result = some res →
      ScenarioGraph.kahnLoop adj (fuel + k) deg queue result = some res := by
  intro fuel
  induction fuel with
  | zero =>
    intro deg queue result res h
    cases queue with
    | nil =>
      cases k <;> simpa [ScenarioGraph.kahnLoop] using h
    | cons c q => simp [ScenarioGraph.kahnLoop] at h
  | succ f ih =>
    intro deg queue result res h
    cases queue with
    | nil => simpa [ScenarioGraph.kahnLoop] using h
    | cons c q =>
      rw [show f + 1 + k = (f + k) + 1 from by omega]
      simp only [ScenarioGraph.kahnLoop] at h ⊢
      exact ih _ _ _ _ h

/-- C30 (amended): on a graph whose edges all join existing vertex ids, as every graph
handed to `TopologicalSort` is, whenever `TopologicalSort` returns no error the list
returned holds every vertex id of the graph exactly once and no id that is not a vertex;
and with fuel above the number of vertices it does return, an error or such a list. -/
theorem topologicalSort_lists_vertices (g : ScenarioGraph) (seed : List Nat) (fuel : Nat)
    (hw : g.WellKeyed) (hj : g.EdgesJoinVertices) :
    (∀ order : List Int, g.TopologicalSort seed fuel = some (some order, none) →
        order.Nodup ∧ (∀ v, v ∈ order ↔ v ∈ GoMap.keys g.vertices) ∧
          List.Perm order (GoMap.keys g.vertices)) ∧
    (g.vertices.length < fuel →
        g.TopologicalSort seed fuel = some (none, some ScenarioGraph.cycleError) ∨
          ∃ order, g.TopologicalSort seed fuel = some (some order, none)) := by
  have hperm := ScenarioGraph.keys_inDegree_perm g hw hj
  have hlen : (GoMap.keys g.vertices).length = g.vertices.length := by simp [GoMap.keys]
  constructor
  · intro order h
    cases hk : ScenarioGraph.kahnLoop (ScenarioGraph.buildAdjacency g.edges) fuel
        (ScenarioGraph.countInDegree g.edges (ScenarioGraph.initInDegree g))
        (ScenarioGraph.seedQueue seed
          (ScenarioGraph.countInDegree g.edges (ScenarioGraph.initInDegree g))) [] with
    | none => simp [ScenarioGraph.TopologicalSort, hk] at h
    | some res =>
      rw [ScenarioGraph.topologicalSort_eq g seed fuel res hk] at h
      by_cases hlen' : res.length = g.vertices.length
      swap
      · simp [hlen'] at h
      simp only [hlen', ne_eq, not_true_eq_false, if_false, Option.some.injEq, Prod.mk.injEq,
        and_true] at h
      subst h
      obtain ⟨res', deg', hrun, inv⟩ := ScenarioGraph.kahnLoop_result g seed
        (fuel + (g.vertices.length + 1)) (by rw [hperm.length_eq, hlen]; omega)
      rw [ScenarioGraph.kahnLoop_more_fuel _ (g.vertices.length + 1) fuel _ _ _ res hk] at hrun
      cases hrun
      have hnd : res.Nodup := by simpa using inv.nodup
      have hsub : res ⊆ GoMap.keys g.vertices := by
        intro v hv
        exact hperm.mem_iff.1 ((inv.mem_iff v).1 (by simpa using hv)).1
      have hp : List.Perm res (GoMap.keys g.vertices) :=
        (hnd.subperm hsub).perm_of_length_le (by rw [hlen, hlen'])
      exact ⟨hnd, fun v => hp.mem_iff, hp⟩
  · intro hfuel
    obtain ⟨res, deg', hrun, _⟩ := ScenarioGraph.kahnLoop_result g seed fuel
      (by rw [hperm.length_eq, hlen]; exact hfuel)
    rw [ScenarioGraph.topologicalSort_eq g seed fuel res hrun]
    split_ifs
    · exact Or.inl rfl
    · exact Or.inr ⟨res, rfl⟩

/-- Witness for C30 (amended): the triangle graph, whose sort returns `[0, 1, 2]`. -/
theorem topologicalSort_lists_vertices_witness :
    List.Nodup ([0, 1, 2] : List Int) ∧
      (∀ v, v ∈ ([0, 1, 2] : List Int) ↔ v ∈ GoMap.keys triangleGraph.vertices) ∧
      List.Perm ([0, 1, 2] : List Int) (GoMap.keys triangleGraph.vertices) :=
  (topologicalSort_lists_vertices triangleGraph [] 4 (by decide) (by decide)).1 [0, 1, 2]
    (by decide)

/-! ## The hint setter: when `SetHints` returns -/

theorem arrayEnds_of_arraysEnd (heap : Heap) (d : Nat) (h : arraysEnd heap d = true)
    (schema : SchemaId) : arrayEnds heap d schema = true := by
  by_cases hlt : schema < heap.length
  · exact List.all_eq_true.1 h schema (List.mem_range.2 hlt)
  · have hn : nextArray heap schema = none := by
      simp [nextArray, List.getElem?_eq_none (Nat.le_of_not_lt hlt)]
    cases d <;> simp [arrayEnds, hn]

theorem walkSpec_returns {σ : Type} (spec : Spec) (visitor : Visitor σ) (fuel : Nat) (st : σ)
    (hfuel : spec.heap.length < fuel) :
    ∃ st', WalkSpec (some spec) (some visitor) fuel st = some st' := by
  obtain ⟨st', h1, _, _⟩ := walkDocument_agree visitor
    (walkSchema_agree_fresh spec.heap visitor fuel hfuel) spec ⟨[], st⟩ rfl
  exact ⟨st'.visitor, by simp only [WalkSpec, h1, Option.map_some']⟩

/-- Under the invariant a schema node has the type, the items and the properties it had
in the document. -/
theorem hintInv_node (heap : Heap) (answers : Nat → Answer) (hint : String) (hs : HintState)
    (hinv : HintInv heap answers hint (some hs)) (j : SchemaId) :
    (heap[j]? = none ∧ hs.heap[j]? = none) ∨
      ∃ s0 s, heap[j]? = some s0 ∧ hs.heap[j]? = some s ∧ s.Typ = s0.Typ ∧
        s.Items = s0.Items ∧ s.Properties = s0.Properties := by
  rcases (hinv hs rfl).2 j with h | ⟨s0, h0, _, _, h1⟩
  · cases h0 : heap[j]? with
    | none => exact Or.inl ⟨rfl, by rw [h, h0]⟩
    | some s0 => exact Or.inr ⟨s0, s0, rfl, by rw [h, h0], rfl, rfl, rfl⟩
  · exact Or.inr ⟨s0, s0.hinted hint, h0, h1, rfl, rfl, rfl⟩

/-- With a selector that always answers the in-range index `i`, a call of
`setHintsOnSchema` returns when the nesting of arrays below the schema ends within `d`
levels and the fuel exceeds `d`. -/
theorem setHintsOnSchema_returns (heap : Heap) (answers : Nat → Answer) (i : Int)
    (hint : String) (hconst : ∀ n, answers n = Answer.ok i)
    (hi : goIndex HintOptions i = some hint) :
    ∀ (d : Nat) (schema : SchemaId) (fuel : Nat) (name : String) (hs : HintState),
      HintInv heap answers hint (some hs) → arrayEnds heap d schema = true → d < fuel →
      ∃ hs', setHintsOnSchema fuel (some schema) name hs = some hs' := by
  intro d
  induction d with
  | zero =>
    intro schema fuel name hs hinv hends hfuel
    obtain ⟨f, rfl⟩ : ∃ f, fuel = f + 1 := ⟨fuel - 1, by omega⟩
    have hans := (hinv hs rfl).1
    rcases hintInv_node heap answers hint hs hinv schema with ⟨_, h1⟩ | ⟨s0, s, h0, h1, ht, hit, _⟩
    · exact ⟨hs, by simp only [setHintsOnSchema, h1]⟩
    · simp only [arrayEnds, nextArray, h0, Option.some_bind] at hends
      simp only [setHintsOnSchema, h1, ht, hit]
      split_ifs with harr hobj
      · simp only [harr, if_true] at hends
        cases hitems : s0.Items with
        | none => exact ⟨hs, rfl⟩
        | some items =>
          cases hval : items.Value with
          | none => exact ⟨hs, by simp only [hval]⟩
          | some next => simp [hitems, hval] at hends
      · exact ⟨hs, rfl⟩
      · simp only [World.run_fst, hans, hconst, hi]
        exact ⟨_, rfl⟩
  | succ d ih =>
    intro schema fuel name hs hinv hends hfuel
    obtain ⟨f, rfl⟩ : ∃ f, fuel = f + 1 := ⟨fuel - 1, by omega⟩
    have hans := (hinv hs rfl).1
    rcases hintInv_node heap answers hint hs hinv schema with ⟨_, h1⟩ | ⟨s0, s, h0, h1, ht, hit, _⟩
    · exact ⟨hs, by simp only [setHintsOnSchema, h1]⟩
    · simp only [arrayEnds, nextArray, h0, Option.some_bind] at hends
      simp only [setHintsOnSchema, h1, ht, hit]
      split_ifs with harr hobj
      · simp only [harr, if_true] at hends
        cases hitems : s0.Items with
        | none => exact ⟨hs, rfl⟩
        | some items =>
          cases hval : items.Value with
          | none => exact ⟨hs, by simp only [hval]⟩
          | some next =>
            simp only [hitems, hval, Option.some_bind] at hends
            simp only [hval]
            exact ih next f (name ++ "[]") hs hinv hends (by omega)
      · exact ⟨hs, rfl⟩
      · simp only [World.run_fst, hans, hconst, hi]
        exact ⟨_, rfl⟩

theorem hintSetter_runs (heap : Heap) (answers : Nat → Answer) (i : Int) (hint : String)
    (hconst : ∀ n, answers n = Answer.ok i) (hi : goIndex HintOptions i = some hint)
    (d fuel : Nat) (hends : ∀ schema, arrayEnds heap d schema = true) (hfuel : d < fuel) :
    (HintSetterVisitor fuel).Preserves (HintRuns heap answers hint) := by
  have key : ∀ (f : HintState → Option HintState),
      (∀ hs, f hs = some hs ∨ ∃ schema name, f hs = setHintsOnSchema fuel (some schema) name hs) →
      ∀ st, HintRuns heap answers hint st → HintRuns heap answers hint (st.bind f) := by
    intro f hf st hst
    cases st with
    | none => exact absurd hst.1 (by simp)
    | some hs =>
      rcases hf hs with h | ⟨schema, name, h⟩
      · simp only [Option.some_bind, h]
        exact hst
      · obtain ⟨hs', h'⟩ := setHintsOnSchema_returns heap answers i hint hconst hi d schema
          fuel name hs hst.2 (hends schema) hfuel
        simp only [Option.some_bind, h, h']
        exact ⟨rfl, (hintInv_step heap answers i hint hconst hi fuel (some schema) name hs hs'
          hst.2 h').1⟩
  refine ⟨fun _ _ _ h => h, fun _ _ _ _ h => h, ?_, fun _ _ _ _ h => h,
    fun _ _ _ _ _ h => h, fun _ _ _ h => h, ?_⟩
  · intro path param st hst
    refine key _ (fun hs => ?_) st hst
    unfold setHints
    cases param.Schema with
    | none => exact Or.inl rfl
    | some schemaRef =>
      cases hv : schemaRef.Value with
      | none => exact Or.inl (by simp only [hv])
      | some schema => exact Or.inr ⟨schema, path, by simp only [hv]⟩
  · intro path ref st hst
    refine key _ (fun hs => ?_) st hst
    unfold hintVisitProperty
    cases hv : ref.Value with
    | none => exact Or.inl rfl
    | some schema => exact Or.inr ⟨schema, path, rfl⟩

/-- On an array whose items are the array itself `setHintsOnSchema` returns for no
amount of fuel. -/
theorem setHintsOnSchema_selfArray :
    ∀ (fuel : Nat) (name : String) (hs : HintState),
      (hs.heap[1]?).map Schema.eraseExtensions = some (arraySchema (inline 1)) →
      setHintsOnSchema fuel (some 1) name hs = none := by
  intro fuel
  induction fuel with
  | zero => intro name hs _; rfl
  | succ f ih =>
    intro name hs h
    obtain ⟨s, hs1, hs2⟩ := Option.map_eq_some'.1 h
    have ht : s.Typ = some ["array"] := congrArg Schema.Typ hs2
    have hit : s.Items = some (inline 1) := congrArg Schema.Items hs2
    simp only [setHintsOnSchema, hs1, ht, hit, firstType, if_true, inline]
    exact ih _ hs h

/-- The walker reaches the schema of the one response of a one-operation document. -/
theorem jsonResponse_reaches (heap : Heap) (pathName method : String) (ref : SchemaRef)
    (schema : SchemaId) (h : ref.Value = some schema) :
    (oneOperationSpec heap pathName method []
      ⟨[], none, [("200", jsonResponse ref)]⟩).walkerReaches schema :=
  ⟨ref, Or.inl ⟨pathName, ⟨[], [(method, some ⟨[], none, [("200", jsonResponse ref)]⟩)]⟩,
      List.mem_cons_self _ _,
      Or.inr ⟨method, ⟨[], none, [("200", jsonResponse ref)]⟩, List.mem_cons_self _ _,
        Or.inr (Or.inr ⟨"200", ⟨"", some ⟨[("application/json", some ⟨some ref⟩)]⟩⟩,
          ⟨[("application/json", some ⟨some ref⟩)]⟩, List.mem_cons_self _ _, rfl,
          ⟨"application/json", ⟨some ref⟩, List.mem_cons_self _ _, rfl⟩⟩)⟩⟩,
    WalkEnters.here [] ref schema h (List.not_mem_nil _)⟩

/-- C23 (amended): objects are left to their properties.  Take a document in which the
nesting of arrays in arrays ends (within `d` levels), a selector that answers the
in-range index `i` at every prompt, `HintOptions[i]` being `hint`, and fuel above `d` and
above the number of schema nodes.  Then `SetHints` returns; `hint` is a member of the hint
vocabulary; every object schema with declared properties that the walker reaches is as it
was before, so it carries no `x-user-hint` unless the document already gave it one; and
every property of such an object whose schema is a scalar leaf carries
`x-user-hint = hint`. -/
theorem setHints_objects_and_leaves (spec : Spec) (w : World) (i : Int) (hint : String)
    (d fuel : Nat) (hconst : ∀ n, w.answers n = Answer.ok i)
    (hi : goIndex HintOptions i = some hint) (hends : arraysEnd spec.heap d = true)
    (hd : d < fuel) (hfuel : spec.heap.length < fuel) :
    ∃ st', SetHints spec w fuel = some st' ∧ hint ∈ HintOptions ∧
      ∀ (o : SchemaId) (s : Schema), spec.walkerReaches o → spec.heap[o]? = some s →
        s.isObjectWithProperties →
        st'.heap[o]? = some s ∧ (hintOf spec.heap o = none → hintOf st'.heap o = none) ∧
        ∀ (k : String) (prop : SchemaRef) (p : SchemaId) (t : Schema),
          (k, some prop) ∈ s.Properties → prop.Value = some p → spec.heap[p]? = some t →
          t.scalarLeaf → hintOf st'.heap p = some (ExtValue.str hint) := by
  obtain ⟨x, hx⟩ := walkSpec_returns spec (HintSetterVisitor fuel) fuel
    (some ⟨spec.heap, w⟩) hfuel
  have hinit : HintRuns spec.heap w.answers hint (some ⟨spec.heap, w⟩) := by
    refine ⟨rfl, fun hs h => ?_⟩
    cases h
    exact ⟨rfl, fun j => Or.inl rfl⟩
  have hruns := walkSpec_hoare spec (HintSetterVisitor fuel)
    (hintSetter_runs spec.heap w.answers i hint hconst hi d fuel
      (arrayEnds_of_arraysEnd spec.heap d hends) hd) fuel _ _ hinit hx
  obtain ⟨st', hst'⟩ := Option.isSome_iff_exists.1 hruns.1
  subst hst'
  have hrun : SetHints spec w fuel = some st' := by
    unfold SetHints
    rw [hx]
    rfl
  exact ⟨st', hrun, setHints_after spec w i hint fuel st' hconst hi hrun⟩

/-- Witness for C23 (amended): `SetHints` on `testdata/simple.yaml` with the selector of
the test, which always answers 23 (`uuid`): it returns, the response object, reached by
the walker, carries no hint, and its property `id` carries `uuid`. -/
theorem setHints_objects_and_leaves_witness :
    ∃ st', SetHints simpleSpec (constantWorld 23) 5 = some st' ∧
      hintOf st'.heap 0 = none ∧ hintOf st'.heap 1 = some (ExtValue.str "uuid") := by
  obtain ⟨st', h1, _, h3⟩ := setHints_objects_and_leaves simpleSpec (constantWorld 23) 23
    "uuid" 0 5 (fun _ => rfl) rfl (by decide) (by decide) (by decide)
  have h := h3 0
    (objectSchema [] [("id", some (inline 1)), ("name", some (inline 2)),
      ("email", some (inline 3))])
    (jsonResponse_reaches _ "/api/users" "GET" (inline 0) 0 rfl) rfl ⟨rfl, by decide⟩
  exact ⟨st', h1, h.2.1 rfl, h.2.2 "id" (inline 1) 1 (scalarSchema "integer")
    (List.mem_cons_self _ _) rfl rfl ⟨rfl, rfl, rfl, rfl, rfl, by decide, by decide⟩⟩

/-- Counterexample for C23 as stated.  In the document of `testdata/simple.yaml` with
the response object already carrying `x-user-hint = "email"`, `SetHints` with a selector
that always answers 23 returns, and the object, which has declared properties and is
reached by the walker, still carries that hint.  And on a document with an array whose
items are the array itself `SetHints` returns for no amount of fuel. -/
theorem setHints_keeps_object_hint :
    (∃ st', SetHints hintedObjectSpec (constantWorld 23) 5 = some st' ∧
      hintedObjectSpec.walkerReaches 0 ∧
      (∃ s, hintedObjectSpec.heap[0]? = some s ∧ s.isObjectWithProperties) ∧
      hintOf st'.heap 0 = some (ExtValue.str "email")) ∧
    (∀ fuel : Nat, SetHints selfArraySpec (constantWorld 23) fuel = none) := by
  constructor
  · exact ⟨_, rfl, jsonResponse_reaches _ "/api/users" "GET" (inline 0) 0 rfl,
      ⟨_, rfl, rfl, by decide⟩, rfl⟩
  · intro fuel
    have hP : (HintSetterVisitor fuel).Preserves (fun st : Option HintState =>
        ∀ hs, st = some hs →
          (hs.heap[1]?).map Schema.eraseExtensions = some (arraySchema (inline 1))) := by
      have key : ∀ (f : HintState → Option HintState),
          (∀ hs hs', f hs = some hs' → hs' = hs ∨
            ∃ schema name, setHintsOnSchema fuel schema name hs = some hs') →
          ∀ st : Option HintState,
            (∀ hs, st = some hs →
              (hs.heap[1]?).map Schema.eraseExtensions = some (arraySchema (inline 1))) →
            ∀ hs', st.bind f = some hs' →
              (hs'.heap[1]?).map Schema.eraseExtensions = some (arraySchema (inline 1)) := by
        intro f hf st hst hs' h
        cases st with
        | none => cases h
        | some hs =>
          rcases hf hs hs' h with h1 | ⟨schema, name, h1⟩
          · rw [h1]; exact hst hs rfl
          · have := setHintsOnSchema_keeps_structure fuel schema name hs hs' h1 1
            exact this.trans (hst hs rfl)
      refine ⟨fun _ _ _ h => h, fun _ _ _ _ h => h, ?_, fun _ _ _ _ h => h,
        fun _ _ _ _ _ h => h, fun _ _ _ h => h, ?_⟩
      · intro path param st hst
        refine key _ (fun hs hs' h => ?_) st hst
        unfold setHints at h
        split at h
        · left; simpa using h.symm
        · split at h
          · left; simpa using h.symm
          · exact Or.inr ⟨_, _, h⟩
      · intro path ref st hst
        refine key _ (fun hs hs' h => ?_) st hst
        unfold hintVisitProperty at h
        split at h
        · left; simpa using h.symm
        · exact Or.inr ⟨_, _, h⟩
    have hQ : (HintSetterVisitor fuel).Preserves (fun st : Option HintState => st = none) :=
      ⟨fun _ _ _ h => h, fun _ _ _ _ h => h, fun _ _ _ h => by rw [h]; rfl,
        fun _ _ _ _ h => h, fun _ _ _ _ _ h => h, fun _ _ _ h => h,
        fun _ _ _ h => by rw [h]; rfl⟩
    cases hw : WalkSpec (some selfArraySpec) (some (HintSetterVisitor fuel)) fuel
        (some ⟨selfArraySpec.heap, constantWorld 23⟩) with
    | none =>
      unfold SetHints
      rw [hw]
      rfl
    | some x =>
      have hx : x = none := walkSpec_reaches selfArraySpec (HintSetterVisitor fuel) hP hQ 0
        (objectSchema [] [("children", some (inline 1))]) rfl "children" (inline 1)
        (List.mem_cons_self _ _)
        (fun path st hst => by
          cases st with
          | none => rfl
          | some hs =>
            show hintVisitProperty fuel path (inline 1) hs = none
            exact setHintsOnSchema_selfArray fuel path hs (hst hs rfl))
        (jsonResponse_reaches _ "/api/trees" "GET" (inline 0) 0 rfl) fuel _ _
        (fun hs h => by cases h; rfl) hw
      unfold SetHints
      rw [hw, hx]
      rfl

end Slsbench
